import Mathlib

/-! Smart-Pointers: shared ownership with weak observers and self-observation.

A shallow embedding of `src/shared-from-this/{sw_fwd.h, shared.h, weak.h}`, and
(in namespaces `Shared`, `Unique`, `Intrusive`) of the `SharedPtr` of
`src/shared/shared.h`, the `UniquePtr` of `src/unique/unique.h` and the
`IntrusivePtr` of `src/intrusive/intrusive.h`.

* Addresses (`T*`, `ControlBlockBase*`) are natural numbers, `0` is `nullptr`.  Control blocks and managed
  objects live in two tables of a `Heap`; the block at address `c` is entry
  `c - 1` of `Heap.blocks`, the object at address `p` is entry `p - 1` of
  `Heap.objects`.  Addresses are never reused.
* The counters are C++ `int`s, kept as integers.  `++` on a counter that is
  `INT_MAX` is a signed overflow, which is undefined behaviour: `IncrRef` and
  `IncrWeakRef` answer `none` there, so a state that a program reaches has
  every `ref_count` at most `INT_MAX`.  The conversion of a counter to
  `size_t` done by `UseCount` is modelled with an explicit reduction modulo
  `2 ^ 64`.
* Undefined behaviour (calling a member of a released control block, a null
  dereference, destroying an object twice) is the result `none`.
* Two ghost fields record what the code does with the storage: `freed` is set
  when `delete this` has completed, `destroyed` counts how many times the
  statement that destroys the managed object (`delete object` or
  `ptr->~T()`) was executed by the block.
-/

namespace SmartPointers

/-- Exception `BadWeakPtr` of `sw_fwd.h`. -/
inductive BadWeakPtr where
  | mk
  deriving DecidableEq, Repr

/-- Which derived class a control block is: `ControlBlockWithObject<T>` or
`ControlBlockWithPointer<T>`. -/
inductive Storage where
  | WithObject
  | WithPointer
  deriving DecidableEq, Repr

/-- Data of `struct ControlBlockBase` with the member of the derived class:
`object` is the `object` member of `ControlBlockWithPointer`, respectively the
address of `buffer` of `ControlBlockWithObject`, i.e. what `GetObjectPtr()`
returns.  `freed` and `destroyed` are ghost fields. -/
structure ControlBlockBase where
  ref_count : Int
  weak_ref_count : Int
  is_deleted : Bool
  storage : Storage
  object : Nat
  freed : Bool
  destroyed : Nat
  deriving DecidableEq, Repr

/-- Data members of `class WeakPtr<T>`. -/
structure WeakPtr where
  cb_ : Nat
  observed_pole_ : Nat
  is_this_weak_ : Bool
  deriving DecidableEq, Repr

/-- Data members of `class SharedPtr<T>`. -/
structure SharedPtr where
  cb_ : Nat
  observed_pole_ : Nat
  deriving DecidableEq, Repr

/-- A managed object of type `T`.  `weak_this_` is the private member of its
`EnableSharedFromThis<T>` base (an object without that base keeps the
default-constructed, empty value forever); `alive` is false once its
destructor has started. -/
structure Object where
  weak_this_ : WeakPtr
  alive : Bool
  deriving DecidableEq, Repr

/-- The free store: control blocks and objects. -/
structure Heap where
  blocks : List ControlBlockBase
  objects : List Object
  deriving DecidableEq, Repr

/-- Outcome of an operation that can throw: the heap it leaves and either the
value it returns or the exception. -/
inductive Outcome (α : Type) where
  | value (h : Heap) (a : α)
  | thrown (h : Heap) (e : BadWeakPtr)
  deriving DecidableEq, Repr

/-- The record at address `c`, released or not (`none` for `nullptr` and for
addresses never handed out). -/
def Heap.block? (h : Heap) (c : Nat) : Option ControlBlockBase :=
  if c = 0 then none else h.blocks[c - 1]?

/-- Access to `*c` by the program: the block must not have been released. -/
def Heap.deref (h : Heap) (c : Nat) : Option ControlBlockBase :=
  match h.block? c with
  | some b => if b.freed then none else some b
  | none => none

/-- Store `b` at address `c`. -/
def Heap.setBlock (h : Heap) (c : Nat) (b : ControlBlockBase) : Heap :=
  { h with blocks := h.blocks.set (c - 1) b }

/-- The object record at address `p`. -/
def Heap.object? (h : Heap) (p : Nat) : Option Object :=
  if p = 0 then none else h.objects[p - 1]?

/-- Store `o` at address `p`. -/
def Heap.setObject (h : Heap) (p : Nat) (o : Object) : Heap :=
  { h with objects := h.objects.set (p - 1) o }

/-- `ControlBlockBase::IsRefZero`. -/
def ControlBlockBase.IsRefZero (b : ControlBlockBase) : Bool :=
  b.ref_count == 0 && b.weak_ref_count == 0

/-- Largest value of `int`. -/
def INT_MAX : Int := 2147483647

/-- `ControlBlockBase::IncrRef`: `++ref_count`.  The counter is an `int`:
incrementing it at `INT_MAX` is a signed overflow, which is undefined. -/
def IncrRef (h : Heap) (c : Nat) : Option Heap :=
  match h.deref c with
  | some b =>
    if b.ref_count < INT_MAX then some (h.setBlock c { b with ref_count := b.ref_count + 1 })
    else none
  | none => none

/-- `ControlBlockBase::IncrWeakRef(flag)`: `if (!flag) ++weak_ref_count`.  The
counter is an `int`: incrementing it at `INT_MAX` is a signed overflow, which
is undefined. -/
def IncrWeakRef (h : Heap) (c : Nat) (flag : Bool) : Option Heap :=
  match h.deref c with
  | some b =>
    if flag = false then
      if b.weak_ref_count < INT_MAX then
        some (h.setBlock c { b with weak_ref_count := b.weak_ref_count + 1 })
      else none
    else some h
  | none => none

/-- `delete this` on a control block: the virtual destructor of the derived
class runs `SharedDestructor()` (given as `sd`), then the storage is
released. -/
def deleteThisWith (sd : Heap → Nat → Option Heap) (h : Heap) (c : Nat) : Option Heap :=
  match sd h c with
  | some h1 =>
    match h1.deref c with
    | some b => some (h1.setBlock c { b with freed := true })
    | none => none
  | none => none

/-- `ControlBlockBase::DecrWeakRef(flag)`, with the virtual `SharedDestructor`
given as `sd`. -/
def DecrWeakRefWith (sd : Heap → Nat → Option Heap) (h : Heap) (c : Nat) (flag : Bool) :
    Option Heap :=
  match h.deref c with
  | some b =>
    if flag = false then
      let h1 := h.setBlock c { b with weak_ref_count := b.weak_ref_count - 1 }
      if b.ref_count = 0 ∧ b.weak_ref_count - 1 = 0 then deleteThisWith sd h1 c
      else if b.ref_count = 0 then sd h1 c
      else some h1
    else some h
  | none => none

/-- `WeakPtr::~WeakPtr`, with the virtual `SharedDestructor` given as `sd`. -/
def WeakPtr.dtorWith (sd : Heap → Nat → Option Heap) (h : Heap) (w : WeakPtr) : Option Heap :=
  if w.cb_ ≠ 0 then DecrWeakRefWith sd h w.cb_ w.is_this_weak_ else some h

/-- The destructor `~T()` of the object at `p`: its lifetime ends and the
member `weak_this_` of the `EnableSharedFromThis` base is destroyed. -/
def destroyObjectWith (sd : Heap → Nat → Option Heap) (h : Heap) (p : Nat) : Option Heap :=
  match h.object? p with
  | some o =>
    if o.alive then WeakPtr.dtorWith sd (h.setObject p { o with alive := false }) o.weak_this_
    else none
  | none => none

/-- `SharedDestructor()` of both derived classes:
`if (ref_count == 0 && !is_deleted) { <destroy the object>; is_deleted = true; }`
where the destruction is `delete object` for `ControlBlockWithPointer` (a
no-op on `nullptr`) and `ptr->~T()` for `ControlBlockWithObject`.
The object's destructor can re-enter the control blocks through its
`weak_this_` member; the first argument bounds that nesting, and every
nested level ends the lifetime of one more object. -/
def SharedDestructorF : Nat → Heap → Nat → Option Heap
  | 0, _, _ => none
  | n + 1, h, c =>
    match h.deref c with
    | some b =>
      if b.ref_count = 0 ∧ b.is_deleted = false then
        let r : Option Heap :=
          match b.storage with
          | Storage.WithPointer =>
            if b.object = 0 then some h else destroyObjectWith (SharedDestructorF n) h b.object
          | Storage.WithObject => destroyObjectWith (SharedDestructorF n) h b.object
        match r with
        | some h1 =>
          match h1.deref c with
          | some b1 =>
            some (h1.setBlock c { b1 with is_deleted := true, destroyed := b1.destroyed + 1 })
          | none => none
        | none => none
      else some h
    | none => none

/-- `SharedDestructor()` as called by the program: the nesting bound is the
number of objects plus one, which is never reached. -/
def SharedDestructor (h : Heap) (c : Nat) : Option Heap :=
  SharedDestructorF (h.objects.length + 1) h c

/-- `delete this`. -/
def deleteThis (h : Heap) (c : Nat) : Option Heap :=
  deleteThisWith SharedDestructor h c

/-- `ControlBlockBase::DecrRef`. -/
def DecrRef (h : Heap) (c : Nat) : Option Heap :=
  match h.deref c with
  | some b =>
    let h1 := h.setBlock c { b with ref_count := b.ref_count - 1 }
    if b.ref_count - 1 = 0 ∧ b.weak_ref_count = 0 then deleteThis h1 c
    else if b.ref_count - 1 = 0 then SharedDestructor h1 c
    else some h1
  | none => none

/-- `ControlBlockBase::DecrWeakRef(flag)`. -/
def DecrWeakRef (h : Heap) (c : Nat) (flag : Bool) : Option Heap :=
  DecrWeakRefWith SharedDestructor h c flag

/-- `new ControlBlockWithPointer<T>(obj)`: a block with `ref_count = 1`,
`weak_ref_count = 0`, `is_deleted = false`; returns the heap and the address. -/
def newControlBlockWithPointer (h : Heap) (obj : Nat) : Heap × Nat :=
  ({ h with blocks := h.blocks ++ [⟨1, 0, false, Storage.WithPointer, obj, false, 0⟩] },
   h.blocks.length + 1)

/-- `new ControlBlockWithObject<T>(args...)`: the block and, inside its
`buffer`, a freshly constructed `T`; returns the heap and the address of the
block.  The address of the embedded object is what `GetObjectPtr()` reports. -/
def newControlBlockWithObject (h : Heap) : Heap × Nat :=
  ({ blocks := h.blocks ++
       [⟨1, 0, false, Storage.WithObject, h.objects.length + 1, false, 0⟩],
     objects := h.objects ++ [⟨⟨0, 0, false⟩, true⟩] },
   h.blocks.length + 1)

/-- `GetObjectPtr()`. -/
def GetObjectPtr (h : Heap) (c : Nat) : Option Nat :=
  match h.deref c with
  | some b => some b.object
  | none => none

/-- The caller's `new T`: a fresh object, not yet under shared ownership. -/
def newObject (h : Heap) : Heap × Nat :=
  ({ h with objects := h.objects ++ [⟨⟨0, 0, false⟩, true⟩] }, h.objects.length + 1)

/-- Conversion of an `int` to `size_t` (64 bits). -/
def toSizeT (x : Int) : Nat := (x % 2 ^ 64).toNat

/-! ### `WeakPtr<T>` (weak.h) -/

/-- `WeakPtr()`. -/
def WeakPtr.ctor_default : WeakPtr := ⟨0, 0, false⟩

/-- `WeakPtr(const WeakPtr& other)`; returns the heap and the new handle. -/
def WeakPtr.ctor_copy (h : Heap) (other : WeakPtr) : Option (Heap × WeakPtr) :=
  let this : WeakPtr := ⟨other.cb_, other.observed_pole_, false⟩
  if this.cb_ ≠ 0 then
    match IncrWeakRef h this.cb_ this.is_this_weak_ with
    | some h1 => some (h1, this)
    | none => none
  else some (h, this)

/-- `WeakPtr(WeakPtr&& other)`; returns the new handle and `other` afterwards. -/
def WeakPtr.ctor_move (other : WeakPtr) : WeakPtr × WeakPtr :=
  (⟨other.cb_, other.observed_pole_, other.is_this_weak_⟩, ⟨0, 0, other.is_this_weak_⟩)

/-- `WeakPtr(const SharedPtr<T>& other, bool flag = false)`. -/
def WeakPtr.ctor_shared (h : Heap) (other : SharedPtr) (flag : Bool) : Option (Heap × WeakPtr) :=
  let this : WeakPtr := ⟨other.cb_, other.observed_pole_, flag⟩
  if other.cb_ ≠ 0 then
    match IncrWeakRef h other.cb_ this.is_this_weak_ with
    | some h1 => some (h1, this)
    | none => none
  else some (h, this)

/-- `WeakPtr::operator=(const WeakPtr& other)`; returns the heap and `*this`
afterwards.  The operator has no identity test: for `w = w` it is called with
`this = other`. -/
def WeakPtr.assign_copy (h : Heap) (this other : WeakPtr) : Option (Heap × WeakPtr) :=
  match (if this.cb_ ≠ 0 then DecrWeakRef h this.cb_ this.is_this_weak_ else some h) with
  | some h1 =>
    let this1 : WeakPtr := ⟨other.cb_, other.observed_pole_, other.is_this_weak_⟩
    if this1.cb_ ≠ 0 then
      match IncrWeakRef h1 this1.cb_ this1.is_this_weak_ with
      | some h2 => some (h2, this1)
      | none => none
    else some (h1, this1)
  | none => none

/-- `WeakPtr::operator=(WeakPtr&& other)`; returns the heap, `*this` and
`other` afterwards.  The operator has no identity test: for `w = move(w)` it
is called with `this = other` and the object ends as the last component, which
is written last. -/
def WeakPtr.assign_move (h : Heap) (this other : WeakPtr) : Option (Heap × WeakPtr × WeakPtr) :=
  match (if this.cb_ ≠ 0 then DecrWeakRef h this.cb_ this.is_this_weak_ else some h) with
  | some h1 =>
    some (h1, ⟨other.cb_, other.observed_pole_, other.is_this_weak_⟩, ⟨0, 0, other.is_this_weak_⟩)
  | none => none

/-- `WeakPtr::operator==(std::nullptr_t)`. -/
def WeakPtr.eq_nullptr (this : WeakPtr) : Bool := this.cb_ == 0

/-- `WeakPtr::~WeakPtr`. -/
def WeakPtr.dtor (h : Heap) (this : WeakPtr) : Option Heap :=
  WeakPtr.dtorWith SharedDestructor h this

/-- `WeakPtr::Reset`. -/
def WeakPtr.Reset (h : Heap) (this : WeakPtr) : Option (Heap × WeakPtr) :=
  if this.cb_ ≠ 0 then
    match DecrWeakRef h this.cb_ this.is_this_weak_ with
    | some h1 => some (h1, ⟨0, 0, this.is_this_weak_⟩)
    | none => none
  else some (h, this)

/-- `WeakPtr::Swap`: exchanges `cb_` and `observed_pole_`, not `is_this_weak_`. -/
def WeakPtr.Swap (this other : WeakPtr) : WeakPtr × WeakPtr :=
  (⟨other.cb_, other.observed_pole_, this.is_this_weak_⟩,
   ⟨this.cb_, this.observed_pole_, other.is_this_weak_⟩)

/-- `WeakPtr::UseCount`. -/
def WeakPtr.UseCount (h : Heap) (this : WeakPtr) : Option Nat :=
  if this.cb_ ≠ 0 then
    match h.deref this.cb_ with
    | some b => some (toSizeT b.ref_count)
    | none => none
  else some 0

/-- `WeakPtr::Expired`:
`if (cb_ && cb_->ref_count > 0) return cb_->is_deleted; return true;`. -/
def WeakPtr.Expired (h : Heap) (this : WeakPtr) : Option Bool :=
  if this.cb_ ≠ 0 then
    match h.deref this.cb_ with
    | some b => if b.ref_count > 0 then some b.is_deleted else some true
    | none => none
  else some true

/-! ### `SharedPtr<T>` (shared.h) -/

/-- `SharedPtr()` and `SharedPtr(std::nullptr_t)`. -/
def SharedPtr.ctor_default : SharedPtr := ⟨0, 0⟩

/-- `SharedPtr(const SharedPtr& other)`; returns the heap and the new handle. -/
def SharedPtr.ctor_copy (h : Heap) (other : SharedPtr) : Option (Heap × SharedPtr) :=
  let this : SharedPtr := ⟨other.cb_, other.observed_pole_⟩
  if this.cb_ ≠ 0 then
    match IncrRef h this.cb_ with
    | some h1 => some (h1, this)
    | none => none
  else some (h, this)

/-- `SharedPtr(SharedPtr&& other)`; returns the new handle and `other` afterwards. -/
def SharedPtr.ctor_move (other : SharedPtr) : SharedPtr × SharedPtr :=
  (⟨other.cb_, other.observed_pole_⟩, ⟨0, 0⟩)

/-- Aliasing constructor `SharedPtr(const SharedPtr<Y>& other, T* ptr)`:
`other.cb_->IncrRef()` without a null test. -/
def SharedPtr.ctor_alias (h : Heap) (other : SharedPtr) (ptr : Nat) : Option (Heap × SharedPtr) :=
  match IncrRef h other.cb_ with
  | some h1 => some (h1, ⟨other.cb_, ptr⟩)
  | none => none

/-- Promotion `SharedPtr(const WeakPtr<T>& other)`: throws `BadWeakPtr` when
`other.Expired()`, otherwise `cb_->IncrRef()`. -/
def SharedPtr.ctor_weak (h : Heap) (other : WeakPtr) : Option (Outcome SharedPtr) :=
  let this : SharedPtr := ⟨other.cb_, other.observed_pole_⟩
  match other.Expired h with
  | some true => some (Outcome.thrown h BadWeakPtr.mk)
  | some false =>
    match IncrRef h this.cb_ with
    | some h1 => some (Outcome.value h1 this)
    | none => none
  | none => none

/-- `WeakPtr::Lock`. -/
def WeakPtr.Lock (h : Heap) (this : WeakPtr) : Option (Outcome SharedPtr) :=
  match this.Expired h with
  | some false => SharedPtr.ctor_weak h this
  | some true => some (Outcome.value h SharedPtr.ctor_default)
  | none => none

/-- `SharedPtr::operator=(const SharedPtr& other)`; `aliased` is the outcome of
the test `this == &other`.  Returns the heap and `*this` afterwards. -/
def SharedPtr.assign_copy (h : Heap) (this other : SharedPtr) (aliased : Bool) :
    Option (Heap × SharedPtr) :=
  if aliased = false then
    match (if this.cb_ ≠ 0 then DecrRef h this.cb_ else some h) with
    | some h1 =>
      let this1 : SharedPtr := ⟨other.cb_, other.observed_pole_⟩
      if this1.cb_ ≠ 0 then
        match IncrRef h1 this1.cb_ with
        | some h2 => some (h2, this1)
        | none => none
      else some (h1, this1)
    | none => none
  else some (h, this)

/-- `SharedPtr::operator=(SharedPtr&& other)`; `aliased` is the outcome of the
test `this == &other`.  Returns the heap, `*this` and `other` afterwards. -/
def SharedPtr.assign_move (h : Heap) (this other : SharedPtr) (aliased : Bool) :
    Option (Heap × SharedPtr × SharedPtr) :=
  if aliased = false then
    match (if this.cb_ ≠ 0 then DecrRef h this.cb_ else some h) with
    | some h1 => some (h1, ⟨other.cb_, other.observed_pole_⟩, ⟨0, 0⟩)
    | none => none
  else some (h, this, other)

/-- `SharedPtr::~SharedPtr`. -/
def SharedPtr.dtor (h : Heap) (this : SharedPtr) : Option Heap :=
  if this.cb_ ≠ 0 then DecrRef h this.cb_ else some h

/-- `SharedPtr::Reset()`. -/
def SharedPtr.Reset (h : Heap) (this : SharedPtr) : Option (Heap × SharedPtr) :=
  match (if this.cb_ ≠ 0 then DecrRef h this.cb_ else some h) with
  | some h1 => some (h1, ⟨0, 0⟩)
  | none => none

/-- `SharedPtr::Reset(T* ptr)` (and the template `Reset(Y* ptr)`). -/
def SharedPtr.Reset_ptr (h : Heap) (this : SharedPtr) (ptr : Nat) : Option (Heap × SharedPtr) :=
  match (if this.cb_ ≠ 0 then DecrRef h this.cb_ else some h) with
  | some h1 =>
    let r := newControlBlockWithPointer h1 ptr
    some (r.1, ⟨r.2, ptr⟩)
  | none => none

/-- `SharedPtr::Swap`. -/
def SharedPtr.Swap (this other : SharedPtr) : SharedPtr × SharedPtr :=
  (⟨other.cb_, other.observed_pole_⟩, ⟨this.cb_, this.observed_pole_⟩)

/-- `SharedPtr::Get`. -/
def SharedPtr.Get (this : SharedPtr) : Nat := this.observed_pole_

/-- `SharedPtr::UseCount`. -/
def SharedPtr.UseCount (h : Heap) (this : SharedPtr) : Option Nat :=
  if this.cb_ ≠ 0 then
    match h.deref this.cb_ with
    | some b => some (toSizeT b.ref_count)
    | none => none
  else some 0

/-- `SharedPtr::operator bool`. -/
def SharedPtr.toBool (this : SharedPtr) : Bool := this.cb_ != 0

/-- `operator==(const SharedPtr<T>&, const SharedPtr<U>&)`. -/
def SharedPtr.eq (left right : SharedPtr) : Bool := left.Get == right.Get

/-! ### `EnableSharedFromThis<T>` (shared.h) -/

/-- `EnableSharedFromThis::SetWeakPtr(shared_ptr)` called on the object at `p`:
`weak_this_ = WeakPtr<T>(shared_ptr, true);` — a temporary is constructed,
move-assigned to the member and destroyed. -/
def SetWeakPtr (h : Heap) (p : Nat) (shared_ptr : SharedPtr) : Option Heap :=
  match WeakPtr.ctor_shared h shared_ptr true with
  | some (h1, temp) =>
    match h1.object? p with
    | some o =>
      if o.alive then
        match WeakPtr.assign_move h1 o.weak_this_ temp with
        | some (h2, this1, temp1) =>
          match h2.object? p with
          | some o2 =>
            if o2.alive then WeakPtr.dtor (h2.setObject p { o2 with weak_this_ := this1 }) temp1
            else none
          | none => none
        | none => none
      else none
    | none => none
  | none => none

/-- `EnableSharedFromThis::SharedFromThis` on the object at `p`:
`return weak_this_.Lock();`. -/
def SharedFromThis (h : Heap) (p : Nat) : Option (Outcome SharedPtr) :=
  match h.object? p with
  | some o => if o.alive then WeakPtr.Lock h o.weak_this_ else none
  | none => none

/-- `EnableSharedFromThis::WeakFromThis` on the object at `p`:
`return weak_this_;`, a copy construction. -/
def WeakFromThis (h : Heap) (p : Nat) : Option (Heap × WeakPtr) :=
  match h.object? p with
  | some o => if o.alive then WeakPtr.ctor_copy h o.weak_this_ else none
  | none => none

/-- Adopting constructor `explicit SharedPtr(T* ptr)` (and the template
`SharedPtr(Y* ptr)`); `esft` is the compile-time condition
`std::is_convertible_v<T*, ESFTBase*>`. -/
def SharedPtr.ctor_ptr (esft : Bool) (h : Heap) (ptr : Nat) : Option (Heap × SharedPtr) :=
  let r := newControlBlockWithPointer h ptr
  let this : SharedPtr := ⟨r.2, ptr⟩
  if esft then
    match SetWeakPtr r.1 ptr this with
    | some h2 => some (h2, this)
    | none => none
  else some (r.1, this)

/-- `MakeShared<T>(args...)`; `esft` is the compile-time condition
`std::is_convertible_v<T*, ESFTBase*>`. -/
def MakeShared (esft : Bool) (h : Heap) : Option (Heap × SharedPtr) :=
  let r := newControlBlockWithObject h
  match GetObjectPtr r.1 r.2 with
  | some step_obj =>
    let ptr : SharedPtr := ⟨r.2, step_obj⟩
    if esft then
      match SetWeakPtr r.1 ptr.observed_pole_ ptr with
      | some h2 => some (h2, ptr)
      | none => none
    else some (r.1, ptr)
  | none => none

/-! ### Programs

The handles of a program are variables, numbered in order of construction; a
variable whose destructor has run is `none`.  An `Op` is one statement of the
public interface applied to variables. -/

/-- Heap and variables of a program. -/
structure State where
  heap : Heap
  shared : List (Option SharedPtr)
  weak : List (Option WeakPtr)
  deriving DecidableEq, Repr

/-- Before the first statement. -/
def State.init : State := ⟨⟨[], []⟩, [], []⟩

/-- The live `SharedPtr` variable number `i`. -/
def State.shared? (s : State) (i : Nat) : Option SharedPtr :=
  match s.shared[i]? with
  | some (some x) => some x
  | _ => none

/-- The live `WeakPtr` variable number `k`. -/
def State.weak? (s : State) (k : Nat) : Option WeakPtr :=
  match s.weak[k]? with
  | some (some x) => some x
  | _ => none

/-- Statements.  `i`, `j` number `SharedPtr` variables, `k`, `l` number `WeakPtr`
variables, `ptr` is a raw pointer, `esft` is the compile-time condition
`std::is_convertible_v<T*, ESFTBase*>` of the instantiated `T`. -/
inductive Op where
  | new_T
  | Shared_default
  | Shared_ptr (esft : Bool) (ptr : Nat)
  | Make_Shared (esft : Bool)
  | Shared_copy (i : Nat)
  | Shared_move (i : Nat)
  | Shared_alias (i : Nat) (ptr : Nat)
  | Shared_weak (k : Nat)
  | Shared_assign_copy (i j : Nat)
  | Shared_assign_move (i j : Nat)
  | Shared_dtor (i : Nat)
  | Shared_Reset (i : Nat)
  | Shared_Reset_ptr (i : Nat) (ptr : Nat)
  | Shared_Swap (i j : Nat)
  | Weak_default
  | Weak_copy (k : Nat)
  | Weak_move (k : Nat)
  | Weak_shared (i : Nat) (flag : Bool)
  | Weak_assign_copy (k l : Nat)
  | Weak_assign_move (k l : Nat)
  | Weak_dtor (k : Nat)
  | Weak_Reset (k : Nat)
  | Weak_Swap (k l : Nat)
  | Weak_Lock (k : Nat)
  | Shared_From_This (ptr : Nat)
  | Weak_From_This (ptr : Nat)
  deriving DecidableEq, Repr

/-- A new `SharedPtr` variable holding `x`. -/
def State.pushShared (s : State) (h : Heap) (x : SharedPtr) : State :=
  { s with heap := h, shared := s.shared ++ [some x] }

/-- A new `WeakPtr` variable holding `x`. -/
def State.pushWeak (s : State) (h : Heap) (x : WeakPtr) : State :=
  { s with heap := h, weak := s.weak ++ [some x] }

/-- The effect of a statement that yields a `SharedPtr` or throws: the value
initialises a new variable, an exception leaves the variables as they are. -/
def State.pushOutcome (s : State) : Outcome SharedPtr → State
  | Outcome.value h x => s.pushShared h x
  | Outcome.thrown h _ => { s with heap := h }

/-- One statement.  `none` is undefined behaviour, which includes the use of
a variable that does not exist or was destroyed. -/
def step (s : State) : Op → Option State
  | Op.new_T => some { s with heap := (newObject s.heap).1 }
  | Op.Shared_default => some (s.pushShared s.heap SharedPtr.ctor_default)
  | Op.Shared_ptr esft ptr =>
    (SharedPtr.ctor_ptr esft s.heap ptr).bind fun r => some (s.pushShared r.1 r.2)
  | Op.Make_Shared esft =>
    (MakeShared esft s.heap).bind fun r => some (s.pushShared r.1 r.2)
  | Op.Shared_copy i =>
    (s.shared? i).bind fun other =>
    (SharedPtr.ctor_copy s.heap other).bind fun r => some (s.pushShared r.1 r.2)
  | Op.Shared_move i =>
    (s.shared? i).bind fun other =>
    let r := SharedPtr.ctor_move other
    some { s with shared := s.shared.set i (some r.2) ++ [some r.1] }
  | Op.Shared_alias i ptr =>
    (s.shared? i).bind fun other =>
    (SharedPtr.ctor_alias s.heap other ptr).bind fun r => some (s.pushShared r.1 r.2)
  | Op.Shared_weak k =>
    (s.weak? k).bind fun other =>
    (SharedPtr.ctor_weak s.heap other).bind fun r => some (s.pushOutcome r)
  | Op.Shared_assign_copy i j =>
    (s.shared? i).bind fun this =>
    (s.shared? j).bind fun other =>
    (SharedPtr.assign_copy s.heap this other (i == j)).bind fun r =>
    some { s with heap := r.1, shared := s.shared.set i (some r.2) }
  | Op.Shared_assign_move i j =>
    (s.shared? i).bind fun this =>
    (s.shared? j).bind fun other =>
    (SharedPtr.assign_move s.heap this other (i == j)).bind fun r =>
    some { s with heap := r.1, shared := (s.shared.set i (some r.2.1)).set j (some r.2.2) }
  | Op.Shared_dtor i =>
    (s.shared? i).bind fun this =>
    (SharedPtr.dtor s.heap this).bind fun h =>
    some { s with heap := h, shared := s.shared.set i none }
  | Op.Shared_Reset i =>
    (s.shared? i).bind fun this =>
    (SharedPtr.Reset s.heap this).bind fun r =>
    some { s with heap := r.1, shared := s.shared.set i (some r.2) }
  | Op.Shared_Reset_ptr i ptr =>
    (s.shared? i).bind fun this =>
    (SharedPtr.Reset_ptr s.heap this ptr).bind fun r =>
    some { s with heap := r.1, shared := s.shared.set i (some r.2) }
  | Op.Shared_Swap i j =>
    (s.shared? i).bind fun this =>
    (s.shared? j).bind fun other =>
    let r := SharedPtr.Swap this other
    some { s with shared := (s.shared.set i (some r.1)).set j (some r.2) }
  | Op.Weak_default => some (s.pushWeak s.heap WeakPtr.ctor_default)
  | Op.Weak_copy k =>
    (s.weak? k).bind fun other =>
    (WeakPtr.ctor_copy s.heap other).bind fun r => some (s.pushWeak r.1 r.2)
  | Op.Weak_move k =>
    (s.weak? k).bind fun other =>
    let r := WeakPtr.ctor_move other
    some { s with weak := s.weak.set k (some r.2) ++ [some r.1] }
  | Op.Weak_shared i flag =>
    (s.shared? i).bind fun other =>
    (WeakPtr.ctor_shared s.heap other flag).bind fun r => some (s.pushWeak r.1 r.2)
  | Op.Weak_assign_copy k l =>
    (s.weak? k).bind fun this =>
    (s.weak? l).bind fun other =>
    (WeakPtr.assign_copy s.heap this other).bind fun r =>
    some { s with heap := r.1, weak := s.weak.set k (some r.2) }
  | Op.Weak_assign_move k l =>
    (s.weak? k).bind fun this =>
    (s.weak? l).bind fun other =>
    (WeakPtr.assign_move s.heap this other).bind fun r =>
    some { s with heap := r.1, weak := (s.weak.set k (some r.2.1)).set l (some r.2.2) }
  | Op.Weak_dtor k =>
    (s.weak? k).bind fun this =>
    (WeakPtr.dtor s.heap this).bind fun h =>
    some { s with heap := h, weak := s.weak.set k none }
  | Op.Weak_Reset k =>
    (s.weak? k).bind fun this =>
    (WeakPtr.Reset s.heap this).bind fun r =>
    some { s with heap := r.1, weak := s.weak.set k (some r.2) }
  | Op.Weak_Swap k l =>
    (s.weak? k).bind fun this =>
    (s.weak? l).bind fun other =>
    let r := WeakPtr.Swap this other
    some { s with weak := (s.weak.set k (some r.1)).set l (some r.2) }
  | Op.Weak_Lock k =>
    (s.weak? k).bind fun this =>
    (WeakPtr.Lock s.heap this).bind fun r => some (s.pushOutcome r)
  | Op.Shared_From_This ptr =>
    (SharedFromThis s.heap ptr).bind fun r => some (s.pushOutcome r)
  | Op.Weak_From_This ptr =>
    (WeakFromThis s.heap ptr).bind fun r => some (s.pushWeak r.1 r.2)

/-- A sequence of statements. -/
def run : List Op → State → Option State
  | [], s => some s
  | op :: ops, s => (step s op).bind (run ops)

/-- Whether a variable is a live `SharedPtr` whose `cb_` is `c`. -/
def holds (c : Nat) : Option SharedPtr → Bool
  | some a => decide (a.cb_ = c)
  | none => false

/-- Number of live `SharedPtr` variables of the list whose `cb_` is `c`. -/
def owners (l : List (Option SharedPtr)) (c : Nat) : Nat := l.countP (holds c)

/-- Number of live `SharedPtr` variables of the program whose `cb_` is `c`. -/
def sharedCount (s : State) (c : Nat) : Nat := owners s.shared c

/-! ### Predicates on states -/

/-- Every `weak_this_` member is empty or carries the tag `is_this_weak_`
(the member is private and written only by `SetWeakPtr`). -/
def Heap.Tagged (h : Heap) : Prop :=
  ∀ o ∈ h.objects, o.weak_this_.cb_ = 0 ∨ o.weak_this_.is_this_weak_ = true

/-- The objects of `g` are those of `h`, with the same `weak_this_` members;
only `alive` may differ. -/
def ObjsPres (h g : Heap) : Prop :=
  g.objects.length = h.objects.length ∧
  ∀ (i : Nat) (o : Object), g.objects[i]? = some o →
    ∃ o0 : Object, h.objects[i]? = some o0 ∧ o.weak_this_ = o0.weak_this_

/-- A control block is consistent with `n` live `SharedPtr`s referring to it:
`ref_count` is `n`, the storage is released only if `n = 0`, the object
was destroyed (flag set, destruction executed once) exactly if `n = 0`, and
the counter is in the range of `int`. -/
def Good (n : Nat) (b : ControlBlockBase) : Prop :=
  b.ref_count = n ∧ (b.freed = true → n = 0) ∧ (b.is_deleted = true ↔ n = 0) ∧
  b.destroyed = (if n = 0 then 1 else 0) ∧ b.ref_count ≤ INT_MAX

/-- The heap is consistent with `n c` live `SharedPtr`s on each block `c`. -/
def HeapGood (h : Heap) (n : Nat → Nat) : Prop :=
  (∀ c b, h.block? c = some b → Good (n c) b) ∧
  (∀ c, c ≠ 0 → h.block? c = none → n c = 0) ∧
  h.Tagged

/-- Consistency of a program state: every block agrees with the number of
live `SharedPtr` variables referring to it. -/
def Inv (s : State) : Prop := HeapGood s.heap (sharedCount s)

/-- Relation between `cb_` and `observed_pole_` of a handle: a handle without
control block exposes `nullptr`; with `strict` also the converse, a handle
that exposes `nullptr` has no control block. -/
def Shaped (strict : Bool) (cb obs : Nat) : Prop :=
  (cb = 0 → obs = 0) ∧ (strict = true → obs = 0 → cb = 0)

/-- All handles of the program, the `weak_this_` members included, are
`Shaped`. -/
def Shape (strict : Bool) (s : State) : Prop :=
  (∀ x, some x ∈ s.shared → Shaped strict x.cb_ x.observed_pole_) ∧
  (∀ w, some w ∈ s.weak → Shaped strict w.cb_ w.observed_pole_) ∧
  (∀ o ∈ s.heap.objects, Shaped strict o.weak_this_.cb_ o.weak_this_.observed_pole_)

/-- The raw pointer that the statement adopts or exposes, if any, is not
`nullptr`. -/
def Op.nonNull : Op → Bool
  | Op.Shared_ptr _ ptr => ptr != 0
  | Op.Shared_alias _ ptr => ptr != 0
  | Op.Shared_Reset_ptr _ ptr => ptr != 0
  | _ => true

/-- Whether a variable is a live, counted `WeakPtr` (tag `is_this_weak_`
unset) whose `cb_` is `c`. -/
def watches (c : Nat) : Option WeakPtr → Bool
  | some w => decide (w.cb_ = c) && !w.is_this_weak_
  | none => false

/-- Number of live counted `WeakPtr` variables of the list whose `cb_` is `c`. -/
def watchers (l : List (Option WeakPtr)) (c : Nat) : Nat := l.countP (watches c)

/-- Number of live counted `WeakPtr` variables of the program whose `cb_` is `c`. -/
def weakCount (s : State) (c : Nat) : Nat := watchers s.weak c

/-- A control block is consistent with `n` live `SharedPtr`s and `m` live
counted `WeakPtr`s referring to it: `weak_ref_count` is `m` and the storage is
released exactly if both numbers are `0`. -/
def WGood (n m : Nat) (b : ControlBlockBase) : Prop :=
  b.weak_ref_count = m ∧ (b.freed = true ↔ n = 0 ∧ m = 0)

/-- The weak counters of the heap are consistent with `n c` owners and `m c`
counted weak handles of each block `c`. -/
def WeakGood (h : Heap) (n m : Nat → Nat) : Prop :=
  (∀ c b, h.block? c = some b → WGood (n c) (m c) b) ∧
  (∀ c, c ≠ 0 → h.block? c = none → m c = 0)

/-- Weak-count consistency of a program state. -/
def InvW (s : State) : Prop := WeakGood s.heap (sharedCount s) (weakCount s)

/-- The statement does not construct a `WeakPtr` with the tag set (the second
argument of `WeakPtr(const SharedPtr&, bool)` is left at its default). -/
def Op.counted : Op → Bool
  | Op.Weak_shared _ flag => !flag
  | _ => true

/-- No `WeakPtr` variable carries the tag. -/
def Untagged (s : State) : Prop := ∀ w, some w ∈ s.weak → w.is_this_weak_ = false

/-- A `Swap` of two `WeakPtr`s is between handles with the same tag. -/
def swapOk (s : State) : Op → Prop
  | Op.Weak_Swap k l =>
    ∀ a b, s.weak? k = some a → s.weak? l = some b → a.is_this_weak_ = b.is_this_weak_
  | _ => True

/-- The managed pointer of block `b` can be handed to `delete` (or, for a
`ControlBlockWithObject`, to the destructor call): it is `nullptr` held by a
`ControlBlockWithPointer`, or it is an object that is alive and whose
`weak_this_` member is empty or on an allocated block. -/
def Destroyable (h : Heap) (b : ControlBlockBase) : Prop :=
  (b.storage = Storage.WithPointer ∧ b.object = 0) ∨
  ∃ o, h.object? b.object = some o ∧ o.alive = true ∧
    (o.weak_this_.cb_ = 0 ∨ ∃ b1, h.deref o.weak_this_.cb_ = some b1)

/-- The statement adopts no raw pointer: every control block of the program
comes from `MakeShared`. -/
def Op.makeOnly : Op → Bool
  | Op.Shared_ptr _ _ => false
  | Op.Shared_Reset_ptr _ _ => false
  | _ => true

/-- The blocks of `g` are those of `h` with the same managed pointers, and a
set `is_deleted` stays set. -/
def BlockFrame (h g : Heap) : Prop :=
  g.blocks.length = h.blocks.length ∧
  ∀ c b, h.block? c = some b →
    ∃ b1, g.block? c = some b1 ∧ b1.object = b.object ∧
      (b.is_deleted = true → b1.is_deleted = true)

/-- An object whose `alive` differs between `h` and `g` is the managed object
of a block that is `is_deleted` in `g`. -/
def AliveFrame (h g : Heap) : Prop :=
  ∀ p o1, g.object? p = some o1 → ∃ o, h.object? p = some o ∧
    (o1.alive = o.alive ∨ ∃ c b1, g.block? c = some b1 ∧ b1.object = p ∧ b1.is_deleted = true)

/-- What the counter operations may change on a heap whose `weak_this_`
members are empty or tagged. -/
def Frame (h g : Heap) : Prop :=
  h.Tagged → ObjsPres h g ∧ BlockFrame h g ∧ AliveFrame h g

/-- Every control block manages an object of its own: while the block is not
`is_deleted` the object is alive and its `weak_this_` is empty or on this
block, and no two blocks manage the same object. -/
def Owned (h : Heap) : Prop :=
  (∀ c b, h.block? c = some b → b.is_deleted = false →
    ∃ o, h.object? b.object = some o ∧ o.alive = true ∧
      (o.weak_this_.cb_ = 0 ∨ o.weak_this_.cb_ = c)) ∧
  (∀ c c1 b b1, h.block? c = some b → h.block? c1 = some b1 → b.object = b1.object → c = c1) ∧
  (∀ c b, h.block? c = some b → b.object ≠ 0 ∧ b.object ≤ h.objects.length)

/-- The record of a block with at least one owner after `DecrRef`: the count is
one lower; when it reaches zero the object is destroyed (once) and the storage
is released if `weak_ref_count` is zero. -/
def releasedBlock (b : ControlBlockBase) : ControlBlockBase :=
  if b.ref_count = 1 then
    { b with ref_count := 0, is_deleted := true, destroyed := b.destroyed + 1,
             freed := decide (b.weak_ref_count = 0) }
  else { b with ref_count := b.ref_count - 1 }

/-- Heap `g` is heap `h` after the release of one strong reference of block
`c` (nothing is released when `c` is `nullptr`): block `c` is `releasedBlock`,
every other block is as before, no block is added. -/
def ReleasedOne (h g : Heap) (c : Nat) : Prop :=
  g.blocks.length = h.blocks.length ∧
  ∀ x b, h.block? x = some b → g.block? x = some (if x = c then releasedBlock b else b)

/-! ### `SharedPtr<T>` without weak counting (src/shared/shared.h)

The same conventions: addresses are natural numbers, `0` is `nullptr`, block
`c` is entry `c - 1` of `blocks`, the object at `p` is entry `p - 1` of
`alive`, undefined behaviour is `none`, `freed` is a ghost field set by
`delete cb_`. -/

namespace Shared

/-- Data of `struct ControlBlockBase` of src/shared/shared.h with the member of
the derived class: `object` is the `object` pointer of
`ControlBlockWithPointer`, respectively the address of the member `object` of
`ControlBlockWithObject`. -/
structure ControlBlockBase where
  ref_count : Int
  storage : Storage
  object : Nat
  freed : Bool
  deriving DecidableEq, Repr

/-- Data members of `class SharedPtr<T>`. -/
structure SharedPtr where
  cb_ : Nat
  observed_pole_ : Nat
  deriving DecidableEq, Repr

/-- The free store: control blocks, and for every object whether its lifetime
has not ended. -/
structure Heap where
  blocks : List ControlBlockBase
  alive : List Bool
  deriving DecidableEq, Repr

/-- Access to `*c`: the block must exist and not have been released. -/
def Heap.deref (h : Heap) (c : Nat) : Option ControlBlockBase :=
  if c = 0 then none
  else
    match h.blocks[c - 1]? with
    | some b => if b.freed then none else some b
    | none => none

/-- Store `b` at address `c`. -/
def Heap.setBlock (h : Heap) (c : Nat) (b : ControlBlockBase) : Heap :=
  { h with blocks := h.blocks.set (c - 1) b }

/-- `ControlBlockBase::DecrRef`: `--ref_count`. -/
def DecrRef (h : Heap) (c : Nat) : Option Heap :=
  match h.deref c with
  | some b => some (h.setBlock c { b with ref_count := b.ref_count - 1 })
  | none => none

/-- `ControlBlockBase::IncrRef`: `++ref_count`.  The counter is an `int`:
incrementing it at `INT_MAX` is a signed overflow, which is undefined. -/
def IncrRef (h : Heap) (c : Nat) : Option Heap :=
  match h.deref c with
  | some b =>
    if b.ref_count < INT_MAX then some (h.setBlock c { b with ref_count := b.ref_count + 1 })
    else none
  | none => none

/-- The end of the lifetime of the object at `p` (by `delete` or as a member
of a destroyed block); ending it twice is undefined. -/
def destroyObject (h : Heap) (p : Nat) : Option Heap :=
  if p = 0 then none
  else
    match h.alive[p - 1]? with
    | some true => some { h with alive := h.alive.set (p - 1) false }
    | _ => none

/-- `delete cb_`: the destructor of the derived class runs
(`~ControlBlockWithPointer` does `delete object`, a no-op on `nullptr`;
`~ControlBlockWithObject` destroys the member `object`), then the storage is
released. -/
def deleteCb (h : Heap) (c : Nat) : Option Heap :=
  match h.deref c with
  | some b =>
    let r : Option Heap :=
      match b.storage with
      | Storage.WithPointer => if b.object = 0 then some h else destroyObject h b.object
      | Storage.WithObject => destroyObject h b.object
    match r with
    | some h1 => some (h1.setBlock c { b with freed := true })
    | none => none
  | none => none

/-- The statements `cb_->DecrRef(); if (cb_->ref_count == 0) { delete cb_; }`
under `if (cb_)`, shared by the destructor, the assignments and
`Reset(T*)`. -/
def release (h : Heap) (c : Nat) : Option Heap :=
  if c ≠ 0 then
    match DecrRef h c with
    | some h1 =>
      match h1.deref c with
      | some b => if b.ref_count = 0 then deleteCb h1 c else some h1
      | none => none
    | none => none
  else some h

/-- `SharedPtr()` and `SharedPtr(std::nullptr_t)`. -/
def SharedPtr.ctor_default : SharedPtr := ⟨0, 0⟩

/-- `explicit SharedPtr(T* ptr)`: `new ControlBlockWithPointer<T>(ptr)` with
`ref_count = 1`. -/
def SharedPtr.ctor_ptr (h : Heap) (ptr : Nat) : Heap × SharedPtr :=
  ({ h with blocks := h.blocks ++ [⟨1, Storage.WithPointer, ptr, false⟩] },
   ⟨h.blocks.length + 1, ptr⟩)

/-- `SharedPtr(const SharedPtr& other)`. -/
def SharedPtr.ctor_copy (h : Heap) (other : SharedPtr) : Option (Heap × SharedPtr) :=
  let this : SharedPtr := ⟨other.cb_, other.observed_pole_⟩
  if this.cb_ ≠ 0 then
    match IncrRef h this.cb_ with
    | some h1 => some (h1, this)
    | none => none
  else some (h, this)

/-- `SharedPtr(SharedPtr&& other)`; returns the new handle and `other`
afterwards. -/
def SharedPtr.ctor_move (other : SharedPtr) : SharedPtr × SharedPtr :=
  (⟨other.cb_, other.observed_pole_⟩, ⟨0, 0⟩)

/-- `SharedPtr::operator=(const SharedPtr& other)`; `aliased` is the outcome of
the test `this == &other`. -/
def SharedPtr.assign_copy (h : Heap) (this other : SharedPtr) (aliased : Bool) :
    Option (Heap × SharedPtr) :=
  if aliased = false then
    match release h this.cb_ with
    | some h1 =>
      let this1 : SharedPtr := ⟨other.cb_, other.observed_pole_⟩
      if this1.cb_ ≠ 0 then
        match IncrRef h1 this1.cb_ with
        | some h2 => some (h2, this1)
        | none => none
      else some (h1, this1)
    | none => none
  else some (h, this)

/-- `SharedPtr::operator=(SharedPtr&& other)`; returns the heap, `*this` and
`other` afterwards. -/
def SharedPtr.assign_move (h : Heap) (this other : SharedPtr) (aliased : Bool) :
    Option (Heap × SharedPtr × SharedPtr) :=
  if aliased = false then
    match release h this.cb_ with
    | some h1 => some (h1, ⟨other.cb_, other.observed_pole_⟩, ⟨0, 0⟩)
    | none => none
  else some (h, this, other)

/-- `SharedPtr::~SharedPtr`:
`if (cb_) { cb_->DecrRef(); if (cb_->ref_count == 0) { delete cb_; } }`. -/
def SharedPtr.dtor (h : Heap) (this : SharedPtr) : Option Heap :=
  release h this.cb_

/-- `SharedPtr::Reset()`:
`if (cb_) { cb_->DecrRef(); delete cb_; } cb_ = nullptr; observed_pole_ = nullptr;`
— the `delete` is not guarded by a test of `ref_count`. -/
def SharedPtr.Reset (h : Heap) (this : SharedPtr) : Option (Heap × SharedPtr) :=
  if this.cb_ ≠ 0 then
    match DecrRef h this.cb_ with
    | some h1 =>
      match deleteCb h1 this.cb_ with
      | some h2 => some (h2, ⟨0, 0⟩)
      | none => none
    | none => none
  else some (h, ⟨0, 0⟩)

/-- `SharedPtr::Reset(T* ptr)`. -/
def SharedPtr.Reset_ptr (h : Heap) (this : SharedPtr) (ptr : Nat) : Option (Heap × SharedPtr) :=
  match release h this.cb_ with
  | some h1 => some (SharedPtr.ctor_ptr h1 ptr)
  | none => none

/-- `SharedPtr::Get`. -/
def SharedPtr.Get (this : SharedPtr) : Nat := this.observed_pole_

/-- `SharedPtr::UseCount`. -/
def SharedPtr.UseCount (h : Heap) (this : SharedPtr) : Option Nat :=
  if this.cb_ ≠ 0 then
    match h.deref this.cb_ with
    | some b => some (toSizeT b.ref_count)
    | none => none
  else some 0

/-- `SharedPtr::operator bool`. -/
def SharedPtr.toBool (this : SharedPtr) : Bool := this.cb_ != 0

/-- `MakeShared<T>(args...)`: `new ControlBlockWithObject<T>(args...)` with
`ref_count = 1` and the object as a member; `observed_pole_` is
`GetObjectPtr()`. -/
def MakeShared (h : Heap) : Heap × SharedPtr :=
  ({ blocks := h.blocks ++ [⟨1, Storage.WithObject, h.alive.length + 1, false⟩],
     alive := h.alive ++ [true] },
   ⟨h.blocks.length + 1, h.alive.length + 1⟩)

end Shared

/-- The statement constructs, copies, moves, assigns, resets, swaps or
destroys a `WeakPtr` and involves no `SharedPtr` other than as the source of
`WeakPtr(const SharedPtr&, bool)`. -/
def Op.weakOnly : Op → Bool
  | Op.Weak_default => true
  | Op.Weak_copy _ => true
  | Op.Weak_move _ => true
  | Op.Weak_shared _ _ => true
  | Op.Weak_assign_copy _ _ => true
  | Op.Weak_assign_move _ _ => true
  | Op.Weak_dtor _ => true
  | Op.Weak_Reset _ => true
  | Op.Weak_Swap _ _ => true
  | Op.Weak_From_This _ => true
  | _ => false

/-- Heap `g` differs from `h` in nothing that concerns the lifetime of an
object: the objects are the same, and every block has the same `ref_count`,
`is_deleted`, number of destructions and managed pointer; the storage of a
block is released in `g` only if it was already or the block had no owner. -/
def SameLifetime (h g : Heap) : Prop :=
  g.objects = h.objects ∧ g.blocks.length = h.blocks.length ∧
  ∀ c b, h.block? c = some b →
    ∃ b1, g.block? c = some b1 ∧ b1.ref_count = b.ref_count ∧
      b1.is_deleted = b.is_deleted ∧ b1.destroyed = b.destroyed ∧
      b1.storage = b.storage ∧ b1.object = b.object ∧
      (b1.freed = true → b.freed = true ∨ b.ref_count = 0)

/-! ### `UniquePtr<T, Deleter>` (src/unique/unique.h)

A `UniquePtr` is its `CompressedPair<T*, Deleter> data_`: the pointer and the
deleter, a deleter being identified by a number.  What the deleter does is the
caller's business; the calls `data_.GetSecond()(p)` are recorded, in order, in
a log of pairs (deleter, pointer). -/

namespace Unique

/-- Data member `data_` of `class UniquePtr<T, Deleter>`: `GetFirst()` and
`GetSecond()`. -/
structure UniquePtr where
  ptr : Nat
  deleter : Nat
  deriving DecidableEq, Repr

/-- `Slug<T>::operator()(T* ptr)`, the default deleter:
`if (ptr) { delete ptr; }` — whether `delete` is executed. -/
def Slug.deletes (ptr : Nat) : Bool := ptr != 0

/-- `explicit UniquePtr(T* ptr = nullptr)`: `data_(ptr, Deleter())`; `dflt` is
the value-initialised deleter `Deleter()`. -/
def UniquePtr.ctor_ptr (dflt : Nat) (ptr : Nat) : UniquePtr := ⟨ptr, dflt⟩

/-- `UniquePtr(T* ptr, Deleter deleter)`. -/
def UniquePtr.ctor_ptr_deleter (ptr : Nat) (deleter : Nat) : UniquePtr := ⟨ptr, deleter⟩

/-- `UniquePtr(UniquePtr&& other)`: `std::swap(data_, other.data_)` with `data_`
default-initialised, i.e. `(nullptr, Deleter())`.  Returns the new handle and
`other` afterwards. -/
def UniquePtr.ctor_move (dflt : Nat) (other : UniquePtr) : UniquePtr × UniquePtr :=
  (⟨other.ptr, other.deleter⟩, ⟨0, dflt⟩)

/-- `UniquePtr::Release`: returns the pointer and `*this` afterwards. -/
def UniquePtr.Release (this : UniquePtr) : Nat × UniquePtr :=
  (this.ptr, { this with ptr := 0 })

/-- The converting `UniquePtr(UniquePtr<U, OtherDeleter>&& other)`:
`data_(other.Release(), std::move(other.GetDeleter()))`. -/
def UniquePtr.ctor_move_convert (other : UniquePtr) : UniquePtr × UniquePtr :=
  let r := other.Release
  (⟨r.1, r.2.deleter⟩, r.2)

/-- `UniquePtr::Reset(T* ptr = nullptr)`:
`old_ptr = GetFirst(); GetFirst() = ptr; if (old_ptr) GetSecond()(old_ptr);`. -/
def UniquePtr.Reset (log : List (Nat × Nat)) (this : UniquePtr) (ptr : Nat) :
    List (Nat × Nat) × UniquePtr :=
  let old_ptr := this.ptr
  let this1 : UniquePtr := { this with ptr := ptr }
  if old_ptr ≠ 0 then (log ++ [(this1.deleter, old_ptr)], this1) else (log, this1)

/-- `UniquePtr::Swap`: exchanges the pointers and the deleters. -/
def UniquePtr.Swap (this other : UniquePtr) : UniquePtr × UniquePtr :=
  (⟨other.ptr, other.deleter⟩, ⟨this.ptr, this.deleter⟩)

/-- `UniquePtr::operator=(UniquePtr&& other)`:
`if (this != &other) { Reset(); Swap(other); }`; `aliased` is the outcome of
the test `this == &other`.  Returns the log, `*this` and `other` afterwards. -/
def UniquePtr.assign_move (log : List (Nat × Nat)) (this other : UniquePtr) (aliased : Bool) :
    List (Nat × Nat) × UniquePtr × UniquePtr :=
  if aliased = false then
    let r := UniquePtr.Reset log this 0
    let sw := UniquePtr.Swap r.2 other
    (r.1, sw.1, sw.2)
  else (log, this, other)

/-- `UniquePtr::operator=(std::nullptr_t)`:
`GetSecond()(GetFirst()); GetFirst() = nullptr;` — the deleter is called
whatever the pointer is. -/
def UniquePtr.assign_nullptr (log : List (Nat × Nat)) (this : UniquePtr) :
    List (Nat × Nat) × UniquePtr :=
  (log ++ [(this.deleter, this.ptr)], { this with ptr := 0 })

/-- `UniquePtr::~UniquePtr`: `GetSecond()(GetFirst());` — the deleter is called
whatever the pointer is. -/
def UniquePtr.dtor (log : List (Nat × Nat)) (this : UniquePtr) : List (Nat × Nat) :=
  log ++ [(this.deleter, this.ptr)]

/-- `UniquePtr::Get`. -/
def UniquePtr.Get (this : UniquePtr) : Nat := this.ptr

/-- `UniquePtr::GetDeleter`. -/
def UniquePtr.GetDeleter (this : UniquePtr) : Nat := this.deleter

/-- `UniquePtr::operator bool`. -/
def UniquePtr.toBool (this : UniquePtr) : Bool := this.ptr != 0

end Unique

/-! ### `IntrusivePtr<T>` (src/intrusive/intrusive.h)

Objects derive from `RefCounted<Derived, SimpleCounter, DefaultDelete>`; the
object at address `p` is entry `p - 1` of the heap, `0` is `nullptr`.  The
counter is a `size_t`, arithmetic is modulo `2 ^ 64`.  Calling a member of a
destroyed object is undefined (`none`); the ghost field `destroyed` counts the
calls of `Deleter::Destroy` on the object. -/

namespace Intrusive

/-- Data of `class SimpleCounter`. -/
structure SimpleCounter where
  count_ : Nat
  deriving DecidableEq, Repr

/-- `SimpleCounter::IncRef`: `++count_; return count_;` — the counter
afterwards. -/
def SimpleCounter.IncRef (c : SimpleCounter) : SimpleCounter := ⟨(c.count_ + 1) % 2 ^ 64⟩

/-- `SimpleCounter::DecRef`: `--count_; return count_;` — the counter
afterwards. -/
def SimpleCounter.DecRef (c : SimpleCounter) : SimpleCounter :=
  ⟨(c.count_ + (2 ^ 64 - 1)) % 2 ^ 64⟩

/-- `SimpleCounter::RefCount`. -/
def SimpleCounter.RefCount (c : SimpleCounter) : Nat := c.count_

/-- `SimpleCounter::operator=(const SimpleCounter& other)`:
`size_t step_size = other.RefCount(); step_size = count_; count_ = step_size;`
— the second statement overwrites `step_size`.  Returns `*this` afterwards. -/
def SimpleCounter.assign (this other : SimpleCounter) : SimpleCounter :=
  let step_size := other.RefCount
  let step_size := Function.const Nat this.count_ step_size
  { this with count_ := step_size }

/-- An object of a class derived from `RefCounted`: its `counter_`, whether its
lifetime has not ended, and how often `Deleter::Destroy` was called on it. -/
structure Object where
  counter_ : SimpleCounter
  alive : Bool
  destroyed : Nat
  deriving DecidableEq, Repr

/-- The implicitly defined copy assignment of `RefCounted`: memberwise, that is
`counter_ = other.counter_`. -/
def Object.assign (this other : Object) : Object :=
  { this with counter_ := this.counter_.assign other.counter_ }

/-- The object at `p`, if `p` is the address of an object whose lifetime has
not ended. -/
def deref (h : List Object) (p : Nat) : Option Object :=
  if p = 0 then none
  else
    match h[p - 1]? with
    | some o => if o.alive then some o else none
    | none => none

/-- `RefCounted::IncRef`: `counter_.IncRef();`. -/
def IncRef (h : List Object) (p : Nat) : Option (List Object) :=
  match deref h p with
  | some o => some (h.set (p - 1) { o with counter_ := o.counter_.IncRef })
  | none => none

/-- `RefCounted::DecRef`:
`counter_.DecRef(); if (counter_.RefCount() == 0) Deleter::Destroy(this);`
with `DefaultDelete::Destroy` being `delete object`. -/
def DecRef (h : List Object) (p : Nat) : Option (List Object) :=
  match deref h p with
  | some o =>
    let o1 : Object := { o with counter_ := o.counter_.DecRef }
    if o1.counter_.RefCount = 0 then
      some (h.set (p - 1) { o1 with alive := false, destroyed := o1.destroyed + 1 })
    else some (h.set (p - 1) o1)
  | none => none

/-- `RefCounted::RefCount`. -/
def RefCount (h : List Object) (p : Nat) : Option Nat :=
  match deref h p with
  | some o => some o.counter_.RefCount
  | none => none

/-- Data member of `class IntrusivePtr<T>`. -/
structure IntrusivePtr where
  object_ : Nat
  deriving DecidableEq, Repr

/-- `IntrusivePtr()` and `IntrusivePtr(std::nullptr_t)`. -/
def IntrusivePtr.ctor_default : IntrusivePtr := ⟨0⟩

/-- `IntrusivePtr(T* ptr)`: `ptr->IncRef()` without a null test. -/
def IntrusivePtr.ctor_ptr (h : List Object) (ptr : Nat) : Option (List Object × IntrusivePtr) :=
  match IncRef h ptr with
  | some h1 => some (h1, ⟨ptr⟩)
  | none => none

/-- `IntrusivePtr(const IntrusivePtr& other)`. -/
def IntrusivePtr.ctor_copy (h : List Object) (other : IntrusivePtr) :
    Option (List Object × IntrusivePtr) :=
  if other.object_ ≠ 0 then
    match IncRef h other.object_ with
    | some h1 => some (h1, ⟨other.object_⟩)
    | none => none
  else some (h, ⟨other.object_⟩)

/-- `IntrusivePtr(IntrusivePtr&& other)`; returns the new handle and `other`
afterwards. -/
def IntrusivePtr.ctor_move (other : IntrusivePtr) : IntrusivePtr × IntrusivePtr :=
  (⟨other.object_⟩, ⟨0⟩)

/-- `IntrusivePtr::operator=(const IntrusivePtr& other)`; `aliased` is the
outcome of the test `&other == this`. -/
def IntrusivePtr.assign_copy (h : List Object) (this other : IntrusivePtr) (aliased : Bool) :
    Option (List Object × IntrusivePtr) :=
  if aliased = false then
    match (if this.object_ ≠ 0 then DecRef h this.object_ else some h) with
    | some h1 =>
      if other.object_ ≠ 0 then
        match IncRef h1 other.object_ with
        | some h2 => some (h2, ⟨other.object_⟩)
        | none => none
      else some (h1, ⟨other.object_⟩)
    | none => none
  else some (h, this)

/-- `IntrusivePtr::operator=(IntrusivePtr&& other)`; returns the heap, `*this`
and `other` afterwards. -/
def IntrusivePtr.assign_move (h : List Object) (this other : IntrusivePtr) (aliased : Bool) :
    Option (List Object × IntrusivePtr × IntrusivePtr) :=
  if aliased = false then
    match (if this.object_ ≠ 0 then DecRef h this.object_ else some h) with
    | some h1 => some (h1, ⟨other.object_⟩, ⟨0⟩)
    | none => none
  else some (h, this, other)

/-- `IntrusivePtr::~IntrusivePtr`. -/
def IntrusivePtr.dtor (h : List Object) (this : IntrusivePtr) : Option (List Object) :=
  if this.object_ ≠ 0 then DecRef h this.object_ else some h

/-- `IntrusivePtr::Reset()`. -/
def IntrusivePtr.Reset (h : List Object) (this : IntrusivePtr) :
    Option (List Object × IntrusivePtr) :=
  if this.object_ ≠ 0 then
    match DecRef h this.object_ with
    | some h1 => some (h1, ⟨0⟩)
    | none => none
  else some (h, this)

/-- `IntrusivePtr::Reset(T* ptr)`:
`if (object_) object_->DecRef(); object_ = ptr; if (object_) object_->IncRef();`. -/
def IntrusivePtr.Reset_ptr (h : List Object) (this : IntrusivePtr) (ptr : Nat) :
    Option (List Object × IntrusivePtr) :=
  match (if this.object_ ≠ 0 then DecRef h this.object_ else some h) with
  | some h1 =>
    if ptr ≠ 0 then
      match IncRef h1 ptr with
      | some h2 => some (h2, ⟨ptr⟩)
      | none => none
    else some (h1, ⟨ptr⟩)
  | none => none

/-- `IntrusivePtr::Swap`. -/
def IntrusivePtr.Swap (this other : IntrusivePtr) : IntrusivePtr × IntrusivePtr :=
  (⟨other.object_⟩, ⟨this.object_⟩)

/-- `IntrusivePtr::Get`. -/
def IntrusivePtr.Get (this : IntrusivePtr) : Nat := this.object_

/-- `IntrusivePtr::UseCount`. -/
def IntrusivePtr.UseCount (h : List Object) (this : IntrusivePtr) : Option Nat :=
  if this.object_ ≠ 0 then RefCount h this.object_ else some 0

/-- `IntrusivePtr::operator bool`. -/
def IntrusivePtr.toBool (h : List Object) (this : IntrusivePtr) : Option Bool :=
  if this.object_ ≠ 0 then
    match RefCount h this.object_ with
    | some n => some (n != 0)
    | none => none
  else some false

/-- `MakeIntrusive<T>(args...)`: `new T(args...)` with `count_ = 0`, then
`IncRef()`. -/
def MakeIntrusive (h : List Object) : Option (List Object × IntrusivePtr) :=
  let h1 := h ++ [⟨⟨0⟩, true, 0⟩]
  let ptr : IntrusivePtr := ⟨h.length + 1⟩
  match IncRef h1 ptr.object_ with
  | some h2 => some (h2, ptr)
  | none => none

end Intrusive

/-- Reference definition of `Expired()` in the words of the spec: "true if no
control block, or control block reports `destroyed == true`". -/
def WeakPtr.Expired_spec (h : Heap) (this : WeakPtr) : Option Bool :=
  if this.cb_ ≠ 0 then
    match h.deref this.cb_ with
    | some b => some b.is_deleted
    | none => none
  else some true

/-! ## Theorems -/

theorem Heap.deref_eq_some {h : Heap} {c : Nat} {b : ControlBlockBase} :
    h.deref c = some b ↔ h.block? c = some b ∧ b.freed = false := by
  unfold Heap.deref
  cases hb : h.block? c with
  | none => simp
  | some b0 =>
    by_cases hf : b0.freed = true
    · simp [hf]
      intro hEq; subst hEq; simp [hf]
    · simp [hf]
      intro hEq; subst hEq; simpa using hf

theorem Heap.block?_ne_zero {h : Heap} {c : Nat} {b : ControlBlockBase}
    (hb : h.block? c = some b) : c ≠ 0 := by
  intro hc; simp [Heap.block?, hc] at hb

theorem Heap.block?_lt {h : Heap} {c : Nat} {b : ControlBlockBase}
    (hb : h.block? c = some b) : c - 1 < h.blocks.length := by
  unfold Heap.block? at hb
  split at hb
  · simp at hb
  · exact (List.getElem?_eq_some.mp hb).1

theorem Heap.block?_setBlock_self {h : Heap} {c : Nat} {b b1 : ControlBlockBase}
    (hb : h.block? c = some b) : (h.setBlock c b1).block? c = some b1 := by
  have h0 := Heap.block?_ne_zero hb
  have hl := Heap.block?_lt hb
  simp [Heap.block?, Heap.setBlock, h0, hl]

theorem Heap.block?_setBlock_ne {h : Heap} {c c1 : Nat} {b1 : ControlBlockBase}
    (h0 : c ≠ 0) (hne : c1 ≠ c) : (h.setBlock c b1).block? c1 = h.block? c1 := by
  unfold Heap.block? Heap.setBlock
  by_cases h1 : c1 = 0
  · simp [h1]
  · simp only [h1, if_false]
    rw [List.getElem?_set_ne]
    omega

theorem Heap.setBlock_same {h : Heap} {c : Nat} {b : ControlBlockBase}
    (hb : h.block? c = some b) : h.setBlock c b = h := by
  have h0 := Heap.block?_ne_zero hb
  unfold Heap.block? at hb
  simp only [h0, if_false] at hb
  cases h with
  | mk bl ob =>
    simp only [Heap.setBlock, Heap.mk.injEq, and_true]
    simp only at hb
    apply List.ext_getElem?
    intro n
    by_cases hn : c - 1 = n
    · subst hn
      rw [List.getElem?_set_self (List.getElem?_eq_some.mp hb).1, hb]
    · rw [List.getElem?_set_ne hn]

theorem Heap.setBlock_setBlock (h : Heap) (c : Nat) (b1 b2 : ControlBlockBase) :
    (h.setBlock c b1).setBlock c b2 = h.setBlock c b2 := by
  simp [Heap.setBlock]

theorem toSizeT_of_nonneg {x : Int} (h0 : 0 ≤ x) (h1 : x ≤ INT_MAX) : (toSizeT x : Int) = x := by
  unfold toSizeT
  unfold INT_MAX at h1
  rw [Int.toNat_of_nonneg (Int.emod_nonneg _ (by norm_num))]
  exact Int.emod_eq_of_lt h0 (by omega)

theorem toSizeT_succ {x : Int} (h0 : 0 ≤ x) (h1 : x < INT_MAX) :
    toSizeT (x + 1) = toSizeT x + 1 := by
  have a := toSizeT_of_nonneg h0 (le_of_lt h1)
  have b := toSizeT_of_nonneg (x := x + 1) (by omega) (by omega)
  omega

theorem IncrRef_eq {h : Heap} {c : Nat} {b : ControlBlockBase} (hb : h.deref c = some b)
    (hmax : b.ref_count < INT_MAX) :
    IncrRef h c = some (h.setBlock c { b with ref_count := b.ref_count + 1 }) := by
  simp [IncrRef, hb, hmax]

/-- `++ref_count` at `INT_MAX` is undefined. -/
theorem IncrRef_overflow {h : Heap} {c : Nat} {b : ControlBlockBase} (hb : h.deref c = some b)
    (hmax : b.ref_count = INT_MAX) : IncrRef h c = none := by
  simp [IncrRef, hb, hmax]

theorem IncrWeakRef_eq {h : Heap} {c : Nat} {b : ControlBlockBase} (hb : h.deref c = some b)
    (hmax : b.weak_ref_count < INT_MAX) :
    IncrWeakRef h c false
      = some (h.setBlock c { b with weak_ref_count := b.weak_ref_count + 1 }) := by
  simp [IncrWeakRef, hb, hmax]

/-- `++weak_ref_count` at `INT_MAX` is undefined. -/
theorem IncrWeakRef_overflow {h : Heap} {c : Nat} {b : ControlBlockBase}
    (hb : h.deref c = some b) (hmax : b.weak_ref_count = INT_MAX) :
    IncrWeakRef h c false = none := by
  simp [IncrWeakRef, hb, hmax]

theorem IncrWeakRef_tagged {h : Heap} {c : Nat} {b : ControlBlockBase}
    (hb : h.deref c = some b) : IncrWeakRef h c true = some h := by
  simp [IncrWeakRef, hb]

theorem one_lt_INT_MAX : (1 : Int) < INT_MAX := by decide

theorem zero_lt_INT_MAX : (0 : Int) < INT_MAX := by decide

theorem Heap.deref_setBlock_self {h : Heap} {c : Nat} {b b1 : ControlBlockBase}
    (hb : h.deref c = some b) (hf : b1.freed = false) : (h.setBlock c b1).deref c = some b1 :=
  Heap.deref_eq_some.mpr ⟨Heap.block?_setBlock_self (Heap.deref_eq_some.mp hb).1, hf⟩

theorem Heap.deref_ne_zero {h : Heap} {c : Nat} {b : ControlBlockBase}
    (hb : h.deref c = some b) : c ≠ 0 :=
  Heap.block?_ne_zero (Heap.deref_eq_some.mp hb).1

theorem Heap.length_setBlock (h : Heap) (c : Nat) (b : ControlBlockBase) :
    (h.setBlock c b).blocks.length = h.blocks.length := by
  simp [Heap.setBlock]

theorem WeakPtr.Expired_eq_false {h : Heap} {w : WeakPtr} (he : w.Expired h = some false) :
    ∃ b, h.deref w.cb_ = some b ∧ 0 < b.ref_count ∧ b.is_deleted = false := by
  unfold WeakPtr.Expired at he
  split at he
  · cases hb : h.deref w.cb_ with
    | none => simp [hb] at he
    | some b =>
      simp only [hb] at he
      split at he
      · exact ⟨b, rfl, by assumption, by simpa using he⟩
      · simp at he
  · simp at he

theorem SharedPtr.ctor_weak_of_not_expired {h : Heap} {w : WeakPtr} {b : ControlBlockBase}
    (he : w.Expired h = some false) (hb : h.deref w.cb_ = some b)
    (hmax : b.ref_count < INT_MAX) :
    SharedPtr.ctor_weak h w = some (Outcome.value
      (h.setBlock w.cb_ { b with ref_count := b.ref_count + 1 }) ⟨w.cb_, w.observed_pole_⟩) := by
  simp [SharedPtr.ctor_weak, he, IncrRef_eq hb hmax]

theorem Heap.block?_append_new (bl : List ControlBlockBase) (ob : List Object)
    (nb : ControlBlockBase) :
    (Heap.mk (bl ++ [nb]) ob).block? (bl.length + 1) = some nb := by
  simp [Heap.block?]

theorem Heap.object?_append_new (bl : List ControlBlockBase) (ob : List Object) (o : Object) :
    (Heap.mk bl (ob ++ [o])).object? (ob.length + 1) = some o := by
  simp [Heap.object?]

theorem Heap.setObject_append_new (bl : List ControlBlockBase) (ob : List Object)
    (o o1 : Object) :
    (Heap.mk bl (ob ++ [o])).setObject (ob.length + 1) o1 = Heap.mk bl (ob ++ [o1]) := by
  simp [Heap.setObject]

theorem MakeShared_true_eq (h : Heap) :
    MakeShared true h = some
      (⟨h.blocks ++ [⟨1, 0, false, Storage.WithObject, h.objects.length + 1, false, 0⟩],
        h.objects ++ [⟨⟨h.blocks.length + 1, h.objects.length + 1, true⟩, true⟩]⟩,
       ⟨h.blocks.length + 1, h.objects.length + 1⟩) := by
  have hd : (Heap.mk (h.blocks ++ [⟨1, 0, false, Storage.WithObject, h.objects.length + 1, false, 0⟩])
      (h.objects ++ [⟨⟨0, 0, false⟩, true⟩])).deref (h.blocks.length + 1)
      = some ⟨1, 0, false, Storage.WithObject, h.objects.length + 1, false, 0⟩ :=
    Heap.deref_eq_some.mpr ⟨Heap.block?_append_new _ _ _, rfl⟩
  simp [MakeShared, newControlBlockWithObject, GetObjectPtr, hd, SetWeakPtr, WeakPtr.ctor_shared,
    IncrWeakRef, Heap.object?_append_new, WeakPtr.assign_move, Heap.setObject_append_new,
    WeakPtr.dtor, WeakPtr.dtorWith]

theorem Heap.deref_setObject (h : Heap) (p : Nat) (o : Object) (c : Nat) :
    (h.setObject p o).deref c = h.deref c := rfl

theorem Heap.object?_setBlock (h : Heap) (c : Nat) (b : ControlBlockBase) (p : Nat) :
    (h.setBlock c b).object? p = h.object? p := rfl

theorem Heap.object?_setObject_self {h : Heap} {p : Nat} {o o1 : Object}
    (ho : h.object? p = some o) : (h.setObject p o1).object? p = some o1 := by
  unfold Heap.object? at ho
  split at ho
  · simp at ho
  · rename_i hp
    have hl := (List.getElem?_eq_some.mp ho).1
    simp [Heap.object?, Heap.setObject, hp, hl]

theorem Heap.setObject_setObject (h : Heap) (p : Nat) (o1 o2 : Object) :
    (h.setObject p o1).setObject p o2 = h.setObject p o2 := by
  simp [Heap.setObject]

theorem WeakPtr.dtorWith_tagged (sd : Heap → Nat → Option Heap) {g : Heap} {w : WeakPtr}
    {b : ControlBlockBase} (hw : w.is_this_weak_ = true) (hb : g.deref w.cb_ = some b) :
    WeakPtr.dtorWith sd g w = some g := by
  simp [WeakPtr.dtorWith, DecrWeakRefWith, hb, hw]

theorem WeakPtr.dtorWith_null (sd : Heap → Nat → Option Heap) {g : Heap} {w : WeakPtr}
    (hw : w.cb_ = 0) : WeakPtr.dtorWith sd g w = some g := by
  simp [WeakPtr.dtorWith, hw]

theorem SetWeakPtr_first {g : Heap} {p : Nat} {sh : SharedPtr} {o : Object}
    {b : ControlBlockBase} (ho : g.object? p = some o) (ha : o.alive = true)
    (hw : o.weak_this_.cb_ = 0) (hb : g.deref sh.cb_ = some b) :
    SetWeakPtr g p sh
      = some (g.setObject p { o with weak_this_ := ⟨sh.cb_, sh.observed_pole_, true⟩ }) := by
  have hc0 := Heap.deref_ne_zero hb
  simp [SetWeakPtr, WeakPtr.ctor_shared, hc0, IncrWeakRef, hb, ho, ha, WeakPtr.assign_move, hw,
    WeakPtr.dtor, WeakPtr.dtorWith]

theorem destroyObjectWith_eq (sd : Heap → Nat → Option Heap) {h : Heap} {p : Nat} {o : Object}
    (ho : h.object? p = some o) (ha : o.alive = true)
    (hw : o.weak_this_.cb_ = 0 ∨
      (o.weak_this_.is_this_weak_ = true ∧ ∃ b, h.deref o.weak_this_.cb_ = some b)) :
    destroyObjectWith sd h p = some (h.setObject p { o with alive := false }) := by
  simp only [destroyObjectWith, ho, ha, if_true]
  rcases hw with hw | ⟨hw, b, hb⟩
  · exact WeakPtr.dtorWith_null sd hw
  · exact WeakPtr.dtorWith_tagged sd hw (by rw [Heap.deref_setObject]; exact hb)

theorem SharedDestructorF_skip {n : Nat} {h : Heap} {c : Nat} {b : ControlBlockBase}
    (hb : h.deref c = some b) (hs : ¬ (b.ref_count = 0 ∧ b.is_deleted = false)) :
    SharedDestructorF (n + 1) h c = some h := by
  simp only [SharedDestructorF, hb, hs, if_false]

theorem SharedDestructorF_run {n : Nat} {h : Heap} {c : Nat} {b : ControlBlockBase} {o : Object}
    (hb : h.deref c = some b) (hr : b.ref_count = 0) (hd : b.is_deleted = false)
    (ho : h.object? b.object = some o) (ha : o.alive = true)
    (hw : o.weak_this_.cb_ = 0 ∨
      (o.weak_this_.is_this_weak_ = true ∧ ∃ b1, h.deref o.weak_this_.cb_ = some b1)) :
    SharedDestructorF (n + 1) h c
      = some ((h.setObject b.object { o with alive := false }).setBlock c
          { b with is_deleted := true, destroyed := b.destroyed + 1 }) := by
  have hp0 : b.object ≠ 0 := by
    intro hp; simp [Heap.object?, hp] at ho
  have hdo := destroyObjectWith_eq (SharedDestructorF n) ho ha hw
  obtain ⟨rc, wk, del, st, ob, fr, ds⟩ := b
  simp only at hr hd hp0 hdo ho
  subst hr hd
  simp only [SharedDestructorF, hb, and_self, if_true, hp0, if_false, hdo]
  cases st <;> simp [Heap.deref_setObject, hb]

theorem SharedDestructorF_run_null {n : Nat} {h : Heap} {c : Nat} {b : ControlBlockBase}
    (hb : h.deref c = some b) (hr : b.ref_count = 0) (hd : b.is_deleted = false)
    (hs : b.storage = Storage.WithPointer) (hp : b.object = 0) :
    SharedDestructorF (n + 1) h c
      = some (h.setBlock c { b with is_deleted := true, destroyed := b.destroyed + 1 }) := by
  simp [SharedDestructorF, hb, hr, hd, hs, hp]

/-- `DecrRef` that releases the last strong reference of a block without
counted weak handles: the object is destroyed and the block released. -/
theorem DecrRef_last_no_weak {h : Heap} {c : Nat} {b : ControlBlockBase} {o : Object}
    (hb : h.deref c = some b) (hr : b.ref_count = 1) (hwk : b.weak_ref_count = 0)
    (hd : b.is_deleted = false)
    (ho : h.object? b.object = some o) (ha : o.alive = true)
    (hw : o.weak_this_.cb_ = 0 ∨
      (o.weak_this_.is_this_weak_ = true ∧ ∃ b1, h.deref o.weak_this_.cb_ = some b1)) :
    DecrRef h c = some ((h.setObject b.object { o with alive := false }).setBlock c
      { b with ref_count := 0, is_deleted := true, destroyed := b.destroyed + 1,
               freed := true }) := by
  obtain ⟨rc, wk, del, st, ob, fr, ds⟩ := b
  simp only at hr hwk hd ho hw
  subst hr hwk hd
  have hfr : fr = false := (Heap.deref_eq_some.mp hb).2
  subst hfr
  have hb1 : (h.setBlock c ⟨0, 0, false, st, ob, false, ds⟩).deref c
      = some ⟨0, 0, false, st, ob, false, ds⟩ := Heap.deref_setBlock_self hb rfl
  have hw1 : o.weak_this_.cb_ = 0 ∨ (o.weak_this_.is_this_weak_ = true ∧
      ∃ b1, (h.setBlock c ⟨0, 0, false, st, ob, false, ds⟩).deref o.weak_this_.cb_
        = some b1) := by
    rcases hw with hw | ⟨hw, b1, hb1'⟩
    · exact Or.inl hw
    · refine Or.inr ⟨hw, ?_⟩
      by_cases hcc : o.weak_this_.cb_ = c
      · rw [hcc]; exact ⟨_, hb1⟩
      · refine ⟨b1, ?_⟩
        obtain ⟨hx, hy⟩ := Heap.deref_eq_some.mp hb1'
        exact Heap.deref_eq_some.mpr
          ⟨by rw [Heap.block?_setBlock_ne (Heap.deref_ne_zero hb) hcc]; exact hx, hy⟩
  have hrun := SharedDestructorF_run (n := h.objects.length)
    (h := h.setBlock c ⟨0, 0, false, st, ob, false, ds⟩) hb1 rfl rfl
    (by rw [Heap.object?_setBlock]; exact ho) ha hw1
  have hlen : (h.setBlock c ⟨0, 0, false, st, ob, false, ds⟩).objects.length
      = h.objects.length := rfl
  have hb2 : (((h.setBlock c ⟨0, 0, false, st, ob, false, ds⟩).setObject ob
      { o with alive := false }).setBlock c ⟨0, 0, true, st, ob, false, ds + 1⟩).deref c
      = some ⟨0, 0, true, st, ob, false, ds + 1⟩ := by
    apply Heap.deref_setBlock_self (b := ⟨0, 0, false, st, ob, false, ds⟩)
    · rw [Heap.deref_setObject]; exact hb1
    · rfl
  simp only [DecrRef, hb, sub_self, and_self, if_true, deleteThis, deleteThisWith,
    SharedDestructor, hlen, Int.reduceSub]
  simp only at hrun
  rw [hrun]
  simp only [hb2]
  simp [Heap.setBlock, Heap.setObject]

theorem WeakFromThis_counted {g : Heap} {p : Nat} {o : Object} {b : ControlBlockBase}
    (ho : g.object? p = some o) (ha : o.alive = true)
    (hb : g.deref o.weak_this_.cb_ = some b) (hmax : b.weak_ref_count < INT_MAX) :
    WeakFromThis g p = some
      (g.setBlock o.weak_this_.cb_ { b with weak_ref_count := b.weak_ref_count + 1 },
       ⟨o.weak_this_.cb_, o.weak_this_.observed_pole_, false⟩) := by
  have hc0 := Heap.deref_ne_zero hb
  simp [WeakFromThis, ho, ha, WeakPtr.ctor_copy, hc0, IncrWeakRef, hb, hmax]

theorem WeakPtr.dtor_counted_alive {g : Heap} {w : WeakPtr} {b : ControlBlockBase}
    (hw : w.is_this_weak_ = false) (hb : g.deref w.cb_ = some b) (hr : b.ref_count ≠ 0) :
    WeakPtr.dtor g w
      = some (g.setBlock w.cb_ { b with weak_ref_count := b.weak_ref_count - 1 }) := by
  have hc0 := Heap.deref_ne_zero hb
  simp [WeakPtr.dtor, WeakPtr.dtorWith, hc0, DecrWeakRefWith, hb, hw, hr]

theorem ObjsPres.refl (h : Heap) : ObjsPres h h :=
  ⟨rfl, fun _ o ho => ⟨o, ho, rfl⟩⟩

theorem ObjsPres.trans {h g k : Heap} (a : ObjsPres h g) (b : ObjsPres g k) : ObjsPres h k := by
  refine ⟨b.1.trans a.1, ?_⟩
  intro i o ho
  obtain ⟨o1, ho1, e1⟩ := b.2 i o ho
  obtain ⟨o0, ho0, e0⟩ := a.2 i o1 ho1
  exact ⟨o0, ho0, e1.trans e0⟩

theorem ObjsPres.of_objects_eq {h g : Heap} (e : g.objects = h.objects) : ObjsPres h g := by
  refine ⟨by rw [e], ?_⟩
  intro i o ho
  rw [e] at ho
  exact ⟨o, ho, rfl⟩

theorem ObjsPres.setBlock (h : Heap) (c : Nat) (b : ControlBlockBase) :
    ObjsPres h (h.setBlock c b) :=
  ObjsPres.of_objects_eq rfl

theorem ObjsPres.setObject {h : Heap} {p : Nat} {o o1 : Object} (ho : h.object? p = some o)
    (hw : o1.weak_this_ = o.weak_this_) : ObjsPres h (h.setObject p o1) := by
  have hp : p ≠ 0 := by intro hp; simp [Heap.object?, hp] at ho
  simp only [Heap.object?, hp, if_false] at ho
  refine ⟨by simp [Heap.setObject], ?_⟩
  intro i x hx
  simp only [Heap.setObject] at hx
  by_cases hi : p - 1 = i
  · subst hi
    rw [List.getElem?_set_self (List.getElem?_eq_some.mp ho).1] at hx
    cases hx
    exact ⟨o, ho, hw⟩
  · rw [List.getElem?_set_ne hi] at hx
    exact ⟨x, hx, rfl⟩

theorem Heap.Tagged.of_pres {h g : Heap} (ht : h.Tagged) (hp : ObjsPres h g) : g.Tagged := by
  intro o ho
  obtain ⟨i, hi⟩ := List.getElem?_of_mem ho
  obtain ⟨o0, ho0, e⟩ := hp.2 i o hi
  rw [e]
  exact ht o0 (List.getElem?_mem ho0)

theorem Heap.Tagged.object {h : Heap} (ht : h.Tagged) {p : Nat} {o : Object}
    (ho : h.object? p = some o) : o.weak_this_.cb_ = 0 ∨ o.weak_this_.is_this_weak_ = true := by
  unfold Heap.object? at ho
  split at ho
  · simp at ho
  · exact ht o (List.getElem?_mem ho)

theorem WeakPtr.dtorWith_inv {sd : Heap → Nat → Option Heap} {g k : Heap} {w : WeakPtr}
    (hw : w.cb_ = 0 ∨ w.is_this_weak_ = true) (hd : WeakPtr.dtorWith sd g w = some k) :
    k = g := by
  unfold WeakPtr.dtorWith at hd
  split at hd
  · rcases hw with hw | hw
    · contradiction
    · unfold DecrWeakRefWith at hd
      split at hd
      · simp [hw] at hd; exact hd.symm
      · simp at hd
  · simp at hd; exact hd.symm

theorem destroyObjectWith_inv {sd : Heap → Nat → Option Heap} {h g : Heap} {p : Nat}
    (ht : h.Tagged) (hd : destroyObjectWith sd h p = some g) :
    ∃ o, h.object? p = some o ∧ o.alive = true ∧ g = h.setObject p { o with alive := false } := by
  unfold destroyObjectWith at hd
  split at hd
  · rename_i o ho
    split at hd
    · rename_i ha
      exact ⟨o, ho, ha, WeakPtr.dtorWith_inv (ht.object ho) hd⟩
    · simp at hd
  · simp at hd

/-- What `SharedDestructor()` does when every `weak_this_` is empty or tagged. -/
theorem SharedDestructorF_inv {n : Nat} {h g : Heap} {c : Nat} (ht : h.Tagged)
    (hd : SharedDestructorF n h c = some g) :
    ∃ b, h.deref c = some b ∧ ObjsPres h g ∧
      ((¬ (b.ref_count = 0 ∧ b.is_deleted = false) ∧ g = h) ∨
       (b.ref_count = 0 ∧ b.is_deleted = false ∧
        g.blocks = h.blocks.set (c - 1)
          { b with is_deleted := true, destroyed := b.destroyed + 1 })) := by
  cases n with
  | zero => simp [SharedDestructorF] at hd
  | succ n =>
    unfold SharedDestructorF at hd
    cases hb : h.deref c with
    | none => simp [hb] at hd
    | some b =>
      simp only [hb] at hd
      refine ⟨b, rfl, ?_⟩
      by_cases hc : b.ref_count = 0 ∧ b.is_deleted = false
      · simp only [hc, and_self, if_true] at hd
        have key : ∀ h1 : Heap, ObjsPres h h1 → h1.blocks = h.blocks →
            (match h1.deref c with
              | some b1 => some (h1.setBlock c
                  { b1 with is_deleted := true, destroyed := b1.destroyed + 1 })
              | none => none) = some g →
            ObjsPres h g ∧ g.blocks = h.blocks.set (c - 1)
              { b with is_deleted := true, destroyed := b.destroyed + 1 } := by
          intro h1 hp hbl hm
          have hd1 : h1.deref c = some b := by
            have : h1.deref c = h.deref c := by
              simp [Heap.deref, Heap.block?, hbl]
            rw [this]; exact hb
          simp only [hd1] at hm
          cases hm
          exact ⟨hp.trans (ObjsPres.setBlock _ _ _), by simp [Heap.setBlock, hbl]⟩
        have fin : ∀ r : Option Heap,
            (∀ h1, r = some h1 → ObjsPres h h1 ∧ h1.blocks = h.blocks) →
            (match r with
              | some h1 =>
                match h1.deref c with
                | some b1 => some (h1.setBlock c
                    { b1 with is_deleted := true, destroyed := b1.destroyed + 1 })
                | none => none
              | none => none) = some g →
            ObjsPres h g ∧ g.blocks = h.blocks.set (c - 1)
              { b with is_deleted := true, destroyed := b.destroyed + 1 } := by
          intro r hr hm
          cases r with
          | none => simp at hm
          | some h1 =>
            obtain ⟨hp, hbl⟩ := hr h1 rfl
            exact key h1 hp hbl hm
        have dob : ∀ h1, destroyObjectWith (SharedDestructorF n) h b.object = some h1 →
            ObjsPres h h1 ∧ h1.blocks = h.blocks := by
          intro h1 e
          obtain ⟨o, ho, -, rfl⟩ := destroyObjectWith_inv ht e
          exact ⟨ObjsPres.setObject ho rfl, rfl⟩
        have res := fin _ (by
          intro h1 e
          cases hst : b.storage with
          | WithObject =>
            simp only [hst] at e
            exact dob h1 e
          | WithPointer =>
            simp only [hst] at e
            split at e
            · cases e; exact ⟨ObjsPres.refl h, rfl⟩
            · exact dob h1 e) hd
        exact ⟨res.1, Or.inr ⟨hc.1, hc.2, res.2⟩⟩
      · simp only [hc, if_false] at hd
        cases hd
        exact ⟨ObjsPres.refl h, Or.inl ⟨hc, rfl⟩⟩

theorem Heap.blocks_set_same {h : Heap} {c : Nat} {b : ControlBlockBase}
    (hb : h.block? c = some b) : h.blocks.set (c - 1) b = h.blocks := by
  have := Heap.setBlock_same hb
  simpa [Heap.setBlock] using congrArg Heap.blocks this

theorem Heap.Tagged.tagged_setBlock {h : Heap} (ht : h.Tagged) (c : Nat) (b : ControlBlockBase) :
    (h.setBlock c b).Tagged := ht

/-- What `DecrRef` does to the heap when every `weak_this_` is empty or tagged
and the object of a block with one owner is not yet destroyed. -/
theorem DecrRef_inv {h g : Heap} {c : Nat} {b : ControlBlockBase} (ht : h.Tagged)
    (hb : h.deref c = some b) (hdel : b.ref_count = 1 → b.is_deleted = false)
    (hd : DecrRef h c = some g) :
    ObjsPres h g ∧
    g.blocks = h.blocks.set (c - 1)
      (if b.ref_count = 1 then
        { b with ref_count := 0, is_deleted := true, destroyed := b.destroyed + 1,
                 freed := decide (b.weak_ref_count = 0) }
       else { b with ref_count := b.ref_count - 1 }) := by
  obtain ⟨rc, wk, del, st, ob, fr, ds⟩ := b
  have hfr : fr = false := (Heap.deref_eq_some.mp hb).2
  subst hfr
  simp only at hdel
  simp only [DecrRef, hb] at hd
  by_cases h1 : rc = 1
  · subst h1
    have hdl := hdel rfl
    subst hdl
    have hb1 : (h.setBlock c ⟨0, wk, false, st, ob, false, ds⟩).deref c
        = some ⟨0, wk, false, st, ob, false, ds⟩ := Heap.deref_setBlock_self hb rfl
    simp only [sub_self, true_and, if_true] at hd
    by_cases hw : wk = 0
    · subst hw
      simp only [if_true, deleteThis, deleteThisWith] at hd
      cases hsd : SharedDestructor (h.setBlock c ⟨0, 0, false, st, ob, false, ds⟩) c with
      | none => simp [hsd] at hd
      | some h1 =>
        simp only [hsd] at hd
        obtain ⟨b0, hb0, hp, hcase⟩ := SharedDestructorF_inv (ht.tagged_setBlock _ _) hsd
        rw [hb1] at hb0
        cases hb0
        rcases hcase with ⟨hneg, -⟩ | ⟨-, -, hbl⟩
        · exact absurd ⟨rfl, rfl⟩ hneg
        · have hd1 : h1.deref c = some ⟨0, 0, true, st, ob, false, ds + 1⟩ := by
            have hlt := Heap.block?_lt (Heap.deref_eq_some.mp hb).1
            have hc0 := Heap.deref_ne_zero hb
            apply Heap.deref_eq_some.mpr
            refine ⟨?_, rfl⟩
            simp [Heap.block?, hc0, hbl, Heap.setBlock, hlt]
          simp only [hd1] at hd
          cases hd
          refine ⟨(ObjsPres.setBlock h c _).trans (hp.trans (ObjsPres.setBlock _ _ _)), ?_⟩
          simp [Heap.setBlock, hbl]
    · simp only [hw, if_false] at hd
      obtain ⟨b0, hb0, hp, hcase⟩ := SharedDestructorF_inv (ht.tagged_setBlock _ _) hd
      rw [hb1] at hb0
      cases hb0
      rcases hcase with ⟨hneg, -⟩ | ⟨-, -, hbl⟩
      · exact absurd ⟨rfl, rfl⟩ hneg
      · refine ⟨(ObjsPres.setBlock h c _).trans hp, ?_⟩
        simp [hbl, Heap.setBlock, hw]
  · have h2 : ¬ (rc - 1 = 0) := by omega
    simp only [h2, false_and, if_false] at hd
    cases hd
    exact ⟨ObjsPres.setBlock _ _ _, by simp [Heap.setBlock, h1]⟩

/-- What `DecrWeakRef` does to the heap when every `weak_this_` is empty or
tagged and the object of a block without owners is already destroyed. -/
theorem DecrWeakRef_inv {h g : Heap} {c : Nat} {flag : Bool} {b : ControlBlockBase}
    (ht : h.Tagged) (hb : h.deref c = some b) (hdel : b.ref_count = 0 → b.is_deleted = true)
    (hd : DecrWeakRef h c flag = some g) :
    ObjsPres h g ∧
    g.blocks = h.blocks.set (c - 1)
      (if flag = true then b
       else { b with weak_ref_count := b.weak_ref_count - 1,
                     freed := decide (b.ref_count = 0 ∧ b.weak_ref_count - 1 = 0) }) := by
  obtain ⟨rc, wk, del, st, ob, fr, ds⟩ := b
  have hfr : fr = false := (Heap.deref_eq_some.mp hb).2
  subst hfr
  simp only at hdel
  simp only [DecrWeakRef, DecrWeakRefWith, hb] at hd
  cases flag with
  | true =>
    simp at hd
    subst hd
    exact ⟨ObjsPres.refl _, by simp [Heap.blocks_set_same (Heap.deref_eq_some.mp hb).1]⟩
  | false =>
    simp only [if_true] at hd
    have hb1 : (h.setBlock c ⟨rc, wk - 1, del, st, ob, false, ds⟩).deref c
        = some ⟨rc, wk - 1, del, st, ob, false, ds⟩ := Heap.deref_setBlock_self hb rfl
    by_cases h0 : rc = 0
    · subst h0
      have hdl := hdel rfl
      subst hdl
      have hskip : ∀ k, SharedDestructor (h.setBlock c ⟨0, wk - 1, true, st, ob, false, ds⟩) c
          = some k → k = h.setBlock c ⟨0, wk - 1, true, st, ob, false, ds⟩ := by
        intro k hk
        obtain ⟨b0, hb0, -, hcase⟩ := SharedDestructorF_inv (ht.tagged_setBlock _ _) hk
        rw [hb1] at hb0
        cases hb0
        rcases hcase with ⟨-, e⟩ | ⟨-, e, -⟩
        · exact e
        · simp at e
      simp only [true_and, if_true] at hd
      by_cases hw : wk - 1 = 0
      · simp only [hw, if_true, deleteThisWith] at hd
        rw [hw] at hskip hb1
        cases hsd : SharedDestructor (h.setBlock c ⟨0, 0, true, st, ob, false, ds⟩) c with
        | none => simp [hsd] at hd
        | some k =>
          simp only [hsd] at hd
          have := hskip k hsd
          subst this
          simp only [hb1] at hd
          cases hd
          exact ⟨ObjsPres.of_objects_eq rfl, by simp [Heap.setBlock, hw]⟩
      · simp only [hw, if_false] at hd
        have := hskip g hd
        subst this
        exact ⟨ObjsPres.setBlock _ _ _, by simp [Heap.setBlock, hw]⟩
    · simp only [h0, false_and, if_false] at hd
      cases hd
      exact ⟨ObjsPres.setBlock _ _ _, by simp [Heap.setBlock, h0]⟩

theorem countP_set_add {α : Type} (p : α → Bool) :
    ∀ (l : List α) (i : Nat) (old a : α), l[i]? = some old →
      (l.set i a).countP p + (if p old then 1 else 0) = l.countP p + (if p a then 1 else 0)
  | [], i, old, a, h => by simp at h
  | x :: l, 0, old, a, h => by
    simp at h
    subst h
    simp [List.countP_cons]
    omega
  | x :: l, i + 1, old, a, h => by
    simp at h
    have ih := countP_set_add p l i old a h
    simp [List.countP_cons]
    omega

theorem owners_set {l : List (Option SharedPtr)} {i : Nat} {old : Option SharedPtr}
    (hi : l[i]? = some old) (a : Option SharedPtr) (c : Nat) :
    owners (l.set i a) c + (if holds c old then 1 else 0)
      = owners l c + (if holds c a then 1 else 0) :=
  countP_set_add (holds c) l i old a hi

theorem owners_push (l : List (Option SharedPtr)) (a : Option SharedPtr) (c : Nat) :
    owners (l ++ [a]) c = owners l c + (if holds c a then 1 else 0) := by
  simp [owners, List.countP_append, List.countP_cons]

theorem owners_pos {l : List (Option SharedPtr)} {i : Nat} {x : SharedPtr}
    (hi : l[i]? = some (some x)) : 1 ≤ owners l x.cb_ := by
  have := owners_set hi none x.cb_
  simp [holds] at this
  omega

theorem holds_some (c : Nat) (x : SharedPtr) : holds c (some x) = decide (x.cb_ = c) := rfl

theorem holds_none (c : Nat) : holds c none = false := rfl

theorem State.shared?_eq_some {s : State} {i : Nat} {x : SharedPtr} :
    s.shared? i = some x ↔ s.shared[i]? = some (some x) := by
  unfold State.shared?
  split
  · rename_i y hy
    rw [hy]
    simp
  · rename_i hn
    constructor
    · intro h; simp at h
    · intro h; exact absurd h (hn x)

theorem State.weak?_eq_some {s : State} {k : Nat} {x : WeakPtr} :
    s.weak? k = some x ↔ s.weak[k]? = some (some x) := by
  unfold State.weak?
  split
  · rename_i y hy
    rw [hy]
    simp
  · rename_i hn
    constructor
    · intro h; simp at h
    · intro h; exact absurd h (hn x)

theorem Heap.block?_congr {h g : Heap} (e : g.blocks = h.blocks) (c : Nat) :
    g.block? c = h.block? c := by
  simp [Heap.block?, e]

theorem Heap.block?_of_set {h g : Heap} {c : Nat} {b d : ControlBlockBase}
    (hb : h.block? c = some b) (e : g.blocks = h.blocks.set (c - 1) d) (x : Nat) :
    g.block? x = if x = c then some d else h.block? x := by
  have e2 : g.block? x = (h.setBlock c d).block? x := by
    simp [Heap.block?, e, Heap.setBlock]
  rw [e2]
  by_cases hx : x = c
  · subst hx
    simp [Heap.block?_setBlock_self hb]
  · simp [hx, Heap.block?_setBlock_ne (Heap.block?_ne_zero hb) hx]

theorem HeapGood.congr {h : Heap} {n m : Nat → Nat} (hg : HeapGood h n)
    (e : ∀ c, c ≠ 0 → m c = n c) : HeapGood h m := by
  refine ⟨?_, ?_, hg.2.2⟩
  · intro c b hb
    rw [e c (Heap.block?_ne_zero hb)]
    exact hg.1 c b hb
  · intro c hc hb
    rw [e c hc]
    exact hg.2.1 c hc hb

/-- Consistency is kept when one block is rewritten consistently with the new
number of owners. -/
theorem HeapGood.update {h g : Heap} {n m : Nat → Nat} {c : Nat} {b d : ControlBlockBase}
    (hg : HeapGood h n) (hb : h.block? c = some b)
    (e : g.blocks = h.blocks.set (c - 1) d) (hp : ObjsPres h g)
    (hd : Good (m c) d) (hm : ∀ x, x ≠ 0 → x ≠ c → m x = n x) : HeapGood g m := by
  refine ⟨?_, ?_, hg.2.2.of_pres hp⟩
  · intro x bx hx
    rw [Heap.block?_of_set hb e x] at hx
    by_cases hxc : x = c
    · subst hxc
      simp at hx
      subst hx
      exact hd
    · simp only [hxc, if_false] at hx
      rw [hm x (Heap.block?_ne_zero hx) hxc]
      exact hg.1 x bx hx
  · intro x hx0 hx
    rw [Heap.block?_of_set hb e x] at hx
    by_cases hxc : x = c
    · subst hxc
      simp at hx
    · simp only [hxc, if_false] at hx
      rw [hm x hx0 hxc]
      exact hg.2.1 x hx0 hx

/-- Consistency is kept by a heap change that leaves the blocks alone. -/
theorem HeapGood.same_blocks {h g : Heap} {n : Nat → Nat} (hg : HeapGood h n)
    (e : g.blocks = h.blocks) (ht : g.Tagged) : HeapGood g n := by
  refine ⟨?_, ?_, ht⟩
  · intro c b hb
    rw [Heap.block?_congr e] at hb
    exact hg.1 c b hb
  · intro c hc hb
    rw [Heap.block?_congr e] at hb
    exact hg.2.1 c hc hb

theorem IncrRef_some {h g : Heap} {c : Nat} (hd : IncrRef h c = some g) :
    ∃ b, h.deref c = some b ∧ g = h.setBlock c { b with ref_count := b.ref_count + 1 } := by
  unfold IncrRef at hd
  split at hd
  · rename_i b hb
    split at hd
    · simp only [Option.some.injEq] at hd
      exact ⟨b, hb, hd.symm⟩
    · simp at hd
  · simp at hd

/-- A defined `IncrRef` found the counter below `INT_MAX`. -/
theorem IncrRef_lt {h g : Heap} {c : Nat} {b : ControlBlockBase} (hb : h.deref c = some b)
    (hd : IncrRef h c = some g) : b.ref_count < INT_MAX := by
  unfold IncrRef at hd
  rw [hb] at hd
  simp only at hd
  split at hd
  · assumption
  · simp at hd

/-- A defined counted `IncrWeakRef` found the counter below `INT_MAX`. -/
theorem IncrWeakRef_lt {h g : Heap} {c : Nat} {b : ControlBlockBase} (hb : h.deref c = some b)
    (hd : IncrWeakRef h c false = some g) : b.weak_ref_count < INT_MAX := by
  unfold IncrWeakRef at hd
  rw [hb] at hd
  simp only [if_true] at hd
  split at hd
  · assumption
  · simp at hd

theorem DecrRef_some {h g : Heap} {c : Nat} (hd : DecrRef h c = some g) :
    ∃ b, h.deref c = some b := by
  unfold DecrRef at hd
  split at hd
  · rename_i b hb
    exact ⟨b, hb⟩
  · simp at hd

theorem IncrWeakRef_some {h g : Heap} {c : Nat} {flag : Bool}
    (hd : IncrWeakRef h c flag = some g) :
    ∃ b, h.deref c = some b ∧
      g = if flag = false then h.setBlock c { b with weak_ref_count := b.weak_ref_count + 1 }
          else h := by
  unfold IncrWeakRef at hd
  split at hd
  · rename_i b hb
    refine ⟨b, hb, ?_⟩
    split at hd <;> simp at hd <;> simp [*]
  · simp at hd

theorem DecrWeakRef_some {h g : Heap} {c : Nat} {flag : Bool}
    (hd : DecrWeakRef h c flag = some g) : ∃ b, h.deref c = some b := by
  unfold DecrWeakRef DecrWeakRefWith at hd
  split at hd
  · rename_i b hb
    exact ⟨b, hb⟩
  · simp at hd

/-- `IncrRef` on a block that has an owner keeps consistency, with one more
owner of that block. -/
theorem HeapGood.incr {h g : Heap} {n m : Nat → Nat} {c : Nat} (hg : HeapGood h n)
    (hd : IncrRef h c = some g) (hn : 1 ≤ n c) (hc : m c = n c + 1)
    (hm : ∀ x, x ≠ 0 → x ≠ c → m x = n x) : HeapGood g m := by
  obtain ⟨b, hb, e⟩ := IncrRef_some hd
  have hlt := IncrRef_lt hb hd
  subst e
  obtain ⟨hblk, hfr⟩ := Heap.deref_eq_some.mp hb
  obtain ⟨g1, g2, g3, g4, -⟩ := hg.1 c b hblk
  refine hg.update hblk rfl (ObjsPres.setBlock _ _ _) ?_ hm
  rw [hc]
  refine ⟨by simp [g1], by simp [hfr], ?_, ?_, ?_⟩
  · simp only [Nat.add_one_ne_zero, iff_false]
    intro hdel
    have := g3.mp hdel
    omega
  · simp only [Nat.add_one_ne_zero, if_false]
    rw [g4, if_neg (by omega)]
  · show b.ref_count + 1 ≤ INT_MAX
    omega

/-- `DecrRef` on a block that has an owner keeps consistency, with one owner
of that block less. -/
theorem HeapGood.decr {h g : Heap} {n m : Nat → Nat} {c : Nat} (hg : HeapGood h n)
    (hd : DecrRef h c = some g) (hn : 1 ≤ n c) (hc : m c + 1 = n c)
    (hm : ∀ x, x ≠ 0 → x ≠ c → m x = n x) : HeapGood g m := by
  obtain ⟨b, hb⟩ := DecrRef_some hd
  obtain ⟨hblk, hfr⟩ := Heap.deref_eq_some.mp hb
  obtain ⟨g1, g2, g3, g4, g5⟩ := hg.1 c b hblk
  have hdel : b.is_deleted = false := by
    cases hx : b.is_deleted with
    | false => rfl
    | true => have := g3.mp hx; omega
  obtain ⟨hp, hbl⟩ := DecrRef_inv hg.2.2 hb (fun _ => hdel) hd
  refine hg.update hblk hbl hp ?_ hm
  rw [if_neg (by omega)] at g4
  by_cases h1 : b.ref_count = 1
  · have hm0 : m c = 0 := by omega
    simp only [h1, if_true, hm0]
    exact ⟨rfl, fun _ => rfl, by simp, by simp [g4], le_of_lt zero_lt_INT_MAX⟩
  · have hm1 : m c ≠ 0 := by omega
    simp only [h1, if_false]
    refine ⟨by simp only [g1]; omega, by simp [hfr], by simp [hdel, hm1], by simp [g4, hm1], ?_⟩
    show b.ref_count - 1 ≤ INT_MAX
    omega

/-- `IncrWeakRef` keeps consistency with the same owners. -/
theorem HeapGood.incrWeak {h g : Heap} {n : Nat → Nat} {c : Nat} {flag : Bool}
    (hg : HeapGood h n) (hd : IncrWeakRef h c flag = some g) : HeapGood g n := by
  obtain ⟨b, hb, rfl⟩ := IncrWeakRef_some hd
  obtain ⟨hblk, hfr⟩ := Heap.deref_eq_some.mp hb
  obtain ⟨g1, g2, g3, g4⟩ := hg.1 c b hblk
  split
  · exact hg.update hblk rfl (ObjsPres.setBlock _ _ _) ⟨g1, by simp [hfr], g3, g4⟩
      (fun _ _ _ => rfl)
  · exact hg

/-- `DecrWeakRef` keeps consistency with the same owners. -/
theorem HeapGood.decrWeak {h g : Heap} {n : Nat → Nat} {c : Nat} {flag : Bool}
    (hg : HeapGood h n) (hd : DecrWeakRef h c flag = some g) : HeapGood g n := by
  obtain ⟨b, hb⟩ := DecrWeakRef_some hd
  obtain ⟨hblk, hfr⟩ := Heap.deref_eq_some.mp hb
  obtain ⟨g1, g2, g3, g4⟩ := hg.1 c b hblk
  have hdel : b.ref_count = 0 → b.is_deleted = true := by
    intro h0
    apply g3.mpr
    omega
  obtain ⟨hp, hbl⟩ := DecrWeakRef_inv hg.2.2 hb hdel hd
  refine hg.update hblk hbl hp ?_ (fun _ _ _ => rfl)
  split
  · exact ⟨g1, g2, g3, g4⟩
  · refine ⟨g1, ?_, g3, g4⟩
    simp only [decide_eq_true_eq]
    intro hz
    omega

/-- A freshly allocated block with one owner keeps consistency. -/
theorem HeapGood.alloc {h g : Heap} {n m : Nat → Nat} {wk : Int} {st : Storage} {ob : Nat}
    (hg : HeapGood h n) (e : g.blocks = h.blocks ++ [⟨1, wk, false, st, ob, false, 0⟩])
    (ht : g.Tagged) (hc : m (h.blocks.length + 1) = 1)
    (hm : ∀ x, x ≠ 0 → x ≠ h.blocks.length + 1 → m x = n x) : HeapGood g m := by
  have key : ∀ x, x ≠ 0 → g.block? x =
      if x = h.blocks.length + 1 then some ⟨1, wk, false, st, ob, false, 0⟩ else h.block? x := by
    intro x hx
    simp only [Heap.block?, hx, if_false, e]
    by_cases hx1 : x = h.blocks.length + 1
    · subst hx1
      simp
    · simp only [hx1, if_false]
      by_cases hlt : x - 1 < h.blocks.length
      · rw [List.getElem?_append_left hlt]
      · rw [List.getElem?_append_right (by omega)]
        have : x - 1 - h.blocks.length ≠ 0 := by omega
        rw [List.getElem?_eq_none (by simp; omega), List.getElem?_eq_none (by omega)]
  refine ⟨?_, ?_, ht⟩
  · intro x bx hx
    have hx0 := Heap.block?_ne_zero hx
    rw [key x hx0] at hx
    by_cases hx1 : x = h.blocks.length + 1
    · subst hx1
      simp at hx
      subst hx
      rw [hc]
      exact ⟨rfl, by simp, by simp, by simp, le_of_lt one_lt_INT_MAX⟩
    · simp only [hx1, if_false] at hx
      rw [hm x hx0 hx1]
      exact hg.1 x bx hx
  · intro x hx0 hx
    rw [key x hx0] at hx
    by_cases hx1 : x = h.blocks.length + 1
    · subst hx1
      simp at hx
    · simp only [hx1, if_false] at hx
      rw [hm x hx0 hx1]
      exact hg.2.1 x hx0 hx

/-- No `SharedPtr` refers to an address that was never handed out. -/
theorem HeapGood.fresh {h : Heap} {n : Nat → Nat} (hg : HeapGood h n) :
    n (h.blocks.length + 1) = 0 := by
  apply hg.2.1 _ (by omega)
  simp [Heap.block?]

theorem holds_empty (p : Nat) {c : Nat} (hc : c ≠ 0) : holds c (some ⟨0, p⟩) = false := by
  simp [holds]; omega

/-- Releasing the reference held by variable `i` (which then is empty or
gone, `y`) keeps consistency. -/
theorem HeapGood.release {h g : Heap} {l : List (Option SharedPtr)} {i : Nat} {x : SharedPtr}
    (hg : HeapGood h (owners l)) (hi : l[i]? = some (some x))
    (hd : (if x.cb_ ≠ 0 then DecrRef h x.cb_ else some h) = some g)
    (y : Option SharedPtr) (hy : ∀ c, c ≠ 0 → holds c y = false) :
    HeapGood g (owners (l.set i y)) := by
  by_cases hx : x.cb_ = 0
  · simp only [hx, ne_eq, not_true_eq_false, if_false] at hd
    cases hd
    refine hg.congr ?_
    intro c hc
    have := owners_set hi y c
    simp only [hy c hc, holds_some, hx] at this
    have h0 : ¬ (0 = c) := fun e => hc e.symm
    simp [h0] at this
    exact this
  · simp only [ne_eq, hx, not_false_eq_true, if_true] at hd
    refine hg.decr hd (owners_pos hi) ?_ ?_
    · have := owners_set hi y x.cb_
      simp only [hy _ hx, holds_some] at this
      simp at this
      exact this
    · intro c hc hcx
      have := owners_set hi y c
      simp only [hy c hc, holds_some] at this
      have h0 : ¬ (x.cb_ = c) := fun e => hcx e.symm
      simp [h0] at this
      exact this

/-- Taking a new reference to a block that has an owner, into a fresh
variable, keeps consistency. -/
theorem HeapGood.acquire_push {h g : Heap} {l : List (Option SharedPtr)} {c : Nat}
    (hg : HeapGood h (owners l)) (hd : IncrRef h c = some g) (hn : 1 ≤ owners l c) (p : Nat) :
    HeapGood g (owners (l ++ [some ⟨c, p⟩])) := by
  refine hg.incr hd hn ?_ ?_
  · simp [owners_push, holds_some]
  · intro x _ hx
    have h0 : ¬ (c = x) := fun e => hx e.symm
    simp [owners_push, holds_some, h0]

/-- Taking a new reference to a block that has an owner, into a variable that
was empty, keeps consistency. -/
theorem HeapGood.acquire_set {h g : Heap} {l : List (Option SharedPtr)} {c i q : Nat}
    (hg : HeapGood h (owners l)) (hi : l[i]? = some (some ⟨0, q⟩))
    (hd : IncrRef h c = some g) (hn : 1 ≤ owners l c) (p : Nat) :
    HeapGood g (owners (l.set i (some ⟨c, p⟩))) := by
  obtain ⟨b, hb, -⟩ := IncrRef_some hd
  have hc0 := Heap.deref_ne_zero hb
  refine hg.incr hd hn ?_ ?_
  · have := owners_set hi (some ⟨c, p⟩) c
    simp only [holds_empty q hc0, holds_some] at this
    simpa using this
  · intro x hx0 hx
    have h0 : ¬ (c = x) := fun e => hx e.symm
    have := owners_set hi (some ⟨c, p⟩) x
    simp only [holds_empty q hx0, holds_some] at this
    simpa [h0] using this

/-- A variable that is empty does not matter for consistency. -/
theorem HeapGood.push_empty {h : Heap} {l : List (Option SharedPtr)}
    (hg : HeapGood h (owners l)) (p : Nat) : HeapGood h (owners (l ++ [some ⟨0, p⟩])) := by
  refine hg.congr ?_
  intro c hc
  simp [owners_push, holds_empty p hc]

theorem Heap.Tagged.tagged_setObject {h : Heap} (ht : h.Tagged) (p : Nat) {o : Object}
    (ho : o.weak_this_.cb_ = 0 ∨ o.weak_this_.is_this_weak_ = true) :
    (h.setObject p o).Tagged := by
  intro x hx
  rcases List.mem_or_eq_of_mem_set hx with hm | rfl
  · exact ht x hm
  · exact ho

theorem Heap.Tagged.push {bl bl1 : List ControlBlockBase} {ob : List Object}
    (ht : (Heap.mk bl ob).Tagged) {o : Object}
    (ho : o.weak_this_.cb_ = 0 ∨ o.weak_this_.is_this_weak_ = true) :
    (Heap.mk bl1 (ob ++ [o])).Tagged := by
  intro x hx
  simp only [List.mem_append, List.mem_singleton] at hx
  rcases hx with hm | rfl
  · exact ht x hm
  · exact ho

theorem WeakPtr.ctor_shared_good {h g : Heap} {n : Nat → Nat} {sh : SharedPtr} {flag : Bool}
    {w : WeakPtr} (hg : HeapGood h n) (hd : WeakPtr.ctor_shared h sh flag = some (g, w)) :
    HeapGood g n ∧ w = ⟨sh.cb_, sh.observed_pole_, flag⟩ := by
  unfold WeakPtr.ctor_shared at hd
  simp only at hd
  split at hd
  · cases hi : IncrWeakRef h sh.cb_ flag with
    | none => simp [hi] at hd
    | some h1 =>
      simp only [hi, Option.some.injEq, Prod.mk.injEq] at hd
      obtain ⟨rfl, rfl⟩ := hd
      exact ⟨hg.incrWeak hi, rfl⟩
  · simp only [Option.some.injEq, Prod.mk.injEq] at hd
    obtain ⟨rfl, rfl⟩ := hd
    exact ⟨hg, rfl⟩

theorem WeakPtr.weak_ctor_copy_good {h g : Heap} {n : Nat → Nat} {other w : WeakPtr}
    (hg : HeapGood h n) (hd : WeakPtr.ctor_copy h other = some (g, w)) :
    HeapGood g n ∧ w = ⟨other.cb_, other.observed_pole_, false⟩ := by
  unfold WeakPtr.ctor_copy at hd
  simp only at hd
  split at hd
  · cases hi : IncrWeakRef h other.cb_ false with
    | none => simp [hi] at hd
    | some h1 =>
      simp only [hi, Option.some.injEq, Prod.mk.injEq] at hd
      obtain ⟨rfl, rfl⟩ := hd
      exact ⟨hg.incrWeak hi, rfl⟩
  · simp only [Option.some.injEq, Prod.mk.injEq] at hd
    obtain ⟨rfl, rfl⟩ := hd
    exact ⟨hg, rfl⟩

theorem HeapGood.weak_release {h g : Heap} {n : Nat → Nat} {w : WeakPtr} (hg : HeapGood h n)
    (hd : (if w.cb_ ≠ 0 then DecrWeakRef h w.cb_ w.is_this_weak_ else some h) = some g) :
    HeapGood g n := by
  split at hd
  · exact hg.decrWeak hd
  · cases hd; exact hg

theorem WeakPtr.weak_dtor_good {h g : Heap} {n : Nat → Nat} {w : WeakPtr} (hg : HeapGood h n)
    (hd : WeakPtr.dtor h w = some g) : HeapGood g n :=
  hg.weak_release hd

theorem WeakPtr.weak_Reset_good {h g : Heap} {n : Nat → Nat} {w x : WeakPtr} (hg : HeapGood h n)
    (hd : WeakPtr.Reset h w = some (g, x)) :
    HeapGood g n ∧ (x = ⟨0, 0, w.is_this_weak_⟩ ∨ (x = w ∧ w.cb_ = 0)) := by
  unfold WeakPtr.Reset at hd
  split at hd
  · cases hi : DecrWeakRef h w.cb_ w.is_this_weak_ with
    | none => simp [hi] at hd
    | some h1 =>
      simp only [hi, Option.some.injEq, Prod.mk.injEq] at hd
      obtain ⟨rfl, rfl⟩ := hd
      exact ⟨hg.decrWeak hi, Or.inl rfl⟩
  · rename_i hc
    simp only [Option.some.injEq, Prod.mk.injEq] at hd
    obtain ⟨rfl, rfl⟩ := hd
    exact ⟨hg, Or.inr ⟨rfl, by simpa using hc⟩⟩

theorem WeakPtr.weak_assign_move_good {h g : Heap} {n : Nat → Nat} {this other x y : WeakPtr}
    (hg : HeapGood h n) (hd : WeakPtr.assign_move h this other = some (g, x, y)) :
    HeapGood g n ∧ x = ⟨other.cb_, other.observed_pole_, other.is_this_weak_⟩ ∧
      y = ⟨0, 0, other.is_this_weak_⟩ := by
  unfold WeakPtr.assign_move at hd
  cases hi : (if this.cb_ ≠ 0 then DecrWeakRef h this.cb_ this.is_this_weak_ else some h) with
  | none => simp [hi] at hd
  | some h1 =>
    simp only [hi, Option.some.injEq, Prod.mk.injEq] at hd
    obtain ⟨rfl, rfl, rfl⟩ := hd
    exact ⟨hg.weak_release hi, rfl, rfl⟩

theorem WeakPtr.weak_assign_copy_good {h g : Heap} {n : Nat → Nat} {this other x : WeakPtr}
    (hg : HeapGood h n) (hd : WeakPtr.assign_copy h this other = some (g, x)) :
    HeapGood g n ∧ x = ⟨other.cb_, other.observed_pole_, other.is_this_weak_⟩ := by
  unfold WeakPtr.assign_copy at hd
  cases hi : (if this.cb_ ≠ 0 then DecrWeakRef h this.cb_ this.is_this_weak_ else some h) with
  | none => simp [hi] at hd
  | some h1 =>
    simp only [hi] at hd
    have hg1 := hg.weak_release hi
    split at hd
    · cases hj : IncrWeakRef h1 other.cb_ other.is_this_weak_ with
      | none => simp [hj] at hd
      | some h2 =>
        simp only [hj, Option.some.injEq, Prod.mk.injEq] at hd
        obtain ⟨rfl, rfl⟩ := hd
        exact ⟨hg1.incrWeak hj, rfl⟩
    · simp only [Option.some.injEq, Prod.mk.injEq] at hd
      obtain ⟨rfl, rfl⟩ := hd
      exact ⟨hg1, rfl⟩

/-- `SetWeakPtr` keeps consistency, and the member it writes is tagged. -/
theorem SetWeakPtr_good {h g : Heap} {n : Nat → Nat} {p : Nat} {sh : SharedPtr}
    (hg : HeapGood h n) (hd : SetWeakPtr h p sh = some g) : HeapGood g n := by
  unfold SetWeakPtr at hd
  cases hc : WeakPtr.ctor_shared h sh true with
  | none => simp [hc] at hd
  | some r =>
    obtain ⟨h1, temp⟩ := r
    obtain ⟨hg1, rfl⟩ := WeakPtr.ctor_shared_good hg hc
    simp only [hc] at hd
    cases ho : h1.object? p with
    | none => simp [ho] at hd
    | some o =>
      simp only [ho] at hd
      split at hd
      · cases ha : WeakPtr.assign_move h1 o.weak_this_ ⟨sh.cb_, sh.observed_pole_, true⟩ with
        | none => simp [ha] at hd
        | some r2 =>
          obtain ⟨h2, x, y⟩ := r2
          obtain ⟨hg2, rfl, rfl⟩ := WeakPtr.weak_assign_move_good hg1 ha
          simp only [ha] at hd
          cases ho2 : h2.object? p with
          | none => simp [ho2] at hd
          | some o2 =>
            simp only [ho2] at hd
            split at hd
            · have hg3 : HeapGood (h2.setObject p
                  { o2 with weak_this_ := ⟨sh.cb_, sh.observed_pole_, true⟩ }) n :=
                hg2.same_blocks rfl (hg2.2.2.tagged_setObject p (Or.inr rfl))
              exact WeakPtr.weak_dtor_good hg3 hd
            · simp at hd
      · simp at hd

/-- A fresh block owned by a fresh variable keeps consistency. -/
theorem HeapGood.alloc_push {h g : Heap} {l : List (Option SharedPtr)} {wk : Int}
    {st : Storage} {ob : Nat} (hg : HeapGood h (owners l))
    (e : g.blocks = h.blocks ++ [⟨1, wk, false, st, ob, false, 0⟩]) (ht : g.Tagged) (p : Nat) :
    HeapGood g (owners (l ++ [some ⟨h.blocks.length + 1, p⟩])) := by
  refine hg.alloc e ht ?_ ?_
  · simp [owners_push, holds_some, hg.fresh]
  · intro x _ hx
    have h0 : ¬ (h.blocks.length + 1 = x) := fun e => hx e.symm
    simp [owners_push, holds_some, h0]

/-- A fresh block owned by a variable that was empty keeps consistency. -/
theorem HeapGood.alloc_set {h g : Heap} {l : List (Option SharedPtr)} {wk : Int}
    {st : Storage} {ob i q : Nat} (hg : HeapGood h (owners l))
    (hi : l[i]? = some (some ⟨0, q⟩))
    (e : g.blocks = h.blocks ++ [⟨1, wk, false, st, ob, false, 0⟩]) (ht : g.Tagged) (p : Nat) :
    HeapGood g (owners (l.set i (some ⟨h.blocks.length + 1, p⟩))) := by
  refine hg.alloc e ht ?_ ?_
  · have := owners_set hi (some ⟨h.blocks.length + 1, p⟩) (h.blocks.length + 1)
    simp only [holds_empty q (Nat.succ_ne_zero _), holds_some, hg.fresh] at this
    simpa using this
  · intro x hx0 hx
    have h0 : ¬ (h.blocks.length + 1 = x) := fun e => hx e.symm
    have := owners_set hi (some ⟨h.blocks.length + 1, p⟩) x
    simp only [holds_empty q hx0, holds_some] at this
    simpa [h0] using this

theorem SharedPtr.ctor_ptr_good {h g : Heap} {l : List (Option SharedPtr)} {esft : Bool}
    {ptr : Nat} {x : SharedPtr} (hg : HeapGood h (owners l))
    (hd : SharedPtr.ctor_ptr esft h ptr = some (g, x)) :
    HeapGood g (owners (l ++ [some x])) := by
  unfold SharedPtr.ctor_ptr at hd
  simp only [newControlBlockWithPointer] at hd
  have hg1 : HeapGood (Heap.mk (h.blocks ++ [⟨1, 0, false, Storage.WithPointer, ptr, false, 0⟩])
      h.objects) (owners (l ++ [some ⟨h.blocks.length + 1, ptr⟩])) :=
    hg.alloc_push (g := Heap.mk
      (h.blocks ++ [⟨1, 0, false, Storage.WithPointer, ptr, false, 0⟩]) h.objects)
      rfl hg.2.2 ptr
  cases esft with
  | true =>
    simp only [if_true] at hd
    split at hd
    · rename_i h2 hs
      simp only [Option.some.injEq, Prod.mk.injEq] at hd
      obtain ⟨rfl, rfl⟩ := hd
      exact SetWeakPtr_good hg1 hs
    · simp at hd
  | false =>
    simp only [Bool.false_eq_true, if_false, Option.some.injEq, Prod.mk.injEq] at hd
    obtain ⟨rfl, rfl⟩ := hd
    exact hg1

theorem MakeShared_good {h g : Heap} {l : List (Option SharedPtr)} {esft : Bool}
    {x : SharedPtr} (hg : HeapGood h (owners l)) (hd : MakeShared esft h = some (g, x)) :
    HeapGood g (owners (l ++ [some x])) := by
  unfold MakeShared at hd
  simp only [newControlBlockWithObject] at hd
  have hh : (Heap.mk h.blocks h.objects).Tagged := hg.2.2
  have hg1 : ∀ p, HeapGood (Heap.mk
      (h.blocks ++ [⟨1, 0, false, Storage.WithObject, h.objects.length + 1, false, 0⟩])
      (h.objects ++ [⟨⟨0, 0, false⟩, true⟩])) (owners (l ++ [some ⟨h.blocks.length + 1, p⟩])) :=
    fun p => hg.alloc_push rfl (hh.push (Or.inl rfl)) p
  split at hd
  · rename_i step_obj hs
    cases esft with
    | true =>
      simp only [if_true] at hd
      split at hd
      · rename_i h2 hs2
        simp only [Option.some.injEq, Prod.mk.injEq] at hd
        obtain ⟨rfl, rfl⟩ := hd
        exact SetWeakPtr_good (hg1 _) hs2
      · simp at hd
    | false =>
      simp only [Bool.false_eq_true, if_false, Option.some.injEq, Prod.mk.injEq] at hd
      obtain ⟨rfl, rfl⟩ := hd
      exact hg1 _
  · simp at hd

theorem SharedPtr.ctor_copy_good {h g : Heap} {l : List (Option SharedPtr)} {i : Nat}
    {a x : SharedPtr} (hg : HeapGood h (owners l)) (hi : l[i]? = some (some a))
    (hd : SharedPtr.ctor_copy h a = some (g, x)) :
    HeapGood g (owners (l ++ [some x])) := by
  unfold SharedPtr.ctor_copy at hd
  simp only at hd
  split at hd
  · cases hc : IncrRef h a.cb_ with
    | none => simp [hc] at hd
    | some h1 =>
      simp only [hc, Option.some.injEq, Prod.mk.injEq] at hd
      obtain ⟨rfl, rfl⟩ := hd
      exact hg.acquire_push hc (owners_pos hi) _
  · rename_i hc
    simp only [ne_eq, not_not] at hc
    simp only [Option.some.injEq, Prod.mk.injEq] at hd
    obtain ⟨rfl, rfl⟩ := hd
    rw [hc]
    exact hg.push_empty _

theorem SharedPtr.ctor_alias_good {h g : Heap} {l : List (Option SharedPtr)} {i ptr : Nat}
    {a x : SharedPtr} (hg : HeapGood h (owners l)) (hi : l[i]? = some (some a))
    (hd : SharedPtr.ctor_alias h a ptr = some (g, x)) :
    HeapGood g (owners (l ++ [some x])) := by
  unfold SharedPtr.ctor_alias at hd
  cases hc : IncrRef h a.cb_ with
  | none => simp [hc] at hd
  | some h1 =>
    simp only [hc, Option.some.injEq, Prod.mk.injEq] at hd
    obtain ⟨rfl, rfl⟩ := hd
    exact hg.acquire_push hc (owners_pos hi) _

/-- A block whose `ref_count` is positive has an owner. -/
theorem HeapGood.owner_of_pos {h : Heap} {n : Nat → Nat} {c : Nat} {b : ControlBlockBase}
    (hg : HeapGood h n) (hb : h.deref c = some b) (hp : 0 < b.ref_count) : 1 ≤ n c := by
  have := (hg.1 c b (Heap.deref_eq_some.mp hb).1).1
  omega

theorem SharedPtr.ctor_weak_good {h : Heap} {l : List (Option SharedPtr)} {w : WeakPtr}
    {r : Outcome SharedPtr} (hg : HeapGood h (owners l))
    (hd : SharedPtr.ctor_weak h w = some r) :
    (∃ g x, r = Outcome.value g x ∧ x = ⟨w.cb_, w.observed_pole_⟩ ∧ w.cb_ ≠ 0 ∧
      HeapGood g (owners (l ++ [some x]))) ∨
    (∃ e, r = Outcome.thrown h e) := by
  unfold SharedPtr.ctor_weak at hd
  simp only at hd
  cases he : w.Expired h with
  | none => simp [he] at hd
  | some v =>
    cases v with
    | true =>
      simp only [he, Option.some.injEq] at hd
      exact Or.inr ⟨_, hd.symm⟩
    | false =>
      simp only [he] at hd
      obtain ⟨b, hb, hpos, -⟩ := WeakPtr.Expired_eq_false he
      cases hc : IncrRef h w.cb_ with
      | none => simp [hc] at hd
      | some h1 =>
        simp only [hc, Option.some.injEq] at hd
        exact Or.inl ⟨h1, _, hd.symm, rfl, Heap.deref_ne_zero hb,
          hg.acquire_push hc (hg.owner_of_pos hb hpos) _⟩

theorem WeakPtr.Lock_good {h : Heap} {l : List (Option SharedPtr)} {w : WeakPtr}
    {r : Outcome SharedPtr} (hg : HeapGood h (owners l)) (hd : WeakPtr.Lock h w = some r) :
    (∃ g x, r = Outcome.value g x ∧ x = ⟨w.cb_, w.observed_pole_⟩ ∧ w.cb_ ≠ 0 ∧
      HeapGood g (owners (l ++ [some x]))) ∨
    r = Outcome.value h ⟨0, 0⟩ ∨ (∃ e, r = Outcome.thrown h e) := by
  unfold WeakPtr.Lock at hd
  cases he : w.Expired h with
  | none => simp [he] at hd
  | some v =>
    cases v with
    | true =>
      simp only [he, Option.some.injEq] at hd
      exact Or.inr (Or.inl hd.symm)
    | false =>
      simp only [he] at hd
      rcases SharedPtr.ctor_weak_good hg hd with hv | ht
      · exact Or.inl hv
      · exact Or.inr (Or.inr ht)

theorem SharedPtr.dtor_good {h g : Heap} {l : List (Option SharedPtr)} {i : Nat}
    {x : SharedPtr} (hg : HeapGood h (owners l)) (hi : l[i]? = some (some x))
    (hd : SharedPtr.dtor h x = some g) : HeapGood g (owners (l.set i none)) :=
  hg.release hi hd none (fun _ _ => rfl)

theorem SharedPtr.Reset_good {h g : Heap} {l : List (Option SharedPtr)} {i : Nat}
    {x y : SharedPtr} (hg : HeapGood h (owners l)) (hi : l[i]? = some (some x))
    (hd : SharedPtr.Reset h x = some (g, y)) :
    HeapGood g (owners (l.set i (some y))) ∧ y = ⟨0, 0⟩ := by
  unfold SharedPtr.Reset at hd
  cases hr : (if x.cb_ ≠ 0 then DecrRef h x.cb_ else some h) with
  | none => simp [hr] at hd
  | some h1 =>
    simp only [hr, Option.some.injEq, Prod.mk.injEq] at hd
    obtain ⟨rfl, rfl⟩ := hd
    exact ⟨hg.release hi hr _ (fun c hc => holds_empty 0 hc), rfl⟩

theorem List.getElem?_set_self_of_some {α : Type} {l : List α} {i : Nat} {a b : α}
    (hi : l[i]? = some a) : (l.set i b)[i]? = some b :=
  List.getElem?_set_self (List.getElem?_eq_some.mp hi).1

theorem SharedPtr.Reset_ptr_good {h g : Heap} {l : List (Option SharedPtr)} {i ptr : Nat}
    {x y : SharedPtr} (hg : HeapGood h (owners l)) (hi : l[i]? = some (some x))
    (hd : SharedPtr.Reset_ptr h x ptr = some (g, y)) :
    HeapGood g (owners (l.set i (some y))) := by
  unfold SharedPtr.Reset_ptr at hd
  cases hr : (if x.cb_ ≠ 0 then DecrRef h x.cb_ else some h) with
  | none => simp [hr] at hd
  | some h1 =>
    simp only [hr, newControlBlockWithPointer, Option.some.injEq, Prod.mk.injEq] at hd
    obtain ⟨rfl, rfl⟩ := hd
    have hg1 := hg.release hi hr (some ⟨0, 0⟩) (fun c hc => holds_empty 0 hc)
    have := hg1.alloc_set (g := Heap.mk
      (h1.blocks ++ [⟨1, 0, false, Storage.WithPointer, ptr, false, 0⟩]) h1.objects)
      (List.getElem?_set_self_of_some hi) rfl hg1.2.2 ptr
    simpa [List.set_set] using this

theorem List.getElem?_set_of_ne {α : Type} {l : List α} {i j : Nat} (a : α) (hij : i ≠ j) :
    (l.set i a)[j]? = l[j]? :=
  List.getElem?_set_ne hij

/-- Writing one variable's value into another and emptying the source does not
change the number of owners of any block. -/
theorem owners_transfer {l : List (Option SharedPtr)} {i j : Nat} {this other : SharedPtr}
    (hi : l[i]? = some (some this)) (hj : l[j]? = some (some other)) (hij : i ≠ j)
    (p q : Nat) (c : Nat) (hc : c ≠ 0) :
    owners ((l.set i (some other)).set j (some ⟨0, q⟩)) c = owners (l.set i (some ⟨0, p⟩)) c := by
  have e1 := owners_set hi (some other) c
  have e2 := owners_set hi (some ⟨0, p⟩) c
  have hj1 : (l.set i (some other))[j]? = some (some other) := by
    rw [List.getElem?_set_of_ne _ hij]; exact hj
  have e3 := owners_set hj1 (some ⟨0, q⟩) c
  simp only [holds_empty _ hc] at e2 e3
  simp at e2 e3
  omega

theorem owners_swap {l : List (Option SharedPtr)} {i j : Nat} {this other : SharedPtr}
    (hi : l[i]? = some (some this)) (hj : l[j]? = some (some other)) (c : Nat) :
    owners ((l.set i (some other)).set j (some this)) c = owners l c := by
  by_cases hij : i = j
  · subst hij
    rw [hi] at hj
    cases hj
    rw [List.set_set]
    have e1 := owners_set hi (some this) c
    omega
  · have e1 := owners_set hi (some other) c
    have hj1 : (l.set i (some other))[j]? = some (some other) := by
      rw [List.getElem?_set_of_ne _ hij]; exact hj
    have e3 := owners_set hj1 (some this) c
    omega

theorem owners_set_same {l : List (Option SharedPtr)} {i : Nat} {x : Option SharedPtr}
    (hi : l[i]? = some x) (c : Nat) : owners (l.set i x) c = owners l c := by
  have e1 := owners_set hi x c
  omega

theorem owners_move {l : List (Option SharedPtr)} {i : Nat} {x : SharedPtr}
    (hi : l[i]? = some (some x)) (p : Nat) (c : Nat) (hc : c ≠ 0) :
    owners (l.set i (some ⟨0, p⟩) ++ [some x]) c = owners l c := by
  have e1 := owners_set hi (some ⟨0, p⟩) c
  simp only [holds_empty _ hc] at e1
  simp at e1
  rw [owners_push]
  omega

theorem SharedPtr.assign_copy_good {h g : Heap} {l : List (Option SharedPtr)} {i j : Nat}
    {this other x : SharedPtr} (hg : HeapGood h (owners l)) (hi : l[i]? = some (some this))
    (hj : l[j]? = some (some other))
    (hd : SharedPtr.assign_copy h this other (i == j) = some (g, x)) :
    HeapGood g (owners (l.set i (some x))) := by
  unfold SharedPtr.assign_copy at hd
  by_cases hij : i = j
  · simp only [hij, beq_self_eq_true, Bool.true_eq_false, if_false, Option.some.injEq,
      Prod.mk.injEq] at hd
    obtain ⟨rfl, rfl⟩ := hd
    exact hg.congr (fun c _ => owners_set_same hi c)
  · have hb : (i == j) = false := by simpa using hij
    simp only [hb, if_true] at hd
    cases hr : (if this.cb_ ≠ 0 then DecrRef h this.cb_ else some h) with
    | none => simp [hr] at hd
    | some h1 =>
      simp only [hr] at hd
      have hg1 := hg.release hi hr (some ⟨0, 0⟩) (fun c hc => holds_empty 0 hc)
      have hj1 : (l.set i (some ⟨0, 0⟩))[j]? = some (some other) := by
        rw [List.getElem?_set_of_ne _ hij]; exact hj
      split at hd
      · cases hc : IncrRef h1 other.cb_ with
        | none => simp [hc] at hd
        | some h2 =>
          simp only [hc, Option.some.injEq, Prod.mk.injEq] at hd
          obtain ⟨rfl, rfl⟩ := hd
          have := hg1.acquire_set (List.getElem?_set_self_of_some hi) hc (owners_pos hj1)
            other.observed_pole_
          simpa [List.set_set] using this
      · rename_i hc
        simp only [ne_eq, not_not] at hc
        simp only [Option.some.injEq, Prod.mk.injEq] at hd
        obtain ⟨rfl, rfl⟩ := hd
        refine hg1.congr ?_
        intro c hc0
        have e1 := owners_set hi (some ⟨0, 0⟩) c
        have e2 := owners_set hi (some ⟨other.cb_, other.observed_pole_⟩) c
        rw [hc] at e2
        simp only [holds_empty _ hc0] at e1 e2
        rw [hc]
        omega

theorem SharedPtr.assign_move_good {h g : Heap} {l : List (Option SharedPtr)} {i j : Nat}
    {this other x y : SharedPtr} (hg : HeapGood h (owners l)) (hi : l[i]? = some (some this))
    (hj : l[j]? = some (some other))
    (hd : SharedPtr.assign_move h this other (i == j) = some (g, x, y)) :
    HeapGood g (owners ((l.set i (some x)).set j (some y))) := by
  unfold SharedPtr.assign_move at hd
  by_cases hij : i = j
  · simp only [hij, beq_self_eq_true, Bool.true_eq_false, if_false, Option.some.injEq,
      Prod.mk.injEq] at hd
    obtain ⟨rfl, rfl, rfl⟩ := hd
    subst hij
    rw [List.set_set]
    exact hg.congr (fun c _ => owners_set_same hj c)
  · have hb : (i == j) = false := by simpa using hij
    simp only [hb, if_true] at hd
    cases hr : (if this.cb_ ≠ 0 then DecrRef h this.cb_ else some h) with
    | none => simp [hr] at hd
    | some h1 =>
      simp only [hr, Option.some.injEq, Prod.mk.injEq] at hd
      obtain ⟨rfl, rfl, rfl⟩ := hd
      have hg1 := hg.release hi hr (some ⟨0, 0⟩) (fun c hc => holds_empty 0 hc)
      exact hg1.congr (fun c hc => owners_transfer hi hj hij 0 0 c hc)

theorem Inv_iff (s : State) : Inv s ↔ HeapGood s.heap (owners s.shared) := Iff.rfl

theorem Inv.inv_pushOutcome {s : State} {r : Outcome SharedPtr}
    (hr : (∃ g x, r = Outcome.value g x ∧ HeapGood g (owners (s.shared ++ [some x]))) ∨
      (∃ e, r = Outcome.thrown s.heap e)) (hinv : Inv s) : Inv (s.pushOutcome r) := by
  rcases hr with ⟨g, x, rfl, hg⟩ | ⟨e, rfl⟩
  · exact hg
  · exact hinv

/-- Every statement keeps the state consistent. -/
theorem step_Inv {s t : State} {op : Op} (hinv : Inv s) (hs : step s op = some t) : Inv t := by
  have hg : HeapGood s.heap (owners s.shared) := hinv
  cases op with
  | new_T =>
    simp only [step, Option.some.injEq] at hs
    subst hs
    have hh : (Heap.mk s.heap.blocks s.heap.objects).Tagged := hg.2.2
    exact hg.same_blocks (g := Heap.mk s.heap.blocks (s.heap.objects ++ [⟨⟨0, 0, false⟩, true⟩]))
      rfl (hh.push (Or.inl rfl))
  | Shared_default =>
    simp only [step, Option.some.injEq] at hs
    subst hs
    exact hg.push_empty 0
  | Shared_ptr esft ptr =>
    simp only [step, Option.bind_eq_some, Option.some.injEq] at hs
    obtain ⟨r, hr, rfl⟩ := hs
    exact SharedPtr.ctor_ptr_good hg hr
  | Make_Shared esft =>
    simp only [step, Option.bind_eq_some, Option.some.injEq] at hs
    obtain ⟨r, hr, rfl⟩ := hs
    exact MakeShared_good hg hr
  | Shared_copy i =>
    simp only [step, Option.bind_eq_some, Option.some.injEq] at hs
    obtain ⟨a, ha, r, hr, rfl⟩ := hs
    exact SharedPtr.ctor_copy_good hg (State.shared?_eq_some.mp ha) hr
  | Shared_move i =>
    simp only [step, Option.bind_eq_some, Option.some.injEq] at hs
    obtain ⟨a, ha, rfl⟩ := hs
    exact hg.congr (fun c hc => owners_move (State.shared?_eq_some.mp ha) 0 c hc)
  | Shared_alias i ptr =>
    simp only [step, Option.bind_eq_some, Option.some.injEq] at hs
    obtain ⟨a, ha, r, hr, rfl⟩ := hs
    exact SharedPtr.ctor_alias_good hg (State.shared?_eq_some.mp ha) hr
  | Shared_weak k =>
    simp only [step, Option.bind_eq_some, Option.some.injEq] at hs
    obtain ⟨w, -, r, hr, rfl⟩ := hs
    refine Inv.inv_pushOutcome ?_ hinv
    rcases SharedPtr.ctor_weak_good hg hr with ⟨g, x, e, -, -, h1⟩ | h2
    · exact Or.inl ⟨g, x, e, h1⟩
    · exact Or.inr h2
  | Shared_assign_copy i j =>
    simp only [step, Option.bind_eq_some, Option.some.injEq] at hs
    obtain ⟨a, ha, b, hb, r, hr, rfl⟩ := hs
    exact SharedPtr.assign_copy_good hg (State.shared?_eq_some.mp ha)
      (State.shared?_eq_some.mp hb) hr
  | Shared_assign_move i j =>
    simp only [step, Option.bind_eq_some, Option.some.injEq] at hs
    obtain ⟨a, ha, b, hb, r, hr, rfl⟩ := hs
    exact SharedPtr.assign_move_good hg (State.shared?_eq_some.mp ha)
      (State.shared?_eq_some.mp hb) hr
  | Shared_dtor i =>
    simp only [step, Option.bind_eq_some, Option.some.injEq] at hs
    obtain ⟨a, ha, r, hr, rfl⟩ := hs
    exact SharedPtr.dtor_good hg (State.shared?_eq_some.mp ha) hr
  | Shared_Reset i =>
    simp only [step, Option.bind_eq_some, Option.some.injEq] at hs
    obtain ⟨a, ha, r, hr, rfl⟩ := hs
    exact (SharedPtr.Reset_good hg (State.shared?_eq_some.mp ha) hr).1
  | Shared_Reset_ptr i ptr =>
    simp only [step, Option.bind_eq_some, Option.some.injEq] at hs
    obtain ⟨a, ha, r, hr, rfl⟩ := hs
    exact SharedPtr.Reset_ptr_good hg (State.shared?_eq_some.mp ha) hr
  | Shared_Swap i j =>
    simp only [step, Option.bind_eq_some, Option.some.injEq] at hs
    obtain ⟨a, ha, b, hb, rfl⟩ := hs
    exact hg.congr (fun c _ => owners_swap (State.shared?_eq_some.mp ha)
      (State.shared?_eq_some.mp hb) c)
  | Weak_default =>
    simp only [step, Option.some.injEq] at hs
    subst hs
    exact hg
  | Weak_copy k =>
    simp only [step, Option.bind_eq_some, Option.some.injEq] at hs
    obtain ⟨w, -, r, hr, rfl⟩ := hs
    exact (WeakPtr.weak_ctor_copy_good hg hr).1
  | Weak_move k =>
    simp only [step, Option.bind_eq_some, Option.some.injEq] at hs
    obtain ⟨w, -, rfl⟩ := hs
    exact hg
  | Weak_shared i flag =>
    simp only [step, Option.bind_eq_some, Option.some.injEq] at hs
    obtain ⟨a, -, r, hr, rfl⟩ := hs
    exact (WeakPtr.ctor_shared_good hg hr).1
  | Weak_assign_copy k l =>
    simp only [step, Option.bind_eq_some, Option.some.injEq] at hs
    obtain ⟨a, -, b, -, r, hr, rfl⟩ := hs
    exact (WeakPtr.weak_assign_copy_good hg hr).1
  | Weak_assign_move k l =>
    simp only [step, Option.bind_eq_some, Option.some.injEq] at hs
    obtain ⟨a, -, b, -, r, hr, rfl⟩ := hs
    exact (WeakPtr.weak_assign_move_good hg hr).1
  | Weak_dtor k =>
    simp only [step, Option.bind_eq_some, Option.some.injEq] at hs
    obtain ⟨a, -, r, hr, rfl⟩ := hs
    exact WeakPtr.weak_dtor_good hg hr
  | Weak_Reset k =>
    simp only [step, Option.bind_eq_some, Option.some.injEq] at hs
    obtain ⟨a, -, r, hr, rfl⟩ := hs
    exact (WeakPtr.weak_Reset_good hg hr).1
  | Weak_Swap k l =>
    simp only [step, Option.bind_eq_some, Option.some.injEq] at hs
    obtain ⟨a, -, b, -, rfl⟩ := hs
    exact hg
  | Weak_Lock k =>
    simp only [step, Option.bind_eq_some, Option.some.injEq] at hs
    obtain ⟨w, -, r, hr, rfl⟩ := hs
    rcases WeakPtr.Lock_good hg hr with ⟨g, x, e, -, -, h1⟩ | rfl | h2
    · exact Inv.inv_pushOutcome (Or.inl ⟨g, x, e, h1⟩) hinv
    · exact hg.push_empty 0
    · exact Inv.inv_pushOutcome (Or.inr h2) hinv
  | Shared_From_This ptr =>
    simp only [step, Option.bind_eq_some, Option.some.injEq] at hs
    obtain ⟨r, hr, rfl⟩ := hs
    unfold SharedFromThis at hr
    split at hr
    · split at hr
      · rcases WeakPtr.Lock_good hg hr with ⟨g, x, e, -, -, h1⟩ | rfl | h2
        · exact Inv.inv_pushOutcome (Or.inl ⟨g, x, e, h1⟩) hinv
        · exact hg.push_empty 0
        · exact Inv.inv_pushOutcome (Or.inr h2) hinv
      · simp at hr
    · simp at hr
  | Weak_From_This ptr =>
    simp only [step, Option.bind_eq_some, Option.some.injEq] at hs
    obtain ⟨r, hr, rfl⟩ := hs
    unfold WeakFromThis at hr
    split at hr
    · split at hr
      · exact (WeakPtr.weak_ctor_copy_good hg hr).1
      · simp at hr
    · simp at hr

theorem Inv.inv_init : Inv State.init := by
  refine ⟨?_, ?_, ?_⟩
  · intro c b hb
    simp [State.init, Heap.block?] at hb
  · intro c _ _
    rfl
  · intro o ho
    simp [State.init] at ho

/-- Every state a program reaches is consistent. -/
theorem run_Inv : ∀ (ops : List Op) {s t : State}, Inv s → run ops s = some t → Inv t
  | [], s, t, hinv, hr => by
    simp only [run, Option.some.injEq] at hr
    subst hr
    exact hinv
  | op :: ops, s, t, hinv, hr => by
    simp only [run, Option.bind_eq_some] at hr
    obtain ⟨u, hu, hr⟩ := hr
    exact run_Inv ops (step_Inv hinv hu) hr

theorem deleteThisWith_pres {sd : Heap → Nat → Option Heap}
    (hsd : ∀ h c g, sd h c = some g → ObjsPres h g) {h g : Heap} {c : Nat}
    (hd : deleteThisWith sd h c = some g) : ObjsPres h g := by
  unfold deleteThisWith at hd
  split at hd
  · rename_i h1 e1
    split at hd
    · simp only [Option.some.injEq] at hd
      subst hd
      exact (hsd _ _ _ e1).trans (ObjsPres.setBlock _ _ _)
    · simp at hd
  · simp at hd

theorem DecrWeakRefWith_pres {sd : Heap → Nat → Option Heap}
    (hsd : ∀ h c g, sd h c = some g → ObjsPres h g) {h g : Heap} {c : Nat} {flag : Bool}
    (hd : DecrWeakRefWith sd h c flag = some g) : ObjsPres h g := by
  unfold DecrWeakRefWith at hd
  split at hd
  · split at hd
    · simp only at hd
      split at hd
      · exact (ObjsPres.setBlock _ _ _).trans (deleteThisWith_pres hsd hd)
      · split at hd
        · exact (ObjsPres.setBlock _ _ _).trans (hsd _ _ _ hd)
        · simp only [Option.some.injEq] at hd
          subst hd
          exact ObjsPres.setBlock _ _ _
    · simp only [Option.some.injEq] at hd
      subst hd
      exact ObjsPres.refl _
  · simp at hd

theorem WeakPtr.dtorWith_pres {sd : Heap → Nat → Option Heap}
    (hsd : ∀ h c g, sd h c = some g → ObjsPres h g) {h g : Heap} {w : WeakPtr}
    (hd : WeakPtr.dtorWith sd h w = some g) : ObjsPres h g := by
  unfold WeakPtr.dtorWith at hd
  split at hd
  · exact DecrWeakRefWith_pres hsd hd
  · simp only [Option.some.injEq] at hd
    subst hd
    exact ObjsPres.refl _

theorem destroyObjectWith_pres {sd : Heap → Nat → Option Heap}
    (hsd : ∀ h c g, sd h c = some g → ObjsPres h g) {h g : Heap} {p : Nat}
    (hd : destroyObjectWith sd h p = some g) : ObjsPres h g := by
  unfold destroyObjectWith at hd
  split at hd
  · rename_i o ho
    split at hd
    · have hp : ObjsPres h (h.setObject p { o with alive := false }) :=
        ObjsPres.setObject ho rfl
      exact hp.trans (WeakPtr.dtorWith_pres hsd hd)
    · simp at hd
  · simp at hd

/-- No control-block operation writes a `weak_this_` member. -/
theorem SharedDestructorF_pres : ∀ (n : Nat) (h : Heap) (c : Nat) (g : Heap),
    SharedDestructorF n h c = some g → ObjsPres h g
  | 0, h, c, g, hd => by simp [SharedDestructorF] at hd
  | n + 1, h, c, g, hd => by
    have ih := SharedDestructorF_pres n
    unfold SharedDestructorF at hd
    split at hd
    · rename_i b hb
      split at hd
      · simp only at hd
        have fin : ∀ r : Option Heap, (∀ h1, r = some h1 → ObjsPres h h1) →
            (match r with
              | some h1 =>
                match h1.deref c with
                | some b1 => some (h1.setBlock c
                    { b1 with is_deleted := true, destroyed := b1.destroyed + 1 })
                | none => none
              | none => none) = some g → ObjsPres h g := by
          intro r hr hm
          cases r with
          | none => simp at hm
          | some h1 =>
            simp only at hm
            split at hm
            · simp only [Option.some.injEq] at hm
              subst hm
              exact (hr h1 rfl).trans (ObjsPres.setBlock _ _ _)
            · simp at hm
        refine fin _ ?_ hd
        intro h1 e
        cases hst : b.storage with
        | WithObject =>
          simp only [hst] at e
          exact destroyObjectWith_pres ih e
        | WithPointer =>
          simp only [hst] at e
          split at e
          · cases e; exact ObjsPres.refl h
          · exact destroyObjectWith_pres ih e
      · simp only [Option.some.injEq] at hd
        subst hd
        exact ObjsPres.refl _
    · simp at hd

theorem SharedDestructor_pres (h : Heap) (c : Nat) (g : Heap)
    (hd : SharedDestructor h c = some g) : ObjsPres h g :=
  SharedDestructorF_pres _ h c g hd

theorem DecrRef_pres {h g : Heap} {c : Nat} (hd : DecrRef h c = some g) : ObjsPres h g := by
  unfold DecrRef at hd
  split at hd
  · simp only at hd
    split at hd
    · exact (ObjsPres.setBlock _ _ _).trans (deleteThisWith_pres SharedDestructor_pres hd)
    · split at hd
      · exact (ObjsPres.setBlock _ _ _).trans (SharedDestructor_pres _ _ _ hd)
      · simp only [Option.some.injEq] at hd
        subst hd
        exact ObjsPres.setBlock _ _ _
  · simp at hd

theorem DecrWeakRef_pres {h g : Heap} {c : Nat} {flag : Bool}
    (hd : DecrWeakRef h c flag = some g) : ObjsPres h g :=
  DecrWeakRefWith_pres SharedDestructor_pres hd

theorem IncrRef_pres {h g : Heap} {c : Nat} (hd : IncrRef h c = some g) : ObjsPres h g := by
  obtain ⟨b, -, rfl⟩ := IncrRef_some hd
  exact ObjsPres.setBlock _ _ _

theorem IncrWeakRef_pres {h g : Heap} {c : Nat} {flag : Bool}
    (hd : IncrWeakRef h c flag = some g) : ObjsPres h g := by
  obtain ⟨b, -, rfl⟩ := IncrWeakRef_some hd
  split
  · exact ObjsPres.setBlock _ _ _
  · exact ObjsPres.refl _

theorem release_pres {h g : Heap} {c : Nat}
    (hd : (if c ≠ 0 then DecrRef h c else some h) = some g) : ObjsPres h g := by
  split at hd
  · exact DecrRef_pres hd
  · cases hd; exact ObjsPres.refl _

theorem weak_release_pres {h g : Heap} {c : Nat} {flag : Bool}
    (hd : (if c ≠ 0 then DecrWeakRef h c flag else some h) = some g) : ObjsPres h g := by
  split at hd
  · exact DecrWeakRef_pres hd
  · cases hd; exact ObjsPres.refl _

theorem ObjsPres.all {h g : Heap} (hp : ObjsPres h g) {P : WeakPtr → Prop}
    (hall : ∀ o ∈ h.objects, P o.weak_this_) : ∀ o ∈ g.objects, P o.weak_this_ := by
  intro o ho
  obtain ⟨i, hi⟩ := List.getElem?_of_mem ho
  obtain ⟨o0, ho0, e⟩ := hp.2 i o hi
  rw [e]
  exact hall o0 (List.getElem?_mem ho0)

theorem WeakPtr.ctor_shared_pres {h g : Heap} {sh : SharedPtr} {flag : Bool} {w : WeakPtr}
    (hd : WeakPtr.ctor_shared h sh flag = some (g, w)) :
    ObjsPres h g ∧ w = ⟨sh.cb_, sh.observed_pole_, flag⟩ := by
  unfold WeakPtr.ctor_shared at hd
  simp only at hd
  split at hd
  · cases hi : IncrWeakRef h sh.cb_ flag with
    | none => simp [hi] at hd
    | some h1 =>
      simp only [hi, Option.some.injEq, Prod.mk.injEq] at hd
      obtain ⟨rfl, rfl⟩ := hd
      exact ⟨IncrWeakRef_pres hi, rfl⟩
  · simp only [Option.some.injEq, Prod.mk.injEq] at hd
    obtain ⟨rfl, rfl⟩ := hd
    exact ⟨ObjsPres.refl _, rfl⟩

theorem WeakPtr.weak_ctor_copy_pres {h g : Heap} {other w : WeakPtr}
    (hd : WeakPtr.ctor_copy h other = some (g, w)) :
    ObjsPres h g ∧ w = ⟨other.cb_, other.observed_pole_, false⟩ := by
  unfold WeakPtr.ctor_copy at hd
  simp only at hd
  split at hd
  · cases hi : IncrWeakRef h other.cb_ false with
    | none => simp [hi] at hd
    | some h1 =>
      simp only [hi, Option.some.injEq, Prod.mk.injEq] at hd
      obtain ⟨rfl, rfl⟩ := hd
      exact ⟨IncrWeakRef_pres hi, rfl⟩
  · simp only [Option.some.injEq, Prod.mk.injEq] at hd
    obtain ⟨rfl, rfl⟩ := hd
    exact ⟨ObjsPres.refl _, rfl⟩

theorem WeakPtr.weak_Reset_pres {h g : Heap} {w x : WeakPtr}
    (hd : WeakPtr.Reset h w = some (g, x)) :
    ObjsPres h g ∧ (x = ⟨0, 0, w.is_this_weak_⟩ ∨ x = w) := by
  unfold WeakPtr.Reset at hd
  split at hd
  · cases hi : DecrWeakRef h w.cb_ w.is_this_weak_ with
    | none => simp [hi] at hd
    | some h1 =>
      simp only [hi, Option.some.injEq, Prod.mk.injEq] at hd
      obtain ⟨rfl, rfl⟩ := hd
      exact ⟨DecrWeakRef_pres hi, Or.inl rfl⟩
  · simp only [Option.some.injEq, Prod.mk.injEq] at hd
    obtain ⟨rfl, rfl⟩ := hd
    exact ⟨ObjsPres.refl _, Or.inr rfl⟩

theorem WeakPtr.weak_assign_move_pres {h g : Heap} {this other x y : WeakPtr}
    (hd : WeakPtr.assign_move h this other = some (g, x, y)) :
    ObjsPres h g ∧ x = ⟨other.cb_, other.observed_pole_, other.is_this_weak_⟩ ∧
      y = ⟨0, 0, other.is_this_weak_⟩ := by
  unfold WeakPtr.assign_move at hd
  cases hi : (if this.cb_ ≠ 0 then DecrWeakRef h this.cb_ this.is_this_weak_ else some h) with
  | none => simp [hi] at hd
  | some h1 =>
    simp only [hi, Option.some.injEq, Prod.mk.injEq] at hd
    obtain ⟨rfl, rfl, rfl⟩ := hd
    exact ⟨weak_release_pres hi, rfl, rfl⟩

theorem WeakPtr.weak_assign_copy_pres {h g : Heap} {this other x : WeakPtr}
    (hd : WeakPtr.assign_copy h this other = some (g, x)) :
    ObjsPres h g ∧ x = ⟨other.cb_, other.observed_pole_, other.is_this_weak_⟩ := by
  unfold WeakPtr.assign_copy at hd
  cases hi : (if this.cb_ ≠ 0 then DecrWeakRef h this.cb_ this.is_this_weak_ else some h) with
  | none => simp [hi] at hd
  | some h1 =>
    simp only [hi] at hd
    have hp1 := weak_release_pres hi
    split at hd
    · cases hj : IncrWeakRef h1 other.cb_ other.is_this_weak_ with
      | none => simp [hj] at hd
      | some h2 =>
        simp only [hj, Option.some.injEq, Prod.mk.injEq] at hd
        obtain ⟨rfl, rfl⟩ := hd
        exact ⟨hp1.trans (IncrWeakRef_pres hj), rfl⟩
    · simp only [Option.some.injEq, Prod.mk.injEq] at hd
      obtain ⟨rfl, rfl⟩ := hd
      exact ⟨hp1, rfl⟩

theorem WeakPtr.weak_dtor_pres {h g : Heap} {w : WeakPtr} (hd : WeakPtr.dtor h w = some g) :
    ObjsPres h g :=
  WeakPtr.dtorWith_pres SharedDestructor_pres hd

/-- After `SetWeakPtr` every `weak_this_` member is an old one or the tagged
handle made from the `SharedPtr`. -/
theorem SetWeakPtr_all {h g : Heap} {p : Nat} {sh : SharedPtr} {P : WeakPtr → Prop}
    (hall : ∀ o ∈ h.objects, P o.weak_this_) (hnew : P ⟨sh.cb_, sh.observed_pole_, true⟩)
    (hd : SetWeakPtr h p sh = some g) : ∀ o ∈ g.objects, P o.weak_this_ := by
  unfold SetWeakPtr at hd
  cases hc : WeakPtr.ctor_shared h sh true with
  | none => simp [hc] at hd
  | some r =>
    obtain ⟨h1, temp⟩ := r
    obtain ⟨hp1, rfl⟩ := WeakPtr.ctor_shared_pres hc
    simp only [hc] at hd
    cases ho : h1.object? p with
    | none => simp [ho] at hd
    | some o =>
      simp only [ho] at hd
      split at hd
      · cases ha : WeakPtr.assign_move h1 o.weak_this_ ⟨sh.cb_, sh.observed_pole_, true⟩ with
        | none => simp [ha] at hd
        | some r2 =>
          obtain ⟨h2, x, y⟩ := r2
          obtain ⟨hp2, rfl, rfl⟩ := WeakPtr.weak_assign_move_pres ha
          simp only [ha] at hd
          cases ho2 : h2.object? p with
          | none => simp [ho2] at hd
          | some o2 =>
            simp only [ho2] at hd
            split at hd
            · have h2all := (hp1.trans hp2).all hall
              have h3all : ∀ o ∈ (h2.setObject p
                  { o2 with weak_this_ := ⟨sh.cb_, sh.observed_pole_, true⟩ }).objects,
                  P o.weak_this_ := by
                intro z hz
                rcases List.mem_or_eq_of_mem_set hz with hm | rfl
                · exact h2all z hm
                · exact hnew
              exact (WeakPtr.weak_dtor_pres hd).all h3all
            · simp at hd
      · simp at hd

theorem SharedPtr.ctor_copy_pres {h g : Heap} {a x : SharedPtr}
    (hd : SharedPtr.ctor_copy h a = some (g, x)) : ObjsPres h g ∧ x = a := by
  unfold SharedPtr.ctor_copy at hd
  simp only at hd
  split at hd
  · cases hc : IncrRef h a.cb_ with
    | none => simp [hc] at hd
    | some h1 =>
      simp only [hc, Option.some.injEq, Prod.mk.injEq] at hd
      obtain ⟨rfl, rfl⟩ := hd
      exact ⟨IncrRef_pres hc, rfl⟩
  · simp only [Option.some.injEq, Prod.mk.injEq] at hd
    obtain ⟨rfl, rfl⟩ := hd
    exact ⟨ObjsPres.refl _, rfl⟩

theorem SharedPtr.ctor_alias_pres {h g : Heap} {a x : SharedPtr} {ptr : Nat}
    (hd : SharedPtr.ctor_alias h a ptr = some (g, x)) :
    ObjsPres h g ∧ x = ⟨a.cb_, ptr⟩ ∧ a.cb_ ≠ 0 := by
  unfold SharedPtr.ctor_alias at hd
  cases hc : IncrRef h a.cb_ with
  | none => simp [hc] at hd
  | some h1 =>
    simp only [hc, Option.some.injEq, Prod.mk.injEq] at hd
    obtain ⟨rfl, rfl⟩ := hd
    obtain ⟨b, hb, -⟩ := IncrRef_some hc
    exact ⟨IncrRef_pres hc, rfl, Heap.deref_ne_zero hb⟩

theorem SharedPtr.ctor_weak_pres {h : Heap} {w : WeakPtr} {r : Outcome SharedPtr}
    (hd : SharedPtr.ctor_weak h w = some r) :
    (∃ g, r = Outcome.value g ⟨w.cb_, w.observed_pole_⟩ ∧ ObjsPres h g) ∨
    (∃ e, r = Outcome.thrown h e) := by
  unfold SharedPtr.ctor_weak at hd
  simp only at hd
  cases he : w.Expired h with
  | none => simp [he] at hd
  | some v =>
    cases v with
    | true =>
      simp only [he, Option.some.injEq] at hd
      exact Or.inr ⟨_, hd.symm⟩
    | false =>
      simp only [he] at hd
      cases hc : IncrRef h w.cb_ with
      | none => simp [hc] at hd
      | some h1 =>
        simp only [hc, Option.some.injEq] at hd
        exact Or.inl ⟨h1, hd.symm, IncrRef_pres hc⟩

theorem WeakPtr.Lock_pres {h : Heap} {w : WeakPtr} {r : Outcome SharedPtr}
    (hd : WeakPtr.Lock h w = some r) :
    (∃ g, r = Outcome.value g ⟨w.cb_, w.observed_pole_⟩ ∧ ObjsPres h g) ∨
    r = Outcome.value h ⟨0, 0⟩ ∨ (∃ e, r = Outcome.thrown h e) := by
  unfold WeakPtr.Lock at hd
  cases he : w.Expired h with
  | none => simp [he] at hd
  | some v =>
    cases v with
    | true =>
      simp only [he, Option.some.injEq] at hd
      exact Or.inr (Or.inl hd.symm)
    | false =>
      simp only [he] at hd
      rcases SharedPtr.ctor_weak_pres hd with hv | ht
      · exact Or.inl hv
      · exact Or.inr (Or.inr ht)

theorem SharedPtr.dtor_pres {h g : Heap} {x : SharedPtr} (hd : SharedPtr.dtor h x = some g) :
    ObjsPres h g :=
  release_pres hd

theorem SharedPtr.Reset_pres {h g : Heap} {x y : SharedPtr}
    (hd : SharedPtr.Reset h x = some (g, y)) : ObjsPres h g ∧ y = ⟨0, 0⟩ := by
  unfold SharedPtr.Reset at hd
  cases hr : (if x.cb_ ≠ 0 then DecrRef h x.cb_ else some h) with
  | none => simp [hr] at hd
  | some h1 =>
    simp only [hr, Option.some.injEq, Prod.mk.injEq] at hd
    obtain ⟨rfl, rfl⟩ := hd
    exact ⟨release_pres hr, rfl⟩

theorem SharedPtr.Reset_ptr_pres {h g : Heap} {x y : SharedPtr} {ptr : Nat}
    (hd : SharedPtr.Reset_ptr h x ptr = some (g, y)) :
    ObjsPres h g ∧ y.cb_ ≠ 0 ∧ y.observed_pole_ = ptr := by
  unfold SharedPtr.Reset_ptr at hd
  cases hr : (if x.cb_ ≠ 0 then DecrRef h x.cb_ else some h) with
  | none => simp [hr] at hd
  | some h1 =>
    simp only [hr, newControlBlockWithPointer, Option.some.injEq, Prod.mk.injEq] at hd
    obtain ⟨rfl, rfl⟩ := hd
    exact ⟨(release_pres hr).trans (ObjsPres.of_objects_eq rfl), Nat.succ_ne_zero _, rfl⟩

theorem SharedPtr.assign_copy_pres {h g : Heap} {this other x : SharedPtr} {aliased : Bool}
    (hd : SharedPtr.assign_copy h this other aliased = some (g, x)) :
    ObjsPres h g ∧ (x = other ∨ x = this) := by
  unfold SharedPtr.assign_copy at hd
  split at hd
  · cases hr : (if this.cb_ ≠ 0 then DecrRef h this.cb_ else some h) with
    | none => simp [hr] at hd
    | some h1 =>
      simp only [hr] at hd
      split at hd
      · cases hc : IncrRef h1 other.cb_ with
        | none => simp [hc] at hd
        | some h2 =>
          simp only [hc, Option.some.injEq, Prod.mk.injEq] at hd
          obtain ⟨rfl, rfl⟩ := hd
          exact ⟨(release_pres hr).trans (IncrRef_pres hc), Or.inl rfl⟩
      · simp only [Option.some.injEq, Prod.mk.injEq] at hd
        obtain ⟨rfl, rfl⟩ := hd
        exact ⟨release_pres hr, Or.inl rfl⟩
  · simp only [Option.some.injEq, Prod.mk.injEq] at hd
    obtain ⟨rfl, rfl⟩ := hd
    exact ⟨ObjsPres.refl _, Or.inr rfl⟩

theorem SharedPtr.assign_move_pres {h g : Heap} {this other x y : SharedPtr} {aliased : Bool}
    (hd : SharedPtr.assign_move h this other aliased = some (g, x, y)) :
    ObjsPres h g ∧ ((x = other ∧ y = ⟨0, 0⟩) ∨ (x = this ∧ y = other)) := by
  unfold SharedPtr.assign_move at hd
  split at hd
  · cases hr : (if this.cb_ ≠ 0 then DecrRef h this.cb_ else some h) with
    | none => simp [hr] at hd
    | some h1 =>
      simp only [hr, Option.some.injEq, Prod.mk.injEq] at hd
      obtain ⟨rfl, rfl, rfl⟩ := hd
      exact ⟨release_pres hr, Or.inl ⟨rfl, rfl⟩⟩
  · simp only [Option.some.injEq, Prod.mk.injEq] at hd
    obtain ⟨rfl, rfl, rfl⟩ := hd
    exact ⟨ObjsPres.refl _, Or.inr ⟨rfl, rfl⟩⟩

theorem SharedPtr.ctor_ptr_all {h g : Heap} {esft : Bool} {ptr : Nat} {x : SharedPtr}
    {P : WeakPtr → Prop} (hall : ∀ o ∈ h.objects, P o.weak_this_)
    (hnew : P ⟨h.blocks.length + 1, ptr, true⟩)
    (hd : SharedPtr.ctor_ptr esft h ptr = some (g, x)) :
    (∀ o ∈ g.objects, P o.weak_this_) ∧ x = ⟨h.blocks.length + 1, ptr⟩ := by
  unfold SharedPtr.ctor_ptr at hd
  simp only [newControlBlockWithPointer] at hd
  cases esft with
  | true =>
    simp only [if_true] at hd
    split at hd
    · rename_i h2 hs
      simp only [Option.some.injEq, Prod.mk.injEq] at hd
      obtain ⟨rfl, rfl⟩ := hd
      exact ⟨SetWeakPtr_all (h := Heap.mk
        (h.blocks ++ [⟨1, 0, false, Storage.WithPointer, ptr, false, 0⟩]) h.objects)
        hall hnew hs, rfl⟩
    · simp at hd
  | false =>
    simp only [Bool.false_eq_true, if_false, Option.some.injEq, Prod.mk.injEq] at hd
    obtain ⟨rfl, rfl⟩ := hd
    exact ⟨hall, rfl⟩

theorem MakeShared_all {h g : Heap} {esft : Bool} {x : SharedPtr}
    {P : WeakPtr → Prop} (hall : ∀ o ∈ h.objects, P o.weak_this_) (hdef : P ⟨0, 0, false⟩)
    (hnew : P ⟨h.blocks.length + 1, h.objects.length + 1, true⟩)
    (hd : MakeShared esft h = some (g, x)) :
    (∀ o ∈ g.objects, P o.weak_this_) ∧ x = ⟨h.blocks.length + 1, h.objects.length + 1⟩ := by
  unfold MakeShared at hd
  simp only [newControlBlockWithObject] at hd
  have hd0 : (Heap.mk (h.blocks ++ [⟨1, 0, false, Storage.WithObject, h.objects.length + 1,
      false, 0⟩]) (h.objects ++ [⟨⟨0, 0, false⟩, true⟩])).deref (h.blocks.length + 1)
      = some ⟨1, 0, false, Storage.WithObject, h.objects.length + 1, false, 0⟩ :=
    Heap.deref_eq_some.mpr ⟨Heap.block?_append_new _ _ _, rfl⟩
  simp only [GetObjectPtr, hd0] at hd
  have hall1 : ∀ o ∈ (h.objects ++ [(⟨⟨0, 0, false⟩, true⟩ : Object)]), P o.weak_this_ := by
    intro o ho
    simp only [List.mem_append, List.mem_singleton] at ho
    rcases ho with hm | rfl
    · exact hall o hm
    · exact hdef
  cases esft with
  | true =>
    simp only [if_true] at hd
    split at hd
    · rename_i h2 hs
      simp only [Option.some.injEq, Prod.mk.injEq] at hd
      obtain ⟨rfl, rfl⟩ := hd
      exact ⟨SetWeakPtr_all (h := Heap.mk (h.blocks ++ [⟨1, 0, false, Storage.WithObject,
        h.objects.length + 1, false, 0⟩]) (h.objects ++ [⟨⟨0, 0, false⟩, true⟩]))
        hall1 hnew hs, rfl⟩
    · simp at hd
  | false =>
    simp only [Bool.false_eq_true, if_false, Option.some.injEq, Prod.mk.injEq] at hd
    obtain ⟨rfl, rfl⟩ := hd
    exact ⟨hall1, rfl⟩

theorem Shaped.zero (strict : Bool) : Shaped strict 0 0 :=
  ⟨fun _ => rfl, fun _ _ => rfl⟩

theorem Shaped.of_ne {strict : Bool} {c p : Nat} (hc : c ≠ 0) (hp : strict = true → p ≠ 0) :
    Shaped strict c p :=
  ⟨fun e => absurd e hc, fun hs e => absurd e (hp hs)⟩

theorem all_push {α : Type} {Q : α → Prop} {l : List (Option α)} {y : α}
    (hl : ∀ x, some x ∈ l → Q x) (hy : Q y) : ∀ x, some x ∈ l ++ [some y] → Q x := by
  intro x hx
  simp only [List.mem_append, List.mem_singleton, Option.some.injEq] at hx
  rcases hx with hm | rfl
  · exact hl x hm
  · exact hy

theorem all_set {α : Type} {Q : α → Prop} {l : List (Option α)} {i : Nat} {v : Option α}
    (hl : ∀ x, some x ∈ l → Q x) (hv : ∀ y, v = some y → Q y) :
    ∀ x, some x ∈ l.set i v → Q x := by
  intro x hx
  rcases List.mem_or_eq_of_mem_set hx with hm | e
  · exact hl x hm
  · exact hv x e.symm

theorem State.shared?_mem {s : State} {i : Nat} {x : SharedPtr} (h : s.shared? i = some x) :
    some x ∈ s.shared :=
  List.getElem?_mem (State.shared?_eq_some.mp h)

theorem State.weak?_mem {s : State} {k : Nat} {x : WeakPtr} (h : s.weak? k = some x) :
    some x ∈ s.weak :=
  List.getElem?_mem (State.weak?_eq_some.mp h)

theorem ObjsPres.shaped {h g : Heap} (hp : ObjsPres h g) {strict : Bool}
    (hall : ∀ o ∈ h.objects, Shaped strict o.weak_this_.cb_ o.weak_this_.observed_pole_) :
    ∀ o ∈ g.objects, Shaped strict o.weak_this_.cb_ o.weak_this_.observed_pole_ :=
  hp.all (P := fun w => Shaped strict w.cb_ w.observed_pole_) hall

theorem Shape.shape_pushOutcome {strict : Bool} {s : State} {r : Outcome SharedPtr} {w : WeakPtr}
    (hs : Shape strict s) (hw : Shaped strict w.cb_ w.observed_pole_)
    (hr : (∃ g, r = Outcome.value g ⟨w.cb_, w.observed_pole_⟩ ∧ ObjsPres s.heap g) ∨
      r = Outcome.value s.heap ⟨0, 0⟩ ∨ (∃ e, r = Outcome.thrown s.heap e)) :
    Shape strict (s.pushOutcome r) := by
  rcases hr with ⟨g, rfl, hp⟩ | rfl | ⟨e, rfl⟩
  · exact ⟨all_push hs.1 hw, hs.2.1, hp.shaped hs.2.2⟩
  · exact ⟨all_push hs.1 (Shaped.zero strict), hs.2.1, hs.2.2⟩
  · exact hs

/-- Every statement keeps all handles `Shaped`; in the strict sense if the
raw pointer it is given is not `nullptr`. -/
theorem step_Shape {strict : Bool} {s t : State} {op : Op} (hsh : Shape strict s)
    (hnn : strict = true → op.nonNull = true) (hs : step s op = some t) : Shape strict t := by
  obtain ⟨h1, h2, h3⟩ := hsh
  cases op with
  | new_T =>
    simp only [step, Option.some.injEq] at hs
    subst hs
    refine ⟨h1, h2, ?_⟩
    intro o ho
    simp only [newObject, List.mem_append, List.mem_singleton] at ho
    rcases ho with hm | rfl
    · exact h3 o hm
    · exact Shaped.zero strict
  | Shared_default =>
    simp only [step, Option.some.injEq] at hs
    subst hs
    exact ⟨all_push h1 (Shaped.zero strict), h2, h3⟩
  | Shared_ptr esft ptr =>
    simp only [step, Option.bind_eq_some, Option.some.injEq] at hs
    obtain ⟨r, hr, rfl⟩ := hs
    have hp : strict = true → ptr ≠ 0 := by
      intro e; simpa [Op.nonNull] using hnn e
    have hnew : Shaped strict (s.heap.blocks.length + 1) ptr := Shaped.of_ne (by omega) hp
    obtain ⟨ho, hx⟩ := SharedPtr.ctor_ptr_all
      (P := fun w => Shaped strict w.cb_ w.observed_pole_) h3 hnew hr
    refine ⟨all_push h1 ?_, h2, ho⟩
    rw [hx]; exact hnew
  | Make_Shared esft =>
    simp only [step, Option.bind_eq_some, Option.some.injEq] at hs
    obtain ⟨r, hr, rfl⟩ := hs
    have hnew : Shaped strict (s.heap.blocks.length + 1) (s.heap.objects.length + 1) :=
      Shaped.of_ne (by omega) (fun _ => by omega)
    obtain ⟨ho, hx⟩ := MakeShared_all
      (P := fun w => Shaped strict w.cb_ w.observed_pole_) h3 (Shaped.zero strict) hnew hr
    refine ⟨all_push h1 ?_, h2, ho⟩
    rw [hx]; exact hnew
  | Shared_copy i =>
    simp only [step, Option.bind_eq_some, Option.some.injEq] at hs
    obtain ⟨a, ha, r, hr, rfl⟩ := hs
    obtain ⟨hp, hx⟩ := SharedPtr.ctor_copy_pres hr
    refine ⟨all_push h1 ?_, h2, hp.shaped h3⟩
    rw [hx]; exact h1 a (State.shared?_mem ha)
  | Shared_move i =>
    simp only [step, Option.bind_eq_some, Option.some.injEq] at hs
    obtain ⟨a, ha, rfl⟩ := hs
    refine ⟨all_push (all_set h1 ?_) (h1 a (State.shared?_mem ha)), h2, h3⟩
    intro y hy
    cases hy
    exact Shaped.zero strict
  | Shared_alias i ptr =>
    simp only [step, Option.bind_eq_some, Option.some.injEq] at hs
    obtain ⟨a, ha, r, hr, rfl⟩ := hs
    obtain ⟨hp, hx, hc⟩ := SharedPtr.ctor_alias_pres hr
    have hq : strict = true → ptr ≠ 0 := by
      intro e; simpa [Op.nonNull] using hnn e
    refine ⟨all_push h1 ?_, h2, hp.shaped h3⟩
    rw [hx]; exact Shaped.of_ne hc hq
  | Shared_weak k =>
    simp only [step, Option.bind_eq_some, Option.some.injEq] at hs
    obtain ⟨w, hw, r, hr, rfl⟩ := hs
    refine Shape.shape_pushOutcome ⟨h1, h2, h3⟩ (h2 w (State.weak?_mem hw)) ?_
    rcases SharedPtr.ctor_weak_pres hr with hv | ht
    · exact Or.inl hv
    · exact Or.inr (Or.inr ht)
  | Shared_assign_copy i j =>
    simp only [step, Option.bind_eq_some, Option.some.injEq] at hs
    obtain ⟨a, ha, b, hb, r, hr, rfl⟩ := hs
    obtain ⟨hp, hx⟩ := SharedPtr.assign_copy_pres hr
    refine ⟨all_set h1 ?_, h2, hp.shaped h3⟩
    intro y hy
    cases hy
    rcases hx with e | e
    · rw [e]; exact h1 b (State.shared?_mem hb)
    · rw [e]; exact h1 a (State.shared?_mem ha)
  | Shared_assign_move i j =>
    simp only [step, Option.bind_eq_some, Option.some.injEq] at hs
    obtain ⟨a, ha, b, hb, r, hr, rfl⟩ := hs
    obtain ⟨hp, hx⟩ := SharedPtr.assign_move_pres (x := r.2.1) (y := r.2.2) hr
    have ha' := h1 a (State.shared?_mem ha)
    have hb' := h1 b (State.shared?_mem hb)
    refine ⟨all_set (all_set h1 ?_) ?_, h2, hp.shaped h3⟩
    · intro y hy
      cases hy
      rcases hx with ⟨e, -⟩ | ⟨e, -⟩
      · rw [e]; exact hb'
      · rw [e]; exact ha'
    · intro y hy
      cases hy
      rcases hx with ⟨-, e⟩ | ⟨-, e⟩
      · rw [e]; exact Shaped.zero strict
      · rw [e]; exact hb'
  | Shared_dtor i =>
    simp only [step, Option.bind_eq_some, Option.some.injEq] at hs
    obtain ⟨a, ha, r, hr, rfl⟩ := hs
    refine ⟨all_set h1 ?_, h2, (SharedPtr.dtor_pres hr).shaped h3⟩
    intro y hy
    cases hy
  | Shared_Reset i =>
    simp only [step, Option.bind_eq_some, Option.some.injEq] at hs
    obtain ⟨a, ha, r, hr, rfl⟩ := hs
    obtain ⟨hp, hx⟩ := SharedPtr.Reset_pres hr
    refine ⟨all_set h1 ?_, h2, hp.shaped h3⟩
    intro y hy
    cases hy
    rw [hx]; exact Shaped.zero strict
  | Shared_Reset_ptr i ptr =>
    simp only [step, Option.bind_eq_some, Option.some.injEq] at hs
    obtain ⟨a, ha, r, hr, rfl⟩ := hs
    obtain ⟨hp, hc, hx⟩ := SharedPtr.Reset_ptr_pres hr
    have hq : strict = true → ptr ≠ 0 := by
      intro e; simpa [Op.nonNull] using hnn e
    refine ⟨all_set h1 ?_, h2, hp.shaped h3⟩
    intro y hy
    cases hy
    rw [hx]; exact Shaped.of_ne hc hq
  | Shared_Swap i j =>
    simp only [step, Option.bind_eq_some, Option.some.injEq] at hs
    obtain ⟨a, ha, b, hb, rfl⟩ := hs
    refine ⟨all_set (all_set h1 ?_) ?_, h2, h3⟩
    · intro y hy
      cases hy
      exact h1 b (State.shared?_mem hb)
    · intro y hy
      cases hy
      exact h1 a (State.shared?_mem ha)
  | Weak_default =>
    simp only [step, Option.some.injEq] at hs
    subst hs
    exact ⟨h1, all_push h2 (Shaped.zero strict), h3⟩
  | Weak_copy k =>
    simp only [step, Option.bind_eq_some, Option.some.injEq] at hs
    obtain ⟨w, hw, r, hr, rfl⟩ := hs
    obtain ⟨hp, hx⟩ := WeakPtr.weak_ctor_copy_pres hr
    refine ⟨h1, all_push h2 ?_, hp.shaped h3⟩
    rw [hx]; exact h2 w (State.weak?_mem hw)
  | Weak_move k =>
    simp only [step, Option.bind_eq_some, Option.some.injEq] at hs
    obtain ⟨w, hw, rfl⟩ := hs
    refine ⟨h1, all_push (all_set h2 ?_) (h2 w (State.weak?_mem hw)), h3⟩
    intro y hy
    cases hy
    exact Shaped.zero strict
  | Weak_shared i flag =>
    simp only [step, Option.bind_eq_some, Option.some.injEq] at hs
    obtain ⟨a, ha, r, hr, rfl⟩ := hs
    obtain ⟨hp, hx⟩ := WeakPtr.ctor_shared_pres hr
    refine ⟨h1, all_push h2 ?_, hp.shaped h3⟩
    rw [hx]; exact h1 a (State.shared?_mem ha)
  | Weak_assign_copy k l =>
    simp only [step, Option.bind_eq_some, Option.some.injEq] at hs
    obtain ⟨a, ha, b, hb, r, hr, rfl⟩ := hs
    obtain ⟨hp, hx⟩ := WeakPtr.weak_assign_copy_pres hr
    refine ⟨h1, all_set h2 ?_, hp.shaped h3⟩
    intro y hy
    cases hy
    rw [hx]; exact h2 b (State.weak?_mem hb)
  | Weak_assign_move k l =>
    simp only [step, Option.bind_eq_some, Option.some.injEq] at hs
    obtain ⟨a, ha, b, hb, r, hr, rfl⟩ := hs
    obtain ⟨hp, hx, hy⟩ := WeakPtr.weak_assign_move_pres (x := r.2.1) (y := r.2.2) hr
    refine ⟨h1, all_set (all_set h2 ?_) ?_, hp.shaped h3⟩
    · intro y e
      cases e
      rw [hx]; exact h2 b (State.weak?_mem hb)
    · intro y e
      cases e
      rw [hy]; exact Shaped.zero strict
  | Weak_dtor k =>
    simp only [step, Option.bind_eq_some, Option.some.injEq] at hs
    obtain ⟨a, ha, r, hr, rfl⟩ := hs
    refine ⟨h1, all_set h2 ?_, (WeakPtr.weak_dtor_pres hr).shaped h3⟩
    intro y hy
    cases hy
  | Weak_Reset k =>
    simp only [step, Option.bind_eq_some, Option.some.injEq] at hs
    obtain ⟨a, ha, r, hr, rfl⟩ := hs
    obtain ⟨hp, hx⟩ := WeakPtr.weak_Reset_pres hr
    refine ⟨h1, all_set h2 ?_, hp.shaped h3⟩
    intro y hy
    cases hy
    rcases hx with e | e
    · rw [e]; exact Shaped.zero strict
    · rw [e]; exact h2 a (State.weak?_mem ha)
  | Weak_Swap k l =>
    simp only [step, Option.bind_eq_some, Option.some.injEq] at hs
    obtain ⟨a, ha, b, hb, rfl⟩ := hs
    refine ⟨h1, all_set (all_set h2 ?_) ?_, h3⟩
    · intro y hy
      cases hy
      exact h2 b (State.weak?_mem hb)
    · intro y hy
      cases hy
      exact h2 a (State.weak?_mem ha)
  | Weak_Lock k =>
    simp only [step, Option.bind_eq_some, Option.some.injEq] at hs
    obtain ⟨w, hw, r, hr, rfl⟩ := hs
    exact Shape.shape_pushOutcome ⟨h1, h2, h3⟩ (h2 w (State.weak?_mem hw)) (WeakPtr.Lock_pres hr)
  | Shared_From_This ptr =>
    simp only [step, Option.bind_eq_some, Option.some.injEq] at hs
    obtain ⟨r, hr, rfl⟩ := hs
    unfold SharedFromThis at hr
    split at hr
    · rename_i o ho
      split at hr
      · have hm : o ∈ s.heap.objects := by
          unfold Heap.object? at ho
          split at ho
          · simp at ho
          · exact List.getElem?_mem ho
        exact Shape.shape_pushOutcome ⟨h1, h2, h3⟩ (h3 o hm) (WeakPtr.Lock_pres hr)
      · simp at hr
    · simp at hr
  | Weak_From_This ptr =>
    simp only [step, Option.bind_eq_some, Option.some.injEq] at hs
    obtain ⟨r, hr, rfl⟩ := hs
    unfold WeakFromThis at hr
    split at hr
    · rename_i o ho
      split at hr
      · have hm : o ∈ s.heap.objects := by
          unfold Heap.object? at ho
          split at ho
          · simp at ho
          · exact List.getElem?_mem ho
        obtain ⟨hp, hx⟩ := WeakPtr.weak_ctor_copy_pres hr
        refine ⟨h1, all_push h2 ?_, hp.shaped h3⟩
        rw [hx]; exact h3 o hm
      · simp at hr
    · simp at hr

theorem Shape.shape_init (strict : Bool) : Shape strict State.init := by
  refine ⟨?_, ?_, ?_⟩ <;> intro x hx <;> simp [State.init] at hx

/-- Every state a program reaches has all handles `Shaped`; in the strict
sense if no statement is given a null raw pointer. -/
theorem run_Shape (strict : Bool) : ∀ (ops : List Op) {s t : State}, Shape strict s →
    (strict = true → ∀ op ∈ ops, op.nonNull = true) → run ops s = some t → Shape strict t
  | [], s, t, hsh, _, hr => by
    simp only [run, Option.some.injEq] at hr
    subst hr
    exact hsh
  | op :: ops, s, t, hsh, hnn, hr => by
    simp only [run, Option.bind_eq_some] at hr
    obtain ⟨u, hu, hr⟩ := hr
    exact run_Shape strict ops
      (step_Shape hsh (fun e => hnn e op (List.mem_cons_self _ _)) hu)
      (fun e o ho => hnn e o (List.mem_cons_of_mem _ ho)) hr

theorem WeakGood.w_congr {h : Heap} {n m n1 m1 : Nat → Nat} (hw : WeakGood h n m)
    (en : ∀ c, c ≠ 0 → n1 c = n c) (em : ∀ c, c ≠ 0 → m1 c = m c) : WeakGood h n1 m1 := by
  refine ⟨?_, ?_⟩
  · intro c b hb
    have h0 := Heap.block?_ne_zero hb
    rw [en c h0, em c h0]
    exact hw.1 c b hb
  · intro c hc hb
    rw [em c hc]
    exact hw.2 c hc hb

theorem WeakGood.w_update {h g : Heap} {n m n1 m1 : Nat → Nat} {c : Nat}
    {b d : ControlBlockBase} (hw : WeakGood h n m) (hb : h.block? c = some b)
    (e : g.blocks = h.blocks.set (c - 1) d) (hd : WGood (n1 c) (m1 c) d)
    (hn : ∀ x, x ≠ 0 → x ≠ c → n1 x = n x) (hm : ∀ x, x ≠ 0 → x ≠ c → m1 x = m x) :
    WeakGood g n1 m1 := by
  refine ⟨?_, ?_⟩
  · intro x bx hx
    rw [Heap.block?_of_set hb e x] at hx
    by_cases hxc : x = c
    · subst hxc
      simp at hx
      subst hx
      exact hd
    · simp only [hxc, if_false] at hx
      have h0 := Heap.block?_ne_zero hx
      rw [hn x h0 hxc, hm x h0 hxc]
      exact hw.1 x bx hx
  · intro x hx0 hx
    rw [Heap.block?_of_set hb e x] at hx
    by_cases hxc : x = c
    · subst hxc
      simp at hx
    · simp only [hxc, if_false] at hx
      rw [hm x hx0 hxc]
      exact hw.2 x hx0 hx

theorem WeakGood.w_same_blocks {h g : Heap} {n m : Nat → Nat} (hw : WeakGood h n m)
    (e : g.blocks = h.blocks) : WeakGood g n m := by
  refine ⟨?_, ?_⟩
  · intro c b hb
    rw [Heap.block?_congr e] at hb
    exact hw.1 c b hb
  · intro c hc hb
    rw [Heap.block?_congr e] at hb
    exact hw.2 c hc hb

theorem WeakGood.w_incr {h g : Heap} {n m n1 : Nat → Nat} {c : Nat} (hw : WeakGood h n m)
    (hd : IncrRef h c = some g) (hc : n1 c = n c + 1)
    (hn : ∀ x, x ≠ 0 → x ≠ c → n1 x = n x) : WeakGood g n1 m := by
  obtain ⟨b, hb, rfl⟩ := IncrRef_some hd
  obtain ⟨hblk, hfr⟩ := Heap.deref_eq_some.mp hb
  obtain ⟨w1, w2⟩ := hw.1 c b hblk
  refine hw.w_update hblk rfl ?_ hn (fun _ _ _ => rfl)
  rw [hc]
  refine ⟨w1, ?_⟩
  simp [hfr]

theorem WeakGood.w_decr {h g : Heap} {n m n1 : Nat → Nat} {c : Nat} (hg : HeapGood h n)
    (hw : WeakGood h n m) (hd : DecrRef h c = some g) (hn1 : 1 ≤ n c) (hc : n1 c + 1 = n c)
    (hn : ∀ x, x ≠ 0 → x ≠ c → n1 x = n x) : WeakGood g n1 m := by
  obtain ⟨b, hb⟩ := DecrRef_some hd
  obtain ⟨hblk, hfr⟩ := Heap.deref_eq_some.mp hb
  obtain ⟨g1, g2, g3, g4⟩ := hg.1 c b hblk
  obtain ⟨w1, w2⟩ := hw.1 c b hblk
  have hdel : b.is_deleted = false := by
    cases hx : b.is_deleted with
    | false => rfl
    | true => have := g3.mp hx; omega
  obtain ⟨-, hbl⟩ := DecrRef_inv hg.2.2 hb (fun _ => hdel) hd
  refine hw.w_update hblk hbl ?_ hn (fun _ _ _ => rfl)
  by_cases h1 : b.ref_count = 1
  · have hm0 : n1 c = 0 := by omega
    simp only [h1, if_true, hm0]
    refine ⟨w1, ?_⟩
    simp only [decide_eq_true_eq, true_and]
    constructor <;> intro hz <;> omega
  · have hm1 : n1 c ≠ 0 := by omega
    simp only [h1, if_false]
    refine ⟨w1, ?_⟩
    simp [hfr, hm1]

theorem WeakGood.w_incrWeak {h g : Heap} {n m m1 : Nat → Nat} {c : Nat} {flag : Bool}
    (hw : WeakGood h n m) (hd : IncrWeakRef h c flag = some g)
    (hc : m1 c = m c + (if flag = true then 0 else 1))
    (hm : ∀ x, x ≠ 0 → x ≠ c → m1 x = m x) : WeakGood g n m1 := by
  obtain ⟨b, hb, rfl⟩ := IncrWeakRef_some hd
  obtain ⟨hblk, hfr⟩ := Heap.deref_eq_some.mp hb
  obtain ⟨w1, w2⟩ := hw.1 c b hblk
  have hc0 := Heap.block?_ne_zero hblk
  cases flag with
  | true =>
    simp only [if_true, Nat.add_zero] at hc
    simp only [Bool.true_eq_false, if_false]
    refine hw.w_congr (fun _ _ => rfl) ?_
    intro x hx
    by_cases hxc : x = c
    · rw [hxc, hc]
    · exact hm x hx hxc
  | false =>
    simp only [Bool.false_eq_true, if_false] at hc
    simp only [if_true]
    refine hw.w_update hblk rfl ?_ (fun _ _ _ => rfl) hm
    rw [hc]
    refine ⟨by simp [w1], ?_⟩
    simp [hfr]

theorem WeakGood.w_decrWeak {h g : Heap} {n m m1 : Nat → Nat} {c : Nat} {flag : Bool}
    (hg : HeapGood h n) (hw : WeakGood h n m) (hd : DecrWeakRef h c flag = some g)
    (hc : m1 c + (if flag = true then 0 else 1) = m c)
    (hm : ∀ x, x ≠ 0 → x ≠ c → m1 x = m x) : WeakGood g n m1 := by
  obtain ⟨b, hb⟩ := DecrWeakRef_some hd
  obtain ⟨hblk, hfr⟩ := Heap.deref_eq_some.mp hb
  obtain ⟨g1, g2, g3, g4⟩ := hg.1 c b hblk
  obtain ⟨w1, w2⟩ := hw.1 c b hblk
  have hc0 := Heap.block?_ne_zero hblk
  have hdel : b.ref_count = 0 → b.is_deleted = true := by
    intro h0
    apply g3.mpr
    omega
  obtain ⟨-, hbl⟩ := DecrWeakRef_inv hg.2.2 hb hdel hd
  cases flag with
  | true =>
    simp only [if_true, Nat.add_zero] at hc
    simp only [if_true] at hbl
    rw [Heap.blocks_set_same hblk] at hbl
    refine (hw.w_same_blocks hbl).w_congr (fun _ _ => rfl) ?_
    intro x hx
    by_cases hxc : x = c
    · rw [hxc, hc]
    · exact hm x hx hxc
  | false =>
    simp only [Bool.false_eq_true, if_false] at hc hbl
    refine hw.w_update hblk hbl ?_ (fun _ _ _ => rfl) hm
    refine ⟨by simp only [w1]; omega, ?_⟩
    simp only [decide_eq_true_eq]
    constructor
    · rintro ⟨h1, h2⟩
      constructor <;> omega
    · rintro ⟨h1, h2⟩
      constructor <;> omega

theorem WeakGood.w_alloc {h g : Heap} {n m n1 : Nat → Nat} {st : Storage} {ob : Nat}
    (hw : WeakGood h n m) (e : g.blocks = h.blocks ++ [⟨1, 0, false, st, ob, false, 0⟩])
    (hc : n1 (h.blocks.length + 1) = 1)
    (hn : ∀ x, x ≠ 0 → x ≠ h.blocks.length + 1 → n1 x = n x) : WeakGood g n1 m := by
  have hfresh : m (h.blocks.length + 1) = 0 := by
    apply hw.2 _ (by omega)
    simp [Heap.block?]
  have key : ∀ x, x ≠ 0 → g.block? x =
      if x = h.blocks.length + 1 then some ⟨1, 0, false, st, ob, false, 0⟩ else h.block? x := by
    intro x hx
    simp only [Heap.block?, hx, if_false, e]
    by_cases hx1 : x = h.blocks.length + 1
    · subst hx1
      simp
    · simp only [hx1, if_false]
      by_cases hlt : x - 1 < h.blocks.length
      · rw [List.getElem?_append_left hlt]
      · rw [List.getElem?_append_right (by omega)]
        rw [List.getElem?_eq_none (by simp; omega), List.getElem?_eq_none (by omega)]
  refine ⟨?_, ?_⟩
  · intro x bx hx
    have hx0 := Heap.block?_ne_zero hx
    rw [key x hx0] at hx
    by_cases hx1 : x = h.blocks.length + 1
    · subst hx1
      simp at hx
      subst hx
      rw [hc, hfresh]
      exact ⟨rfl, by simp⟩
    · simp only [hx1, if_false] at hx
      rw [hn x hx0 hx1]
      exact hw.1 x bx hx
  · intro x hx0 hx
    rw [key x hx0] at hx
    by_cases hx1 : x = h.blocks.length + 1
    · subst hx1
      simp at hx
    · simp only [hx1, if_false] at hx
      exact hw.2 x hx0 hx

theorem watchers_set {l : List (Option WeakPtr)} {i : Nat} {old : Option WeakPtr}
    (hi : l[i]? = some old) (a : Option WeakPtr) (c : Nat) :
    watchers (l.set i a) c + (if watches c old then 1 else 0)
      = watchers l c + (if watches c a then 1 else 0) :=
  countP_set_add (watches c) l i old a hi

theorem watchers_push (l : List (Option WeakPtr)) (a : Option WeakPtr) (c : Nat) :
    watchers (l ++ [a]) c = watchers l c + (if watches c a then 1 else 0) := by
  simp [watchers, List.countP_append, List.countP_cons]

theorem watches_empty (p : Nat) (t : Bool) {c : Nat} (hc : c ≠ 0) :
    watches c (some ⟨0, p, t⟩) = false := by
  simp [watches]
  intro h
  omega

theorem watches_tagged (c p q : Nat) : watches c (some ⟨p, q, true⟩) = false := by
  simp [watches]

theorem watches_self (c q : Nat) : watches c (some ⟨c, q, false⟩) = true := by
  simp [watches]

theorem watches_other {c x : Nat} (q : Nat) (t : Bool) (h : x ≠ c) :
    watches c (some ⟨x, q, t⟩) = false := by
  simp [watches, h]

theorem watches_eta (c : Nat) (w : WeakPtr) :
    watches c (some ⟨w.cb_, w.observed_pole_, w.is_this_weak_⟩) = watches c (some w) := rfl

theorem watchers_set_same {l : List (Option WeakPtr)} {i : Nat} {x : Option WeakPtr}
    (hi : l[i]? = some x) (c : Nat) : watchers (l.set i x) c = watchers l c := by
  have e1 := watchers_set hi x c
  omega

theorem watchers_swap {l : List (Option WeakPtr)} {i j : Nat} {this other : WeakPtr}
    (hi : l[i]? = some (some this)) (hj : l[j]? = some (some other)) (c : Nat) :
    watchers ((l.set i (some other)).set j (some this)) c = watchers l c := by
  by_cases hij : i = j
  · subst hij
    rw [hi] at hj
    cases hj
    rw [List.set_set]
    exact watchers_set_same hi c
  · have e1 := watchers_set hi (some other) c
    have hj1 : (l.set i (some other))[j]? = some (some other) := by
      rw [List.getElem?_set_of_ne _ hij]; exact hj
    have e3 := watchers_set hj1 (some this) c
    omega

theorem watchers_move {l : List (Option WeakPtr)} {i : Nat} {x : WeakPtr}
    (hi : l[i]? = some (some x)) (p : Nat) (t : Bool) (c : Nat) (hc : c ≠ 0) :
    watchers (l.set i (some ⟨0, p, t⟩) ++ [some x]) c = watchers l c := by
  have e1 := watchers_set hi (some ⟨0, p, t⟩) c
  simp only [watches_empty _ _ hc] at e1
  simp at e1
  rw [watchers_push]
  omega

/-- Releasing what weak variable `k` refers to (which then is empty or gone,
`y`) keeps weak-count consistency. -/
theorem WeakGood.weak_release_set {h g : Heap} {n : Nat → Nat} {l : List (Option WeakPtr)}
    {k : Nat} {w : WeakPtr} (hg : HeapGood h n) (hw : WeakGood h n (watchers l))
    (hk : l[k]? = some (some w))
    (hd : (if w.cb_ ≠ 0 then DecrWeakRef h w.cb_ w.is_this_weak_ else some h) = some g)
    (y : Option WeakPtr) (hy : ∀ c, c ≠ 0 → watches c y = false) :
    WeakGood g n (watchers (l.set k y)) := by
  by_cases hx : w.cb_ = 0
  · simp only [hx, ne_eq, not_true_eq_false, if_false] at hd
    cases hd
    refine hw.w_congr (fun _ _ => rfl) ?_
    intro c hc
    have := watchers_set hk y c
    have h0 : w.cb_ ≠ c := by omega
    obtain ⟨wc, wp, wt⟩ := w
    simp only at h0
    simp only [hy c hc, watches_other wp wt h0] at this
    simpa using this
  · simp only [ne_eq, hx, not_false_eq_true, if_true] at hd
    obtain ⟨wc, wp, wt⟩ := w
    simp only at hx hd
    refine hw.w_decrWeak hg hd ?_ ?_
    · have := watchers_set hk y wc
      simp only [hy _ hx] at this
      cases wt with
      | true =>
        simp only [watches_tagged] at this
        simpa using this
      | false =>
        simp only [watches_self] at this
        simpa using this
    · intro c hc hcx
      have := watchers_set hk y c
      have h0 : wc ≠ c := fun e => hcx e.symm
      simp only [hy c hc, watches_other wp wt h0] at this
      simpa using this

/-- Taking a weak reference into a fresh variable keeps weak-count consistency. -/
theorem WeakGood.weak_acquire_push {h g : Heap} {n : Nat → Nat} {l : List (Option WeakPtr)}
    {c : Nat} {flag : Bool} (hw : WeakGood h n (watchers l))
    (hd : (if c ≠ 0 then IncrWeakRef h c flag else some h) = some g) (p : Nat) :
    WeakGood g n (watchers (l ++ [some ⟨c, p, flag⟩])) := by
  by_cases hc : c = 0
  · simp only [hc, ne_eq, not_true_eq_false, if_false] at hd
    cases hd
    subst hc
    refine hw.w_congr (fun _ _ => rfl) ?_
    intro x hx
    simp [watchers_push, watches_empty p flag hx]
  · simp only [ne_eq, hc, not_false_eq_true, if_true] at hd
    refine hw.w_incrWeak hd ?_ ?_
    · rw [watchers_push]
      cases flag with
      | true => simp [watches_tagged]
      | false => simp [watches_self]
    · intro x _ hx
      have h0 : c ≠ x := fun e => hx e.symm
      simp [watchers_push, watches_other p flag h0]

/-- Taking a weak reference into a variable that was empty keeps weak-count
consistency. -/
theorem WeakGood.weak_acquire_set {h g : Heap} {n : Nat → Nat} {l : List (Option WeakPtr)}
    {c k q : Nat} {t flag : Bool} (hw : WeakGood h n (watchers l))
    (hk : l[k]? = some (some ⟨0, q, t⟩))
    (hd : (if c ≠ 0 then IncrWeakRef h c flag else some h) = some g) (p : Nat) :
    WeakGood g n (watchers (l.set k (some ⟨c, p, flag⟩))) := by
  by_cases hc : c = 0
  · simp only [hc, ne_eq, not_true_eq_false, if_false] at hd
    cases hd
    subst hc
    refine hw.w_congr (fun _ _ => rfl) ?_
    intro x hx
    have := watchers_set hk (some ⟨0, p, flag⟩) x
    simp only [watches_empty _ _ hx] at this
    simpa using this
  · simp only [ne_eq, hc, not_false_eq_true, if_true] at hd
    refine hw.w_incrWeak hd ?_ ?_
    · have := watchers_set hk (some ⟨c, p, flag⟩) c
      simp only [watches_empty _ _ hc] at this
      cases flag with
      | true =>
        simp only [watches_tagged] at this
        simpa using this
      | false =>
        simp only [watches_self] at this
        simpa using this
    · intro x hx0 hx
      have h0 : c ≠ x := fun e => hx e.symm
      have := watchers_set hk (some ⟨c, p, flag⟩) x
      simp only [watches_empty _ _ hx0, watches_other p flag h0] at this
      simpa using this

theorem WeakGood.w_release {h g : Heap} {l : List (Option SharedPtr)} {m : Nat → Nat} {i : Nat}
    {x : SharedPtr} (hg : HeapGood h (owners l)) (hw : WeakGood h (owners l) m)
    (hi : l[i]? = some (some x))
    (hd : (if x.cb_ ≠ 0 then DecrRef h x.cb_ else some h) = some g)
    (y : Option SharedPtr) (hy : ∀ c, c ≠ 0 → holds c y = false) :
    WeakGood g (owners (l.set i y)) m := by
  by_cases hx : x.cb_ = 0
  · simp only [hx, ne_eq, not_true_eq_false, if_false] at hd
    cases hd
    refine hw.w_congr ?_ (fun _ _ => rfl)
    intro c hc
    have := owners_set hi y c
    simp only [hy c hc, holds_some, hx] at this
    have h0 : ¬ (0 = c) := fun e => hc e.symm
    simp [h0] at this
    exact this
  · simp only [ne_eq, hx, not_false_eq_true, if_true] at hd
    refine hw.w_decr hg hd (owners_pos hi) ?_ ?_
    · have := owners_set hi y x.cb_
      simp only [hy _ hx, holds_some] at this
      simp at this
      exact this
    · intro c hc hcx
      have := owners_set hi y c
      simp only [hy c hc, holds_some] at this
      have h0 : ¬ (x.cb_ = c) := fun e => hcx e.symm
      simp [h0] at this
      exact this

theorem WeakGood.w_acquire_push {h g : Heap} {l : List (Option SharedPtr)} {m : Nat → Nat}
    {c : Nat} (hw : WeakGood h (owners l) m) (hd : IncrRef h c = some g) (p : Nat) :
    WeakGood g (owners (l ++ [some ⟨c, p⟩])) m := by
  refine hw.w_incr hd ?_ ?_
  · simp [owners_push, holds_some]
  · intro x _ hx
    have h0 : ¬ (c = x) := fun e => hx e.symm
    simp [owners_push, holds_some, h0]

theorem WeakGood.w_acquire_set {h g : Heap} {l : List (Option SharedPtr)} {m : Nat → Nat}
    {c i q : Nat} (hw : WeakGood h (owners l) m) (hi : l[i]? = some (some ⟨0, q⟩))
    (hd : IncrRef h c = some g) (p : Nat) :
    WeakGood g (owners (l.set i (some ⟨c, p⟩))) m := by
  obtain ⟨b, hb, -⟩ := IncrRef_some hd
  have hc0 := Heap.deref_ne_zero hb
  refine hw.w_incr hd ?_ ?_
  · have := owners_set hi (some ⟨c, p⟩) c
    simp only [holds_empty q hc0, holds_some] at this
    simpa using this
  · intro x hx0 hx
    have h0 : ¬ (c = x) := fun e => hx e.symm
    have := owners_set hi (some ⟨c, p⟩) x
    simp only [holds_empty q hx0, holds_some] at this
    simpa [h0] using this

theorem WeakGood.w_push_empty {h : Heap} {l : List (Option SharedPtr)} {m : Nat → Nat}
    (hw : WeakGood h (owners l) m) (p : Nat) : WeakGood h (owners (l ++ [some ⟨0, p⟩])) m := by
  refine hw.w_congr ?_ (fun _ _ => rfl)
  intro c hc
  simp [owners_push, holds_empty p hc]

theorem WeakGood.w_alloc_push {h g : Heap} {l : List (Option SharedPtr)} {m : Nat → Nat}
    {st : Storage} {ob : Nat} (hg : HeapGood h (owners l)) (hw : WeakGood h (owners l) m)
    (e : g.blocks = h.blocks ++ [⟨1, 0, false, st, ob, false, 0⟩]) (p : Nat) :
    WeakGood g (owners (l ++ [some ⟨h.blocks.length + 1, p⟩])) m := by
  refine hw.w_alloc e ?_ ?_
  · simp [owners_push, holds_some, hg.fresh]
  · intro x _ hx
    have h0 : ¬ (h.blocks.length + 1 = x) := fun e => hx e.symm
    simp [owners_push, holds_some, h0]

theorem WeakGood.w_alloc_set {h g : Heap} {l : List (Option SharedPtr)} {m : Nat → Nat}
    {st : Storage} {ob i q : Nat} (hg : HeapGood h (owners l)) (hw : WeakGood h (owners l) m)
    (hi : l[i]? = some (some ⟨0, q⟩))
    (e : g.blocks = h.blocks ++ [⟨1, 0, false, st, ob, false, 0⟩]) (p : Nat) :
    WeakGood g (owners (l.set i (some ⟨h.blocks.length + 1, p⟩))) m := by
  refine hw.w_alloc e ?_ ?_
  · have := owners_set hi (some ⟨h.blocks.length + 1, p⟩) (h.blocks.length + 1)
    simp only [holds_empty q (Nat.succ_ne_zero _), holds_some, hg.fresh] at this
    simpa using this
  · intro x hx0 hx
    have h0 : ¬ (h.blocks.length + 1 = x) := fun e => hx e.symm
    have := owners_set hi (some ⟨h.blocks.length + 1, p⟩) x
    simp only [holds_empty q hx0, holds_some] at this
    simpa [h0] using this

theorem HeapGood.weak_this_release {h g : Heap} {n m : Nat → Nat} {w : WeakPtr}
    (hg : HeapGood h n) (hw : WeakGood h n m)
    (ht : w.cb_ = 0 ∨ w.is_this_weak_ = true)
    (hd : (if w.cb_ ≠ 0 then DecrWeakRef h w.cb_ w.is_this_weak_ else some h) = some g) :
    WeakGood g n m := by
  split at hd
  · rename_i hc
    rcases ht with ht | ht
    · exact absurd ht hc
    · rw [ht] at hd
      exact hw.w_decrWeak hg hd (by simp) (fun _ _ _ => rfl)
  · cases hd
    exact hw

theorem SetWeakPtr_weak {h g : Heap} {n m : Nat → Nat} {p : Nat} {sh : SharedPtr}
    (hg : HeapGood h n) (hw : WeakGood h n m) (hd : SetWeakPtr h p sh = some g) :
    WeakGood g n m := by
  unfold SetWeakPtr at hd
  cases hc : WeakPtr.ctor_shared h sh true with
  | none => simp [hc] at hd
  | some r =>
    obtain ⟨h1, temp⟩ := r
    obtain ⟨hg1, rfl⟩ := WeakPtr.ctor_shared_good hg hc
    have hw1 : WeakGood h1 n m := by
      unfold WeakPtr.ctor_shared at hc
      simp only at hc
      split at hc
      · cases hi : IncrWeakRef h sh.cb_ true with
        | none => simp [hi] at hc
        | some h2 =>
          simp only [hi, Option.some.injEq, Prod.mk.injEq] at hc
          obtain ⟨rfl, -⟩ := hc
          exact hw.w_incrWeak hi (by simp) (fun _ _ _ => rfl)
      · simp only [Option.some.injEq, Prod.mk.injEq] at hc
        obtain ⟨rfl, -⟩ := hc
        exact hw
    simp only [hc] at hd
    cases ho : h1.object? p with
    | none => simp [ho] at hd
    | some o =>
      simp only [ho] at hd
      split at hd
      · cases ha : WeakPtr.assign_move h1 o.weak_this_ ⟨sh.cb_, sh.observed_pole_, true⟩ with
        | none => simp [ha] at hd
        | some r2 =>
          obtain ⟨h2, x, y⟩ := r2
          obtain ⟨hg2, rfl, rfl⟩ := WeakPtr.weak_assign_move_good hg1 ha
          have hw2 : WeakGood h2 n m := by
            unfold WeakPtr.assign_move at ha
            cases hi : (if o.weak_this_.cb_ ≠ 0
                then DecrWeakRef h1 o.weak_this_.cb_ o.weak_this_.is_this_weak_
                else some h1) with
            | none => simp [hi] at ha
            | some h3 =>
              simp only [hi, Option.some.injEq, Prod.mk.injEq] at ha
              obtain ⟨rfl, -, -⟩ := ha
              exact hg1.weak_this_release hw1 (hg1.2.2.object ho) hi
          simp only [ha] at hd
          cases ho2 : h2.object? p with
          | none => simp [ho2] at hd
          | some o2 =>
            simp only [ho2] at hd
            split at hd
            · simp only [WeakPtr.dtor, WeakPtr.dtorWith, ne_eq, not_true_eq_false, if_false,
                Option.some.injEq] at hd
              subst hd
              exact hw2.w_same_blocks rfl
            · simp at hd
      · simp at hd

theorem SharedPtr.ctor_ptr_weak {h g : Heap} {l : List (Option SharedPtr)} {m : Nat → Nat}
    {esft : Bool} {ptr : Nat} {x : SharedPtr} (hg : HeapGood h (owners l))
    (hw : WeakGood h (owners l) m) (hd : SharedPtr.ctor_ptr esft h ptr = some (g, x)) :
    WeakGood g (owners (l ++ [some x])) m := by
  unfold SharedPtr.ctor_ptr at hd
  simp only [newControlBlockWithPointer] at hd
  have hg1 : HeapGood (Heap.mk (h.blocks ++ [⟨1, 0, false, Storage.WithPointer, ptr, false, 0⟩])
      h.objects) (owners (l ++ [some ⟨h.blocks.length + 1, ptr⟩])) :=
    hg.alloc_push (g := Heap.mk
      (h.blocks ++ [⟨1, 0, false, Storage.WithPointer, ptr, false, 0⟩]) h.objects)
      rfl hg.2.2 ptr
  have hw1 : WeakGood (Heap.mk (h.blocks ++ [⟨1, 0, false, Storage.WithPointer, ptr, false, 0⟩])
      h.objects) (owners (l ++ [some ⟨h.blocks.length + 1, ptr⟩])) m :=
    hw.w_alloc_push hg rfl ptr
  cases esft with
  | true =>
    simp only [if_true] at hd
    split at hd
    · rename_i h2 hs
      simp only [Option.some.injEq, Prod.mk.injEq] at hd
      obtain ⟨rfl, rfl⟩ := hd
      exact SetWeakPtr_weak hg1 hw1 hs
    · simp at hd
  | false =>
    simp only [Bool.false_eq_true, if_false, Option.some.injEq, Prod.mk.injEq] at hd
    obtain ⟨rfl, rfl⟩ := hd
    exact hw1

theorem MakeShared_weak {h g : Heap} {l : List (Option SharedPtr)} {m : Nat → Nat}
    {esft : Bool} {x : SharedPtr} (hg : HeapGood h (owners l))
    (hw : WeakGood h (owners l) m) (hd : MakeShared esft h = some (g, x)) :
    WeakGood g (owners (l ++ [some x])) m := by
  unfold MakeShared at hd
  simp only [newControlBlockWithObject] at hd
  have hh : (Heap.mk h.blocks h.objects).Tagged := hg.2.2
  have hg1 : ∀ p, HeapGood (Heap.mk
      (h.blocks ++ [⟨1, 0, false, Storage.WithObject, h.objects.length + 1, false, 0⟩])
      (h.objects ++ [⟨⟨0, 0, false⟩, true⟩])) (owners (l ++ [some ⟨h.blocks.length + 1, p⟩])) :=
    fun p => hg.alloc_push rfl (hh.push (Or.inl rfl)) p
  have hw1 : ∀ p, WeakGood (Heap.mk
      (h.blocks ++ [⟨1, 0, false, Storage.WithObject, h.objects.length + 1, false, 0⟩])
      (h.objects ++ [⟨⟨0, 0, false⟩, true⟩]))
      (owners (l ++ [some ⟨h.blocks.length + 1, p⟩])) m :=
    fun p => hw.w_alloc_push hg rfl p
  split at hd
  · rename_i step_obj hs
    cases esft with
    | true =>
      simp only [if_true] at hd
      split at hd
      · rename_i h2 hs2
        simp only [Option.some.injEq, Prod.mk.injEq] at hd
        obtain ⟨rfl, rfl⟩ := hd
        exact SetWeakPtr_weak (hg1 _) (hw1 _) hs2
      · simp at hd
    | false =>
      simp only [Bool.false_eq_true, if_false, Option.some.injEq, Prod.mk.injEq] at hd
      obtain ⟨rfl, rfl⟩ := hd
      exact hw1 _
  · simp at hd

theorem SharedPtr.ctor_copy_weak {h g : Heap} {l : List (Option SharedPtr)} {m : Nat → Nat}
    {a x : SharedPtr} (hw : WeakGood h (owners l) m)
    (hd : SharedPtr.ctor_copy h a = some (g, x)) :
    WeakGood g (owners (l ++ [some x])) m := by
  unfold SharedPtr.ctor_copy at hd
  simp only at hd
  split at hd
  · cases hc : IncrRef h a.cb_ with
    | none => simp [hc] at hd
    | some h1 =>
      simp only [hc, Option.some.injEq, Prod.mk.injEq] at hd
      obtain ⟨rfl, rfl⟩ := hd
      exact hw.w_acquire_push hc _
  · rename_i hc
    simp only [ne_eq, not_not] at hc
    simp only [Option.some.injEq, Prod.mk.injEq] at hd
    obtain ⟨rfl, rfl⟩ := hd
    rw [hc]
    exact hw.w_push_empty _

theorem SharedPtr.ctor_alias_weak {h g : Heap} {l : List (Option SharedPtr)} {m : Nat → Nat}
    {ptr : Nat} {a x : SharedPtr} (hw : WeakGood h (owners l) m)
    (hd : SharedPtr.ctor_alias h a ptr = some (g, x)) :
    WeakGood g (owners (l ++ [some x])) m := by
  unfold SharedPtr.ctor_alias at hd
  cases hc : IncrRef h a.cb_ with
  | none => simp [hc] at hd
  | some h1 =>
    simp only [hc, Option.some.injEq, Prod.mk.injEq] at hd
    obtain ⟨rfl, rfl⟩ := hd
    exact hw.w_acquire_push hc _

theorem SharedPtr.ctor_weak_weak {h : Heap} {l : List (Option SharedPtr)} {m : Nat → Nat}
    {w : WeakPtr} {r : Outcome SharedPtr} (hw : WeakGood h (owners l) m)
    (hd : SharedPtr.ctor_weak h w = some r) :
    (∃ g x, r = Outcome.value g x ∧ WeakGood g (owners (l ++ [some x])) m) ∨
    (∃ e, r = Outcome.thrown h e) := by
  unfold SharedPtr.ctor_weak at hd
  simp only at hd
  cases he : w.Expired h with
  | none => simp [he] at hd
  | some v =>
    cases v with
    | true =>
      simp only [he, Option.some.injEq] at hd
      exact Or.inr ⟨_, hd.symm⟩
    | false =>
      simp only [he] at hd
      cases hc : IncrRef h w.cb_ with
      | none => simp [hc] at hd
      | some h1 =>
        simp only [hc, Option.some.injEq] at hd
        exact Or.inl ⟨h1, _, hd.symm, hw.w_acquire_push hc _⟩

theorem WeakPtr.Lock_weak {h : Heap} {l : List (Option SharedPtr)} {m : Nat → Nat}
    {w : WeakPtr} {r : Outcome SharedPtr} (hw : WeakGood h (owners l) m)
    (hd : WeakPtr.Lock h w = some r) :
    (∃ g x, r = Outcome.value g x ∧ WeakGood g (owners (l ++ [some x])) m) ∨
    (∃ e, r = Outcome.thrown h e) := by
  unfold WeakPtr.Lock at hd
  cases he : w.Expired h with
  | none => simp [he] at hd
  | some v =>
    cases v with
    | true =>
      simp only [he, Option.some.injEq] at hd
      exact Or.inl ⟨h, _, hd.symm, hw.w_push_empty 0⟩
    | false =>
      simp only [he] at hd
      exact SharedPtr.ctor_weak_weak hw hd

theorem SharedPtr.Reset_weak {h g : Heap} {l : List (Option SharedPtr)} {m : Nat → Nat}
    {i : Nat} {x y : SharedPtr} (hg : HeapGood h (owners l)) (hw : WeakGood h (owners l) m)
    (hi : l[i]? = some (some x)) (hd : SharedPtr.Reset h x = some (g, y)) :
    WeakGood g (owners (l.set i (some y))) m := by
  unfold SharedPtr.Reset at hd
  cases hr : (if x.cb_ ≠ 0 then DecrRef h x.cb_ else some h) with
  | none => simp [hr] at hd
  | some h1 =>
    simp only [hr, Option.some.injEq, Prod.mk.injEq] at hd
    obtain ⟨rfl, rfl⟩ := hd
    exact hw.w_release hg hi hr _ (fun c hc => holds_empty 0 hc)

theorem SharedPtr.Reset_ptr_weak {h g : Heap} {l : List (Option SharedPtr)} {m : Nat → Nat}
    {i ptr : Nat} {x y : SharedPtr} (hg : HeapGood h (owners l))
    (hw : WeakGood h (owners l) m) (hi : l[i]? = some (some x))
    (hd : SharedPtr.Reset_ptr h x ptr = some (g, y)) :
    WeakGood g (owners (l.set i (some y))) m := by
  unfold SharedPtr.Reset_ptr at hd
  cases hr : (if x.cb_ ≠ 0 then DecrRef h x.cb_ else some h) with
  | none => simp [hr] at hd
  | some h1 =>
    simp only [hr, newControlBlockWithPointer, Option.some.injEq, Prod.mk.injEq] at hd
    obtain ⟨rfl, rfl⟩ := hd
    have hg1 := hg.release hi hr (some ⟨0, 0⟩) (fun c hc => holds_empty 0 hc)
    have hw1 := hw.w_release hg hi hr (some ⟨0, 0⟩) (fun c hc => holds_empty 0 hc)
    have := hw1.w_alloc_set (g := Heap.mk
      (h1.blocks ++ [⟨1, 0, false, Storage.WithPointer, ptr, false, 0⟩]) h1.objects)
      hg1 (List.getElem?_set_self_of_some hi) rfl ptr
    simpa [List.set_set] using this

theorem SharedPtr.assign_copy_weak {h g : Heap} {l : List (Option SharedPtr)}
    {m : Nat → Nat} {i j : Nat} {this other x : SharedPtr} (hg : HeapGood h (owners l))
    (hw : WeakGood h (owners l) m) (hi : l[i]? = some (some this))
    (hd : SharedPtr.assign_copy h this other (i == j) = some (g, x)) :
    WeakGood g (owners (l.set i (some x))) m := by
  unfold SharedPtr.assign_copy at hd
  by_cases hij : i = j
  · simp only [hij, beq_self_eq_true, Bool.true_eq_false, if_false, Option.some.injEq,
      Prod.mk.injEq] at hd
    obtain ⟨rfl, rfl⟩ := hd
    exact hw.w_congr (fun c _ => owners_set_same hi c) (fun _ _ => rfl)
  · have hb : (i == j) = false := by simpa using hij
    simp only [hb, if_true] at hd
    cases hr : (if this.cb_ ≠ 0 then DecrRef h this.cb_ else some h) with
    | none => simp [hr] at hd
    | some h1 =>
      simp only [hr] at hd
      have hw1 := hw.w_release hg hi hr (some ⟨0, 0⟩) (fun c hc => holds_empty 0 hc)
      split at hd
      · cases hc : IncrRef h1 other.cb_ with
        | none => simp [hc] at hd
        | some h2 =>
          simp only [hc, Option.some.injEq, Prod.mk.injEq] at hd
          obtain ⟨rfl, rfl⟩ := hd
          have := hw1.w_acquire_set (List.getElem?_set_self_of_some hi) hc
            other.observed_pole_
          simpa [List.set_set] using this
      · rename_i hc
        simp only [ne_eq, not_not] at hc
        simp only [Option.some.injEq, Prod.mk.injEq] at hd
        obtain ⟨rfl, rfl⟩ := hd
        refine hw1.w_congr ?_ (fun _ _ => rfl)
        intro c hc0
        have e1 := owners_set hi (some ⟨0, 0⟩) c
        have e2 := owners_set hi (some ⟨other.cb_, other.observed_pole_⟩) c
        rw [hc] at e2
        simp only [holds_empty _ hc0] at e1 e2
        rw [hc]
        omega

theorem SharedPtr.assign_move_weak {h g : Heap} {l : List (Option SharedPtr)}
    {m : Nat → Nat} {i j : Nat} {this other x y : SharedPtr} (hg : HeapGood h (owners l))
    (hw : WeakGood h (owners l) m) (hi : l[i]? = some (some this))
    (hj : l[j]? = some (some other))
    (hd : SharedPtr.assign_move h this other (i == j) = some (g, x, y)) :
    WeakGood g (owners ((l.set i (some x)).set j (some y))) m := by
  unfold SharedPtr.assign_move at hd
  by_cases hij : i = j
  · simp only [hij, beq_self_eq_true, Bool.true_eq_false, if_false, Option.some.injEq,
      Prod.mk.injEq] at hd
    obtain ⟨rfl, rfl, rfl⟩ := hd
    subst hij
    rw [List.set_set]
    exact hw.w_congr (fun c _ => owners_set_same hj c) (fun _ _ => rfl)
  · have hb : (i == j) = false := by simpa using hij
    simp only [hb, if_true] at hd
    cases hr : (if this.cb_ ≠ 0 then DecrRef h this.cb_ else some h) with
    | none => simp [hr] at hd
    | some h1 =>
      simp only [hr, Option.some.injEq, Prod.mk.injEq] at hd
      obtain ⟨rfl, rfl, rfl⟩ := hd
      have hw1 := hw.w_release hg hi hr (some ⟨0, 0⟩) (fun c hc => holds_empty 0 hc)
      exact hw1.w_congr (fun c hc => owners_transfer hi hj hij 0 0 c hc) (fun _ _ => rfl)

theorem WeakPtr.ctor_shared_weak {h g : Heap} {n : Nat → Nat} {l : List (Option WeakPtr)}
    {sh : SharedPtr} {flag : Bool} {w : WeakPtr} (hw : WeakGood h n (watchers l))
    (hd : WeakPtr.ctor_shared h sh flag = some (g, w)) :
    WeakGood g n (watchers (l ++ [some w])) := by
  unfold WeakPtr.ctor_shared at hd
  simp only at hd
  split at hd
  · rename_i hc
    cases hi : IncrWeakRef h sh.cb_ flag with
    | none => simp [hi] at hd
    | some h1 =>
      simp only [hi, Option.some.injEq, Prod.mk.injEq] at hd
      obtain ⟨rfl, rfl⟩ := hd
      exact hw.weak_acquire_push (by rw [if_pos hc]; exact hi) _
  · rename_i hc
    simp only [Option.some.injEq, Prod.mk.injEq] at hd
    obtain ⟨rfl, rfl⟩ := hd
    exact hw.weak_acquire_push (by rw [if_neg hc]) _

theorem WeakPtr.weak_ctor_copy_weak {h g : Heap} {n : Nat → Nat} {l : List (Option WeakPtr)}
    {other w : WeakPtr} (hw : WeakGood h n (watchers l))
    (hd : WeakPtr.ctor_copy h other = some (g, w)) :
    WeakGood g n (watchers (l ++ [some w])) := by
  unfold WeakPtr.ctor_copy at hd
  simp only at hd
  split at hd
  · rename_i hc
    cases hi : IncrWeakRef h other.cb_ false with
    | none => simp [hi] at hd
    | some h1 =>
      simp only [hi, Option.some.injEq, Prod.mk.injEq] at hd
      obtain ⟨rfl, rfl⟩ := hd
      exact hw.weak_acquire_push (by rw [if_pos hc]; exact hi) _
  · rename_i hc
    simp only [Option.some.injEq, Prod.mk.injEq] at hd
    obtain ⟨rfl, rfl⟩ := hd
    exact hw.weak_acquire_push (by rw [if_neg hc]) _

theorem WeakPtr.weak_dtor_weak {h g : Heap} {n : Nat → Nat} {l : List (Option WeakPtr)}
    {k : Nat} {w : WeakPtr} (hg : HeapGood h n) (hw : WeakGood h n (watchers l))
    (hk : l[k]? = some (some w)) (hd : WeakPtr.dtor h w = some g) :
    WeakGood g n (watchers (l.set k none)) :=
  hw.weak_release_set hg hk hd none (fun _ _ => rfl)

theorem WeakPtr.weak_Reset_weak {h g : Heap} {n : Nat → Nat} {l : List (Option WeakPtr)}
    {k : Nat} {w x : WeakPtr} (hg : HeapGood h n) (hw : WeakGood h n (watchers l))
    (hk : l[k]? = some (some w)) (hd : WeakPtr.Reset h w = some (g, x)) :
    WeakGood g n (watchers (l.set k (some x))) := by
  unfold WeakPtr.Reset at hd
  split at hd
  · rename_i hc
    cases hi : DecrWeakRef h w.cb_ w.is_this_weak_ with
    | none => simp [hi] at hd
    | some h1 =>
      simp only [hi, Option.some.injEq, Prod.mk.injEq] at hd
      obtain ⟨rfl, rfl⟩ := hd
      exact hw.weak_release_set hg hk (by rw [if_pos hc]; exact hi) _
        (fun c hc0 => watches_empty _ _ hc0)
  · simp only [Option.some.injEq, Prod.mk.injEq] at hd
    obtain ⟨rfl, rfl⟩ := hd
    exact hw.w_congr (fun _ _ => rfl) (fun c _ => watchers_set_same hk c)

theorem WeakPtr.weak_assign_copy_weak {h g : Heap} {n : Nat → Nat}
    {l : List (Option WeakPtr)} {k : Nat} {this other x : WeakPtr} (hg : HeapGood h n)
    (hw : WeakGood h n (watchers l)) (hk : l[k]? = some (some this))
    (hd : WeakPtr.assign_copy h this other = some (g, x)) :
    WeakGood g n (watchers (l.set k (some x))) := by
  unfold WeakPtr.assign_copy at hd
  cases hi : (if this.cb_ ≠ 0 then DecrWeakRef h this.cb_ this.is_this_weak_ else some h) with
  | none => simp [hi] at hd
  | some h1 =>
    simp only [hi] at hd
    have hw1 := hw.weak_release_set hg hk hi (some ⟨0, 0, false⟩)
      (fun c hc0 => watches_empty _ _ hc0)
    have hk1 := List.getElem?_set_self_of_some (b := some (⟨0, 0, false⟩ : WeakPtr)) hk
    split at hd
    · rename_i hc
      cases hj : IncrWeakRef h1 other.cb_ other.is_this_weak_ with
      | none => simp [hj] at hd
      | some h2 =>
        simp only [hj, Option.some.injEq, Prod.mk.injEq] at hd
        obtain ⟨rfl, rfl⟩ := hd
        have := hw1.weak_acquire_set hk1 (by rw [if_pos hc]; exact hj) other.observed_pole_
        simpa [List.set_set] using this
    · rename_i hc
      simp only [Option.some.injEq, Prod.mk.injEq] at hd
      obtain ⟨rfl, rfl⟩ := hd
      have := hw1.weak_acquire_set hk1
        (show (if other.cb_ ≠ 0 then IncrWeakRef h1 other.cb_ other.is_this_weak_
          else some h1) = some h1 by rw [if_neg hc]) other.observed_pole_
      simpa [List.set_set] using this

theorem watchers_transfer {l : List (Option WeakPtr)} {i j : Nat} {this other : WeakPtr}
    (hi : l[i]? = some (some this)) (hj : l[j]? = some (some other)) (hij : i ≠ j)
    (p q : Nat) (s t : Bool) (c : Nat) (hc : c ≠ 0) :
    watchers ((l.set i (some other)).set j (some ⟨0, q, t⟩)) c
      = watchers (l.set i (some ⟨0, p, s⟩)) c := by
  have e1 := watchers_set hi (some other) c
  have e2 := watchers_set hi (some ⟨0, p, s⟩) c
  have hj1 : (l.set i (some other))[j]? = some (some other) := by
    rw [List.getElem?_set_of_ne _ hij]; exact hj
  have e3 := watchers_set hj1 (some ⟨0, q, t⟩) c
  simp only [watches_empty _ _ hc] at e2 e3
  simp at e2 e3
  omega

theorem WeakPtr.weak_assign_move_weak {h g : Heap} {n : Nat → Nat}
    {l : List (Option WeakPtr)} {k j : Nat} {this other x y : WeakPtr} (hg : HeapGood h n)
    (hw : WeakGood h n (watchers l)) (hk : l[k]? = some (some this))
    (hj : l[j]? = some (some other))
    (hd : WeakPtr.assign_move h this other = some (g, x, y)) :
    WeakGood g n (watchers ((l.set k (some x)).set j (some y))) := by
  unfold WeakPtr.assign_move at hd
  cases hi : (if this.cb_ ≠ 0 then DecrWeakRef h this.cb_ this.is_this_weak_ else some h) with
  | none => simp [hi] at hd
  | some h1 =>
    simp only [hi, Option.some.injEq, Prod.mk.injEq] at hd
    obtain ⟨rfl, rfl, rfl⟩ := hd
    have hw1 := hw.weak_release_set hg hk hi (some ⟨0, 0, other.is_this_weak_⟩)
      (fun c hc0 => watches_empty _ _ hc0)
    by_cases hkj : k = j
    · subst hkj
      rw [List.set_set]
      exact hw1
    · refine hw1.w_congr (fun _ _ => rfl) ?_
      intro c hc
      exact watchers_transfer hk hj hkj 0 0 _ _ c hc

theorem InvW.invw_pushOutcome {s : State} {r : Outcome SharedPtr}
    (hr : (∃ g x, r = Outcome.value g x ∧
        WeakGood g (owners (s.shared ++ [some x])) (watchers s.weak)) ∨
      (∃ e, r = Outcome.thrown s.heap e)) (hinv : InvW s) : InvW (s.pushOutcome r) := by
  rcases hr with ⟨g, x, rfl, hg⟩ | ⟨e, rfl⟩
  · exact hg
  · exact hinv

/-- Every statement keeps the weak counters consistent, a `Swap` of two weak
handles provided they carry the same tag. -/
theorem step_InvW {s t : State} {op : Op} (hinv : Inv s) (hinvw : InvW s)
    (hok : swapOk s op) (hs : step s op = some t) : InvW t := by
  have hg : HeapGood s.heap (owners s.shared) := hinv
  have hw : WeakGood s.heap (owners s.shared) (watchers s.weak) := hinvw
  cases op with
  | new_T =>
    simp only [step, Option.some.injEq] at hs
    subst hs
    exact hw.w_same_blocks rfl
  | Shared_default =>
    simp only [step, Option.some.injEq] at hs
    subst hs
    exact hw.w_push_empty 0
  | Shared_ptr esft ptr =>
    simp only [step, Option.bind_eq_some, Option.some.injEq] at hs
    obtain ⟨r, hr, rfl⟩ := hs
    exact SharedPtr.ctor_ptr_weak hg hw hr
  | Make_Shared esft =>
    simp only [step, Option.bind_eq_some, Option.some.injEq] at hs
    obtain ⟨r, hr, rfl⟩ := hs
    exact MakeShared_weak hg hw hr
  | Shared_copy i =>
    simp only [step, Option.bind_eq_some, Option.some.injEq] at hs
    obtain ⟨a, ha, r, hr, rfl⟩ := hs
    exact SharedPtr.ctor_copy_weak hw hr
  | Shared_move i =>
    simp only [step, Option.bind_eq_some, Option.some.injEq] at hs
    obtain ⟨a, ha, rfl⟩ := hs
    exact hw.w_congr (fun c hc => owners_move (State.shared?_eq_some.mp ha) 0 c hc)
      (fun _ _ => rfl)
  | Shared_alias i ptr =>
    simp only [step, Option.bind_eq_some, Option.some.injEq] at hs
    obtain ⟨a, ha, r, hr, rfl⟩ := hs
    exact SharedPtr.ctor_alias_weak hw hr
  | Shared_weak k =>
    simp only [step, Option.bind_eq_some, Option.some.injEq] at hs
    obtain ⟨w, -, r, hr, rfl⟩ := hs
    exact InvW.invw_pushOutcome (SharedPtr.ctor_weak_weak hw hr) hinvw
  | Shared_assign_copy i j =>
    simp only [step, Option.bind_eq_some, Option.some.injEq] at hs
    obtain ⟨a, ha, b, hb, r, hr, rfl⟩ := hs
    exact SharedPtr.assign_copy_weak hg hw (State.shared?_eq_some.mp ha) hr
  | Shared_assign_move i j =>
    simp only [step, Option.bind_eq_some, Option.some.injEq] at hs
    obtain ⟨a, ha, b, hb, r, hr, rfl⟩ := hs
    exact SharedPtr.assign_move_weak hg hw (State.shared?_eq_some.mp ha)
      (State.shared?_eq_some.mp hb) hr
  | Shared_dtor i =>
    simp only [step, Option.bind_eq_some, Option.some.injEq] at hs
    obtain ⟨a, ha, r, hr, rfl⟩ := hs
    exact hw.w_release hg (State.shared?_eq_some.mp ha) hr none (fun _ _ => rfl)
  | Shared_Reset i =>
    simp only [step, Option.bind_eq_some, Option.some.injEq] at hs
    obtain ⟨a, ha, r, hr, rfl⟩ := hs
    exact SharedPtr.Reset_weak hg hw (State.shared?_eq_some.mp ha) hr
  | Shared_Reset_ptr i ptr =>
    simp only [step, Option.bind_eq_some, Option.some.injEq] at hs
    obtain ⟨a, ha, r, hr, rfl⟩ := hs
    exact SharedPtr.Reset_ptr_weak hg hw (State.shared?_eq_some.mp ha) hr
  | Shared_Swap i j =>
    simp only [step, Option.bind_eq_some, Option.some.injEq] at hs
    obtain ⟨a, ha, b, hb, rfl⟩ := hs
    exact hw.w_congr (fun c _ => owners_swap (State.shared?_eq_some.mp ha)
      (State.shared?_eq_some.mp hb) c) (fun _ _ => rfl)
  | Weak_default =>
    simp only [step, Option.some.injEq] at hs
    subst hs
    refine hw.w_congr (fun _ _ => rfl) ?_
    intro c hc
    simp [State.pushWeak, WeakPtr.ctor_default, weakCount, watchers_push, watches_empty 0 false hc]
  | Weak_copy k =>
    simp only [step, Option.bind_eq_some, Option.some.injEq] at hs
    obtain ⟨w, -, r, hr, rfl⟩ := hs
    exact WeakPtr.weak_ctor_copy_weak hw hr
  | Weak_move k =>
    simp only [step, Option.bind_eq_some, Option.some.injEq] at hs
    obtain ⟨w, hwk, rfl⟩ := hs
    exact hw.w_congr (fun _ _ => rfl)
      (fun c hc => watchers_move (State.weak?_eq_some.mp hwk) 0 _ c hc)
  | Weak_shared i flag =>
    simp only [step, Option.bind_eq_some, Option.some.injEq] at hs
    obtain ⟨a, -, r, hr, rfl⟩ := hs
    exact WeakPtr.ctor_shared_weak hw hr
  | Weak_assign_copy k l =>
    simp only [step, Option.bind_eq_some, Option.some.injEq] at hs
    obtain ⟨a, ha, b, -, r, hr, rfl⟩ := hs
    exact WeakPtr.weak_assign_copy_weak hg hw (State.weak?_eq_some.mp ha) hr
  | Weak_assign_move k l =>
    simp only [step, Option.bind_eq_some, Option.some.injEq] at hs
    obtain ⟨a, ha, b, hb, r, hr, rfl⟩ := hs
    exact WeakPtr.weak_assign_move_weak hg hw (State.weak?_eq_some.mp ha)
      (State.weak?_eq_some.mp hb) hr
  | Weak_dtor k =>
    simp only [step, Option.bind_eq_some, Option.some.injEq] at hs
    obtain ⟨a, ha, r, hr, rfl⟩ := hs
    exact WeakPtr.weak_dtor_weak hg hw (State.weak?_eq_some.mp ha) hr
  | Weak_Reset k =>
    simp only [step, Option.bind_eq_some, Option.some.injEq] at hs
    obtain ⟨a, ha, r, hr, rfl⟩ := hs
    exact WeakPtr.weak_Reset_weak hg hw (State.weak?_eq_some.mp ha) hr
  | Weak_Swap k l =>
    simp only [step, Option.bind_eq_some, Option.some.injEq] at hs
    obtain ⟨a, ha, b, hb, rfl⟩ := hs
    have htag : a.is_this_weak_ = b.is_this_weak_ := hok a b ha hb
    refine hw.w_congr (fun _ _ => rfl) ?_
    intro c _
    have hsw := watchers_swap (State.weak?_eq_some.mp ha) (State.weak?_eq_some.mp hb) c
    obtain ⟨ac, ap, ta⟩ := a
    obtain ⟨bc, bp, tb⟩ := b
    simp only at htag
    subst htag
    exact hsw
  | Weak_Lock k =>
    simp only [step, Option.bind_eq_some, Option.some.injEq] at hs
    obtain ⟨w, -, r, hr, rfl⟩ := hs
    exact InvW.invw_pushOutcome (WeakPtr.Lock_weak hw hr) hinvw
  | Shared_From_This ptr =>
    simp only [step, Option.bind_eq_some, Option.some.injEq] at hs
    obtain ⟨r, hr, rfl⟩ := hs
    unfold SharedFromThis at hr
    split at hr
    · split at hr
      · exact InvW.invw_pushOutcome (WeakPtr.Lock_weak hw hr) hinvw
      · simp at hr
    · simp at hr
  | Weak_From_This ptr =>
    simp only [step, Option.bind_eq_some, Option.some.injEq] at hs
    obtain ⟨r, hr, rfl⟩ := hs
    unfold WeakFromThis at hr
    split at hr
    · split at hr
      · exact WeakPtr.weak_ctor_copy_weak hw hr
      · simp at hr
    · simp at hr

theorem watchers_pos {l : List (Option WeakPtr)} {k : Nat} {w : WeakPtr}
    (hk : l[k]? = some (some w)) (ht : w.is_this_weak_ = false) : 1 ≤ watchers l w.cb_ := by
  have := watchers_set hk none w.cb_
  obtain ⟨wc, wp, wt⟩ := w
  simp only at ht
  subst ht
  rw [watches_self, show watches wc none = false from rfl] at this
  simp only [if_true, Bool.false_eq_true, if_false, Nat.add_zero] at this
  show 1 ≤ watchers l wc
  omega

/-- A statement that constructs no tagged `WeakPtr` leaves all `WeakPtr`
variables untagged. -/
theorem step_Untagged {s t : State} {op : Op} (hu : Untagged s) (hc : op.counted = true)
    (hs : step s op = some t) : Untagged t := by
  cases op with
  | new_T =>
    simp only [step, Option.some.injEq] at hs
    subst hs
    exact hu
  | Shared_default =>
    simp only [step, Option.some.injEq] at hs
    subst hs
    exact hu
  | Shared_ptr esft ptr =>
    simp only [step, Option.bind_eq_some, Option.some.injEq] at hs
    obtain ⟨r, hr, rfl⟩ := hs
    exact hu
  | Make_Shared esft =>
    simp only [step, Option.bind_eq_some, Option.some.injEq] at hs
    obtain ⟨r, hr, rfl⟩ := hs
    exact hu
  | Shared_copy i =>
    simp only [step, Option.bind_eq_some, Option.some.injEq] at hs
    obtain ⟨a, ha, r, hr, rfl⟩ := hs
    exact hu
  | Shared_move i =>
    simp only [step, Option.bind_eq_some, Option.some.injEq] at hs
    obtain ⟨a, ha, rfl⟩ := hs
    exact hu
  | Shared_alias i ptr =>
    simp only [step, Option.bind_eq_some, Option.some.injEq] at hs
    obtain ⟨a, ha, r, hr, rfl⟩ := hs
    exact hu
  | Shared_weak k =>
    simp only [step, Option.bind_eq_some, Option.some.injEq] at hs
    obtain ⟨w, -, r, hr, rfl⟩ := hs
    cases r <;> exact hu
  | Shared_assign_copy i j =>
    simp only [step, Option.bind_eq_some, Option.some.injEq] at hs
    obtain ⟨a, ha, b, hb, r, hr, rfl⟩ := hs
    exact hu
  | Shared_assign_move i j =>
    simp only [step, Option.bind_eq_some, Option.some.injEq] at hs
    obtain ⟨a, ha, b, hb, r, hr, rfl⟩ := hs
    exact hu
  | Shared_dtor i =>
    simp only [step, Option.bind_eq_some, Option.some.injEq] at hs
    obtain ⟨a, ha, r, hr, rfl⟩ := hs
    exact hu
  | Shared_Reset i =>
    simp only [step, Option.bind_eq_some, Option.some.injEq] at hs
    obtain ⟨a, ha, r, hr, rfl⟩ := hs
    exact hu
  | Shared_Reset_ptr i ptr =>
    simp only [step, Option.bind_eq_some, Option.some.injEq] at hs
    obtain ⟨a, ha, r, hr, rfl⟩ := hs
    exact hu
  | Shared_Swap i j =>
    simp only [step, Option.bind_eq_some, Option.some.injEq] at hs
    obtain ⟨a, ha, b, hb, rfl⟩ := hs
    exact hu
  | Weak_default =>
    simp only [step, Option.some.injEq] at hs
    subst hs
    exact all_push hu rfl
  | Weak_copy k =>
    simp only [step, Option.bind_eq_some, Option.some.injEq] at hs
    obtain ⟨w, hw, r, hr, rfl⟩ := hs
    obtain ⟨-, hx⟩ := WeakPtr.weak_ctor_copy_pres hr
    refine all_push hu ?_
    rw [hx]
  | Weak_move k =>
    simp only [step, Option.bind_eq_some, Option.some.injEq] at hs
    obtain ⟨w, hw, rfl⟩ := hs
    have hwt := hu w (State.weak?_mem hw)
    refine all_push (all_set hu ?_) hwt
    intro y hy
    cases hy
    exact hwt
  | Weak_shared i flag =>
    simp only [step, Option.bind_eq_some, Option.some.injEq] at hs
    obtain ⟨a, ha, r, hr, rfl⟩ := hs
    obtain ⟨-, hx⟩ := WeakPtr.ctor_shared_pres hr
    refine all_push hu ?_
    rw [hx]
    simpa [Op.counted] using hc
  | Weak_assign_copy k l =>
    simp only [step, Option.bind_eq_some, Option.some.injEq] at hs
    obtain ⟨a, ha, b, hb, r, hr, rfl⟩ := hs
    obtain ⟨-, hx⟩ := WeakPtr.weak_assign_copy_pres hr
    refine all_set hu ?_
    intro y hy
    cases hy
    rw [hx]
    exact hu b (State.weak?_mem hb)
  | Weak_assign_move k l =>
    simp only [step, Option.bind_eq_some, Option.some.injEq] at hs
    obtain ⟨a, ha, b, hb, r, hr, rfl⟩ := hs
    obtain ⟨-, hx, hy⟩ := WeakPtr.weak_assign_move_pres (x := r.2.1) (y := r.2.2) hr
    have hbt := hu b (State.weak?_mem hb)
    refine all_set (all_set hu ?_) ?_
    · intro y e
      cases e
      rw [hx]; exact hbt
    · intro y e
      cases e
      rw [hy]; exact hbt
  | Weak_dtor k =>
    simp only [step, Option.bind_eq_some, Option.some.injEq] at hs
    obtain ⟨a, ha, r, hr, rfl⟩ := hs
    refine all_set hu ?_
    intro y hy
    cases hy
  | Weak_Reset k =>
    simp only [step, Option.bind_eq_some, Option.some.injEq] at hs
    obtain ⟨a, ha, r, hr, rfl⟩ := hs
    obtain ⟨-, hx⟩ := WeakPtr.weak_Reset_pres hr
    have hat := hu a (State.weak?_mem ha)
    refine all_set hu ?_
    intro y hy
    cases hy
    rcases hx with e | e
    · rw [e]; exact hat
    · rw [e]; exact hat
  | Weak_Swap k l =>
    simp only [step, Option.bind_eq_some, Option.some.injEq] at hs
    obtain ⟨a, ha, b, hb, rfl⟩ := hs
    refine all_set (all_set hu ?_) ?_
    · intro y hy
      cases hy
      exact hu a (State.weak?_mem ha)
    · intro y hy
      cases hy
      exact hu b (State.weak?_mem hb)
  | Weak_Lock k =>
    simp only [step, Option.bind_eq_some, Option.some.injEq] at hs
    obtain ⟨w, -, r, hr, rfl⟩ := hs
    cases r <;> exact hu
  | Shared_From_This ptr =>
    simp only [step, Option.bind_eq_some, Option.some.injEq] at hs
    obtain ⟨r, hr, rfl⟩ := hs
    cases r <;> exact hu
  | Weak_From_This ptr =>
    simp only [step, Option.bind_eq_some, Option.some.injEq] at hs
    obtain ⟨r, hr, rfl⟩ := hs
    unfold WeakFromThis at hr
    split at hr
    · split at hr
      · obtain ⟨-, hx⟩ := WeakPtr.weak_ctor_copy_pres hr
        refine all_push hu ?_
        rw [hx]
      · simp at hr
    · simp at hr

theorem swapOk_of_Untagged {s : State} (hu : Untagged s) (op : Op) : swapOk s op := by
  cases op <;> simp only [swapOk]
  intro a b ha hb
  rw [hu a (State.weak?_mem ha), hu b (State.weak?_mem hb)]

theorem InvW.invw_init : InvW State.init := by
  refine ⟨?_, ?_⟩
  · intro c b hb
    simp [State.init, Heap.block?] at hb
  · intro c _ _
    rfl

/-- Every state reached by a program that constructs no tagged `WeakPtr` has
consistent strong and weak counters, and no tagged `WeakPtr` variable. -/
theorem run_InvW : ∀ (ops : List Op) {s t : State}, Inv s → InvW s → Untagged s →
    (∀ op ∈ ops, op.counted = true) → run ops s = some t → Inv t ∧ InvW t ∧ Untagged t
  | [], s, t, hinv, hinvw, hu, _, hr => by
    simp only [run, Option.some.injEq] at hr
    subst hr
    exact ⟨hinv, hinvw, hu⟩
  | op :: ops, s, t, hinv, hinvw, hu, hc, hr => by
    simp only [run, Option.bind_eq_some] at hr
    obtain ⟨u, hu1, hr⟩ := hr
    exact run_InvW ops (step_Inv hinv hu1)
      (step_InvW hinv hinvw (swapOk_of_Untagged hu op) hu1)
      (step_Untagged hu (hc op (List.mem_cons_self _ _)) hu1)
      (fun o ho => hc o (List.mem_cons_of_mem _ ho)) hr

theorem Expired_of_Good {h : Heap} {n : Nat} {w : WeakPtr} {b : ControlBlockBase}
    (hb : h.deref w.cb_ = some b) (hgood : Good n b) :
    w.Expired h = some (decide (n = 0)) := by
  obtain ⟨g1, g2, g3, g4⟩ := hgood
  have hc0 := Heap.deref_ne_zero hb
  simp only [WeakPtr.Expired, ne_eq, hc0, not_false_eq_true, if_true, hb]
  by_cases hn : n = 0
  · have : ¬ (b.ref_count > 0) := by omega
    simp [this, hn]
  · have hpos : b.ref_count > 0 := by omega
    have hdel : b.is_deleted = false := by
      cases hx : b.is_deleted with
      | false => rfl
      | true => exact absurd (g3.mp hx) hn
    simp [hpos, hn, hdel]

theorem WeakPtr.dtorWith_indep {sd sd1 : Heap → Nat → Option Heap} {g : Heap} {w : WeakPtr}
    (hw : w.cb_ = 0 ∨ w.is_this_weak_ = true) :
    WeakPtr.dtorWith sd g w = WeakPtr.dtorWith sd1 g w := by
  unfold WeakPtr.dtorWith
  split
  · rcases hw with hw | hw
    · contradiction
    · simp [DecrWeakRefWith, hw]
  · rfl

/-- In a heap whose `weak_this_` members are empty or tagged the destructor
of an object never re-enters `SharedDestructor`, so the nesting bound plays
no role: any positive bound gives the same result. -/
theorem SharedDestructorF_bound_irrelevant {h : Heap} (ht : h.Tagged) (n : Nat) (c : Nat) :
    SharedDestructorF (n + 1) h c = SharedDestructorF 1 h c := by
  have key : ∀ p, destroyObjectWith (SharedDestructorF n) h p
      = destroyObjectWith (SharedDestructorF 0) h p := by
    intro p
    unfold destroyObjectWith
    cases ho : h.object? p with
    | none => rfl
    | some o =>
      simp only
      split
      · exact WeakPtr.dtorWith_indep (ht.object ho)
      · rfl
  unfold SharedDestructorF
  simp only [key]

/-- In every state a program reaches, the control block of a live non-empty
`SharedPtr` is allocated, its `ref_count` is the number of live `SharedPtr`s
on it (at least one) and its object is not destroyed. -/
theorem live_SharedPtr_block (ops : List Op) (s : State) (hr : run ops State.init = some s)
    (i : Nat) (a : SharedPtr) (hi : s.shared? i = some a) (hc : a.cb_ ≠ 0) :
    ∃ b, s.heap.deref a.cb_ = some b ∧ b.ref_count = sharedCount s a.cb_ ∧
      1 ≤ b.ref_count ∧ b.is_deleted = false ∧ b.destroyed = 0 := by
  have hinv := run_Inv ops Inv.inv_init hr
  have hpos : 1 ≤ sharedCount s a.cb_ := owners_pos (State.shared?_eq_some.mp hi)
  cases hblk : s.heap.block? a.cb_ with
  | none =>
    have := hinv.2.1 _ hc hblk
    omega
  | some b =>
    obtain ⟨g1, g2, g3, g4, -⟩ := hinv.1 _ b hblk
    have hfr : b.freed = false := by
      cases hx : b.freed with
      | false => rfl
      | true => have := g2 hx; omega
    have hdel : b.is_deleted = false := by
      cases hx : b.is_deleted with
      | false => rfl
      | true => have := g3.mp hx; omega
    refine ⟨b, Heap.deref_eq_some.mpr ⟨hblk, hfr⟩, g1, by omega, hdel, ?_⟩
    rw [g4, if_neg (by omega)]

theorem Heap.deref_setBlock_of_ne {h : Heap} {c x : Nat} {d bx : ControlBlockBase}
    (hc : c ≠ 0) (hx : h.deref x = some bx) (hne : x ≠ c) :
    (h.setBlock c d).deref x = some bx := by
  obtain ⟨h1, h2⟩ := Heap.deref_eq_some.mp hx
  exact Heap.deref_eq_some.mpr ⟨by rw [Heap.block?_setBlock_ne hc hne]; exact h1, h2⟩

/-- `DecrRef` has defined behaviour on an allocated block with `ref_count ≥ 1`
whose object is not yet destroyed, provided the managed pointer can be
destroyed: it is `nullptr` held by a `ControlBlockWithPointer`, or a live
object whose `weak_this_` is empty or tagged on an allocated block. -/
theorem DecrRef_defined {h : Heap} {c : Nat} {b : ControlBlockBase}
    (hb : h.deref c = some b) (hpos : 1 ≤ b.ref_count) (hdel : b.is_deleted = false)
    (hobj : (b.storage = Storage.WithPointer ∧ b.object = 0) ∨
      ∃ o, h.object? b.object = some o ∧ o.alive = true ∧
        (o.weak_this_.cb_ = 0 ∨
          (o.weak_this_.is_this_weak_ = true ∧ ∃ b1, h.deref o.weak_this_.cb_ = some b1))) :
    ∃ g, DecrRef h c = some g := by
  obtain ⟨rc, wk, del, st, ob, fr, ds⟩ := b
  have hfr : fr = false := (Heap.deref_eq_some.mp hb).2
  subst hfr
  simp only at hpos hdel hobj
  subst hdel
  have hc0 := Heap.deref_ne_zero hb
  simp only [DecrRef, hb]
  by_cases h1 : rc - 1 = 0
  · have hb1 : (h.setBlock c ⟨rc - 1, wk, false, st, ob, false, ds⟩).deref c
        = some ⟨rc - 1, wk, false, st, ob, false, ds⟩ := Heap.deref_setBlock_self hb rfl
    have hsd : ∃ g, SharedDestructor (h.setBlock c ⟨rc - 1, wk, false, st, ob, false, ds⟩) c
        = some g ∧ ∃ d, g.deref c = some d := by
      rcases hobj with ⟨hst, hob⟩ | ⟨o, ho, ha, hw⟩
      · refine ⟨_, SharedDestructorF_run_null hb1 h1 rfl hst hob,
          ⟨rc - 1, wk, true, st, ob, false, ds + 1⟩, ?_⟩
        exact Heap.deref_setBlock_self hb1 rfl
      · have hw1 : o.weak_this_.cb_ = 0 ∨ (o.weak_this_.is_this_weak_ = true ∧
            ∃ b1, (h.setBlock c ⟨rc - 1, wk, false, st, ob, false, ds⟩).deref
              o.weak_this_.cb_ = some b1) := by
          rcases hw with hw | ⟨hw, b1, hb1'⟩
          · exact Or.inl hw
          · refine Or.inr ⟨hw, ?_⟩
            by_cases hcc : o.weak_this_.cb_ = c
            · rw [hcc]; exact ⟨_, hb1⟩
            · exact ⟨b1, Heap.deref_setBlock_of_ne hc0 hb1' hcc⟩
        refine ⟨_, SharedDestructorF_run hb1 h1 rfl
          (by rw [Heap.object?_setBlock]; exact ho) ha hw1,
          ⟨rc - 1, wk, true, st, ob, false, ds + 1⟩, ?_⟩
        apply Heap.deref_setBlock_self (b := ⟨rc - 1, wk, false, st, ob, false, ds⟩)
        · rw [Heap.deref_setObject]; exact hb1
        · rfl
    obtain ⟨g, hg, d, hd⟩ := hsd
    by_cases hw0 : wk = 0
    · rw [if_pos ⟨h1, hw0⟩]
      simp only [deleteThis, deleteThisWith, hg, hd]
      exact ⟨_, rfl⟩
    · rw [if_neg (fun hh => hw0 hh.2), if_pos h1]
      exact ⟨g, hg⟩
  · rw [if_neg (fun hh => h1 hh.1), if_neg h1]
    exact ⟨_, rfl⟩

/-- In a reachable state the destructor of a live `SharedPtr` variable has
defined behaviour whenever the managed pointer of its block is `Destroyable`;
afterwards the block has one owner less, and the object has been destroyed
exactly if the variable was the last owner. -/
theorem release_defined (ops : List Op) (s : State) (hr : run ops State.init = some s)
    (i : Nat) (a : SharedPtr) (hi : s.shared? i = some a) (b : ControlBlockBase)
    (hb : s.heap.block? a.cb_ = some b) (hobj : Destroyable s.heap b) :
    ∃ t b1, step s (Op.Shared_dtor i) = some t ∧ t.heap.block? a.cb_ = some b1 ∧
      sharedCount t a.cb_ + 1 = sharedCount s a.cb_ ∧
      b1.destroyed = (if sharedCount s a.cb_ = 1 then 1 else 0) := by
  have hinv := run_Inv ops Inv.inv_init hr
  have hc : a.cb_ ≠ 0 := Heap.block?_ne_zero hb
  obtain ⟨b0, hb0, hrc, hpos, hdel, _⟩ := live_SharedPtr_block ops s hr i a hi hc
  have hbb : b0 = b := by
    have := (Heap.deref_eq_some.mp hb0).1
    rw [hb] at this
    exact (Option.some.inj this).symm
  subst hbb
  have hobj1 : (b0.storage = Storage.WithPointer ∧ b0.object = 0) ∨
      ∃ o, s.heap.object? b0.object = some o ∧ o.alive = true ∧
        (o.weak_this_.cb_ = 0 ∨
          (o.weak_this_.is_this_weak_ = true ∧ ∃ b1, s.heap.deref o.weak_this_.cb_ = some b1)) := by
    rcases hobj with h0 | ⟨o, ho, ha, hw⟩
    · exact Or.inl h0
    · refine Or.inr ⟨o, ho, ha, ?_⟩
      rcases hw with hw | ⟨b1, hb1⟩
      · exact Or.inl hw
      · rcases hinv.2.2.object ho with h0 | ht
        · exact Or.inl h0
        · exact Or.inr ⟨ht, b1, hb1⟩
  obtain ⟨g, hg⟩ := DecrRef_defined hb0 hpos hdel hobj1
  have hstep : step s (Op.Shared_dtor i)
      = some { s with heap := g, shared := s.shared.set i none } := by
    simp [step, hi, SharedPtr.dtor, hc, hg]
  have hinv1 := step_Inv hinv hstep
  have hcnt : sharedCount { s with heap := g, shared := s.shared.set i none } a.cb_ + 1
      = sharedCount s a.cb_ := by
    have := owners_set (State.shared?_eq_some.mp hi) none a.cb_
    simp [holds] at this
    exact this
  have hblk := (DecrRef_inv hinv.2.2 hb0 (fun _ => hdel) hg).2
  obtain ⟨b1, hb1⟩ : ∃ b1, g.block? a.cb_ = some b1 :=
    ⟨_, (Heap.block?_of_set hb hblk a.cb_).trans (if_pos rfl)⟩
  refine ⟨_, b1, hstep, hb1, hcnt, ?_⟩
  have hgood := (hinv1.1 a.cb_ b1 hb1).2.2.2.1
  rw [hgood]
  by_cases h1 : sharedCount s a.cb_ = 1
  · rw [if_pos h1, if_pos (by omega)]
  · rw [if_neg h1, if_neg (by omega)]

theorem Heap.object?_ne_zero {h : Heap} {p : Nat} {o : Object}
    (ho : h.object? p = some o) : p ≠ 0 := by
  intro hp; simp [Heap.object?, hp] at ho

theorem Heap.object?_setObject_ne {h : Heap} {p q : Nat} {o : Object}
    (hq : q ≠ 0) (hne : p ≠ q) : (h.setObject q o).object? p = h.object? p := by
  unfold Heap.object? Heap.setObject
  by_cases h1 : p = 0
  · simp [h1]
  · simp only [h1, if_false]
    rw [List.getElem?_set_ne]
    omega

theorem Heap.block?_setObject (h : Heap) (p : Nat) (o : Object) (c : Nat) :
    (h.setObject p o).block? c = h.block? c := rfl

theorem Frame.frame_refl (h : Heap) : Frame h h :=
  fun _ => ⟨ObjsPres.refl h, ⟨rfl, fun _ b hb => ⟨b, hb, rfl, id⟩⟩,
    fun _ o1 ho => ⟨o1, ho, Or.inl rfl⟩⟩

theorem Frame.frame_trans {h g k : Heap} (a : Frame h g) (b : Frame g k) : Frame h k := by
  intro ht
  obtain ⟨p1, b1, a1⟩ := a ht
  obtain ⟨p2, b2, a2⟩ := b (ht.of_pres p1)
  refine ⟨p1.trans p2, ⟨b2.1.trans b1.1, ?_⟩, ?_⟩
  · intro c x hx
    obtain ⟨x1, hx1, e1, d1⟩ := b1.2 c x hx
    obtain ⟨x2, hx2, e2, d2⟩ := b2.2 c x1 hx1
    exact ⟨x2, hx2, e2.trans e1, fun hd => d2 (d1 hd)⟩
  · intro p o2 ho2
    obtain ⟨o1, ho1, al2⟩ := a2 p o2 ho2
    obtain ⟨o, ho, al1⟩ := a1 p o1 ho1
    refine ⟨o, ho, ?_⟩
    rcases al2 with e2 | d2
    · rcases al1 with e1 | ⟨c, x1, hx1, hob, hdel⟩
      · exact Or.inl (e2.trans e1)
      · obtain ⟨x2, hx2, e2, d2⟩ := b2.2 c x1 hx1
        exact Or.inr ⟨c, x2, hx2, e2.trans hob, d2 hdel⟩
    · exact Or.inr d2

theorem Frame.frame_setBlock {h : Heap} {c : Nat} {b d : ControlBlockBase}
    (hb : h.block? c = some b) (ho : d.object = b.object)
    (hd : b.is_deleted = true → d.is_deleted = true) : Frame h (h.setBlock c d) := by
  intro _
  refine ⟨ObjsPres.setBlock _ _ _, ⟨Heap.length_setBlock _ _ _, ?_⟩, ?_⟩
  · intro x bx hx
    by_cases hxc : x = c
    · subst hxc
      rw [hb] at hx
      cases hx
      exact ⟨d, Heap.block?_setBlock_self hb, ho, hd⟩
    · exact ⟨bx, by rw [Heap.block?_setBlock_ne (Heap.block?_ne_zero hb) hxc]; exact hx, rfl, id⟩
  · intro p o1 ho1
    exact ⟨o1, ho1, Or.inl rfl⟩

theorem Frame.kill {h : Heap} {c : Nat} {b d : ControlBlockBase} {o : Object}
    (hb : h.block? c = some b) (hob : h.object? b.object = some o)
    (ho : d.object = b.object) (hd : d.is_deleted = true) :
    Frame h ((h.setObject b.object { o with alive := false }).setBlock c d) := by
  intro _
  have hb1 : (h.setObject b.object { o with alive := false }).block? c = some b := hb
  have hp : ObjsPres h (h.setObject b.object { o with alive := false }) :=
    ObjsPres.setObject hob rfl
  refine ⟨hp.trans (ObjsPres.setBlock _ _ _),
    ⟨by simp [Heap.setBlock, Heap.setObject], ?_⟩, ?_⟩
  · intro x bx hx
    by_cases hxc : x = c
    · subst hxc
      rw [hb] at hx
      cases hx
      exact ⟨d, Heap.block?_setBlock_self hb1, ho, fun _ => hd⟩
    · exact ⟨bx, by rw [Heap.block?_setBlock_ne (Heap.block?_ne_zero hb) hxc]; exact hx, rfl, id⟩
  · intro p o1 ho1
    rw [Heap.object?_setBlock] at ho1
    by_cases hp : p = b.object
    · subst hp
      exact ⟨o, hob, Or.inr ⟨c, d, Heap.block?_setBlock_self hb1, ho, hd⟩⟩
    · rw [Heap.object?_setObject_ne (Heap.object?_ne_zero hob) hp] at ho1
      exact ⟨o1, ho1, Or.inl rfl⟩

theorem SharedDestructorF_frame (n : Nat) (h : Heap) (c : Nat) (g : Heap)
    (hd : SharedDestructorF n h c = some g) : Frame h g := by
  intro ht
  cases n with
  | zero => simp [SharedDestructorF] at hd
  | succ n =>
    unfold SharedDestructorF at hd
    cases hb : h.deref c with
    | none => simp [hb] at hd
    | some b =>
      simp only [hb] at hd
      have hblk := (Heap.deref_eq_some.mp hb).1
      by_cases hc : b.ref_count = 0 ∧ b.is_deleted = false
      · simp only [hc, and_self, if_true] at hd
        have fin : ∀ r : Option Heap,
            (∀ h1, r = some h1 → h1 = h ∨ ∃ o, h.object? b.object = some o ∧
              h1 = h.setObject b.object { o with alive := false }) →
            (match r with
              | some h1 =>
                match h1.deref c with
                | some b1 => some (h1.setBlock c
                    { b1 with is_deleted := true, destroyed := b1.destroyed + 1 })
                | none => none
              | none => none) = some g →
            Frame h g := by
          intro r hr hm
          cases r with
          | none => simp at hm
          | some h1 =>
            rcases hr h1 rfl with rfl | ⟨o, ho, rfl⟩
            · simp only [hb, Option.some.injEq] at hm
              subst hm
              exact Frame.frame_setBlock hblk rfl (fun _ => rfl)
            · simp only [Heap.deref_setObject, hb, Option.some.injEq] at hm
              subst hm
              exact Frame.kill hblk ho rfl rfl
        have dob : ∀ h1, destroyObjectWith (SharedDestructorF n) h b.object = some h1 →
            h1 = h ∨ ∃ o, h.object? b.object = some o ∧
              h1 = h.setObject b.object { o with alive := false } := by
          intro h1 e
          obtain ⟨o, ho, -, rfl⟩ := destroyObjectWith_inv ht e
          exact Or.inr ⟨o, ho, rfl⟩
        exact fin _ (by
          intro h1 e
          cases hst : b.storage with
          | WithObject =>
            simp only [hst] at e
            exact dob h1 e
          | WithPointer =>
            simp only [hst] at e
            split at e
            · cases e; exact Or.inl rfl
            · exact dob h1 e) hd ht
      · simp only [hc, if_false] at hd
        cases hd
        exact Frame.frame_refl h ht

theorem SharedDestructor_frame (h : Heap) (c : Nat) (g : Heap)
    (hd : SharedDestructor h c = some g) : Frame h g :=
  SharedDestructorF_frame _ h c g hd

theorem deleteThisWith_frame {sd : Heap → Nat → Option Heap}
    (hsd : ∀ h c g, sd h c = some g → Frame h g) {h g : Heap} {c : Nat}
    (hd : deleteThisWith sd h c = some g) : Frame h g := by
  unfold deleteThisWith at hd
  split at hd
  · rename_i h1 e1
    split at hd
    · rename_i b1 hb1
      simp only [Option.some.injEq] at hd
      subst hd
      exact (hsd _ _ _ e1).frame_trans
        (Frame.frame_setBlock (Heap.deref_eq_some.mp hb1).1 rfl (fun e => e))
    · simp at hd
  · simp at hd

theorem DecrWeakRefWith_frame {sd : Heap → Nat → Option Heap}
    (hsd : ∀ h c g, sd h c = some g → Frame h g) {h g : Heap} {c : Nat} {flag : Bool}
    (hd : DecrWeakRefWith sd h c flag = some g) : Frame h g := by
  unfold DecrWeakRefWith at hd
  split at hd
  · rename_i b hb
    have hf : Frame h (h.setBlock c { b with weak_ref_count := b.weak_ref_count - 1 }) :=
      Frame.frame_setBlock (Heap.deref_eq_some.mp hb).1 rfl (fun e => e)
    split at hd
    · simp only at hd
      split at hd
      · exact hf.frame_trans (deleteThisWith_frame hsd hd)
      · split at hd
        · exact hf.frame_trans (hsd _ _ _ hd)
        · simp only [Option.some.injEq] at hd
          subst hd
          exact hf
    · simp only [Option.some.injEq] at hd
      subst hd
      exact Frame.frame_refl _
  · simp at hd

theorem DecrRef_frame {h g : Heap} {c : Nat} (hd : DecrRef h c = some g) : Frame h g := by
  unfold DecrRef at hd
  split at hd
  · rename_i b hb
    have hf : Frame h (h.setBlock c { b with ref_count := b.ref_count - 1 }) :=
      Frame.frame_setBlock (Heap.deref_eq_some.mp hb).1 rfl (fun e => e)
    simp only at hd
    split at hd
    · exact hf.frame_trans (deleteThisWith_frame SharedDestructor_frame hd)
    · split at hd
      · exact hf.frame_trans (SharedDestructor_frame _ _ _ hd)
      · simp only [Option.some.injEq] at hd
        subst hd
        exact hf
  · simp at hd

theorem DecrWeakRef_frame {h g : Heap} {c : Nat} {flag : Bool}
    (hd : DecrWeakRef h c flag = some g) : Frame h g :=
  DecrWeakRefWith_frame SharedDestructor_frame hd

theorem IncrRef_frame {h g : Heap} {c : Nat} (hd : IncrRef h c = some g) : Frame h g := by
  obtain ⟨b, hb, rfl⟩ := IncrRef_some hd
  exact Frame.frame_setBlock (Heap.deref_eq_some.mp hb).1 rfl (fun e => e)

theorem IncrWeakRef_frame {h g : Heap} {c : Nat} {flag : Bool}
    (hd : IncrWeakRef h c flag = some g) : Frame h g := by
  obtain ⟨b, hb, rfl⟩ := IncrWeakRef_some hd
  split
  · exact Frame.frame_setBlock (Heap.deref_eq_some.mp hb).1 rfl (fun e => e)
  · exact Frame.frame_refl _

theorem release_frame {h g : Heap} {c : Nat}
    (hd : (if c ≠ 0 then DecrRef h c else some h) = some g) : Frame h g := by
  split at hd
  · exact DecrRef_frame hd
  · cases hd; exact Frame.frame_refl _

theorem weak_release_frame {h g : Heap} {c : Nat} {flag : Bool}
    (hd : (if c ≠ 0 then DecrWeakRef h c flag else some h) = some g) : Frame h g := by
  split at hd
  · exact DecrWeakRef_frame hd
  · cases hd; exact Frame.frame_refl _

theorem WeakPtr.weak_dtor_frame {h g : Heap} {w : WeakPtr} (hd : WeakPtr.dtor h w = some g) :
    Frame h g := by
  unfold WeakPtr.dtor WeakPtr.dtorWith at hd
  split at hd
  · exact DecrWeakRefWith_frame SharedDestructor_frame hd
  · simp only [Option.some.injEq] at hd
    subst hd
    exact Frame.frame_refl _


theorem WeakPtr.ctor_shared_frame {h g : Heap} {sh : SharedPtr} {flag : Bool} {w : WeakPtr}
    (hd : WeakPtr.ctor_shared h sh flag = some (g, w)) :
    Frame h g ∧ w = ⟨sh.cb_, sh.observed_pole_, flag⟩ := by
  unfold WeakPtr.ctor_shared at hd
  simp only at hd
  split at hd
  · cases hi : IncrWeakRef h sh.cb_ flag with
    | none => simp [hi] at hd
    | some h1 =>
      simp only [hi, Option.some.injEq, Prod.mk.injEq] at hd
      obtain ⟨rfl, rfl⟩ := hd
      exact ⟨IncrWeakRef_frame hi, rfl⟩
  · simp only [Option.some.injEq, Prod.mk.injEq] at hd
    obtain ⟨rfl, rfl⟩ := hd
    exact ⟨Frame.frame_refl _, rfl⟩

theorem WeakPtr.weak_ctor_copy_frame {h g : Heap} {other w : WeakPtr}
    (hd : WeakPtr.ctor_copy h other = some (g, w)) :
    Frame h g ∧ w = ⟨other.cb_, other.observed_pole_, false⟩ := by
  unfold WeakPtr.ctor_copy at hd
  simp only at hd
  split at hd
  · cases hi : IncrWeakRef h other.cb_ false with
    | none => simp [hi] at hd
    | some h1 =>
      simp only [hi, Option.some.injEq, Prod.mk.injEq] at hd
      obtain ⟨rfl, rfl⟩ := hd
      exact ⟨IncrWeakRef_frame hi, rfl⟩
  · simp only [Option.some.injEq, Prod.mk.injEq] at hd
    obtain ⟨rfl, rfl⟩ := hd
    exact ⟨Frame.frame_refl _, rfl⟩

theorem WeakPtr.weak_Reset_frame {h g : Heap} {w x : WeakPtr}
    (hd : WeakPtr.Reset h w = some (g, x)) :
    Frame h g ∧ (x = ⟨0, 0, w.is_this_weak_⟩ ∨ x = w) := by
  unfold WeakPtr.Reset at hd
  split at hd
  · cases hi : DecrWeakRef h w.cb_ w.is_this_weak_ with
    | none => simp [hi] at hd
    | some h1 =>
      simp only [hi, Option.some.injEq, Prod.mk.injEq] at hd
      obtain ⟨rfl, rfl⟩ := hd
      exact ⟨DecrWeakRef_frame hi, Or.inl rfl⟩
  · simp only [Option.some.injEq, Prod.mk.injEq] at hd
    obtain ⟨rfl, rfl⟩ := hd
    exact ⟨Frame.frame_refl _, Or.inr rfl⟩

theorem WeakPtr.weak_assign_move_frame {h g : Heap} {this other x y : WeakPtr}
    (hd : WeakPtr.assign_move h this other = some (g, x, y)) :
    Frame h g ∧ x = ⟨other.cb_, other.observed_pole_, other.is_this_weak_⟩ ∧
      y = ⟨0, 0, other.is_this_weak_⟩ := by
  unfold WeakPtr.assign_move at hd
  cases hi : (if this.cb_ ≠ 0 then DecrWeakRef h this.cb_ this.is_this_weak_ else some h) with
  | none => simp [hi] at hd
  | some h1 =>
    simp only [hi, Option.some.injEq, Prod.mk.injEq] at hd
    obtain ⟨rfl, rfl, rfl⟩ := hd
    exact ⟨weak_release_frame hi, rfl, rfl⟩

theorem WeakPtr.weak_assign_copy_frame {h g : Heap} {this other x : WeakPtr}
    (hd : WeakPtr.assign_copy h this other = some (g, x)) :
    Frame h g ∧ x = ⟨other.cb_, other.observed_pole_, other.is_this_weak_⟩ := by
  unfold WeakPtr.assign_copy at hd
  cases hi : (if this.cb_ ≠ 0 then DecrWeakRef h this.cb_ this.is_this_weak_ else some h) with
  | none => simp [hi] at hd
  | some h1 =>
    simp only [hi] at hd
    have hp1 := weak_release_frame hi
    split at hd
    · cases hj : IncrWeakRef h1 other.cb_ other.is_this_weak_ with
      | none => simp [hj] at hd
      | some h2 =>
        simp only [hj, Option.some.injEq, Prod.mk.injEq] at hd
        obtain ⟨rfl, rfl⟩ := hd
        exact ⟨hp1.frame_trans (IncrWeakRef_frame hj), rfl⟩
    · simp only [Option.some.injEq, Prod.mk.injEq] at hd
      obtain ⟨rfl, rfl⟩ := hd
      exact ⟨hp1, rfl⟩

theorem SharedPtr.ctor_copy_frame {h g : Heap} {a x : SharedPtr}
    (hd : SharedPtr.ctor_copy h a = some (g, x)) : Frame h g ∧ x = a := by
  unfold SharedPtr.ctor_copy at hd
  simp only at hd
  split at hd
  · cases hc : IncrRef h a.cb_ with
    | none => simp [hc] at hd
    | some h1 =>
      simp only [hc, Option.some.injEq, Prod.mk.injEq] at hd
      obtain ⟨rfl, rfl⟩ := hd
      exact ⟨IncrRef_frame hc, rfl⟩
  · simp only [Option.some.injEq, Prod.mk.injEq] at hd
    obtain ⟨rfl, rfl⟩ := hd
    exact ⟨Frame.frame_refl _, rfl⟩

theorem SharedPtr.ctor_alias_frame {h g : Heap} {a x : SharedPtr} {ptr : Nat}
    (hd : SharedPtr.ctor_alias h a ptr = some (g, x)) :
    Frame h g ∧ x = ⟨a.cb_, ptr⟩ ∧ a.cb_ ≠ 0 := by
  unfold SharedPtr.ctor_alias at hd
  cases hc : IncrRef h a.cb_ with
  | none => simp [hc] at hd
  | some h1 =>
    simp only [hc, Option.some.injEq, Prod.mk.injEq] at hd
    obtain ⟨rfl, rfl⟩ := hd
    obtain ⟨b, hb, -⟩ := IncrRef_some hc
    exact ⟨IncrRef_frame hc, rfl, Heap.deref_ne_zero hb⟩

theorem SharedPtr.ctor_weak_frame {h : Heap} {w : WeakPtr} {r : Outcome SharedPtr}
    (hd : SharedPtr.ctor_weak h w = some r) :
    (∃ g, r = Outcome.value g ⟨w.cb_, w.observed_pole_⟩ ∧ Frame h g) ∨
    (∃ e, r = Outcome.thrown h e) := by
  unfold SharedPtr.ctor_weak at hd
  simp only at hd
  cases he : w.Expired h with
  | none => simp [he] at hd
  | some v =>
    cases v with
    | true =>
      simp only [he, Option.some.injEq] at hd
      exact Or.inr ⟨_, hd.symm⟩
    | false =>
      simp only [he] at hd
      cases hc : IncrRef h w.cb_ with
      | none => simp [hc] at hd
      | some h1 =>
        simp only [hc, Option.some.injEq] at hd
        exact Or.inl ⟨h1, hd.symm, IncrRef_frame hc⟩

theorem WeakPtr.Lock_frame {h : Heap} {w : WeakPtr} {r : Outcome SharedPtr}
    (hd : WeakPtr.Lock h w = some r) :
    (∃ g, r = Outcome.value g ⟨w.cb_, w.observed_pole_⟩ ∧ Frame h g) ∨
    r = Outcome.value h ⟨0, 0⟩ ∨ (∃ e, r = Outcome.thrown h e) := by
  unfold WeakPtr.Lock at hd
  cases he : w.Expired h with
  | none => simp [he] at hd
  | some v =>
    cases v with
    | true =>
      simp only [he, Option.some.injEq] at hd
      exact Or.inr (Or.inl hd.symm)
    | false =>
      simp only [he] at hd
      rcases SharedPtr.ctor_weak_frame hd with hv | ht
      · exact Or.inl hv
      · exact Or.inr (Or.inr ht)

theorem SharedPtr.dtor_frame {h g : Heap} {x : SharedPtr} (hd : SharedPtr.dtor h x = some g) :
    Frame h g :=
  release_frame hd

theorem SharedPtr.Reset_frame {h g : Heap} {x y : SharedPtr}
    (hd : SharedPtr.Reset h x = some (g, y)) : Frame h g ∧ y = ⟨0, 0⟩ := by
  unfold SharedPtr.Reset at hd
  cases hr : (if x.cb_ ≠ 0 then DecrRef h x.cb_ else some h) with
  | none => simp [hr] at hd
  | some h1 =>
    simp only [hr, Option.some.injEq, Prod.mk.injEq] at hd
    obtain ⟨rfl, rfl⟩ := hd
    exact ⟨release_frame hr, rfl⟩

theorem SharedPtr.assign_copy_frame {h g : Heap} {this other x : SharedPtr} {aliased : Bool}
    (hd : SharedPtr.assign_copy h this other aliased = some (g, x)) :
    Frame h g ∧ (x = other ∨ x = this) := by
  unfold SharedPtr.assign_copy at hd
  split at hd
  · cases hr : (if this.cb_ ≠ 0 then DecrRef h this.cb_ else some h) with
    | none => simp [hr] at hd
    | some h1 =>
      simp only [hr] at hd
      split at hd
      · cases hc : IncrRef h1 other.cb_ with
        | none => simp [hc] at hd
        | some h2 =>
          simp only [hc, Option.some.injEq, Prod.mk.injEq] at hd
          obtain ⟨rfl, rfl⟩ := hd
          exact ⟨(release_frame hr).frame_trans (IncrRef_frame hc), Or.inl rfl⟩
      · simp only [Option.some.injEq, Prod.mk.injEq] at hd
        obtain ⟨rfl, rfl⟩ := hd
        exact ⟨release_frame hr, Or.inl rfl⟩
  · simp only [Option.some.injEq, Prod.mk.injEq] at hd
    obtain ⟨rfl, rfl⟩ := hd
    exact ⟨Frame.frame_refl _, Or.inr rfl⟩

theorem SharedPtr.assign_move_frame {h g : Heap} {this other x y : SharedPtr} {aliased : Bool}
    (hd : SharedPtr.assign_move h this other aliased = some (g, x, y)) :
    Frame h g ∧ ((x = other ∧ y = ⟨0, 0⟩) ∨ (x = this ∧ y = other)) := by
  unfold SharedPtr.assign_move at hd
  split at hd
  · cases hr : (if this.cb_ ≠ 0 then DecrRef h this.cb_ else some h) with
    | none => simp [hr] at hd
    | some h1 =>
      simp only [hr, Option.some.injEq, Prod.mk.injEq] at hd
      obtain ⟨rfl, rfl, rfl⟩ := hd
      exact ⟨release_frame hr, Or.inl ⟨rfl, rfl⟩⟩
  · simp only [Option.some.injEq, Prod.mk.injEq] at hd
    obtain ⟨rfl, rfl, rfl⟩ := hd
    exact ⟨Frame.frame_refl _, Or.inr ⟨rfl, rfl⟩⟩


theorem Heap.object?_eq {h : Heap} {p : Nat} (hp : p ≠ 0) : h.object? p = h.objects[p - 1]? := by
  simp [Heap.object?, hp]

theorem Heap.block?_eq {h : Heap} {c : Nat} (hc : c ≠ 0) : h.block? c = h.blocks[c - 1]? := by
  simp [Heap.block?, hc]

theorem BlockFrame.back {h g : Heap} (hf : BlockFrame h g) {c : Nat} {b1 : ControlBlockBase}
    (hb1 : g.block? c = some b1) :
    ∃ b, h.block? c = some b ∧ b1.object = b.object ∧
      (b.is_deleted = true → b1.is_deleted = true) := by
  have hc := Heap.block?_ne_zero hb1
  have hl : c - 1 < h.blocks.length := by
    have := Heap.block?_lt hb1
    rw [hf.1] at this
    exact this
  have hb : h.block? c = some (h.blocks[c - 1]) := by
    rw [Heap.block?_eq hc]
    exact List.getElem?_eq_getElem hl
  obtain ⟨b2, hb2, e, d⟩ := hf.2 c _ hb
  rw [hb1] at hb2
  cases hb2
  exact ⟨_, hb, e, d⟩

/-- The counter operations keep every block the manager of its own object. -/
theorem Owned.of_frame {h g : Heap} (ho : Owned h) (ht : h.Tagged) (hf : Frame h g) :
    Owned g := by
  obtain ⟨hp, hbf, haf⟩ := hf ht
  obtain ⟨o1, o2, o3⟩ := ho
  refine ⟨?_, ?_, ?_⟩
  · intro c b1 hb1 hdel1
    obtain ⟨b, hb, e, d⟩ := hbf.back hb1
    have hdel : b.is_deleted = false := by
      cases hx : b.is_deleted with
      | false => rfl
      | true => rw [d hx] at hdel1; cases hdel1
    obtain ⟨o, hob, hal, hw⟩ := o1 c b hb hdel
    have hp0 := Heap.object?_ne_zero hob
    have hlt : b.object - 1 < g.objects.length := by
      rw [hp.1]
      rw [Heap.object?_eq hp0] at hob
      exact (List.getElem?_eq_some.mp hob).1
    have hg1 : g.object? b.object = some (g.objects[b.object - 1]) := by
      rw [Heap.object?_eq hp0]
      exact List.getElem?_eq_getElem hlt
    obtain ⟨o0, ho0, ew⟩ := hp.2 (b.object - 1) _ (List.getElem?_eq_getElem hlt)
    rw [← Heap.object?_eq hp0, hob] at ho0
    cases ho0
    obtain ⟨o', ho', hal'⟩ := haf b.object _ hg1
    rw [hob] at ho'
    cases ho'
    rw [e]
    refine ⟨_, hg1, ?_, by rw [ew]; exact hw⟩
    rcases hal' with ea | ⟨c', x, hx, hxo, hxd⟩
    · rw [ea]; exact hal
    · obtain ⟨y, hy, ey, -⟩ := hbf.back hx
      have hcc : c' = c := o2 c' c y b hy hb (by rw [← ey, hxo])
      subst hcc
      rw [hb1] at hx
      cases hx
      rw [hxd] at hdel1
      cases hdel1
  · intro c c1 x x1 hx hx1 e
    obtain ⟨y, hy, ey, -⟩ := hbf.back hx
    obtain ⟨y1, hy1, ey1, -⟩ := hbf.back hx1
    exact o2 c c1 y y1 hy hy1 (by rw [← ey, ← ey1, e])
  · intro c x hx
    obtain ⟨y, hy, ey, -⟩ := hbf.back hx
    rw [ey, hp.1]
    exact o3 c y hy

theorem Owned.owned_init : Owned State.init.heap := by
  refine ⟨?_, ?_, ?_⟩ <;> intro c <;> simp [State.init, Heap.block?]

/-- A bare `new T` leaves every block the manager of its own object. -/
theorem Owned.new_object {h : Heap} (ho : Owned h) (o : Object) :
    Owned { h with objects := h.objects ++ [o] } := by
  obtain ⟨o1, o2, o3⟩ := ho
  refine ⟨?_, o2, ?_⟩
  · intro c b hb hdel
    obtain ⟨x, hx, hal, hw⟩ := o1 c b hb hdel
    refine ⟨x, ?_, hal, hw⟩
    have hp0 := Heap.object?_ne_zero hx
    rw [Heap.object?_eq hp0] at hx ⊢
    rw [List.getElem?_append_left (List.getElem?_eq_some.mp hx).1]
    exact hx
  · intro c b hb
    have := o3 c b hb
    simp only [List.length_append, List.length_singleton]
    omega

/-- A block allocated together with its object, as by `MakeShared`. -/
theorem Owned.owned_alloc {h : Heap} (ho : Owned h) {nb : ControlBlockBase} {no : Object}
    (hob : nb.object = h.objects.length + 1) (hal : no.alive = true)
    (hw : no.weak_this_.cb_ = 0 ∨ no.weak_this_.cb_ = h.blocks.length + 1) :
    Owned ⟨h.blocks ++ [nb], h.objects ++ [no]⟩ := by
  obtain ⟨o1, o2, o3⟩ := ho
  have hcase : ∀ c b, (Heap.mk (h.blocks ++ [nb]) (h.objects ++ [no])).block? c = some b →
      h.block? c = some b ∨ (c = h.blocks.length + 1 ∧ b = nb) := by
    intro c b hb
    have hc := Heap.block?_ne_zero hb
    rw [Heap.block?_eq hc] at hb
    simp only at hb
    by_cases hl : c - 1 < h.blocks.length
    · rw [List.getElem?_append_left hl] at hb
      exact Or.inl (by rw [Heap.block?_eq hc]; exact hb)
    · have hlen := (List.getElem?_eq_some.mp hb).1
      simp only [List.length_append, List.length_singleton] at hlen
      have hc1 : c - 1 = h.blocks.length := by omega
      rw [hc1] at hb
      simp at hb
      exact Or.inr ⟨by omega, hb.symm⟩
  have hold : ∀ p x, h.object? p = some x →
      (Heap.mk (h.blocks ++ [nb]) (h.objects ++ [no])).object? p = some x := by
    intro p x hx
    have hp0 := Heap.object?_ne_zero hx
    rw [Heap.object?_eq hp0] at hx ⊢
    simp only
    rw [List.getElem?_append_left (List.getElem?_eq_some.mp hx).1]
    exact hx
  refine ⟨?_, ?_, ?_⟩
  · intro c b hb hdel
    rcases hcase c b hb with hb0 | ⟨rfl, rfl⟩
    · obtain ⟨x, hx, hxa, hxw⟩ := o1 c b hb0 hdel
      exact ⟨x, hold _ _ hx, hxa, hxw⟩
    · refine ⟨no, ?_, hal, hw⟩
      rw [hob]
      exact Heap.object?_append_new _ _ _
  · intro c c1 b b1 hb hb1 e
    rcases hcase c b hb with hb0 | ⟨rfl, rfl⟩
    · rcases hcase c1 b1 hb1 with hb10 | ⟨rfl, rfl⟩
      · exact o2 c c1 b b1 hb0 hb10 e
      · have := (o3 c b hb0).2
        omega
    · rcases hcase c1 b1 hb1 with hb10 | ⟨rfl, rfl⟩
      · have := (o3 c1 b1 hb10).2
        omega
      · rfl
  · intro c b hb
    simp only [List.length_append, List.length_singleton]
    rcases hcase c b hb with hb0 | ⟨rfl, rfl⟩
    · have := o3 c b hb0
      omega
    · omega

theorem MakeShared_false_eq (h : Heap) :
    MakeShared false h = some
      (⟨h.blocks ++ [⟨1, 0, false, Storage.WithObject, h.objects.length + 1, false, 0⟩],
        h.objects ++ [⟨⟨0, 0, false⟩, true⟩]⟩,
       ⟨h.blocks.length + 1, h.objects.length + 1⟩) := by
  have hd : (Heap.mk (h.blocks ++ [⟨1, 0, false, Storage.WithObject, h.objects.length + 1, false, 0⟩])
      (h.objects ++ [⟨⟨0, 0, false⟩, true⟩])).deref (h.blocks.length + 1)
      = some ⟨1, 0, false, Storage.WithObject, h.objects.length + 1, false, 0⟩ :=
    Heap.deref_eq_some.mpr ⟨Heap.block?_append_new _ _ _, rfl⟩
  simp [MakeShared, newControlBlockWithObject, GetObjectPtr, hd]

theorem MakeShared_owned {h g : Heap} {esft : Bool} {x : SharedPtr} (ho : Owned h)
    (hd : MakeShared esft h = some (g, x)) : Owned g := by
  cases esft with
  | true =>
    rw [MakeShared_true_eq] at hd
    simp only [Option.some.injEq, Prod.mk.injEq] at hd
    obtain ⟨rfl, -⟩ := hd
    exact ho.owned_alloc rfl rfl (Or.inr rfl)
  | false =>
    rw [MakeShared_false_eq] at hd
    simp only [Option.some.injEq, Prod.mk.injEq] at hd
    obtain ⟨rfl, -⟩ := hd
    exact ho.owned_alloc rfl rfl (Or.inl rfl)


theorem Owned.owned_pushOutcome {s : State} (ho : Owned s.heap) (ht : s.heap.Tagged)
    {x : SharedPtr} {r : Outcome SharedPtr}
    (hr : (∃ g, r = Outcome.value g x ∧ Frame s.heap g) ∨
      r = Outcome.value s.heap ⟨0, 0⟩ ∨ (∃ e, r = Outcome.thrown s.heap e)) :
    Owned (s.pushOutcome r).heap := by
  rcases hr with ⟨g, rfl, hf⟩ | rfl | ⟨e, rfl⟩
  · exact ho.of_frame ht hf
  · exact ho
  · exact ho

/-- A statement that adopts no raw pointer keeps every block the manager of
its own object. -/
theorem step_Owned {s t : State} {op : Op} (hinv : Inv s) (ho : Owned s.heap)
    (hm : op.makeOnly = true) (hs : step s op = some t) : Owned t.heap := by
  have ht := hinv.2.2
  cases op with
  | new_T =>
    simp only [step, Option.some.injEq] at hs
    subst hs
    exact ho.new_object _
  | Shared_default =>
    simp only [step, Option.some.injEq] at hs
    subst hs
    exact ho
  | Shared_ptr esft ptr => simp [Op.makeOnly] at hm
  | Make_Shared esft =>
    simp only [step, Option.bind_eq_some, Option.some.injEq] at hs
    obtain ⟨r, hr, rfl⟩ := hs
    exact MakeShared_owned (x := r.2) ho hr
  | Shared_copy i =>
    simp only [step, Option.bind_eq_some, Option.some.injEq] at hs
    obtain ⟨a, ha, r, hr, rfl⟩ := hs
    exact ho.of_frame ht (SharedPtr.ctor_copy_frame (x := r.2) hr).1
  | Shared_move i =>
    simp only [step, Option.bind_eq_some, Option.some.injEq] at hs
    obtain ⟨a, ha, rfl⟩ := hs
    exact ho
  | Shared_alias i ptr =>
    simp only [step, Option.bind_eq_some, Option.some.injEq] at hs
    obtain ⟨a, ha, r, hr, rfl⟩ := hs
    exact ho.of_frame ht (SharedPtr.ctor_alias_frame (x := r.2) hr).1
  | Shared_weak k =>
    simp only [step, Option.bind_eq_some, Option.some.injEq] at hs
    obtain ⟨w, hw, r, hr, rfl⟩ := hs
    refine Owned.owned_pushOutcome (x := ⟨w.cb_, w.observed_pole_⟩) ho ht ?_
    rcases SharedPtr.ctor_weak_frame hr with hv | hth
    · exact Or.inl hv
    · exact Or.inr (Or.inr hth)
  | Shared_assign_copy i j =>
    simp only [step, Option.bind_eq_some, Option.some.injEq] at hs
    obtain ⟨a, ha, b, hb, r, hr, rfl⟩ := hs
    exact ho.of_frame ht (SharedPtr.assign_copy_frame (x := r.2) hr).1
  | Shared_assign_move i j =>
    simp only [step, Option.bind_eq_some, Option.some.injEq] at hs
    obtain ⟨a, ha, b, hb, r, hr, rfl⟩ := hs
    exact ho.of_frame ht (SharedPtr.assign_move_frame (x := r.2.1) (y := r.2.2) hr).1
  | Shared_dtor i =>
    simp only [step, Option.bind_eq_some, Option.some.injEq] at hs
    obtain ⟨a, ha, r, hr, rfl⟩ := hs
    exact ho.of_frame ht (SharedPtr.dtor_frame hr)
  | Shared_Reset i =>
    simp only [step, Option.bind_eq_some, Option.some.injEq] at hs
    obtain ⟨a, ha, r, hr, rfl⟩ := hs
    exact ho.of_frame ht (SharedPtr.Reset_frame (y := r.2) hr).1
  | Shared_Reset_ptr i ptr => simp [Op.makeOnly] at hm
  | Shared_Swap i j =>
    simp only [step, Option.bind_eq_some, Option.some.injEq] at hs
    obtain ⟨a, ha, b, hb, rfl⟩ := hs
    exact ho
  | Weak_default =>
    simp only [step, Option.some.injEq] at hs
    subst hs
    exact ho
  | Weak_copy k =>
    simp only [step, Option.bind_eq_some, Option.some.injEq] at hs
    obtain ⟨w, hw, r, hr, rfl⟩ := hs
    exact ho.of_frame ht (WeakPtr.weak_ctor_copy_frame (w := r.2) hr).1
  | Weak_move k =>
    simp only [step, Option.bind_eq_some, Option.some.injEq] at hs
    obtain ⟨w, hw, rfl⟩ := hs
    exact ho
  | Weak_shared i flag =>
    simp only [step, Option.bind_eq_some, Option.some.injEq] at hs
    obtain ⟨a, ha, r, hr, rfl⟩ := hs
    exact ho.of_frame ht (WeakPtr.ctor_shared_frame (w := r.2) hr).1
  | Weak_assign_copy k l =>
    simp only [step, Option.bind_eq_some, Option.some.injEq] at hs
    obtain ⟨a, ha, b, hb, r, hr, rfl⟩ := hs
    exact ho.of_frame ht (WeakPtr.weak_assign_copy_frame (x := r.2) hr).1
  | Weak_assign_move k l =>
    simp only [step, Option.bind_eq_some, Option.some.injEq] at hs
    obtain ⟨a, ha, b, hb, r, hr, rfl⟩ := hs
    exact ho.of_frame ht (WeakPtr.weak_assign_move_frame (x := r.2.1) (y := r.2.2) hr).1
  | Weak_dtor k =>
    simp only [step, Option.bind_eq_some, Option.some.injEq] at hs
    obtain ⟨a, ha, r, hr, rfl⟩ := hs
    exact ho.of_frame ht (WeakPtr.weak_dtor_frame hr)
  | Weak_Reset k =>
    simp only [step, Option.bind_eq_some, Option.some.injEq] at hs
    obtain ⟨a, ha, r, hr, rfl⟩ := hs
    exact ho.of_frame ht (WeakPtr.weak_Reset_frame (x := r.2) hr).1
  | Weak_Swap k l =>
    simp only [step, Option.bind_eq_some, Option.some.injEq] at hs
    obtain ⟨a, ha, b, hb, rfl⟩ := hs
    exact ho
  | Weak_Lock k =>
    simp only [step, Option.bind_eq_some, Option.some.injEq] at hs
    obtain ⟨w, hw, r, hr, rfl⟩ := hs
    exact Owned.owned_pushOutcome ho ht (WeakPtr.Lock_frame hr)
  | Shared_From_This ptr =>
    simp only [step, Option.bind_eq_some, Option.some.injEq] at hs
    obtain ⟨r, hr, rfl⟩ := hs
    unfold SharedFromThis at hr
    split at hr
    · split at hr
      · exact Owned.owned_pushOutcome ho ht (WeakPtr.Lock_frame hr)
      · simp at hr
    · simp at hr
  | Weak_From_This ptr =>
    simp only [step, Option.bind_eq_some, Option.some.injEq] at hs
    obtain ⟨r, hr, rfl⟩ := hs
    unfold WeakFromThis at hr
    split at hr
    · split at hr
      · exact ho.of_frame ht (WeakPtr.weak_ctor_copy_frame (w := r.2) hr).1
      · simp at hr
    · simp at hr

/-- In a program that adopts no raw pointer every reachable state has each
block the manager of its own object. -/
theorem run_Owned : ∀ (ops : List Op) {s t : State}, Inv s → Owned s.heap →
    (∀ op ∈ ops, op.makeOnly = true) → run ops s = some t → Owned t.heap
  | [], s, t, _, ho, _, hr => by
    simp only [run, Option.some.injEq] at hr
    subst hr
    exact ho
  | op :: ops, s, t, hinv, ho, hm, hr => by
    simp only [run, Option.bind_eq_some] at hr
    obtain ⟨u, hu, hr⟩ := hr
    exact run_Owned ops (step_Inv hinv hu)
      (step_Owned hinv ho (hm op (List.mem_cons_self _ _)) hu)
      (fun x hx => hm x (List.mem_cons_of_mem _ hx)) hr

/-- In a program whose control blocks all come from `MakeShared`, the managed
object of the block of a live `SharedPtr` can be destroyed. -/
theorem Destroyable_of_makeOnly (ops : List Op) (s : State) (hr : run ops State.init = some s)
    (hm : ∀ op ∈ ops, op.makeOnly = true) (i : Nat) (a : SharedPtr)
    (hi : s.shared? i = some a) (b : ControlBlockBase) (hb : s.heap.block? a.cb_ = some b) :
    Destroyable s.heap b := by
  have ho := run_Owned ops Inv.inv_init Owned.owned_init hm hr
  have hc : a.cb_ ≠ 0 := Heap.block?_ne_zero hb
  obtain ⟨b0, hb0, -, -, hdel, -⟩ := live_SharedPtr_block ops s hr i a hi hc
  have hbb : b0 = b := by
    have := (Heap.deref_eq_some.mp hb0).1
    rw [hb] at this
    exact (Option.some.inj this).symm
  subst hbb
  obtain ⟨o, hob, hal, hw⟩ := ho.1 a.cb_ b0 hb hdel
  refine Or.inr ⟨o, hob, hal, ?_⟩
  rcases hw with hw | hw
  · exact Or.inl hw
  · exact Or.inr ⟨b0, by rw [hw]; exact hb0⟩

theorem State.shared?_set_self {s : State} {i : Nat} {x : SharedPtr} {h : Heap}
    {l : List (Option SharedPtr)} (hi : i < l.length) :
    (State.mk h (l.set i (some x)) s.weak).shared? i = some x := by
  simp [State.shared?, List.getElem?_set_self hi]

theorem State.shared?_set_ne {s : State} {i j : Nat} {v : Option SharedPtr} {h : Heap}
    {l : List (Option SharedPtr)} (hij : i ≠ j) :
    (State.mk h (l.set i v) s.weak).shared? j = (State.mk h l s.weak).shared? j := by
  simp [State.shared?, List.getElem?_set_ne hij]

theorem State.shared?_lt {s : State} {i : Nat} {x : SharedPtr} (hi : s.shared? i = some x) :
    i < s.shared.length :=
  (List.getElem?_eq_some.mp (State.shared?_eq_some.mp hi)).1

/-- A live `SharedPtr` variable of a consistent state refers to an allocated
block with at least one owner whose object is not destroyed. -/
theorem Inv.live_block {s : State} (hinv : Inv s) {i : Nat} {a : SharedPtr}
    (hi : s.shared? i = some a) (hc : a.cb_ ≠ 0) :
    ∃ b, s.heap.deref a.cb_ = some b ∧ b.ref_count = sharedCount s a.cb_ ∧
      1 ≤ b.ref_count ∧ b.is_deleted = false ∧ b.destroyed = 0 := by
  have hpos : 1 ≤ sharedCount s a.cb_ := owners_pos (State.shared?_eq_some.mp hi)
  cases hblk : s.heap.block? a.cb_ with
  | none =>
    have := hinv.2.1 _ hc hblk
    omega
  | some b =>
    obtain ⟨g1, g2, g3, g4, -⟩ := hinv.1 _ b hblk
    have hfr : b.freed = false := by
      cases hx : b.freed with
      | false => rfl
      | true => have := g2 hx; omega
    have hdel : b.is_deleted = false := by
      cases hx : b.is_deleted with
      | false => rfl
      | true => have := g3.mp hx; omega
    refine ⟨b, Heap.deref_eq_some.mpr ⟨hblk, hfr⟩, g1, by omega, hdel, ?_⟩
    rw [g4, if_neg (by omega)]

theorem ReleasedOne.of_set {h g : Heap} {c : Nat} {b : ControlBlockBase}
    (hb : h.block? c = some b) (e : g.blocks = h.blocks.set (c - 1) (releasedBlock b)) :
    ReleasedOne h g c := by
  refine ⟨by rw [e]; simp, ?_⟩
  intro x bx hx
  rw [Heap.block?_of_set hb e x]
  by_cases hxc : x = c
  · subst hxc
    rw [hb] at hx
    cases hx
    simp
  · simp [hxc, hx]

theorem ReleasedOne.null (h : Heap) : ReleasedOne h h 0 := by
  refine ⟨rfl, ?_⟩
  intro x b hx
  rw [if_neg (Heap.block?_ne_zero hx)]
  exact hx

/-- What the release of the strong reference of a live `SharedPtr` variable
does to the heap of a consistent state. -/
theorem release_effect {s : State} (hinv : Inv s) {i : Nat} {a : SharedPtr}
    (hi : s.shared? i = some a) {g : Heap}
    (hd : (if a.cb_ ≠ 0 then DecrRef s.heap a.cb_ else some s.heap) = some g) :
    ReleasedOne s.heap g a.cb_ ∧ ObjsPres s.heap g := by
  by_cases hc : a.cb_ = 0
  · rw [if_neg (by simpa using hc)] at hd
    cases hd
    rw [hc]
    exact ⟨ReleasedOne.null _, ObjsPres.refl _⟩
  · rw [if_pos hc] at hd
    obtain ⟨b, hb, -, -, hdel, -⟩ := hinv.live_block hi hc
    obtain ⟨hp, hbl⟩ := DecrRef_inv hinv.2.2 hb (fun _ => hdel) hd
    exact ⟨ReleasedOne.of_set (Heap.deref_eq_some.mp hb).1 hbl, hp⟩

/-- The release of the strong reference of a live `SharedPtr` variable is
defined whenever the managed pointer of its block can be destroyed. -/
theorem release_exists {s : State} (hinv : Inv s) {i : Nat} {a : SharedPtr}
    (hi : s.shared? i = some a)
    (hobj : ∀ b, s.heap.block? a.cb_ = some b → Destroyable s.heap b) :
    ∃ g, (if a.cb_ ≠ 0 then DecrRef s.heap a.cb_ else some s.heap) = some g := by
  by_cases hc : a.cb_ = 0
  · exact ⟨s.heap, by rw [if_neg (by simpa using hc)]⟩
  · rw [if_pos hc]
    obtain ⟨b, hb, -, hpos, hdel, -⟩ := hinv.live_block hi hc
    have hobj1 : (b.storage = Storage.WithPointer ∧ b.object = 0) ∨
        ∃ o, s.heap.object? b.object = some o ∧ o.alive = true ∧
          (o.weak_this_.cb_ = 0 ∨
            (o.weak_this_.is_this_weak_ = true ∧
              ∃ b1, s.heap.deref o.weak_this_.cb_ = some b1)) := by
      rcases hobj b (Heap.deref_eq_some.mp hb).1 with h0 | ⟨o, ho, ha, hw⟩
      · exact Or.inl h0
      · refine Or.inr ⟨o, ho, ha, ?_⟩
        rcases hw with hw | ⟨b1, hb1⟩
        · exact Or.inl hw
        · rcases hinv.2.2.object ho with h0 | ht
          · exact Or.inl h0
          · exact Or.inr ⟨ht, b1, hb1⟩
    exact DecrRef_defined hb hpos hdel hobj1

/-- In a reachable state the release of a live `SharedPtr` variable is defined
if its managed pointer can be destroyed, which is so in every program whose
control blocks all come from `MakeShared`. -/
theorem live_release_exists (ops : List Op) (s : State) (hr : run ops State.init = some s)
    (i : Nat) (a : SharedPtr) (hi : s.shared? i = some a)
    (hobj : (∀ b, s.heap.block? a.cb_ = some b → Destroyable s.heap b) ∨
      ∀ op ∈ ops, op.makeOnly = true) :
    ∃ g, (if a.cb_ ≠ 0 then DecrRef s.heap a.cb_ else some s.heap) = some g := by
  have hinv := run_Inv ops Inv.inv_init hr
  refine release_exists hinv hi ?_
  rcases hobj with h1 | h2
  · exact h1
  · intro b hb
    exact Destroyable_of_makeOnly ops s hr h2 i a hi b hb

theorem set_same_of_getElem? {α : Type} {l : List α} {i : Nat} {x : α}
    (hi : l[i]? = some x) : l.set i x = l := by
  apply List.ext_getElem?
  intro n
  by_cases hn : i = n
  · subst hn
    rw [List.getElem?_set_self (List.getElem?_eq_some.mp hi).1, hi]
  · rw [List.getElem?_set_ne hn]

/-- Two distinct live variables on the same block are two owners. -/
theorem owners_two {l : List (Option SharedPtr)} {i j : Nat} {a b : SharedPtr}
    (hi : l[i]? = some (some a)) (hj : l[j]? = some (some b)) (hij : i ≠ j)
    (hab : a.cb_ = b.cb_) : 2 ≤ owners l a.cb_ := by
  have h1 := owners_set hi none a.cb_
  have hj1 : (l.set i none)[j]? = some (some b) := by
    rw [List.getElem?_set_ne hij]; exact hj
  have h2 := owners_pos hj1
  rw [← hab] at h2
  simp [holds] at h1
  omega

/-- `DecrRef` on a block that keeps an owner only lowers `ref_count`. -/
theorem DecrRef_of_not_last {h : Heap} {c : Nat} {b : ControlBlockBase}
    (hb : h.deref c = some b) (h2 : b.ref_count ≠ 1) :
    DecrRef h c = some (h.setBlock c { b with ref_count := b.ref_count - 1 }) := by
  have hne : ¬ (b.ref_count - 1 = 0) := by omega
  simp [DecrRef, hb, hne]

/-- Releasing one owner of a block with at least two and taking a new one
restores the heap. -/
theorem DecrRef_IncrRef_same {h : Heap} {c : Nat} {b : ControlBlockBase}
    (hb : h.deref c = some b) (h2 : b.ref_count ≠ 1) (hmax : b.ref_count ≤ INT_MAX) :
    (DecrRef h c).bind (fun g => IncrRef g c) = some h := by
  rw [DecrRef_of_not_last hb h2]
  have hfr : b.freed = false := (Heap.deref_eq_some.mp hb).2
  have hb1 : (h.setBlock c { b with ref_count := b.ref_count - 1 }).deref c
      = some { b with ref_count := b.ref_count - 1 } := Heap.deref_setBlock_self hb hfr
  have hlt : ({ b with ref_count := b.ref_count - 1 } : ControlBlockBase).ref_count < INT_MAX := by
    show b.ref_count - 1 < INT_MAX
    omega
  simp only [Option.some_bind, IncrRef_eq hb1 hlt, Heap.setBlock_setBlock, sub_add_cancel]
  exact congrArg some (Heap.setBlock_same (Heap.deref_eq_some.mp hb).1)

/-- `DecrWeakRef(false)` on a block whose object is destroyed whenever it has
no owner: only `weak_ref_count` changes, and the storage is released exactly
if no owner and no counted weak handle is left. -/
theorem DecrWeakRef_exact {h : Heap} {c : Nat} {b : ControlBlockBase}
    (hb : h.deref c = some b) (hdel : b.ref_count = 0 → b.is_deleted = true) :
    DecrWeakRef h c false = some (h.setBlock c
      { b with weak_ref_count := b.weak_ref_count - 1,
               freed := decide (b.ref_count = 0 ∧ b.weak_ref_count - 1 = 0) }) := by
  obtain ⟨rc, wk, del, st, ob, fr, ds⟩ := b
  have hfr : fr = false := (Heap.deref_eq_some.mp hb).2
  subst hfr
  simp only at hdel
  have hb1 : (h.setBlock c ⟨rc, wk - 1, del, st, ob, false, ds⟩).deref c
      = some ⟨rc, wk - 1, del, st, ob, false, ds⟩ := Heap.deref_setBlock_self hb rfl
  have hskip : SharedDestructor (h.setBlock c ⟨rc, wk - 1, del, st, ob, false, ds⟩) c
      = some (h.setBlock c ⟨rc, wk - 1, del, st, ob, false, ds⟩) := by
    apply SharedDestructorF_skip hb1
    intro hx
    have := hdel hx.1
    rw [this] at hx
    exact Bool.noConfusion hx.2
  simp only [DecrWeakRef, DecrWeakRefWith, hb, if_true]
  by_cases h0 : rc = 0
  · by_cases hw : wk - 1 = 0
    · rw [if_pos ⟨h0, hw⟩]
      rw [hw, h0] at hskip hb1
      simp only [deleteThisWith, hw, h0, hskip, hb1, Heap.setBlock_setBlock, and_self,
        decide_True]
    · rw [if_neg (fun hh => hw hh.2), if_pos h0, hskip]
      simp [h0, hw]
  · rw [if_neg (fun hh => h0 hh.1), if_neg h0]
    simp [h0]

/-- `DecrWeakRef(true)` does nothing. -/
theorem DecrWeakRef_tagged {h : Heap} {c : Nat} {b : ControlBlockBase}
    (hb : h.deref c = some b) : DecrWeakRef h c true = some h := by
  simp [DecrWeakRef, DecrWeakRefWith, hb]

theorem toSizeT_natCast (n : Nat) : toSizeT (n : Int) = n % 2 ^ 64 := by
  unfold toSizeT
  omega

theorem SameLifetime.same_refl (h : Heap) : SameLifetime h h :=
  ⟨rfl, rfl, fun _ b hb => ⟨b, hb, rfl, rfl, rfl, rfl, rfl, fun hf => Or.inl hf⟩⟩

theorem SameLifetime.same_trans {h g k : Heap} (a : SameLifetime h g) (b : SameLifetime g k) :
    SameLifetime h k := by
  refine ⟨b.1.trans a.1, b.2.1.trans a.2.1, ?_⟩
  intro c x hx
  obtain ⟨x1, hx1, e1, e2, e3, e4, e5, e6⟩ := a.2.2 c x hx
  obtain ⟨x2, hx2, f1, f2, f3, f4, f5, f6⟩ := b.2.2 c x1 hx1
  refine ⟨x2, hx2, f1.trans e1, f2.trans e2, f3.trans e3, f4.trans e4, f5.trans e5, ?_⟩
  intro hf
  rcases f6 hf with hf1 | h0
  · exact e6 hf1
  · exact Or.inr (by rw [← e1]; exact h0)

theorem SameLifetime.same_setBlock {h : Heap} {c : Nat} {b d : ControlBlockBase}
    (hb : h.block? c = some b) (e1 : d.ref_count = b.ref_count)
    (e2 : d.is_deleted = b.is_deleted) (e3 : d.destroyed = b.destroyed)
    (e4 : d.storage = b.storage) (e5 : d.object = b.object)
    (e6 : d.freed = true → b.freed = true ∨ b.ref_count = 0) :
    SameLifetime h (h.setBlock c d) := by
  refine ⟨rfl, Heap.length_setBlock _ _ _, ?_⟩
  intro x bx hx
  by_cases hxc : x = c
  · subst hxc
    rw [hb] at hx
    cases hx
    exact ⟨d, Heap.block?_setBlock_self hb, e1, e2, e3, e4, e5, e6⟩
  · exact ⟨bx, by rw [Heap.block?_setBlock_ne (Heap.block?_ne_zero hb) hxc]; exact hx,
      rfl, rfl, rfl, rfl, rfl, fun hf => Or.inl hf⟩

theorem DecrWeakRef_same {h g : Heap} {c : Nat} {flag : Bool}
    (hs : ∀ c b, h.block? c = some b → b.ref_count = 0 → b.is_deleted = true)
    (hd : DecrWeakRef h c flag = some g) : SameLifetime h g := by
  cases hb : h.deref c with
  | none => simp [DecrWeakRef, DecrWeakRefWith, hb] at hd
  | some b =>
    have hblk := (Heap.deref_eq_some.mp hb).1
    cases flag with
    | true =>
      rw [DecrWeakRef_tagged hb] at hd
      cases hd
      exact SameLifetime.same_refl h
    | false =>
      rw [DecrWeakRef_exact hb (hs c b hblk)] at hd
      cases hd
      refine SameLifetime.same_setBlock hblk rfl rfl rfl rfl rfl ?_
      intro hf
      simp only [decide_eq_true_eq] at hf
      exact Or.inr hf.1

theorem IncrWeakRef_same {h g : Heap} {c : Nat} {flag : Bool}
    (hd : IncrWeakRef h c flag = some g) : SameLifetime h g := by
  obtain ⟨b, hb, rfl⟩ := IncrWeakRef_some hd
  have hblk := (Heap.deref_eq_some.mp hb).1
  split
  · exact SameLifetime.same_setBlock hblk rfl rfl rfl rfl rfl (fun hf => Or.inl hf)
  · exact SameLifetime.same_refl h

theorem weak_release_same {h g : Heap} {c : Nat} {flag : Bool}
    (hs : ∀ c b, h.block? c = some b → b.ref_count = 0 → b.is_deleted = true)
    (hd : (if c ≠ 0 then DecrWeakRef h c flag else some h) = some g) : SameLifetime h g := by
  split at hd
  · exact DecrWeakRef_same hs hd
  · cases hd; exact SameLifetime.same_refl h

theorem weak_acquire_same {h g : Heap} {c : Nat} {flag : Bool} {w : WeakPtr}
    (hd : (if c ≠ 0 then
        match IncrWeakRef h c flag with
        | some h1 => some (h1, w)
        | none => none
      else some (h, w)) = some (g, w)) : SameLifetime h g := by
  split at hd
  · cases hi : IncrWeakRef h c flag with
    | none => simp [hi] at hd
    | some h1 =>
      simp only [hi, Option.some.injEq, Prod.mk.injEq] at hd
      obtain ⟨rfl, -⟩ := hd
      exact IncrWeakRef_same hi
  · simp only [Option.some.injEq, Prod.mk.injEq] at hd
    obtain ⟨rfl, -⟩ := hd
    exact SameLifetime.same_refl h

theorem WeakPtr.ctor_shared_same {h g : Heap} {sh : SharedPtr} {flag : Bool} {w : WeakPtr}
    (hd : WeakPtr.ctor_shared h sh flag = some (g, w)) :
    SameLifetime h g ∧ w = ⟨sh.cb_, sh.observed_pole_, flag⟩ := by
  unfold WeakPtr.ctor_shared at hd
  simp only at hd
  split at hd
  · cases hi : IncrWeakRef h sh.cb_ flag with
    | none => simp [hi] at hd
    | some h1 =>
      simp only [hi, Option.some.injEq, Prod.mk.injEq] at hd
      obtain ⟨rfl, rfl⟩ := hd
      exact ⟨IncrWeakRef_same hi, rfl⟩
  · simp only [Option.some.injEq, Prod.mk.injEq] at hd
    obtain ⟨rfl, rfl⟩ := hd
    exact ⟨SameLifetime.same_refl _, rfl⟩

theorem WeakPtr.weak_ctor_copy_same {h g : Heap} {other w : WeakPtr}
    (hd : WeakPtr.ctor_copy h other = some (g, w)) :
    SameLifetime h g ∧ w = ⟨other.cb_, other.observed_pole_, false⟩ := by
  unfold WeakPtr.ctor_copy at hd
  simp only at hd
  split at hd
  · cases hi : IncrWeakRef h other.cb_ false with
    | none => simp [hi] at hd
    | some h1 =>
      simp only [hi, Option.some.injEq, Prod.mk.injEq] at hd
      obtain ⟨rfl, rfl⟩ := hd
      exact ⟨IncrWeakRef_same hi, rfl⟩
  · simp only [Option.some.injEq, Prod.mk.injEq] at hd
    obtain ⟨rfl, rfl⟩ := hd
    exact ⟨SameLifetime.same_refl _, rfl⟩

theorem WeakPtr.weak_Reset_same {h g : Heap} {w x : WeakPtr}
    (hs : ∀ c b, h.block? c = some b → b.ref_count = 0 → b.is_deleted = true)
    (hd : WeakPtr.Reset h w = some (g, x)) :
    SameLifetime h g ∧ (x = ⟨0, 0, w.is_this_weak_⟩ ∨ x = w) := by
  unfold WeakPtr.Reset at hd
  split at hd
  · cases hi : DecrWeakRef h w.cb_ w.is_this_weak_ with
    | none => simp [hi] at hd
    | some h1 =>
      simp only [hi, Option.some.injEq, Prod.mk.injEq] at hd
      obtain ⟨rfl, rfl⟩ := hd
      exact ⟨DecrWeakRef_same hs hi, Or.inl rfl⟩
  · simp only [Option.some.injEq, Prod.mk.injEq] at hd
    obtain ⟨rfl, rfl⟩ := hd
    exact ⟨SameLifetime.same_refl _, Or.inr rfl⟩

theorem WeakPtr.weak_assign_move_same {h g : Heap} {this other x y : WeakPtr}
    (hs : ∀ c b, h.block? c = some b → b.ref_count = 0 → b.is_deleted = true)
    (hd : WeakPtr.assign_move h this other = some (g, x, y)) :
    SameLifetime h g ∧ x = ⟨other.cb_, other.observed_pole_, other.is_this_weak_⟩ ∧
      y = ⟨0, 0, other.is_this_weak_⟩ := by
  unfold WeakPtr.assign_move at hd
  cases hi : (if this.cb_ ≠ 0 then DecrWeakRef h this.cb_ this.is_this_weak_ else some h) with
  | none => simp [hi] at hd
  | some h1 =>
    simp only [hi, Option.some.injEq, Prod.mk.injEq] at hd
    obtain ⟨rfl, rfl, rfl⟩ := hd
    exact ⟨weak_release_same hs hi, rfl, rfl⟩

theorem WeakPtr.weak_assign_copy_same {h g : Heap} {this other x : WeakPtr}
    (hs : ∀ c b, h.block? c = some b → b.ref_count = 0 → b.is_deleted = true)
    (hd : WeakPtr.assign_copy h this other = some (g, x)) :
    SameLifetime h g ∧ x = ⟨other.cb_, other.observed_pole_, other.is_this_weak_⟩ := by
  unfold WeakPtr.assign_copy at hd
  cases hi : (if this.cb_ ≠ 0 then DecrWeakRef h this.cb_ this.is_this_weak_ else some h) with
  | none => simp [hi] at hd
  | some h1 =>
    simp only [hi] at hd
    have hp1 := weak_release_same hs hi
    split at hd
    · cases hj : IncrWeakRef h1 other.cb_ other.is_this_weak_ with
      | none => simp [hj] at hd
      | some h2 =>
        simp only [hj, Option.some.injEq, Prod.mk.injEq] at hd
        obtain ⟨rfl, rfl⟩ := hd
        exact ⟨hp1.same_trans (IncrWeakRef_same hj), rfl⟩
    · simp only [Option.some.injEq, Prod.mk.injEq] at hd
      obtain ⟨rfl, rfl⟩ := hd
      exact ⟨hp1, rfl⟩

theorem WeakPtr.weak_dtor_same {h g : Heap} {w : WeakPtr}
    (hs : ∀ c b, h.block? c = some b → b.ref_count = 0 → b.is_deleted = true)
    (hd : WeakPtr.dtor h w = some g) : SameLifetime h g :=
  weak_release_same hs hd

/-- In a program that constructs its `WeakPtr`s counted, the block of a live
non-empty `WeakPtr` variable is allocated. -/
theorem live_WeakPtr_block (ops : List Op) (s : State) (hr : run ops State.init = some s)
    (hcount : ∀ op ∈ ops, op.counted = true) (k : Nat) (w : WeakPtr)
    (hk : s.weak? k = some w) (hc : w.cb_ ≠ 0) :
    w.is_this_weak_ = false ∧ ∃ b, s.heap.deref w.cb_ = some b := by
  obtain ⟨-, hinvw, hu⟩ := run_InvW ops Inv.inv_init InvW.invw_init
    (fun w hw => by simp [State.init] at hw) hcount hr
  have ht := hu w (State.weak?_mem hk)
  have hpos := watchers_pos (State.weak?_eq_some.mp hk) ht
  refine ⟨ht, ?_⟩
  cases hblk : s.heap.block? w.cb_ with
  | none =>
    have := hinvw.2 _ hc hblk
    simp only [weakCount] at this
    omega
  | some b =>
    have hwg := hinvw.1 _ b hblk
    have hfr : b.freed = false := by
      cases hx : b.freed with
      | false => rfl
      | true =>
        have := (hwg.2.mp hx).2
        simp only [weakCount] at this
        omega
    exact ⟨b, Heap.deref_eq_some.mpr ⟨hblk, hfr⟩⟩

/-- A consistent state has the object of every block without owner
destroyed. -/
theorem Inv.inv_settled {s : State} (hinv : Inv s) :
    ∀ c b, s.heap.block? c = some b → b.ref_count = 0 → b.is_deleted = true := by
  intro c b hb h0
  obtain ⟨g1, -, g3, -⟩ := hinv.1 c b hb
  exact g3.mpr (by omega)

theorem IncrWeakRef_tagged_eq {h g : Heap} {c : Nat} (hd : IncrWeakRef h c true = some g) :
    g = h := by
  obtain ⟨b, -, e⟩ := IncrWeakRef_some hd
  simpa using e

theorem DecrWeakRef_tagged_eq {h g : Heap} {c : Nat} (hd : DecrWeakRef h c true = some g) :
    g = h := by
  cases hb : h.deref c with
  | none => simp [DecrWeakRef, DecrWeakRefWith, hb] at hd
  | some b =>
    rw [DecrWeakRef_tagged hb] at hd
    exact (Option.some.inj hd).symm

/-- `SetWeakPtr` touches no control block when every `weak_this_` is empty or
tagged. -/
theorem SetWeakPtr_blocks {h g : Heap} {p : Nat} {sh : SharedPtr} (ht : h.Tagged)
    (hd : SetWeakPtr h p sh = some g) : g.blocks = h.blocks := by
  unfold SetWeakPtr at hd
  cases hc : WeakPtr.ctor_shared h sh true with
  | none => simp [hc] at hd
  | some r =>
    obtain ⟨h1, temp⟩ := r
    have hh1 : h1 = h := by
      unfold WeakPtr.ctor_shared at hc
      simp only at hc
      split at hc
      · cases hi : IncrWeakRef h sh.cb_ true with
        | none => simp [hi] at hc
        | some h2 =>
          simp only [hi, Option.some.injEq, Prod.mk.injEq] at hc
          rw [← hc.1]
          exact IncrWeakRef_tagged_eq hi
      · simp only [Option.some.injEq, Prod.mk.injEq] at hc
        exact hc.1.symm
    subst hh1
    obtain ⟨-, rfl⟩ := WeakPtr.ctor_shared_pres hc
    simp only [hc] at hd
    cases ho : h1.object? p with
    | none => simp [ho] at hd
    | some o =>
      simp only [ho] at hd
      split at hd
      · cases ha : WeakPtr.assign_move h1 o.weak_this_ ⟨sh.cb_, sh.observed_pole_, true⟩ with
        | none => simp [ha] at hd
        | some r2 =>
          obtain ⟨h2, x, y⟩ := r2
          have hh2 : h2 = h1 := by
            unfold WeakPtr.assign_move at ha
            cases hrel : (if o.weak_this_.cb_ ≠ 0 then
                DecrWeakRef h1 o.weak_this_.cb_ o.weak_this_.is_this_weak_ else some h1) with
            | none => simp [hrel] at ha
            | some h3 =>
              simp only [hrel, Option.some.injEq, Prod.mk.injEq] at ha
              rw [← ha.1]
              split at hrel
              · rename_i hne
                rcases ht.object ho with h0 | htg
                · exact absurd h0 hne
                · rw [htg] at hrel
                  exact DecrWeakRef_tagged_eq hrel
              · exact (Option.some.inj hrel).symm
          subst hh2
          obtain ⟨-, rfl, rfl⟩ := WeakPtr.weak_assign_move_pres ha
          simp only [ha] at hd
          cases ho2 : h2.object? p with
          | none => simp [ho2] at hd
          | some o2 =>
            simp only [ho2] at hd
            split at hd
            · simp only [WeakPtr.dtor, WeakPtr.dtorWith, ne_eq, not_true_eq_false, if_false,
                Option.some.injEq] at hd
              rw [← hd]
              rfl
            · simp at hd
      · simp at hd

/-- In a consistent state every counter `ref_count` is in the non-negative
range of `int`. -/
theorem Inv.inv_range {s : State} (hinv : Inv s) {c : Nat} {b : ControlBlockBase}
    (hb : s.heap.block? c = some b) : 0 ≤ b.ref_count ∧ b.ref_count ≤ INT_MAX := by
  obtain ⟨g1, -, -, -, g5⟩ := hinv.1 c b hb
  exact ⟨by omega, g5⟩

theorem toSizeT_of_range {x : Int} {n : Nat} (e : x = n) (h1 : x ≤ INT_MAX) : toSizeT x = n := by
  have h := toSizeT_of_nonneg (x := x) (by omega) h1
  omega

/-- The copy of a live `SharedPtr` variable is defined exactly if `ref_count`
of its block is below `INT_MAX`. -/
theorem Shared_copy_defined_iff {s : State} (hinv : Inv s) {i : Nat} {a : SharedPtr}
    (hi : s.shared? i = some a) {b : ControlBlockBase} (hb : s.heap.block? a.cb_ = some b) :
    (∃ t, step s (Op.Shared_copy i) = some t) ↔ b.ref_count < INT_MAX := by
  have hc : a.cb_ ≠ 0 := Heap.block?_ne_zero hb
  obtain ⟨b0, hd, -⟩ := hinv.live_block hi hc
  have e : b0 = b := by
    have := (Heap.deref_eq_some.mp hd).1
    rw [hb] at this
    exact (Option.some.inj this).symm
  subst e
  constructor
  · rintro ⟨t, ht⟩
    by_contra hge
    simp [step, hi, SharedPtr.ctor_copy, hc, IncrRef, hd, hge] at ht
  · intro hlt
    apply Option.isSome_iff_exists.mp
    simp [step, hi, SharedPtr.ctor_copy, hc, IncrRef, hd, hlt]

/-! ## The claims -/

/-- **C1.** In every state that a program reaches from the empty state by
statements of the public interface (construction, copy, move, assignment,
`Reset`, `Swap`, destructor, also of weak handles and self-observation) with
defined behaviour, where incrementing an `int` counter at `INT_MAX` is a
signed overflow and hence undefined, for
every control block ever created: `ref_count` is the number of live
`SharedPtr` variables referring to the block, and the statement that destroys
the managed object has been executed by the block exactly once if that number
is `0` and not at all otherwise.  As this holds before and after every
statement, the object is destroyed once, by the statement that releases the
last `SharedPtr` of the group.  That statement has defined behaviour: the
destructor of a live `SharedPtr` on the block yields a state with one owner
less, in which the object has been destroyed exactly if the variable was the
last owner, whenever the managed pointer can be destroyed, which is always so
in a program whose control blocks all come from `MakeShared`.  Live weak
handles play no part in any of this.  The counter never leaves the range of
`int`: `ref_count`, hence the number of owners, is at most `INT_MAX`, and one
more copy of an owner is defined exactly if `ref_count` is below `INT_MAX`. -/
theorem C1_object_destroyed_once_with_last_owner (ops : List Op) (s : State)
    (hr : run ops State.init = some s) (c : Nat) (b : ControlBlockBase)
    (hb : s.heap.block? c = some b) :
    b.ref_count = sharedCount s c ∧
    b.destroyed = (if sharedCount s c = 0 then 1 else 0) ∧
    (b.is_deleted = true ↔ sharedCount s c = 0) ∧
    (b.freed = true → sharedCount s c = 0) ∧
    (∀ i a, s.shared? i = some a → a.cb_ = c →
      (Destroyable s.heap b ∨ ∀ op ∈ ops, op.makeOnly = true) →
      ∃ t b1, step s (Op.Shared_dtor i) = some t ∧ t.heap.block? c = some b1 ∧
        sharedCount t c + 1 = sharedCount s c ∧
        b1.destroyed = (if sharedCount s c = 1 then 1 else 0)) ∧
    b.ref_count ≤ INT_MAX ∧
    (∀ i a, s.shared? i = some a → a.cb_ = c →
      ((∃ t, step s (Op.Shared_copy i) = some t) ↔ b.ref_count < INT_MAX)) := by
  have hinv := run_Inv ops Inv.inv_init hr
  obtain ⟨g1, g2, g3, g4, g5⟩ := hinv.1 c b hb
  refine ⟨g1, g4, g3, g2, ?_, g5, ?_⟩
  · intro i a hi hc hobj
    subst hc
    have hd : Destroyable s.heap b := by
      rcases hobj with hd | hm
      · exact hd
      · exact Destroyable_of_makeOnly ops s hr hm i a hi b hb
    exact release_defined ops s hr i a hi b hb hd
  · intro i a hi hc
    subst hc
    exact Shared_copy_defined_iff hinv hi hb

/-- Witness for C1: `A = MakeShared`, `B = A`, `W = WeakPtr(A)`, `A.Reset()`:
the object is alive with `B` as only owner; then `B` is destroyed: the object
was destroyed once, the block is kept for `W`; and the destructor of `B` is
defined in the state before it. -/
theorem C1_witness :
    (run [Op.Make_Shared false, Op.Shared_copy 0, Op.Weak_shared 0 false, Op.Shared_Reset 0]
        State.init
      = some ⟨⟨[⟨1, 1, false, Storage.WithObject, 1, false, 0⟩], [⟨⟨0, 0, false⟩, true⟩]⟩,
          [some ⟨0, 0⟩, some ⟨1, 1⟩], [some ⟨1, 1, false⟩]⟩ ∧
      sharedCount ⟨⟨[⟨1, 1, false, Storage.WithObject, 1, false, 0⟩], [⟨⟨0, 0, false⟩, true⟩]⟩,
          [some ⟨0, 0⟩, some ⟨1, 1⟩], [some ⟨1, 1, false⟩]⟩ 1 = 1 ∧
      (⟨1, 1, false, Storage.WithObject, 1, false, 0⟩ : ControlBlockBase).destroyed = 0) ∧
    (run [Op.Make_Shared false, Op.Shared_copy 0, Op.Weak_shared 0 false, Op.Shared_Reset 0,
        Op.Shared_dtor 1] State.init
      = some ⟨⟨[⟨0, 1, true, Storage.WithObject, 1, false, 1⟩], [⟨⟨0, 0, false⟩, false⟩]⟩,
          [some ⟨0, 0⟩, none], [some ⟨1, 1, false⟩]⟩ ∧
      sharedCount ⟨⟨[⟨0, 1, true, Storage.WithObject, 1, false, 1⟩], [⟨⟨0, 0, false⟩, false⟩]⟩,
          [some ⟨0, 0⟩, none], [some ⟨1, 1, false⟩]⟩ 1 = 0 ∧
      (⟨0, 1, true, Storage.WithObject, 1, false, 1⟩ : ControlBlockBase).destroyed = 1) ∧
    (∃ t b1, step ⟨⟨[⟨1, 1, false, Storage.WithObject, 1, false, 0⟩], [⟨⟨0, 0, false⟩, true⟩]⟩,
          [some ⟨0, 0⟩, some ⟨1, 1⟩], [some ⟨1, 1, false⟩]⟩ (Op.Shared_dtor 1) = some t ∧
      t.heap.block? 1 = some b1 ∧ b1.destroyed = 1) := by
  refine ⟨?_, ?_, ?_⟩
  · have h := C1_object_destroyed_once_with_last_owner
      [Op.Make_Shared false, Op.Shared_copy 0, Op.Weak_shared 0 false, Op.Shared_Reset 0]
      ⟨⟨[⟨1, 1, false, Storage.WithObject, 1, false, 0⟩], [⟨⟨0, 0, false⟩, true⟩]⟩,
        [some ⟨0, 0⟩, some ⟨1, 1⟩], [some ⟨1, 1, false⟩]⟩ (by decide) 1
      ⟨1, 1, false, Storage.WithObject, 1, false, 0⟩ (by decide)
    exact ⟨by decide, by decide, h.2.1.trans (by decide)⟩
  · have h := C1_object_destroyed_once_with_last_owner
      [Op.Make_Shared false, Op.Shared_copy 0, Op.Weak_shared 0 false, Op.Shared_Reset 0,
        Op.Shared_dtor 1]
      ⟨⟨[⟨0, 1, true, Storage.WithObject, 1, false, 1⟩], [⟨⟨0, 0, false⟩, false⟩]⟩,
        [some ⟨0, 0⟩, none], [some ⟨1, 1, false⟩]⟩ (by decide) 1
      ⟨0, 1, true, Storage.WithObject, 1, false, 1⟩ (by decide)
    exact ⟨by decide, by decide, h.2.1.trans (by decide)⟩
  · have h := C1_object_destroyed_once_with_last_owner
      [Op.Make_Shared false, Op.Shared_copy 0, Op.Weak_shared 0 false, Op.Shared_Reset 0]
      ⟨⟨[⟨1, 1, false, Storage.WithObject, 1, false, 0⟩], [⟨⟨0, 0, false⟩, true⟩]⟩,
        [some ⟨0, 0⟩, some ⟨1, 1⟩], [some ⟨1, 1, false⟩]⟩ (by decide) 1
      ⟨1, 1, false, Storage.WithObject, 1, false, 0⟩ (by decide)
    obtain ⟨t, b1, h1, h2, -, h4⟩ := h.2.2.2.2.1 1 ⟨1, 1⟩ (by decide) rfl (Or.inr (by decide))
    exact ⟨t, b1, h1, h2, h4.trans (by decide)⟩

/-- **C2.** In every state a program reaches from the empty state with
defined behaviour (incrementing an `int` counter at `INT_MAX` is a signed
overflow and hence undefined), for a weak
handle `w` on control block `w.cb_`: (1) while at least one live `SharedPtr`
refers to the block, `w.Expired()` is false; (2) whenever the block is still
allocated, `w.Expired()` is true exactly if no live `SharedPtr` refers to the
block; (3) if the program constructs its `WeakPtr`s counted (the tag argument
of `WeakPtr(const SharedPtr&, bool)` left at `false`), this covers every live
`WeakPtr` variable: its block stays allocated, so `Expired()` is false as long
as an owner is alive and true from the release of the last owner on, while
weak handles still exist; (4) `ref_count` of the block is the number of live
`SharedPtr`s on it and lies between `0` and `INT_MAX`, so the test
`ref_count > 0` of `Expired()` holds exactly while an owner is alive. -/
theorem C2_Expired_iff_no_owner_left (ops : List Op) (s : State)
    (hr : run ops State.init = some s) (w : WeakPtr) (hc : w.cb_ ≠ 0) :
    (1 ≤ sharedCount s w.cb_ → w.Expired s.heap = some false) ∧
    (∀ b, s.heap.deref w.cb_ = some b →
      w.Expired s.heap = some (decide (sharedCount s w.cb_ = 0))) ∧
    ((∀ op ∈ ops, op.counted = true) → ∀ k, s.weak? k = some w →
      (∃ b, s.heap.deref w.cb_ = some b) ∧
      w.Expired s.heap = some (decide (sharedCount s w.cb_ = 0))) ∧
    (∀ b, s.heap.block? w.cb_ = some b →
      b.ref_count = sharedCount s w.cb_ ∧ 0 ≤ b.ref_count ∧ b.ref_count ≤ INT_MAX ∧
      (0 < b.ref_count ↔ 1 ≤ sharedCount s w.cb_)) := by
  have hinv := run_Inv ops Inv.inv_init hr
  have part2 : ∀ b, s.heap.deref w.cb_ = some b →
      w.Expired s.heap = some (decide (sharedCount s w.cb_ = 0)) := by
    intro b hb
    exact Expired_of_Good hb (hinv.1 _ b (Heap.deref_eq_some.mp hb).1)
  refine ⟨?_, part2, ?_, ?_⟩
  rotate_left 2
  · intro b hb
    have h1 := (hinv.1 _ b hb).1
    have h2 := hinv.inv_range hb
    exact ⟨h1, h2.1, h2.2, by omega⟩
  · intro hn
    cases hblk : s.heap.block? w.cb_ with
    | none =>
      have := hinv.2.1 _ hc hblk
      omega
    | some b =>
      have hgood := hinv.1 _ b hblk
      have hfr : b.freed = false := by
        cases hx : b.freed with
        | false => rfl
        | true => have := hgood.2.1 hx; omega
      have := part2 b (Heap.deref_eq_some.mpr ⟨hblk, hfr⟩)
      rw [this]
      simp
      omega
  · intro hcount k hk
    obtain ⟨-, hinvw, hu⟩ := run_InvW ops Inv.inv_init InvW.invw_init
      (fun w hw => by simp [State.init] at hw) hcount hr
    have hpos := watchers_pos (State.weak?_eq_some.mp hk) (hu w (State.weak?_mem hk))
    cases hblk : s.heap.block? w.cb_ with
    | none =>
      have := hinvw.2 _ hc hblk
      simp only [weakCount] at this
      omega
    | some b =>
      have hwg := hinvw.1 _ b hblk
      have hfr : b.freed = false := by
        cases hx : b.freed with
        | false => rfl
        | true =>
          have := (hwg.2.mp hx).2
          simp only [weakCount] at this
          omega
      have hd := Heap.deref_eq_some.mpr ⟨hblk, hfr⟩
      exact ⟨⟨b, hd⟩, part2 b hd⟩

/-- Witness for C2: `A = MakeShared(42)`, `B = A`, `W = WeakPtr(A)`:
`W.Expired()` is false; after `A.Reset()` and `B.Reset()` it is true. -/
theorem C2_witness :
    WeakPtr.Expired ⟨[⟨2, 1, false, Storage.WithObject, 1, false, 0⟩],
      [⟨⟨0, 0, false⟩, true⟩]⟩ ⟨1, 1, false⟩ = some false ∧
    WeakPtr.Expired ⟨[⟨0, 1, true, Storage.WithObject, 1, false, 1⟩],
      [⟨⟨0, 0, false⟩, false⟩]⟩ ⟨1, 1, false⟩ = some true := by
  have h1 := (C2_Expired_iff_no_owner_left
    [Op.Make_Shared false, Op.Shared_copy 0, Op.Weak_shared 0 false]
    ⟨⟨[⟨2, 1, false, Storage.WithObject, 1, false, 0⟩], [⟨⟨0, 0, false⟩, true⟩]⟩,
      [some ⟨1, 1⟩, some ⟨1, 1⟩], [some ⟨1, 1, false⟩]⟩ (by decide) ⟨1, 1, false⟩
    (by decide)).2.2.1 (by decide) 0 (by decide)
  have h2 := (C2_Expired_iff_no_owner_left
    [Op.Make_Shared false, Op.Shared_copy 0, Op.Weak_shared 0 false, Op.Shared_Reset 0,
      Op.Shared_Reset 1]
    ⟨⟨[⟨0, 1, true, Storage.WithObject, 1, false, 1⟩], [⟨⟨0, 0, false⟩, false⟩]⟩,
      [some ⟨0, 0⟩, some ⟨0, 0⟩], [some ⟨1, 1, false⟩]⟩ (by decide) ⟨1, 1, false⟩
    (by decide)).2.2.1 (by decide) 0 (by decide)
  exact ⟨h1.2.trans (by decide), h2.2.trans (by decide)⟩

/-- **C3.** `Lock()` on a weak handle that is not expired returns, without
throwing, a non-empty `SharedPtr` on the weak handle's control block (same
exposed pointer), and that handle's `UseCount()` is the group's `UseCount()`
before the call plus one; only `ref_count` of that block changed.  `Lock()` on
an expired weak handle, the empty one included, returns without throwing an
empty `SharedPtr` (conversion to `bool` false, `UseCount()` 0) and leaves the
heap, hence every counter, as it was. -/
theorem C3_Lock_promotes_or_returns_empty (h : Heap) (w : WeakPtr) :
    (w.Expired h = some false →
      ∀ b, h.deref w.cb_ = some b → b.ref_count < INT_MAX →
      ∃ g x, w.Lock h = some (Outcome.value g x) ∧ x.toBool = true ∧ x.cb_ = w.cb_ ∧
        x.Get = w.observed_pole_ ∧
        g = h.setBlock w.cb_ { b with ref_count := b.ref_count + 1 } ∧
        w.UseCount h = some (toSizeT b.ref_count) ∧
        x.UseCount g = some (toSizeT b.ref_count + 1) ∧
        w.UseCount g = some (toSizeT b.ref_count + 1)) ∧
    (w.Expired h = some true →
      w.Lock h = some (Outcome.value h SharedPtr.ctor_default) ∧
      SharedPtr.ctor_default.toBool = false ∧ SharedPtr.ctor_default.UseCount h = some 0) ∧
    WeakPtr.ctor_default.Expired h = some true := by
  refine ⟨?_, ?_, ?_⟩
  · intro he b hb hmax
    obtain ⟨b0, hb0, hpos, -⟩ := WeakPtr.Expired_eq_false he
    have hbb : b0 = b := by rw [hb] at hb0; exact (Option.some.inj hb0).symm
    subst hbb
    have hc0 : w.cb_ ≠ 0 := Heap.deref_ne_zero hb
    have hd1 : (h.setBlock w.cb_ { b0 with ref_count := b0.ref_count + 1 }).deref w.cb_
        = some { b0 with ref_count := b0.ref_count + 1 } :=
      Heap.deref_setBlock_self hb (Heap.deref_eq_some.mp hb).2
    refine ⟨h.setBlock w.cb_ { b0 with ref_count := b0.ref_count + 1 },
      ⟨w.cb_, w.observed_pole_⟩, ?_, ?_, rfl, rfl, rfl, ?_, ?_, ?_⟩
    · simp only [WeakPtr.Lock, he]
      exact SharedPtr.ctor_weak_of_not_expired he hb hmax
    · simp [SharedPtr.toBool, hc0]
    · simp [WeakPtr.UseCount, hb, hc0]
    · simp [SharedPtr.UseCount, hd1, hc0, toSizeT_succ (le_of_lt hpos) hmax]
    · simp [WeakPtr.UseCount, hd1, hc0, toSizeT_succ (le_of_lt hpos) hmax]
  · intro he
    refine ⟨by simp [WeakPtr.Lock, he], by decide, by simp [SharedPtr.UseCount, SharedPtr.ctor_default]⟩
  · simp [WeakPtr.Expired, WeakPtr.ctor_default]

/-- Witness for C3: a live group with one owner and one weak handle; and the
same block after its owner is gone. -/
theorem C3_witness :
    (∃ g x, WeakPtr.Lock ⟨[⟨1, 1, false, Storage.WithPointer, 1, false, 0⟩],
        [⟨⟨0, 0, false⟩, true⟩]⟩ ⟨1, 1, false⟩ = some (Outcome.value g x) ∧
      x.toBool = true ∧ SharedPtr.UseCount g x = some 2) ∧
    WeakPtr.Lock ⟨[⟨0, 1, true, Storage.WithPointer, 1, false, 1⟩],
        [⟨⟨0, 0, false⟩, false⟩]⟩ ⟨1, 1, false⟩
      = some (Outcome.value ⟨[⟨0, 1, true, Storage.WithPointer, 1, false, 1⟩],
        [⟨⟨0, 0, false⟩, false⟩]⟩ ⟨0, 0⟩) := by
  constructor
  · obtain ⟨g, x, hl, hx, -, -, -, -, hu, -⟩ :=
      (C3_Lock_promotes_or_returns_empty ⟨[⟨1, 1, false, Storage.WithPointer, 1, false, 0⟩],
        [⟨⟨0, 0, false⟩, true⟩]⟩ ⟨1, 1, false⟩).1 (by decide)
        ⟨1, 1, false, Storage.WithPointer, 1, false, 0⟩ (by decide) (by decide)
    exact ⟨g, x, hl, hx, hu⟩
  · exact ((C3_Lock_promotes_or_returns_empty ⟨[⟨0, 1, true, Storage.WithPointer, 1, false, 1⟩],
        [⟨⟨0, 0, false⟩, false⟩]⟩ ⟨1, 1, false⟩).2.1 (by decide)).1

/-- **C4.** The promoting constructor `SharedPtr(const WeakPtr&)` throws
`BadWeakPtr` exactly when the weak handle is expired; the throw leaves the
heap, hence every strong and weak counter, unchanged; when the weak handle is
not expired the constructor returns a handle with the weak handle's control
block and exposed pointer, and the heap differs from the old one only in
`ref_count` of that block, which is one higher.  `ref_count` is an `int`: the
increment is made when the counter is below `INT_MAX`; at `INT_MAX` it is a
signed overflow, the construction has undefined behaviour and in particular
does not throw. -/
theorem C4_promotion_throws_iff_expired (h : Heap) (w : WeakPtr) :
    ((∃ g e, SharedPtr.ctor_weak h w = some (Outcome.thrown g e)) ↔ w.Expired h = some true) ∧
    (∀ g e, SharedPtr.ctor_weak h w = some (Outcome.thrown g e) → g = h) ∧
    (w.Expired h = some false →
      ∃ b, h.deref w.cb_ = some b ∧
        (b.ref_count < INT_MAX →
          SharedPtr.ctor_weak h w = some (Outcome.value
            (h.setBlock w.cb_ { b with ref_count := b.ref_count + 1 })
            ⟨w.cb_, w.observed_pole_⟩)) ∧
        (INT_MAX ≤ b.ref_count → SharedPtr.ctor_weak h w = none) ∧
        (h.setBlock w.cb_ { b with ref_count := b.ref_count + 1 }).deref w.cb_
          = some { b with ref_count := b.ref_count + 1 } ∧
        (∀ c, c ≠ w.cb_ →
          (h.setBlock w.cb_ { b with ref_count := b.ref_count + 1 }).block? c = h.block? c) ∧
        (h.setBlock w.cb_ { b with ref_count := b.ref_count + 1 }).objects = h.objects) := by
  refine ⟨⟨?_, ?_⟩, ?_, ?_⟩
  · rintro ⟨g, e, hg⟩
    unfold SharedPtr.ctor_weak at hg
    cases he : w.Expired h with
    | none => simp [he] at hg
    | some v =>
      cases v with
      | true => rfl
      | false =>
        simp only [he] at hg
        split at hg <;> simp at hg
  · intro he
    exact ⟨h, BadWeakPtr.mk, by simp [SharedPtr.ctor_weak, he]⟩
  · intro g e hg
    unfold SharedPtr.ctor_weak at hg
    cases he : w.Expired h with
    | none => simp [he] at hg
    | some v =>
      cases v with
      | true => simp only [he] at hg; simp at hg; exact hg.symm
      | false =>
        simp only [he] at hg
        split at hg <;> simp at hg
  · intro he
    obtain ⟨b, hb, -, -⟩ := WeakPtr.Expired_eq_false he
    refine ⟨b, hb, SharedPtr.ctor_weak_of_not_expired he hb, ?_,
      Heap.deref_setBlock_self hb (Heap.deref_eq_some.mp hb).2,
      fun c hc => Heap.block?_setBlock_ne (Heap.deref_ne_zero hb) hc, rfl⟩
    intro hge
    simp [SharedPtr.ctor_weak, he, IncrRef, hb, not_lt.mpr hge]

/-- Witness for C4: promotion from a weak handle of a live group. -/
theorem C4_witness :
    WeakPtr.Expired ⟨[⟨1, 1, false, Storage.WithPointer, 1, false, 0⟩],
      [⟨⟨0, 0, false⟩, true⟩]⟩ ⟨1, 1, false⟩ = some false ∧
    ∃ b, Heap.deref ⟨[⟨1, 1, false, Storage.WithPointer, 1, false, 0⟩],
        [⟨⟨0, 0, false⟩, true⟩]⟩ 1 = some b ∧
      SharedPtr.ctor_weak ⟨[⟨1, 1, false, Storage.WithPointer, 1, false, 0⟩],
        [⟨⟨0, 0, false⟩, true⟩]⟩ ⟨1, 1, false⟩
      = some (Outcome.value ((Heap.mk [⟨1, 1, false, Storage.WithPointer, 1, false, 0⟩]
          [⟨⟨0, 0, false⟩, true⟩]).setBlock 1 { b with ref_count := b.ref_count + 1 }) ⟨1, 1⟩) := by
  refine ⟨by decide, ?_⟩
  obtain ⟨b, hb, hc, -⟩ :=
    (C4_promotion_throws_iff_expired ⟨[⟨1, 1, false, Storage.WithPointer, 1, false, 0⟩],
      [⟨⟨0, 0, false⟩, true⟩]⟩ ⟨1, 1, false⟩).2.2 (by decide)
  have e : some b = some ⟨1, 1, false, Storage.WithPointer, 1, false, 0⟩ :=
    hb.symm.trans (by decide)
  cases e
  exact ⟨_, hb, hc (by decide)⟩

/-- **C5.** For a non-empty handle `s` (block `b`, which `s` keeps at
`ref_count ≥ 1`) and any alias pointer `p`, the aliasing constructor returns a
handle `a` on the control block of `s` with `a.Get() = p`; no block is
created, only `ref_count` of that block changes, and both handles report the
former `UseCount()` plus one.  Releasing `a` then takes that one reference
back: the heap is again exactly the heap before `a` was made, so no block was
created or released. -/
theorem C5_alias_shares_block_exposes_pointer (h : Heap) (s : SharedPtr) (p : Nat)
    (b : ControlBlockBase) (hb : h.deref s.cb_ = some b) (h1 : 1 ≤ b.ref_count)
    (hmax : b.ref_count < INT_MAX) :
    ∃ g a, SharedPtr.ctor_alias h s p = some (g, a) ∧ a.cb_ = s.cb_ ∧ a.Get = p ∧
      g.blocks.length = h.blocks.length ∧
      g.deref s.cb_ = some { b with ref_count := b.ref_count + 1 } ∧
      (∀ c, c ≠ s.cb_ → g.block? c = h.block? c) ∧
      s.UseCount h = some (toSizeT b.ref_count) ∧
      a.UseCount g = some (toSizeT b.ref_count + 1) ∧
      s.UseCount g = some (toSizeT b.ref_count + 1) ∧
      SharedPtr.dtor g a = some h ∧
      s.UseCount h = some (toSizeT b.ref_count + 1 - 1) := by
  have hc0 : s.cb_ ≠ 0 := Heap.deref_ne_zero hb
  have hfr := (Heap.deref_eq_some.mp hb).2
  have hd1 : (h.setBlock s.cb_ { b with ref_count := b.ref_count + 1 }).deref s.cb_
      = some { b with ref_count := b.ref_count + 1 } := Heap.deref_setBlock_self hb hfr
  have hu : s.UseCount h = some (toSizeT b.ref_count) := by simp [SharedPtr.UseCount, hb, hc0]
  refine ⟨h.setBlock s.cb_ { b with ref_count := b.ref_count + 1 }, ⟨s.cb_, p⟩, ?_, rfl, rfl,
    Heap.length_setBlock _ _ _, hd1, ?_, hu, ?_, ?_, ?_, ?_⟩
  · simp [SharedPtr.ctor_alias, IncrRef_eq hb hmax]
  · intro c hc
    exact Heap.block?_setBlock_ne hc0 hc
  · simp [SharedPtr.UseCount, hd1, hc0, toSizeT_succ (by omega) hmax]
  · simp [SharedPtr.UseCount, hd1, hc0, toSizeT_succ (by omega) hmax]
  · have hne : ¬ (b.ref_count + 1 - 1 = 0) := by omega
    have hb' : ({ b with ref_count := b.ref_count + 1 - 1 } : ControlBlockBase) = b := by
      cases b; simp
    simp only [SharedPtr.dtor, DecrRef, hd1, hc0, ne_eq, not_false_eq_true, if_true, hne,
      false_and, if_false, Heap.setBlock_setBlock]
    rw [hb', Heap.setBlock_same (Heap.deref_eq_some.mp hb).1]
  · simpa using hu

/-- Witness for C5: a block with one owner, alias pointer `7`. -/
theorem C5_witness :
    ∃ g a, SharedPtr.ctor_alias ⟨[⟨1, 0, false, Storage.WithPointer, 1, false, 0⟩],
        [⟨⟨0, 0, false⟩, true⟩]⟩ ⟨1, 1⟩ 7 = some (g, a) ∧ a.cb_ = 1 ∧ a.Get = 7 ∧
      SharedPtr.UseCount g a = some 2 ∧ SharedPtr.UseCount g ⟨1, 1⟩ = some 2 ∧
      SharedPtr.dtor g a = some ⟨[⟨1, 0, false, Storage.WithPointer, 1, false, 0⟩],
        [⟨⟨0, 0, false⟩, true⟩]⟩ := by
  obtain ⟨g, a, hc, ha, hg, -, -, -, -, hu1, hu2, hd, -⟩ :=
    C5_alias_shares_block_exposes_pointer
      ⟨[⟨1, 0, false, Storage.WithPointer, 1, false, 0⟩], [⟨⟨0, 0, false⟩, true⟩]⟩ ⟨1, 1⟩ 7
      ⟨1, 0, false, Storage.WithPointer, 1, false, 0⟩ (by decide) (by decide) (by decide)
  exact ⟨g, a, hc, ha, hg, hu1, hu2, hd⟩

/-- **C7.** The `weak_this_` member does not take part in `weak_ref_count`:
(1) `SetWeakPtr` on an object not yet wired changes no control block, it only
writes the tagged handle into the object; (2) the destructor of a tagged
handle leaves the heap as it is; (3) after `MakeShared` of a type with the
capability the block has `weak_ref_count == 0`, and releasing the only
`SharedPtr` destroys the object and releases the block; (4) `WeakFromThis()`
on a wired, live object returns an untagged handle and adds exactly one to
`weak_ref_count`, and destroying that handle takes exactly that one back;
`weak_ref_count` is an `int`, the one is added when the counter is below
`INT_MAX`, and (5) at `INT_MAX` the increment is a signed overflow:
`WeakFromThis()` has undefined behaviour. -/
theorem C7_weak_this_is_not_counted :
    (∀ (g : Heap) (p : Nat) (sh : SharedPtr) (o : Object) (b : ControlBlockBase),
      g.object? p = some o → o.alive = true → o.weak_this_.cb_ = 0 →
      g.deref sh.cb_ = some b →
      ∃ g1, SetWeakPtr g p sh = some g1 ∧ g1.blocks = g.blocks ∧
        g1.object? p = some ⟨⟨sh.cb_, sh.observed_pole_, true⟩, true⟩) ∧
    (∀ (g : Heap) (w : WeakPtr) (b : ControlBlockBase),
      w.is_this_weak_ = true → g.deref w.cb_ = some b → WeakPtr.dtor g w = some g) ∧
    (∀ h : Heap, ∃ h1 s b1, MakeShared true h = some (h1, s) ∧
      h1.deref s.cb_ = some b1 ∧ b1.ref_count = 1 ∧ b1.weak_ref_count = 0 ∧
      ∃ h2 b2, SharedPtr.dtor h1 s = some h2 ∧ h2.block? s.cb_ = some b2 ∧
        b2.freed = true ∧ b2.destroyed = 1 ∧ b2.is_deleted = true ∧ b2.weak_ref_count = 0) ∧
    (∀ (g : Heap) (p : Nat) (o : Object) (b : ControlBlockBase),
      g.object? p = some o → o.alive = true → g.deref o.weak_this_.cb_ = some b →
      0 < b.ref_count → b.weak_ref_count < INT_MAX →
      ∃ g1 w, WeakFromThis g p = some (g1, w) ∧ w.is_this_weak_ = false ∧
        w.cb_ = o.weak_this_.cb_ ∧
        g1.deref w.cb_ = some { b with weak_ref_count := b.weak_ref_count + 1 } ∧
        (∀ c, c ≠ w.cb_ → g1.block? c = g.block? c) ∧
        ∃ g2, WeakPtr.dtor g1 w = some g2 ∧
          g2.deref w.cb_ = some { b with weak_ref_count := b.weak_ref_count + 1 - 1 } ∧
          g2 = g) ∧
    (∀ (g : Heap) (p : Nat) (o : Object) (b : ControlBlockBase),
      g.object? p = some o → o.alive = true → g.deref o.weak_this_.cb_ = some b →
      INT_MAX ≤ b.weak_ref_count → WeakFromThis g p = none) := by
  refine ⟨?_, ?_, ?_, ?_, ?_⟩
  · intro g p sh o b ho ha hw hb
    refine ⟨_, SetWeakPtr_first ho ha hw hb, rfl, ?_⟩
    rw [Heap.object?_setObject_self ho]
    cases o
    simp only at ha
    simp [ha]
  · intro g w b hw hb
    exact WeakPtr.dtorWith_tagged _ hw hb
  · intro h
    have hd : (Heap.mk (h.blocks ++ [⟨1, 0, false, Storage.WithObject, h.objects.length + 1, false, 0⟩])
        (h.objects ++ [⟨⟨h.blocks.length + 1, h.objects.length + 1, true⟩, true⟩])).deref
          (h.blocks.length + 1)
        = some ⟨1, 0, false, Storage.WithObject, h.objects.length + 1, false, 0⟩ :=
      Heap.deref_eq_some.mpr ⟨Heap.block?_append_new _ _ _, rfl⟩
    refine ⟨_, _, _, MakeShared_true_eq h, hd, rfl, rfl, ?_⟩
    have hlast := DecrRef_last_no_weak hd rfl rfl rfl (Heap.object?_append_new _ _ _) rfl
      (Or.inr ⟨rfl, _, hd⟩)
    have hdt : SharedPtr.dtor
        (Heap.mk (h.blocks ++ [⟨1, 0, false, Storage.WithObject, h.objects.length + 1, false, 0⟩])
          (h.objects ++ [⟨⟨h.blocks.length + 1, h.objects.length + 1, true⟩, true⟩]))
        ⟨h.blocks.length + 1, h.objects.length + 1⟩
        = DecrRef (Heap.mk
          (h.blocks ++ [⟨1, 0, false, Storage.WithObject, h.objects.length + 1, false, 0⟩])
          (h.objects ++ [⟨⟨h.blocks.length + 1, h.objects.length + 1, true⟩, true⟩]))
          (h.blocks.length + 1) := by
      simp [SharedPtr.dtor]
    rw [hlast] at hdt
    refine ⟨_, ⟨0, 0, true, Storage.WithObject, h.objects.length + 1, true, 1⟩, hdt, ?_,
      rfl, rfl, rfl, rfl⟩
    exact Heap.block?_setBlock_self
      (b := ⟨1, 0, false, Storage.WithObject, h.objects.length + 1, false, 0⟩)
      (Heap.block?_append_new _ _ _)
  · intro g p o b ho ha hb hpos hmax
    have hfr := (Heap.deref_eq_some.mp hb).2
    have hc0 := Heap.deref_ne_zero hb
    have hd1 : (g.setBlock o.weak_this_.cb_
        { b with weak_ref_count := b.weak_ref_count + 1 }).deref o.weak_this_.cb_
        = some { b with weak_ref_count := b.weak_ref_count + 1 } :=
      Heap.deref_setBlock_self hb hfr
    have hdt := WeakPtr.dtor_counted_alive
      (w := ⟨o.weak_this_.cb_, o.weak_this_.observed_pole_, false⟩) rfl hd1
      (by simp; omega)
    have hback : (g.setBlock o.weak_this_.cb_
        { b with weak_ref_count := b.weak_ref_count + 1 }).setBlock o.weak_this_.cb_
        { b with weak_ref_count := b.weak_ref_count + 1 - 1 } = g := by
      rw [Heap.setBlock_setBlock]
      have : ({ b with weak_ref_count := b.weak_ref_count + 1 - 1 } : ControlBlockBase) = b := by
        cases b; simp
      rw [this, Heap.setBlock_same (Heap.deref_eq_some.mp hb).1]
    refine ⟨_, _, WeakFromThis_counted ho ha hb hmax, rfl, rfl, hd1, ?_, ?_⟩
    · intro c hc
      exact Heap.block?_setBlock_ne hc0 hc
    · refine ⟨_, hdt, ?_, hback⟩
      simp only
      rw [hback]
      have : ({ b with weak_ref_count := b.weak_ref_count + 1 - 1 } : ControlBlockBase) = b := by
        cases b; simp
      rw [this]; exact hb
  · intro g p o b ho ha hb hge
    have hc0 := Heap.deref_ne_zero hb
    simp [WeakFromThis, ho, ha, WeakPtr.ctor_copy, hc0, IncrWeakRef, hb, not_lt.mpr hge]

/-- Witness for C7 on the heap left by `MakeShared` of a type with the
capability (block `1`, object `1`). -/
theorem C7_witness :
    (∃ g1, SetWeakPtr ⟨[⟨1, 0, false, Storage.WithPointer, 1, false, 0⟩],
        [⟨⟨0, 0, false⟩, true⟩]⟩ 1 ⟨1, 1⟩ = some g1 ∧
      g1.blocks = [⟨1, 0, false, Storage.WithPointer, 1, false, 0⟩] ∧
      g1.object? 1 = some ⟨⟨1, 1, true⟩, true⟩) ∧
    WeakPtr.dtor ⟨[⟨1, 0, false, Storage.WithObject, 1, false, 0⟩], [⟨⟨1, 1, true⟩, true⟩]⟩
        ⟨1, 1, true⟩
      = some ⟨[⟨1, 0, false, Storage.WithObject, 1, false, 0⟩], [⟨⟨1, 1, true⟩, true⟩]⟩ ∧
    (∃ g1 w, WeakFromThis ⟨[⟨1, 0, false, Storage.WithObject, 1, false, 0⟩],
        [⟨⟨1, 1, true⟩, true⟩]⟩ 1 = some (g1, w) ∧ w.is_this_weak_ = false ∧
      g1.deref w.cb_ = some ⟨1, 1, false, Storage.WithObject, 1, false, 0⟩ ∧
      WeakPtr.dtor g1 w
        = some ⟨[⟨1, 0, false, Storage.WithObject, 1, false, 0⟩], [⟨⟨1, 1, true⟩, true⟩]⟩) := by
  refine ⟨?_, ?_, ?_⟩
  · exact C7_weak_this_is_not_counted.1 ⟨[⟨1, 0, false, Storage.WithPointer, 1, false, 0⟩],
      [⟨⟨0, 0, false⟩, true⟩]⟩ 1 ⟨1, 1⟩ ⟨⟨0, 0, false⟩, true⟩
      ⟨1, 0, false, Storage.WithPointer, 1, false, 0⟩ (by decide) rfl rfl (by decide)
  · exact C7_weak_this_is_not_counted.2.1 _ ⟨1, 1, true⟩
      ⟨1, 0, false, Storage.WithObject, 1, false, 0⟩ rfl (by decide)
  · obtain ⟨g1, w, h1, h2, -, h4, -, g2, h5, -, h6⟩ := C7_weak_this_is_not_counted.2.2.2.1
      ⟨[⟨1, 0, false, Storage.WithObject, 1, false, 0⟩], [⟨⟨1, 1, true⟩, true⟩]⟩ 1
      ⟨⟨1, 1, true⟩, true⟩ ⟨1, 0, false, Storage.WithObject, 1, false, 0⟩
      (by decide) rfl (by decide) (by decide) (by decide)
    subst h6
    exact ⟨g1, w, h1, h2, h4, h5⟩

/-- **C8** (evaluation of the code).  `p = new T` for a `T` with the
`EnableSharedFromThis` base is object `1` of the heap.  `s.Reset(p)` on an
empty `s` creates the control block but does not call `SetWeakPtr`:
`weak_this_` of the object is still the default-constructed handle and
`SharedFromThis()` returns an empty `SharedPtr`.  The adopting constructor on
the same input wires the object and `SharedFromThis()` returns a handle on
the new block. -/
theorem C8_Reset_ptr_does_not_wire :
    SharedPtr.Reset_ptr (newObject ⟨[], []⟩).1 SharedPtr.ctor_default 1
      = some (⟨[⟨1, 0, false, Storage.WithPointer, 1, false, 0⟩], [⟨⟨0, 0, false⟩, true⟩]⟩,
          ⟨1, 1⟩) ∧
    SharedFromThis ⟨[⟨1, 0, false, Storage.WithPointer, 1, false, 0⟩], [⟨⟨0, 0, false⟩, true⟩]⟩ 1
      = some (Outcome.value
          ⟨[⟨1, 0, false, Storage.WithPointer, 1, false, 0⟩], [⟨⟨0, 0, false⟩, true⟩]⟩
          ⟨0, 0⟩) ∧
    SharedPtr.toBool ⟨0, 0⟩ = false ∧
    SharedPtr.ctor_ptr true (newObject ⟨[], []⟩).1 1
      = some (⟨[⟨1, 0, false, Storage.WithPointer, 1, false, 0⟩], [⟨⟨1, 1, true⟩, true⟩]⟩,
          ⟨1, 1⟩) ∧
    SharedFromThis ⟨[⟨1, 0, false, Storage.WithPointer, 1, false, 0⟩], [⟨⟨1, 1, true⟩, true⟩]⟩ 1
      = some (Outcome.value
          ⟨[⟨2, 0, false, Storage.WithPointer, 1, false, 0⟩], [⟨⟨1, 1, true⟩, true⟩]⟩
          ⟨1, 1⟩) := by
  decide

/-- **C9** (counterexample).  Adopting a null raw pointer, and aliasing with a
null alias pointer, give a live `SharedPtr` that has a control block and
exposes `nullptr`. -/
theorem C9_counterexample :
    (run [Op.Shared_ptr false 0] State.init
      = some ⟨⟨[⟨1, 0, false, Storage.WithPointer, 0, false, 0⟩], []⟩, [some ⟨1, 0⟩], []⟩) ∧
    (run [Op.Make_Shared false, Op.Shared_alias 0 0] State.init
      = some ⟨⟨[⟨2, 0, false, Storage.WithObject, 1, false, 0⟩], [⟨⟨0, 0, false⟩, true⟩]⟩,
          [some ⟨1, 1⟩, some ⟨1, 0⟩], []⟩) ∧
    ¬ (∀ (ops : List Op) (s : State) (i : Nat) (x : SharedPtr),
        run ops State.init = some s → s.shared? i = some x →
        (x.observed_pole_ ≠ 0 ↔ x.cb_ ≠ 0)) := by
  refine ⟨by decide, by decide, ?_⟩
  intro h
  have := h [Op.Shared_ptr false 0]
    ⟨⟨[⟨1, 0, false, Storage.WithPointer, 0, false, 0⟩], []⟩, [some ⟨1, 0⟩], []⟩ 0 ⟨1, 0⟩
    (by decide) (by decide)
  simp at this

/-- **C9** (amended).  Every live `SharedPtr` of every state a program
reaches from the empty state satisfies: if its exposed pointer is not null,
its control-block pointer is not null.  If moreover no statement of the
program adopts a null raw pointer (constructor, `Reset(ptr)`) or aliases with
a null pointer, the exposed pointer is non-null if and only if the
control-block pointer is. -/
theorem C9_exposed_pointer_needs_control_block (ops : List Op) (s : State)
    (hr : run ops State.init = some s) (i : Nat) (x : SharedPtr)
    (hx : s.shared? i = some x) :
    (x.observed_pole_ ≠ 0 → x.cb_ ≠ 0) ∧
    ((∀ op ∈ ops, op.nonNull = true) → (x.observed_pole_ ≠ 0 ↔ x.cb_ ≠ 0)) := by
  constructor
  · have hsh := run_Shape false ops (Shape.shape_init false) (fun e => by simp at e) hr
    intro hp hc
    exact hp ((hsh.1 x (State.shared?_mem hx)).1 hc)
  · intro hnn
    have hsh := run_Shape true ops (Shape.shape_init true) (fun _ => hnn) hr
    have := hsh.1 x (State.shared?_mem hx)
    constructor
    · intro hp hc
      exact hp (this.1 hc)
    · intro hc hp
      exact hc (this.2 rfl hp)

/-- Witness for C9 (amended): `A = MakeShared`, `B = A`, `C = SharedPtr(A, 5)`,
`A.Reset()`. -/
theorem C9_witness :
    ((⟨1, 5⟩ : SharedPtr).observed_pole_ ≠ 0 ↔ (⟨1, 5⟩ : SharedPtr).cb_ ≠ 0) ∧
    ((⟨0, 0⟩ : SharedPtr).observed_pole_ ≠ 0 ↔ (⟨0, 0⟩ : SharedPtr).cb_ ≠ 0) := by
  have hrun : run [Op.Make_Shared false, Op.Shared_copy 0, Op.Shared_alias 0 5,
      Op.Shared_Reset 0] State.init
      = some ⟨⟨[⟨2, 0, false, Storage.WithObject, 1, false, 0⟩], [⟨⟨0, 0, false⟩, true⟩]⟩,
          [some ⟨0, 0⟩, some ⟨1, 1⟩, some ⟨1, 5⟩], []⟩ := by decide
  exact ⟨(C9_exposed_pointer_needs_control_block _ _ hrun 2 ⟨1, 5⟩ (by decide)).2 (by decide),
    (C9_exposed_pointer_needs_control_block _ _ hrun 0 ⟨0, 0⟩ (by decide)).2 (by decide)⟩

/-- **C10.** Copy construction from a non-empty handle `a` (its block `b`
accessible) yields a handle with the same control block and the same `Get()`,
adds exactly one to `ref_count` of that block and changes nothing else, so
that both handles report the former `UseCount()` plus one; copying an empty
handle yields an empty handle and leaves the heap as it is. -/
theorem C10_copy_shares_block_and_adds_one (h : Heap) (a : SharedPtr) (b : ControlBlockBase)
    (hb : h.deref a.cb_ = some b) (h0 : 0 ≤ b.ref_count) (hmax : b.ref_count < INT_MAX) :
    (∃ h1 x, SharedPtr.ctor_copy h a = some (h1, x) ∧ x.cb_ = a.cb_ ∧ x.Get = a.Get ∧
      h1 = h.setBlock a.cb_ { b with ref_count := b.ref_count + 1 } ∧
      h1.deref a.cb_ = some { b with ref_count := b.ref_count + 1 } ∧
      (∀ c, c ≠ a.cb_ → h1.block? c = h.block? c) ∧
      a.UseCount h = some (toSizeT b.ref_count) ∧
      a.UseCount h1 = some (toSizeT b.ref_count + 1) ∧
      x.UseCount h1 = some (toSizeT b.ref_count + 1)) ∧
    (∀ (g : Heap) (e : SharedPtr), e.toBool = false →
      SharedPtr.ctor_copy g e = some (g, e) ∧ e.UseCount g = some 0) := by
  obtain ⟨hblk, hfr⟩ := Heap.deref_eq_some.mp hb
  have hc0 : a.cb_ ≠ 0 := Heap.block?_ne_zero hblk
  have hd1 : (h.setBlock a.cb_ { b with ref_count := b.ref_count + 1 }).deref a.cb_
      = some { b with ref_count := b.ref_count + 1 } :=
    Heap.deref_eq_some.mpr ⟨Heap.block?_setBlock_self hblk, hfr⟩
  refine ⟨⟨h.setBlock a.cb_ { b with ref_count := b.ref_count + 1 }, ⟨a.cb_, a.observed_pole_⟩,
    ?_, rfl, rfl, rfl, hd1, ?_, ?_, ?_, ?_⟩, ?_⟩
  · simp [SharedPtr.ctor_copy, IncrRef, hb, hc0, hmax]
  · intro c hc
    exact Heap.block?_setBlock_ne hc0 hc
  · simp [SharedPtr.UseCount, hb, hc0]
  · simp [SharedPtr.UseCount, hd1, hc0, toSizeT_succ h0 hmax]
  · simp [SharedPtr.UseCount, hd1, hc0, toSizeT_succ h0 hmax]
  · intro g e he
    have : e.cb_ = 0 := by simpa [SharedPtr.toBool] using he
    cases e with
    | mk c p =>
      simp only at this
      subst this
      simp [SharedPtr.ctor_copy, SharedPtr.UseCount]

/-- Witness for C10: `A = MakeShared(42)` has `UseCount() == 1`; after `B = A`
both report `2`. -/
theorem C10_witness :
    MakeShared false ⟨[], []⟩
      = some (⟨[⟨1, 0, false, Storage.WithObject, 1, false, 0⟩], [⟨⟨0, 0, false⟩, true⟩]⟩, ⟨1, 1⟩) ∧
    SharedPtr.UseCount ⟨[⟨1, 0, false, Storage.WithObject, 1, false, 0⟩], [⟨⟨0, 0, false⟩, true⟩]⟩
      ⟨1, 1⟩ = some 1 ∧
    ∃ h1 x, SharedPtr.ctor_copy
        ⟨[⟨1, 0, false, Storage.WithObject, 1, false, 0⟩], [⟨⟨0, 0, false⟩, true⟩]⟩ ⟨1, 1⟩
        = some (h1, x) ∧
      SharedPtr.UseCount h1 ⟨1, 1⟩ = some 2 ∧ SharedPtr.UseCount h1 x = some 2 := by
  refine ⟨by decide, by decide, ?_⟩
  obtain ⟨h1, x, hc, -, -, -, -, -, -, hu1, hu2⟩ :=
    (C10_copy_shares_block_and_adds_one
      ⟨[⟨1, 0, false, Storage.WithObject, 1, false, 0⟩], [⟨⟨0, 0, false⟩, true⟩]⟩ ⟨1, 1⟩
      ⟨1, 0, false, Storage.WithObject, 1, false, 0⟩ (by decide) (by decide) (by decide)).1
  exact ⟨h1, x, hc, hu1, hu2⟩

/-- **C11.** In every reachable state, for two distinct live `SharedPtr`
variables `i` (holding `a`) and `j` (holding `b`): (1) move construction from
`j` is defined, leaves the heap (hence every counter) as it is, gives the new
variable the control block and exposed pointer of `b` and leaves `j` empty;
(2) the emptied handle converts to `false`, has `Get()` null and `UseCount()`
0; (3) after the move assignment `i = move(j)`, `i` holds the control block and
exposed pointer of `b`, `j` is empty, and the heap is the former one with one
strong reference of the former block of `i` released, so every other block,
the transferred one included, keeps its `ref_count`; (4) the move assignment
is defined whenever the managed pointer of the former block of `i` can be
destroyed, which is so in every program whose control blocks all come from
`MakeShared`. -/
theorem C11_move_transfers_ownership (ops : List Op) (s : State)
    (hr : run ops State.init = some s) (i j : Nat) (a b : SharedPtr)
    (hi : s.shared? i = some a) (hj : s.shared? j = some b) (hij : i ≠ j) :
    (∃ t, step s (Op.Shared_move j) = some t ∧ t.heap = s.heap ∧
      t.shared? s.shared.length = some b ∧ t.shared? j = some ⟨0, 0⟩ ∧
      t.shared? i = some a) ∧
    ((⟨0, 0⟩ : SharedPtr).toBool = false ∧ (⟨0, 0⟩ : SharedPtr).Get = 0 ∧
      ∀ h, (⟨0, 0⟩ : SharedPtr).UseCount h = some 0) ∧
    (∀ t, step s (Op.Shared_assign_move i j) = some t →
      t.shared? i = some b ∧ t.shared? j = some ⟨0, 0⟩ ∧
      ReleasedOne s.heap t.heap a.cb_ ∧
      (∀ c blk, s.heap.block? c = some blk → ∃ blk1, t.heap.block? c = some blk1 ∧
        blk1.ref_count = blk.ref_count - (if c = a.cb_ then 1 else 0))) ∧
    (((∀ blk, s.heap.block? a.cb_ = some blk → Destroyable s.heap blk) ∨
        ∀ op ∈ ops, op.makeOnly = true) →
      ∃ t, step s (Op.Shared_assign_move i j) = some t) := by
  have hinv := run_Inv ops Inv.inv_init hr
  have hil := State.shared?_lt hi
  have hjl := State.shared?_lt hj
  have hbeq : (i == j) = false := by simpa using hij
  refine ⟨?_, ⟨rfl, rfl, fun h => rfl⟩, ?_, ?_⟩
  · refine ⟨⟨s.heap, s.shared.set j (some ⟨0, 0⟩) ++ [some b], s.weak⟩,
      by simp [step, hj, SharedPtr.ctor_move], rfl, ?_, ?_, ?_⟩
    · have hlen : (s.shared.set j (some (⟨0, 0⟩ : SharedPtr))).length = s.shared.length := by
        simp
      simp only [State.shared?]
      rw [← hlen, List.getElem?_concat_length]
    · have hlt : j < (s.shared.set j (some (⟨0, 0⟩ : SharedPtr))).length := by simpa using hjl
      simp only [State.shared?]
      rw [List.getElem?_append_left hlt, List.getElem?_set_self hjl]
    · have hlt : i < (s.shared.set j (some (⟨0, 0⟩ : SharedPtr))).length := by simpa using hil
      have := State.shared?_eq_some.mp hi
      simp only [State.shared?]
      rw [List.getElem?_append_left hlt, List.getElem?_set_ne (Ne.symm hij), this]
  · intro t hs
    simp only [step, hi, hj, Option.some_bind, hbeq] at hs
    simp only [Option.bind_eq_some, Option.some.injEq] at hs
    obtain ⟨r, hr1, rfl⟩ := hs
    unfold SharedPtr.assign_move at hr1
    simp only [if_true] at hr1
    cases hd : (if a.cb_ ≠ 0 then DecrRef s.heap a.cb_ else some s.heap) with
    | none => simp [hd] at hr1
    | some g =>
      simp only [hd, Option.some.injEq] at hr1
      subst hr1
      obtain ⟨hrel, -⟩ := release_effect hinv hi hd
      refine ⟨?_, ?_, hrel, ?_⟩
      · simp [State.shared?, List.getElem?_set_ne (Ne.symm hij), List.getElem?_set_self, hil]
      · simp [State.shared?, List.getElem?_set_self, hjl]
      · intro c blk hblk
        refine ⟨_, hrel.2 c blk hblk, ?_⟩
        by_cases hc : c = a.cb_
        · simp only [hc, if_true, releasedBlock]
          split
          · rename_i h1
            simp [h1]
          · rfl
        · simp [hc]
  · intro hobj
    obtain ⟨g, hg⟩ := live_release_exists ops s hr i a hi hobj
    refine ⟨⟨g, (s.shared.set i (some b)).set j (some ⟨0, 0⟩), s.weak⟩, ?_⟩
    simp only [step, hi, hj, Option.some_bind, hbeq, SharedPtr.assign_move, if_true, hg]

/-- Witness for C11: `A = MakeShared`, `B = MakeShared`, `C = A`, then
`A = move(B)`: `A` holds the block of `B`, `B` is empty, the block of `B` keeps
`ref_count` 1 and the former block of `A` goes from 2 to 1. -/
theorem C11_witness :
    run [Op.Make_Shared false, Op.Make_Shared false, Op.Shared_copy 0] State.init
      = some ⟨⟨[⟨2, 0, false, Storage.WithObject, 1, false, 0⟩,
                 ⟨1, 0, false, Storage.WithObject, 2, false, 0⟩],
                [⟨⟨0, 0, false⟩, true⟩, ⟨⟨0, 0, false⟩, true⟩]⟩,
          [some ⟨1, 1⟩, some ⟨2, 2⟩, some ⟨1, 1⟩], []⟩ ∧
    ∃ t, step ⟨⟨[⟨2, 0, false, Storage.WithObject, 1, false, 0⟩,
                 ⟨1, 0, false, Storage.WithObject, 2, false, 0⟩],
                [⟨⟨0, 0, false⟩, true⟩, ⟨⟨0, 0, false⟩, true⟩]⟩,
          [some ⟨1, 1⟩, some ⟨2, 2⟩, some ⟨1, 1⟩], []⟩ (Op.Shared_assign_move 0 1) = some t ∧
      t.shared? 0 = some ⟨2, 2⟩ ∧ t.shared? 1 = some ⟨0, 0⟩ ∧
      (∃ blk1, t.heap.block? 1 = some blk1 ∧ blk1.ref_count = 1) ∧
      (∃ blk2, t.heap.block? 2 = some blk2 ∧ blk2.ref_count = 1) := by
  have h := C11_move_transfers_ownership
    [Op.Make_Shared false, Op.Make_Shared false, Op.Shared_copy 0]
    ⟨⟨[⟨2, 0, false, Storage.WithObject, 1, false, 0⟩,
       ⟨1, 0, false, Storage.WithObject, 2, false, 0⟩],
      [⟨⟨0, 0, false⟩, true⟩, ⟨⟨0, 0, false⟩, true⟩]⟩,
      [some ⟨1, 1⟩, some ⟨2, 2⟩, some ⟨1, 1⟩], []⟩ (by decide) 0 1 ⟨1, 1⟩ ⟨2, 2⟩
    (by decide) (by decide) (by decide)
  obtain ⟨t, ht⟩ := h.2.2.2 (Or.inr (by decide))
  obtain ⟨h1, h2, -, h4⟩ := h.2.2.1 t ht
  refine ⟨by decide, t, ht, h1, h2, ?_, ?_⟩
  · obtain ⟨blk1, e1, e2⟩ := h4 1 ⟨2, 0, false, Storage.WithObject, 1, false, 0⟩ (by decide)
    exact ⟨blk1, e1, by rw [e2]; decide⟩
  · obtain ⟨blk2, e1, e2⟩ := h4 2 ⟨1, 0, false, Storage.WithObject, 2, false, 0⟩ (by decide)
    exact ⟨blk2, e1, by rw [e2]; decide⟩

/-- **C12.** In every reachable state, for a live `SharedPtr` variable `i`
holding `a`: the self-assignments `a = a` and `a = move(a)` are defined and
leave the whole state (the handle, every control block, every object) as it
is; and for another live variable `j` of the same ownership group the block
has at least two owners, so the `DecrRef` inside the assignment only lowers
`ref_count` to a value that is still at least one (nothing is destroyed or
released), the copy assignment `i = j` ends with the heap exactly as before
and the move assignment `i = move(j)` with `ref_count` one lower, and in both
`i` holds the handle of `j`, which refers to the group. -/
theorem C12_shared_assignment_tolerates_self (ops : List Op) (s : State)
    (hr : run ops State.init = some s) (i : Nat) (a : SharedPtr)
    (hi : s.shared? i = some a) :
    step s (Op.Shared_assign_copy i i) = some s ∧
    step s (Op.Shared_assign_move i i) = some s ∧
    (∀ j b, s.shared? j = some b → i ≠ j → a.cb_ ≠ 0 → b.cb_ = a.cb_ →
      ∃ blk, s.heap.deref a.cb_ = some blk ∧ 2 ≤ blk.ref_count ∧
        blk.is_deleted = false ∧ blk.destroyed = 0 ∧
        DecrRef s.heap a.cb_
          = some (s.heap.setBlock a.cb_ { blk with ref_count := blk.ref_count - 1 }) ∧
        step s (Op.Shared_assign_copy i j)
          = some ⟨s.heap, s.shared.set i (some b), s.weak⟩ ∧
        step s (Op.Shared_assign_move i j)
          = some ⟨s.heap.setBlock a.cb_ { blk with ref_count := blk.ref_count - 1 },
              (s.shared.set i (some b)).set j (some ⟨0, 0⟩), s.weak⟩) := by
  have hinv := run_Inv ops Inv.inv_init hr
  have hi1 := State.shared?_eq_some.mp hi
  have hs1 : s.shared.set i (some a) = s.shared := set_same_of_getElem? hi1
  refine ⟨?_, ?_, ?_⟩
  · simp only [step, hi, Option.some_bind, beq_self_eq_true, SharedPtr.assign_copy,
      Bool.true_eq_false, if_false, hs1]
  · simp only [step, hi, Option.some_bind, beq_self_eq_true, SharedPtr.assign_move,
      Bool.true_eq_false, if_false, hs1]
  · intro j b hj hij hc hab
    have hbeq : (i == j) = false := by simpa using hij
    obtain ⟨blk, hblk, hrc, -, hdel, hds⟩ := hinv.live_block hi hc
    have h2 : 2 ≤ owners s.shared a.cb_ :=
      owners_two hi1 (State.shared?_eq_some.mp hj) hij hab.symm
    have hrc2 : 2 ≤ blk.ref_count := by
      rw [hrc]
      exact_mod_cast h2
    have hne : blk.ref_count ≠ 1 := by omega
    have hdec := DecrRef_of_not_last hblk hne
    have hboth := DecrRef_IncrRef_same hblk hne
      (hinv.1 _ blk (Heap.deref_eq_some.mp hblk).1).2.2.2.2
    rw [hdec] at hboth
    simp only [Option.some_bind] at hboth
    refine ⟨blk, hblk, hrc2, hdel, hds, hdec, ?_, ?_⟩
    · have hb0 : b.cb_ ≠ 0 := by rw [hab]; exact hc
      simp only [step, hi, hj, Option.some_bind, hbeq, SharedPtr.assign_copy, if_true, hc,
        ne_eq, not_false_eq_true, hdec, hb0, hab, hboth]
      rw [show (⟨a.cb_, b.observed_pole_⟩ : SharedPtr) = b from by rw [← hab]]
    · simp only [step, hi, hj, Option.some_bind, hbeq, SharedPtr.assign_move, if_true, hc,
        ne_eq, not_false_eq_true, hdec]

/-- Witness for C12: `A = MakeShared`, `B = A`; `A = A`, `A = move(A)` and
`A = B` leave the state as it is. -/
theorem C12_witness :
    step ⟨⟨[⟨2, 0, false, Storage.WithObject, 1, false, 0⟩], [⟨⟨0, 0, false⟩, true⟩]⟩,
        [some ⟨1, 1⟩, some ⟨1, 1⟩], []⟩ (Op.Shared_assign_copy 0 0)
      = some ⟨⟨[⟨2, 0, false, Storage.WithObject, 1, false, 0⟩], [⟨⟨0, 0, false⟩, true⟩]⟩,
        [some ⟨1, 1⟩, some ⟨1, 1⟩], []⟩ ∧
    step ⟨⟨[⟨2, 0, false, Storage.WithObject, 1, false, 0⟩], [⟨⟨0, 0, false⟩, true⟩]⟩,
        [some ⟨1, 1⟩, some ⟨1, 1⟩], []⟩ (Op.Shared_assign_move 0 0)
      = some ⟨⟨[⟨2, 0, false, Storage.WithObject, 1, false, 0⟩], [⟨⟨0, 0, false⟩, true⟩]⟩,
        [some ⟨1, 1⟩, some ⟨1, 1⟩], []⟩ ∧
    step ⟨⟨[⟨2, 0, false, Storage.WithObject, 1, false, 0⟩], [⟨⟨0, 0, false⟩, true⟩]⟩,
        [some ⟨1, 1⟩, some ⟨1, 1⟩], []⟩ (Op.Shared_assign_copy 0 1)
      = some ⟨⟨[⟨2, 0, false, Storage.WithObject, 1, false, 0⟩], [⟨⟨0, 0, false⟩, true⟩]⟩,
        [some ⟨1, 1⟩, some ⟨1, 1⟩], []⟩ := by
  have h := C12_shared_assignment_tolerates_self [Op.Make_Shared false, Op.Shared_copy 0]
    ⟨⟨[⟨2, 0, false, Storage.WithObject, 1, false, 0⟩], [⟨⟨0, 0, false⟩, true⟩]⟩,
      [some ⟨1, 1⟩, some ⟨1, 1⟩], []⟩ (by decide) 0 ⟨1, 1⟩ (by decide)
  obtain ⟨blk, -, -, -, -, -, h3, -⟩ := h.2.2 1 ⟨1, 1⟩ (by decide) (by decide) (by decide) rfl
  exact ⟨h.1, h.2.1, h3.trans (by decide)⟩

/-- **C13.** `WeakPtr::operator=` has no identity test, and self-assignment is
not a no-op.  With `S = MakeShared`, `W = WeakPtr(S)`: (1) `W = move(W)` leaves
`W` empty and lowers `weak_ref_count` from 1 to 0; (2) after `S.Reset()`, when
`W` is the last reference to the block, the `DecrWeakRef` inside `W = W`
releases the block and the following `IncrWeakRef` is called on the released
block, which is undefined; (3) in that state `W = move(W)` releases the block
and leaves `W` empty.  (4) Only for a live or empty `W` is `W = W` a no-op. -/
theorem C13_weak_self_assignment_not_tolerated :
    (run [Op.Make_Shared false, Op.Weak_shared 0 false] State.init
        = some ⟨⟨[⟨1, 1, false, Storage.WithObject, 1, false, 0⟩], [⟨⟨0, 0, false⟩, true⟩]⟩,
            [some ⟨1, 1⟩], [some ⟨1, 1, false⟩]⟩ ∧
      run [Op.Make_Shared false, Op.Weak_shared 0 false, Op.Weak_assign_move 0 0] State.init
        = some ⟨⟨[⟨1, 0, false, Storage.WithObject, 1, false, 0⟩], [⟨⟨0, 0, false⟩, true⟩]⟩,
            [some ⟨1, 1⟩], [some ⟨0, 0, false⟩]⟩) ∧
    (run [Op.Make_Shared false, Op.Weak_shared 0 false, Op.Shared_Reset 0] State.init
        = some ⟨⟨[⟨0, 1, true, Storage.WithObject, 1, false, 1⟩], [⟨⟨0, 0, false⟩, false⟩]⟩,
            [some ⟨0, 0⟩], [some ⟨1, 1, false⟩]⟩ ∧
      DecrWeakRef ⟨[⟨0, 1, true, Storage.WithObject, 1, false, 1⟩], [⟨⟨0, 0, false⟩, false⟩]⟩
          1 false
        = some ⟨[⟨0, 0, true, Storage.WithObject, 1, true, 1⟩], [⟨⟨0, 0, false⟩, false⟩]⟩ ∧
      IncrWeakRef ⟨[⟨0, 0, true, Storage.WithObject, 1, true, 1⟩], [⟨⟨0, 0, false⟩, false⟩]⟩
          1 false = none ∧
      WeakPtr.assign_copy
          ⟨[⟨0, 1, true, Storage.WithObject, 1, false, 1⟩], [⟨⟨0, 0, false⟩, false⟩]⟩
          ⟨1, 1, false⟩ ⟨1, 1, false⟩ = none ∧
      run [Op.Make_Shared false, Op.Weak_shared 0 false, Op.Shared_Reset 0,
          Op.Weak_assign_copy 0 0] State.init = none) ∧
    (run [Op.Make_Shared false, Op.Weak_shared 0 false, Op.Shared_Reset 0,
          Op.Weak_assign_move 0 0] State.init
        = some ⟨⟨[⟨0, 0, true, Storage.WithObject, 1, true, 1⟩], [⟨⟨0, 0, false⟩, false⟩]⟩,
            [some ⟨0, 0⟩], [some ⟨0, 0, false⟩]⟩) ∧
    (run [Op.Make_Shared false, Op.Weak_shared 0 false, Op.Weak_assign_copy 0 0] State.init
        = run [Op.Make_Shared false, Op.Weak_shared 0 false] State.init ∧
      run [Op.Weak_default, Op.Weak_assign_copy 0 0] State.init
        = run [Op.Weak_default] State.init ∧
      run [Op.Weak_default, Op.Weak_assign_move 0 0] State.init
        = run [Op.Weak_default] State.init) := by
  decide

/-- **C15.** `Reset()` of src/shared/shared.h deletes the control block
whatever the count is, unlike the destructor.  With `A = MakeShared`, `B = A`
(block 1, `ref_count` 2): the destructor of `A` leaves the block allocated with
`ref_count` 1 and the object alive, and `B.UseCount()` is 1; `A.Reset()`
lowers the count to 1, destroys the object and releases the block, so that
`B.UseCount()` reads a released block, which is undefined, as is the later
destructor of `B`. -/
theorem C15_Reset_deletes_block_with_owners :
    Shared.SharedPtr.ctor_copy (Shared.MakeShared ⟨[], []⟩).1 (Shared.MakeShared ⟨[], []⟩).2
      = some (⟨[⟨2, Storage.WithObject, 1, false⟩], [true]⟩, ⟨1, 1⟩) ∧
    Shared.SharedPtr.dtor ⟨[⟨2, Storage.WithObject, 1, false⟩], [true]⟩ ⟨1, 1⟩
      = some ⟨[⟨1, Storage.WithObject, 1, false⟩], [true]⟩ ∧
    Shared.SharedPtr.UseCount ⟨[⟨1, Storage.WithObject, 1, false⟩], [true]⟩ ⟨1, 1⟩ = some 1 ∧
    Shared.SharedPtr.Reset ⟨[⟨2, Storage.WithObject, 1, false⟩], [true]⟩ ⟨1, 1⟩
      = some (⟨[⟨1, Storage.WithObject, 1, true⟩], [false]⟩, ⟨0, 0⟩) ∧
    Shared.SharedPtr.UseCount ⟨[⟨1, Storage.WithObject, 1, true⟩], [false]⟩ ⟨1, 1⟩ = none ∧
    Shared.SharedPtr.dtor ⟨[⟨1, Storage.WithObject, 1, true⟩], [false]⟩ ⟨1, 1⟩ = none := by
  decide

/-- **C17.** (1) `UseCount()` of a `SharedPtr` or `WeakPtr` without control
block is 0.  In every state reached with defined behaviour (incrementing the
`int` `ref_count` at `INT_MAX` is a signed overflow and hence undefined):
(2) for an allocated block, every
`SharedPtr` and every `WeakPtr` on it reports the same value, `ref_count` of
the block converted to `size_t`, and `ref_count` is the number of live
`SharedPtr` variables on the block, which is at most `INT_MAX`, so the
conversion to `size_t` does not change the value; (3) `UseCount()` of a live
non-empty `SharedPtr` variable is defined and is that number; (4) `UseCount()`
of an expired `WeakPtr` whose block is still allocated is 0. -/
theorem C17_UseCount_is_strong_count (ops : List Op) (s : State)
    (hr : run ops State.init = some s) :
    ((∀ h (x : SharedPtr), x.cb_ = 0 → x.UseCount h = some 0) ∧
      (∀ h (w : WeakPtr), w.cb_ = 0 → w.UseCount h = some 0)) ∧
    (∀ c b, s.heap.deref c = some b →
      (∀ x : SharedPtr, x.cb_ = c → x.UseCount s.heap = some (toSizeT b.ref_count)) ∧
      (∀ w : WeakPtr, w.cb_ = c → w.UseCount s.heap = some (toSizeT b.ref_count)) ∧
      b.ref_count = sharedCount s c ∧ toSizeT b.ref_count = sharedCount s c % 2 ^ 64 ∧
      b.ref_count ≤ INT_MAX ∧ toSizeT b.ref_count = sharedCount s c) ∧
    (∀ i x, s.shared? i = some x → x.cb_ ≠ 0 →
      x.UseCount s.heap = some (sharedCount s x.cb_ % 2 ^ 64) ∧ 1 ≤ sharedCount s x.cb_ ∧
      x.UseCount s.heap = some (sharedCount s x.cb_) ∧ (sharedCount s x.cb_ : Int) ≤ INT_MAX) ∧
    (∀ (w : WeakPtr) b, s.heap.deref w.cb_ = some b → w.Expired s.heap = some true →
      w.UseCount s.heap = some 0) := by
  have hinv := run_Inv ops Inv.inv_init hr
  have key : ∀ c b, s.heap.deref c = some b →
      (∀ x : SharedPtr, x.cb_ = c → x.UseCount s.heap = some (toSizeT b.ref_count)) ∧
      (∀ w : WeakPtr, w.cb_ = c → w.UseCount s.heap = some (toSizeT b.ref_count)) ∧
      b.ref_count = sharedCount s c ∧ toSizeT b.ref_count = sharedCount s c % 2 ^ 64 ∧
      b.ref_count ≤ INT_MAX ∧ toSizeT b.ref_count = sharedCount s c := by
    intro c b hb
    have hc0 := Heap.deref_ne_zero hb
    have hrc := (hinv.1 c b (Heap.deref_eq_some.mp hb).1).1
    have hmax := (hinv.inv_range (Heap.deref_eq_some.mp hb).1).2
    refine ⟨?_, ?_, hrc, by rw [hrc]; exact toSizeT_natCast _, hmax, toSizeT_of_range hrc hmax⟩
    · intro x hx
      subst hx
      simp [SharedPtr.UseCount, hc0, hb]
    · intro w hw
      subst hw
      simp [WeakPtr.UseCount, hc0, hb]
  refine ⟨⟨?_, ?_⟩, key, ?_, ?_⟩
  · intro h x hx
    simp [SharedPtr.UseCount, hx]
  · intro h w hw
    simp [WeakPtr.UseCount, hw]
  · intro i x hi hc
    obtain ⟨b, hb, -, -, -, -⟩ := hinv.live_block hi hc
    obtain ⟨k1, -, k3, k4, k5, k6⟩ := key x.cb_ b hb
    exact ⟨by rw [k1 x rfl, k4], owners_pos (State.shared?_eq_some.mp hi),
      by rw [k1 x rfl, k6], by rw [← k3]; exact k5⟩
  · intro w b hb he
    obtain ⟨-, k2, -, k4, -, -⟩ := key w.cb_ b hb
    have hexp := Expired_of_Good hb (hinv.1 w.cb_ b (Heap.deref_eq_some.mp hb).1)
    rw [he] at hexp
    have hn : sharedCount s w.cb_ = 0 := by
      simpa using (Option.some.inj hexp).symm
    rw [k2 w rfl, k4, hn]
    rfl

/-- Witness for C17: `A = MakeShared`, `B = A`, `W = WeakPtr(A)`: all three
report 2; after `A.Reset()` and the destructor of `B` the expired `W`
reports 0. -/
theorem C17_witness :
    (⟨1, 1⟩ : SharedPtr).UseCount
        ⟨[⟨2, 1, false, Storage.WithObject, 1, false, 0⟩], [⟨⟨0, 0, false⟩, true⟩]⟩ = some 2 ∧
    (⟨1, 1, false⟩ : WeakPtr).UseCount
        ⟨[⟨2, 1, false, Storage.WithObject, 1, false, 0⟩], [⟨⟨0, 0, false⟩, true⟩]⟩ = some 2 ∧
    (⟨1, 1, false⟩ : WeakPtr).UseCount
        ⟨[⟨0, 1, true, Storage.WithObject, 1, false, 1⟩], [⟨⟨0, 0, false⟩, false⟩]⟩ = some 0 := by
  have h1 := C17_UseCount_is_strong_count
    [Op.Make_Shared false, Op.Shared_copy 0, Op.Weak_shared 0 false]
    ⟨⟨[⟨2, 1, false, Storage.WithObject, 1, false, 0⟩], [⟨⟨0, 0, false⟩, true⟩]⟩,
      [some ⟨1, 1⟩, some ⟨1, 1⟩], [some ⟨1, 1, false⟩]⟩ (by decide)
  have h2 := C17_UseCount_is_strong_count
    [Op.Make_Shared false, Op.Shared_copy 0, Op.Weak_shared 0 false, Op.Shared_Reset 0,
      Op.Shared_dtor 1]
    ⟨⟨[⟨0, 1, true, Storage.WithObject, 1, false, 1⟩], [⟨⟨0, 0, false⟩, false⟩]⟩,
      [some ⟨0, 0⟩, none], [some ⟨1, 1, false⟩]⟩ (by decide)
  obtain ⟨k1, k2, -, -⟩ := h1.2.1 1 ⟨2, 1, false, Storage.WithObject, 1, false, 0⟩ (by decide)
  refine ⟨(k1 ⟨1, 1⟩ rfl).trans (by decide), (k2 ⟨1, 1, false⟩ rfl).trans (by decide), ?_⟩
  exact h2.2.2.2 ⟨1, 1, false⟩ ⟨0, 1, true, Storage.WithObject, 1, false, 1⟩ (by decide)
    (by decide)

/-- **C18.** In every reachable state: (1) a statement that constructs a
`WeakPtr` (empty, from a `SharedPtr`, by `WeakFromThis`), copies, moves,
assigns, resets, swaps or destroys one leaves all `SharedPtr` variables and all
objects as they are and leaves `ref_count`, `is_deleted`, the number of
destructions and the managed pointer of every block unchanged; the only storage
it can release is that of a block without owner (whose object is destroyed
already), so no object of a block with `ref_count >= 1` is destroyed;
(2) `WeakPtr(const SharedPtr&, bool)` from a live `SharedPtr` variable is
defined, except that the counted construction from a non-empty handle
increments the `int` `weak_ref_count` and is a signed overflow, hence
undefined, exactly if that counter is at `INT_MAX`; (3) in a program that
constructs its `WeakPtr`s counted, `Reset()` of and the destructor of a live
`WeakPtr` variable are defined, and copy construction from it is defined
exactly if `weak_ref_count` of its block, if it has one, is below
`INT_MAX`. -/
theorem C18_weak_operations_keep_lifetime (ops : List Op) (s : State)
    (hr : run ops State.init = some s) :
    (∀ op t, op.weakOnly = true → step s op = some t →
      t.shared = s.shared ∧ SameLifetime s.heap t.heap ∧
      (∀ c b, s.heap.block? c = some b → 1 ≤ b.ref_count →
        ∃ b1, t.heap.block? c = some b1 ∧ b1.ref_count = b.ref_count ∧
          b1.is_deleted = b.is_deleted ∧ b1.destroyed = b.destroyed ∧
          b1.freed = b.freed)) ∧
    (∀ i a flag, s.shared? i = some a →
      ((∃ t, step s (Op.Weak_shared i flag) = some t) ↔
        (flag = false → ∀ b, s.heap.deref a.cb_ = some b → b.weak_ref_count < INT_MAX))) ∧
    ((∀ op ∈ ops, op.counted = true) → ∀ k w, s.weak? k = some w →
      ((∃ t, step s (Op.Weak_copy k) = some t) ↔
        ∀ b, s.heap.deref w.cb_ = some b → b.weak_ref_count < INT_MAX) ∧
      (∃ t, step s (Op.Weak_Reset k) = some t) ∧
      (∃ t, step s (Op.Weak_dtor k) = some t)) := by
  have hinv := run_Inv ops Inv.inv_init hr
  have hset := hinv.inv_settled
  have main : ∀ op t, op.weakOnly = true → step s op = some t →
      t.shared = s.shared ∧ SameLifetime s.heap t.heap := by
    intro op t hop hs
    cases op with
    | new_T => simp [Op.weakOnly] at hop
    | Shared_default => simp [Op.weakOnly] at hop
    | Shared_ptr esft ptr => simp [Op.weakOnly] at hop
    | Make_Shared esft => simp [Op.weakOnly] at hop
    | Shared_copy i => simp [Op.weakOnly] at hop
    | Shared_move i => simp [Op.weakOnly] at hop
    | Shared_alias i ptr => simp [Op.weakOnly] at hop
    | Shared_weak k => simp [Op.weakOnly] at hop
    | Shared_assign_copy i j => simp [Op.weakOnly] at hop
    | Shared_assign_move i j => simp [Op.weakOnly] at hop
    | Shared_dtor i => simp [Op.weakOnly] at hop
    | Shared_Reset i => simp [Op.weakOnly] at hop
    | Shared_Reset_ptr i ptr => simp [Op.weakOnly] at hop
    | Shared_Swap i j => simp [Op.weakOnly] at hop
    | Weak_Lock k => simp [Op.weakOnly] at hop
    | Shared_From_This ptr => simp [Op.weakOnly] at hop
    | Weak_default =>
      simp only [step, Option.some.injEq] at hs
      subst hs
      exact ⟨rfl, SameLifetime.same_refl _⟩
    | Weak_copy k =>
      simp only [step, Option.bind_eq_some, Option.some.injEq] at hs
      obtain ⟨w, hw, r, hr1, rfl⟩ := hs
      exact ⟨rfl, (WeakPtr.weak_ctor_copy_same (w := r.2) hr1).1⟩
    | Weak_move k =>
      simp only [step, Option.bind_eq_some, Option.some.injEq] at hs
      obtain ⟨w, hw, rfl⟩ := hs
      exact ⟨rfl, SameLifetime.same_refl _⟩
    | Weak_shared i flag =>
      simp only [step, Option.bind_eq_some, Option.some.injEq] at hs
      obtain ⟨a, ha, r, hr1, rfl⟩ := hs
      exact ⟨rfl, (WeakPtr.ctor_shared_same (w := r.2) hr1).1⟩
    | Weak_assign_copy k l =>
      simp only [step, Option.bind_eq_some, Option.some.injEq] at hs
      obtain ⟨a, ha, b, hb, r, hr1, rfl⟩ := hs
      exact ⟨rfl, (WeakPtr.weak_assign_copy_same (x := r.2) hset hr1).1⟩
    | Weak_assign_move k l =>
      simp only [step, Option.bind_eq_some, Option.some.injEq] at hs
      obtain ⟨a, ha, b, hb, r, hr1, rfl⟩ := hs
      exact ⟨rfl, (WeakPtr.weak_assign_move_same (x := r.2.1) (y := r.2.2) hset hr1).1⟩
    | Weak_dtor k =>
      simp only [step, Option.bind_eq_some, Option.some.injEq] at hs
      obtain ⟨a, ha, r, hr1, rfl⟩ := hs
      exact ⟨rfl, WeakPtr.weak_dtor_same hset hr1⟩
    | Weak_Reset k =>
      simp only [step, Option.bind_eq_some, Option.some.injEq] at hs
      obtain ⟨a, ha, r, hr1, rfl⟩ := hs
      exact ⟨rfl, (WeakPtr.weak_Reset_same (x := r.2) hset hr1).1⟩
    | Weak_Swap k l =>
      simp only [step, Option.bind_eq_some, Option.some.injEq] at hs
      obtain ⟨a, ha, b, hb, rfl⟩ := hs
      exact ⟨rfl, SameLifetime.same_refl _⟩
    | Weak_From_This ptr =>
      simp only [step, Option.bind_eq_some, Option.some.injEq] at hs
      obtain ⟨r, hr1, rfl⟩ := hs
      unfold WeakFromThis at hr1
      split at hr1
      · split at hr1
        · exact ⟨rfl, (WeakPtr.weak_ctor_copy_same (w := r.2) hr1).1⟩
        · simp at hr1
      · simp at hr1
  refine ⟨?_, ?_, ?_⟩
  · intro op t hop hs
    obtain ⟨m1, m2⟩ := main op t hop hs
    refine ⟨m1, m2, ?_⟩
    intro c b hb hpos
    obtain ⟨b1, hb1, e1, e2, e3, -, -, e6⟩ := m2.2.2 c b hb
    refine ⟨b1, hb1, e1, e2, e3, ?_⟩
    have hfr : b.freed = false := by
      cases hx : b.freed with
      | false => rfl
      | true =>
        have := (hinv.1 c b hb).2.1 hx
        have := (hinv.1 c b hb).1
        omega
    rw [hfr]
    cases hx : b1.freed with
    | false => rfl
    | true =>
      rcases e6 hx with h1 | h1
      · rw [hfr] at h1; cases h1
      · omega
  · intro i a flag hi
    constructor
    · rintro ⟨t, ht⟩ hf b hb
      by_contra hge
      have hc := Heap.deref_ne_zero hb
      simp [step, hi, WeakPtr.ctor_shared, hc, IncrWeakRef, hb, hf, hge] at ht
    · intro hlt
      apply Option.isSome_iff_exists.mp
      by_cases hc : a.cb_ = 0
      · simp [step, hi, WeakPtr.ctor_shared, hc]
      · obtain ⟨b, hb, -⟩ := hinv.live_block hi hc
        cases flag with
        | true => simp [step, hi, WeakPtr.ctor_shared, hc, IncrWeakRef, hb]
        | false => simp [step, hi, WeakPtr.ctor_shared, hc, IncrWeakRef, hb, hlt rfl b hb]
  · intro hcount k w hk
    by_cases hc : w.cb_ = 0
    · refine ⟨⟨fun _ b hb => absurd hc (Heap.deref_ne_zero hb),
        fun _ => Option.isSome_iff_exists.mp ?_⟩, Option.isSome_iff_exists.mp ?_,
        Option.isSome_iff_exists.mp ?_⟩
      · simp [step, hk, WeakPtr.ctor_copy, hc]
      · simp [step, hk, WeakPtr.Reset, hc]
      · simp [step, hk, WeakPtr.dtor, WeakPtr.dtorWith, hc]
    · obtain ⟨ht, b, hb⟩ := live_WeakPtr_block ops s hr hcount k w hk hc
      have hdec := DecrWeakRef_exact hb (hset w.cb_ b (Heap.deref_eq_some.mp hb).1)
      have hdec1 : DecrWeakRefWith SharedDestructor s.heap w.cb_ false = _ := hdec
      refine ⟨⟨?_, fun hlt => Option.isSome_iff_exists.mp ?_⟩, Option.isSome_iff_exists.mp ?_,
        Option.isSome_iff_exists.mp ?_⟩
      · rintro ⟨t, ht1⟩ b1 hb1
        by_contra hge
        simp [step, hk, WeakPtr.ctor_copy, hc, IncrWeakRef, hb1, hge] at ht1
      · simp [step, hk, WeakPtr.ctor_copy, hc, IncrWeakRef, hb, hlt b hb]
      · simp [step, hk, WeakPtr.Reset, hc, ht, hdec]
      · simp [step, hk, WeakPtr.dtor, WeakPtr.dtorWith, hc, ht, hdec1]

/-- Witness for C18: `S = MakeShared`, `W = WeakPtr(S)`, then the destructor of
`W`: `S` and the block's `ref_count`, `is_deleted` and storage are as
before. -/
theorem C18_witness :
    ∃ t, step ⟨⟨[⟨1, 1, false, Storage.WithObject, 1, false, 0⟩], [⟨⟨0, 0, false⟩, true⟩]⟩,
        [some ⟨1, 1⟩], [some ⟨1, 1, false⟩]⟩ (Op.Weak_dtor 0) = some t ∧
      t.shared = [some ⟨1, 1⟩] ∧
      ∃ b1, t.heap.block? 1 = some b1 ∧ b1.ref_count = 1 ∧ b1.is_deleted = false ∧
        b1.destroyed = 0 ∧ b1.freed = false := by
  have h := C18_weak_operations_keep_lifetime [Op.Make_Shared false, Op.Weak_shared 0 false]
    ⟨⟨[⟨1, 1, false, Storage.WithObject, 1, false, 0⟩], [⟨⟨0, 0, false⟩, true⟩]⟩,
      [some ⟨1, 1⟩], [some ⟨1, 1, false⟩]⟩ (by decide)
  obtain ⟨t, ht⟩ := (h.2.2 (by decide) 0 ⟨1, 1, false⟩ (by decide)).2.2
  obtain ⟨h1, -, h3⟩ := h.1 (Op.Weak_dtor 0) t rfl ht
  obtain ⟨b1, e1, e2, e3, e4, e5⟩ :=
    h3 1 ⟨1, 1, false, Storage.WithObject, 1, false, 0⟩ (by decide) (by decide)
  exact ⟨t, ht, h1, b1, e1, e2, e3, e4, e5⟩

/-- **C19.** (1) The boolean conversion of a `SharedPtr` is true exactly if
`cb_` is not `nullptr`.  (2) In every reachable state, a live `SharedPtr`
variable whose conversion is true refers to an allocated control block with
`ref_count >= 1`, `is_deleted == false` and no destruction executed.  (3) In a
program whose control blocks all come from `MakeShared`, the object managed by
that block is alive. -/
theorem C19_nonempty_handle_owns_live_block (ops : List Op) (s : State)
    (hr : run ops State.init = some s) :
    (∀ x : SharedPtr, x.toBool = true ↔ x.cb_ ≠ 0) ∧
    (∀ i x, s.shared? i = some x → x.toBool = true →
      ∃ b, s.heap.deref x.cb_ = some b ∧ 1 ≤ b.ref_count ∧ b.is_deleted = false ∧
        b.destroyed = 0 ∧ b.freed = false ∧ b.ref_count ≤ INT_MAX ∧
        b.ref_count = sharedCount s x.cb_) ∧
    ((∀ op ∈ ops, op.makeOnly = true) → ∀ i x, s.shared? i = some x → x.toBool = true →
      ∃ b o, s.heap.deref x.cb_ = some b ∧ s.heap.object? b.object = some o ∧
        o.alive = true) := by
  have hinv := run_Inv ops Inv.inv_init hr
  have hbool : ∀ x : SharedPtr, x.toBool = true ↔ x.cb_ ≠ 0 := by
    intro x
    simp [SharedPtr.toBool]
  refine ⟨hbool, ?_, ?_⟩
  · intro i x hi hx
    obtain ⟨b, hb, hrc, hpos, hdel, hds⟩ := hinv.live_block hi ((hbool x).mp hx)
    exact ⟨b, hb, hpos, hdel, hds, (Heap.deref_eq_some.mp hb).2,
      (hinv.inv_range (Heap.deref_eq_some.mp hb).1).2, hrc⟩
  · intro hm i x hi hx
    obtain ⟨b, hb, -, -, hdel, -⟩ := hinv.live_block hi ((hbool x).mp hx)
    have ho := run_Owned ops Inv.inv_init Owned.owned_init hm hr
    obtain ⟨o, hob, hal, -⟩ := ho.1 x.cb_ b (Heap.deref_eq_some.mp hb).1 hdel
    exact ⟨b, o, hb, hob, hal⟩

/-- Witness for C19: after `A = MakeShared`, `B = A`, `A.Reset()`, the
non-empty `B` refers to block 1 with `ref_count` 1 and the object alive. -/
theorem C19_witness :
    ∃ b o, Heap.deref ⟨[⟨1, 0, false, Storage.WithObject, 1, false, 0⟩],
        [⟨⟨0, 0, false⟩, true⟩]⟩ 1 = some b ∧
      Heap.object? ⟨[⟨1, 0, false, Storage.WithObject, 1, false, 0⟩],
        [⟨⟨0, 0, false⟩, true⟩]⟩ b.object = some o ∧ o.alive = true := by
  have h := C19_nonempty_handle_owns_live_block
    [Op.Make_Shared false, Op.Shared_copy 0, Op.Shared_Reset 0]
    ⟨⟨[⟨1, 0, false, Storage.WithObject, 1, false, 0⟩], [⟨⟨0, 0, false⟩, true⟩]⟩,
      [some ⟨0, 0⟩, some ⟨1, 1⟩], []⟩ (by decide)
  exact h.2.2 (by decide) 1 ⟨1, 1⟩ (by decide) (by decide)

/-- **C20.** `operator==` on two `SharedPtr`s compares the exposed pointers:
(1) `a == b` holds exactly if `a.Get()` and `b.Get()` are the same address;
(2) the relation is reflexive, symmetric and transitive; (3) a handle made by
copy construction equals the original; (4) handles with equal `Get()` are
equal whatever their control blocks and whatever the heap (the counters) is:
the comparison reads neither.  In every reachable state: (5) any two live
`SharedPtr` variables that are empty are equal. -/
theorem C20_equality_is_identity_of_exposed_pointer (ops : List Op) (s : State)
    (hr : run ops State.init = some s) :
    (∀ a b : SharedPtr, a.eq b = true ↔ a.Get = b.Get) ∧
    ((∀ a : SharedPtr, a.eq a = true) ∧
      (∀ a b : SharedPtr, a.eq b = b.eq a) ∧
      (∀ a b c : SharedPtr, a.eq b = true → b.eq c = true → a.eq c = true)) ∧
    (∀ h g (a x : SharedPtr), SharedPtr.ctor_copy h a = some (g, x) → x.eq a = true) ∧
    (∀ (c d p : Nat), (⟨c, p⟩ : SharedPtr).eq ⟨d, p⟩ = true) ∧
    (∀ i j x y, s.shared? i = some x → s.shared? j = some y →
      x.toBool = false → y.toBool = false → x.eq y = true) := by
  have hsh := run_Shape false ops (Shape.shape_init false) (fun e => by cases e) hr
  have heq : ∀ a b : SharedPtr, a.eq b = true ↔ a.Get = b.Get := by
    intro a b
    simp [SharedPtr.eq]
  refine ⟨heq, ⟨?_, ?_, ?_⟩, ?_, ?_, ?_⟩
  · intro a
    exact (heq a a).mpr rfl
  · intro a b
    simp only [SharedPtr.eq]
    exact Bool.eq_iff_iff.mpr (by simp only [beq_iff_eq]; exact eq_comm)
  · intro a b c h1 h2
    exact (heq a c).mpr (((heq a b).mp h1).trans ((heq b c).mp h2))
  · intro h g a x hd
    obtain ⟨-, rfl⟩ := SharedPtr.ctor_copy_pres hd
    exact (heq _ _).mpr rfl
  · intro c d p
    exact (heq _ _).mpr rfl
  · intro i j x y hi hj hx hy
    have hxc : x.cb_ = 0 := by simpa [SharedPtr.toBool] using hx
    have hyc : y.cb_ = 0 := by simpa [SharedPtr.toBool] using hy
    have hxo := (hsh.1 x (State.shared?_mem hi)).1 hxc
    have hyo := (hsh.1 y (State.shared?_mem hj)).1 hyc
    exact (heq x y).mpr (by simp only [SharedPtr.Get]; rw [hxo, hyo])

/-- Witness for C20: after `A = MakeShared`, `B = A`, `A.Reset()` and a default
constructed `C`, the empty `A` and `C` are equal. -/
theorem C20_witness : (⟨0, 0⟩ : SharedPtr).eq ⟨0, 0⟩ = true := by
  have h := C20_equality_is_identity_of_exposed_pointer
    [Op.Make_Shared false, Op.Shared_copy 0, Op.Shared_Reset 0, Op.Shared_default]
    ⟨⟨[⟨1, 0, false, Storage.WithObject, 1, false, 0⟩], [⟨⟨0, 0, false⟩, true⟩]⟩,
      [some ⟨0, 0⟩, some ⟨1, 1⟩, some ⟨0, 0⟩], []⟩ (by decide)
  exact h.2.2.2.2 0 2 ⟨0, 0⟩ ⟨0, 0⟩ (by decide) (by decide) (by decide) (by decide)

/-- **C21.** For all `UniquePtr`s `a` and `b` and every log of deleter calls:
(1) after `a = move(b)` on distinct objects, `a.Get()` is the former pointer of
`b` (and `a` has the deleter of `b`), `b.Get()` is null and `b` converts to
`false`, and the log has grown by exactly one call, of the deleter of `a` on
the former pointer of `a`, if that pointer was not null, and by nothing
otherwise; (2) both move constructors give the new handle the pointer of the
source, leave the source null and call no deleter; (3) `a = move(a)` leaves
`a` and the log unchanged.  So after a move the source never holds the pointer
that the destination holds. -/
theorem C21_UniquePtr_move_is_single_owner (log : List (Nat × Nat)) (a b : Unique.UniquePtr)
    (dflt : Nat) :
    (Unique.UniquePtr.assign_move log a b false
        = (log ++ (if a.ptr ≠ 0 then [(a.deleter, a.ptr)] else []),
            ⟨b.ptr, b.deleter⟩, ⟨0, a.deleter⟩) ∧
      (Unique.UniquePtr.assign_move log a b false).2.1.Get = b.Get ∧
      (Unique.UniquePtr.assign_move log a b false).2.2.Get = 0 ∧
      (Unique.UniquePtr.assign_move log a b false).2.2.toBool = false) ∧
    (Unique.UniquePtr.ctor_move dflt b = (b, ⟨0, dflt⟩) ∧
      Unique.UniquePtr.ctor_move_convert b = (b, ⟨0, b.deleter⟩) ∧
      (Unique.UniquePtr.ctor_move dflt b).2.Get = 0 ∧
      (Unique.UniquePtr.ctor_move_convert b).2.Get = 0 ∧
      (Unique.UniquePtr.ctor_move dflt b).2.toBool = false) ∧
    Unique.UniquePtr.assign_move log a a true = (log, a, a) := by
  have h1 : Unique.UniquePtr.assign_move log a b false
      = (log ++ (if a.ptr ≠ 0 then [(a.deleter, a.ptr)] else []),
          ⟨b.ptr, b.deleter⟩, ⟨0, a.deleter⟩) := by
    by_cases ha : a.ptr = 0
    · simp [Unique.UniquePtr.assign_move, Unique.UniquePtr.Reset, Unique.UniquePtr.Swap, ha]
    · simp [Unique.UniquePtr.assign_move, Unique.UniquePtr.Reset, Unique.UniquePtr.Swap, ha]
  refine ⟨⟨h1, ?_, ?_, ?_⟩, ⟨rfl, rfl, rfl, rfl, rfl⟩, rfl⟩
  · simp [h1, Unique.UniquePtr.Get]
  · simp [h1, Unique.UniquePtr.Get]
  · simp [h1, Unique.UniquePtr.toBool]

/-- **C22.** `IntrusivePtr::Reset(T* ptr)` releases the held object before it
takes `ptr`, without testing whether they are the same object.  With
`p = MakeIntrusive<T>()` (one holder, `RefCount()` 1), `p.Reset(p.Get())`:
the `DecRef` takes the count from 1 to 0 and calls `Deleter::Destroy` on the
object although `p` is to hold it, and the following `IncRef` is called on the
destroyed object, which is undefined.  The guarded sibling `p = p` leaves the
object alone, and with a second holder `q` the same `Reset` keeps the count at
2 and destroys nothing. -/
theorem C22_Reset_ptr_destroys_held_object :
    Intrusive.MakeIntrusive [] = some ([⟨⟨1⟩, true, 0⟩], ⟨1⟩) ∧
    Intrusive.IntrusivePtr.UseCount [⟨⟨1⟩, true, 0⟩] ⟨1⟩ = some 1 ∧
    Intrusive.IntrusivePtr.Get ⟨1⟩ = 1 ∧
    Intrusive.DecRef [⟨⟨1⟩, true, 0⟩] 1 = some [⟨⟨0⟩, false, 1⟩] ∧
    Intrusive.IncRef [⟨⟨0⟩, false, 1⟩] 1 = none ∧
    Intrusive.IntrusivePtr.Reset_ptr [⟨⟨1⟩, true, 0⟩] ⟨1⟩ 1 = none ∧
    Intrusive.IntrusivePtr.assign_copy [⟨⟨1⟩, true, 0⟩] ⟨1⟩ ⟨1⟩ true
      = some ([⟨⟨1⟩, true, 0⟩], ⟨1⟩) ∧
    Intrusive.IntrusivePtr.ctor_copy [⟨⟨1⟩, true, 0⟩] ⟨1⟩ = some ([⟨⟨2⟩, true, 0⟩], ⟨1⟩) ∧
    Intrusive.IntrusivePtr.Reset_ptr [⟨⟨2⟩, true, 0⟩] ⟨1⟩ 1 = some ([⟨⟨2⟩, true, 0⟩], ⟨1⟩) := by
  decide

/-- **C24.** In every state reached with defined behaviour (incrementing the
`int` `ref_count` at `INT_MAX` is a signed overflow and hence undefined)
`WeakPtr::Expired()` returns, for every
weak handle, exactly the value of the reference definition "no control block,
or the control block has `is_deleted` set": (1) the two agree on every handle;
(2) on a handle whose block is allocated, `Expired()` is `is_deleted` of the
block, so the test `ref_count > 0` does not change the answer; (3) on a handle
without control block it is true; (4) for a live `WeakPtr` variable of a
program that constructs its `WeakPtr`s counted both are defined; (5) the
reason: `ref_count` of every block lies between `0` and `INT_MAX`, and
`ref_count > 0` holds exactly if `is_deleted` is not set. -/
theorem C24_Expired_matches_reference (ops : List Op) (s : State)
    (hr : run ops State.init = some s) :
    (∀ w : WeakPtr, w.Expired s.heap = w.Expired_spec s.heap) ∧
    (∀ (w : WeakPtr) b, s.heap.deref w.cb_ = some b → w.Expired s.heap = some b.is_deleted) ∧
    (∀ w : WeakPtr, w.cb_ = 0 → w.Expired s.heap = some true) ∧
    ((∀ op ∈ ops, op.counted = true) → ∀ k w, s.weak? k = some w →
      ∃ v, w.Expired s.heap = some v ∧ w.Expired_spec s.heap = some v) ∧
    (∀ c b, s.heap.block? c = some b →
      0 ≤ b.ref_count ∧ b.ref_count ≤ INT_MAX ∧ (0 < b.ref_count ↔ b.is_deleted = false)) := by
  have hinv := run_Inv ops Inv.inv_init hr
  have range : ∀ c b, s.heap.block? c = some b →
      0 ≤ b.ref_count ∧ b.ref_count ≤ INT_MAX ∧ (0 < b.ref_count ↔ b.is_deleted = false) := by
    intro c b hb
    obtain ⟨g1, -, g3, -, g5⟩ := hinv.1 c b hb
    refine ⟨by omega, g5, ?_⟩
    constructor
    · intro hpos
      cases hx : b.is_deleted with
      | false => rfl
      | true => have := g3.mp hx; omega
    · intro hdel
      by_contra hn
      have h0 : sharedCount s c = 0 := by omega
      rw [g3.mpr h0] at hdel
      cases hdel
  have alloc : ∀ (w : WeakPtr) b, s.heap.deref w.cb_ = some b →
      w.Expired s.heap = some b.is_deleted := by
    intro w b hb
    have hgood := hinv.1 w.cb_ b (Heap.deref_eq_some.mp hb).1
    rw [Expired_of_Good hb hgood]
    obtain ⟨-, -, g3, -, -⟩ := hgood
    by_cases hn : sharedCount s w.cb_ = 0
    · rw [g3.mpr hn]; simp [hn]
    · have : b.is_deleted = false := by
        cases hx : b.is_deleted with
        | false => rfl
        | true => exact absurd (g3.mp hx) hn
      rw [this]; simp [hn]
  have null : ∀ w : WeakPtr, w.cb_ = 0 → w.Expired s.heap = some true := by
    intro w hw
    simp [WeakPtr.Expired, hw]
  have agree : ∀ w : WeakPtr, w.Expired s.heap = w.Expired_spec s.heap := by
    intro w
    by_cases hc : w.cb_ = 0
    · rw [null w hc]; simp [WeakPtr.Expired_spec, hc]
    · cases hb : s.heap.deref w.cb_ with
      | none => simp [WeakPtr.Expired, WeakPtr.Expired_spec, hc, hb]
      | some b => rw [alloc w b hb]; simp [WeakPtr.Expired_spec, hc, hb]
  refine ⟨agree, alloc, null, ?_, range⟩
  intro hcount k w hk
  by_cases hc : w.cb_ = 0
  · exact ⟨true, null w hc, by rw [← agree w]; exact null w hc⟩
  · obtain ⟨-, b, hb⟩ := live_WeakPtr_block ops s hr hcount k w hk hc
    exact ⟨b.is_deleted, alloc w b hb, by rw [← agree w]; exact alloc w b hb⟩

/-- Witness for C24: after `S = MakeShared`, `W = WeakPtr(S)`, `S.Reset()` both
`W.Expired()` and the reference definition are true. -/
theorem C24_witness :
    WeakPtr.Expired ⟨[⟨0, 1, true, Storage.WithObject, 1, false, 1⟩],
        [⟨⟨0, 0, false⟩, false⟩]⟩ ⟨1, 1, false⟩ = some true ∧
    WeakPtr.Expired_spec ⟨[⟨0, 1, true, Storage.WithObject, 1, false, 1⟩],
        [⟨⟨0, 0, false⟩, false⟩]⟩ ⟨1, 1, false⟩ = some true := by
  have h := C24_Expired_matches_reference
    [Op.Make_Shared false, Op.Weak_shared 0 false, Op.Shared_Reset 0]
    ⟨⟨[⟨0, 1, true, Storage.WithObject, 1, false, 1⟩], [⟨⟨0, 0, false⟩, false⟩]⟩,
      [some ⟨0, 0⟩], [some ⟨1, 1, false⟩]⟩ (by decide)
  have h1 := h.1 ⟨1, 1, false⟩
  have h2 := h.2.1 ⟨1, 1, false⟩ ⟨0, 1, true, Storage.WithObject, 1, false, 1⟩ (by decide)
  exact ⟨h2, h1 ▸ h2⟩

/-- **C25.** From every reachable state: (1) `MakeShared` (for a type with or
without `EnableSharedFromThis`) is defined and returns a handle on a control
block that did not exist before, a `ControlBlockWithObject` with
`ref_count == 1`, `weak_ref_count == 0`, `is_deleted == false`, so
`UseCount()` is 1, and `Get()` is what the block's `GetObjectPtr()` reports,
the address of the new embedded object; (2) whenever the adopting constructor
`SharedPtr(p)` is defined it returns a handle on a control block that did not
exist before, a `ControlBlockWithPointer` with the same counters, and `Get()`
is `p`, which is what `GetObjectPtr()` reports; (3) the adopting constructor is
defined for a type without `EnableSharedFromThis`, and for a type with it when
`p` is a live object not yet under shared ownership. -/
theorem C25_fresh_handle_owns_new_block (ops : List Op) (s : State)
    (hr : run ops State.init = some s) :
    (∀ esft, ∃ g x b, MakeShared esft s.heap = some (g, x) ∧
      s.heap.block? x.cb_ = none ∧ g.deref x.cb_ = some b ∧ b.ref_count = 1 ∧
      b.weak_ref_count = 0 ∧ b.is_deleted = false ∧ b.storage = Storage.WithObject ∧
      x.UseCount g = some 1 ∧ GetObjectPtr g x.cb_ = some x.Get ∧
      s.heap.object? x.Get = none ∧ ∃ o, g.object? x.Get = some o ∧ o.alive = true) ∧
    (∀ esft p g x, SharedPtr.ctor_ptr esft s.heap p = some (g, x) →
      s.heap.block? x.cb_ = none ∧
      ∃ b, g.deref x.cb_ = some b ∧ b.ref_count = 1 ∧ b.weak_ref_count = 0 ∧
        b.is_deleted = false ∧ b.storage = Storage.WithPointer ∧
        x.UseCount g = some 1 ∧ x.Get = p ∧ GetObjectPtr g x.cb_ = some x.Get) ∧
    ((∀ p, ∃ r, SharedPtr.ctor_ptr false s.heap p = some r) ∧
      (∀ p o, s.heap.object? p = some o → o.alive = true → o.weak_this_.cb_ = 0 →
        ∃ r, SharedPtr.ctor_ptr true s.heap p = some r)) := by
  have hinv := run_Inv ops Inv.inv_init hr
  have hnone : s.heap.block? (s.heap.blocks.length + 1) = none := by
    simp [Heap.block?]
  have honone : s.heap.object? (s.heap.objects.length + 1) = none := by
    simp [Heap.object?]
  have hnew : ∀ (ob : List Object) (nb : ControlBlockBase), nb.freed = false →
      (Heap.mk (s.heap.blocks ++ [nb]) ob).deref (s.heap.blocks.length + 1) = some nb :=
    fun ob nb hf => Heap.deref_eq_some.mpr ⟨Heap.block?_append_new _ _ _, hf⟩
  have use1 : ∀ (g : Heap) (c : Nat) (b : ControlBlockBase), g.deref c = some b →
      b.ref_count = 1 → ∀ p, (⟨c, p⟩ : SharedPtr).UseCount g = some 1 := by
    intro g c b hb hrc p
    have hc0 := Heap.deref_ne_zero hb
    simp only [SharedPtr.UseCount, ne_eq, hc0, not_false_eq_true, if_true, hb, hrc]
    rfl
  have gop : ∀ (g : Heap) (c : Nat) (b : ControlBlockBase), g.deref c = some b →
      GetObjectPtr g c = some b.object := by
    intro g c b hb
    simp [GetObjectPtr, hb]
  refine ⟨?_, ?_, ?_, ?_⟩
  · intro esft
    cases esft with
    | true =>
      have hd := hnew (s.heap.objects ++
        [⟨⟨s.heap.blocks.length + 1, s.heap.objects.length + 1, true⟩, true⟩])
        ⟨1, 0, false, Storage.WithObject, s.heap.objects.length + 1, false, 0⟩ rfl
      exact ⟨_, _, _, MakeShared_true_eq s.heap, hnone, hd, rfl, rfl, rfl, rfl,
        use1 _ _ _ hd rfl _, gop _ _ _ hd, honone, _, Heap.object?_append_new _ _ _, rfl⟩
    | false =>
      have hd := hnew (s.heap.objects ++ [⟨⟨0, 0, false⟩, true⟩])
        ⟨1, 0, false, Storage.WithObject, s.heap.objects.length + 1, false, 0⟩ rfl
      exact ⟨_, _, _, MakeShared_false_eq s.heap, hnone, hd, rfl, rfl, rfl, rfl,
        use1 _ _ _ hd rfl _, gop _ _ _ hd, honone, _, Heap.object?_append_new _ _ _, rfl⟩
  · intro esft p g x hd
    have key : g.blocks = s.heap.blocks ++ [⟨1, 0, false, Storage.WithPointer, p, false, 0⟩] ∧
        x = ⟨s.heap.blocks.length + 1, p⟩ := by
      unfold SharedPtr.ctor_ptr at hd
      simp only [newControlBlockWithPointer] at hd
      cases esft with
      | true =>
        simp only [if_true] at hd
        split at hd
        · rename_i h2 hs
          simp only [Option.some.injEq, Prod.mk.injEq] at hd
          obtain ⟨rfl, rfl⟩ := hd
          have ht : (Heap.mk (s.heap.blocks ++
              [⟨1, 0, false, Storage.WithPointer, p, false, 0⟩]) s.heap.objects).Tagged :=
            hinv.2.2
          exact ⟨SetWeakPtr_blocks ht hs, rfl⟩
        · simp at hd
      | false =>
        simp only [Bool.false_eq_true, if_false, Option.some.injEq, Prod.mk.injEq] at hd
        obtain ⟨rfl, rfl⟩ := hd
        exact ⟨rfl, rfl⟩
    obtain ⟨hbl, rfl⟩ := key
    have hd1 : g.deref (s.heap.blocks.length + 1)
        = some ⟨1, 0, false, Storage.WithPointer, p, false, 0⟩ := by
      have := hnew g.objects ⟨1, 0, false, Storage.WithPointer, p, false, 0⟩ rfl
      rw [← hbl] at this
      exact this
    exact ⟨hnone, _, hd1, rfl, rfl, rfl, rfl, use1 _ _ _ hd1 rfl _, rfl, gop _ _ _ hd1⟩
  · intro p
    apply Option.isSome_iff_exists.mp
    simp [SharedPtr.ctor_ptr]
  · intro p o ho ha hw
    have hset := SetWeakPtr_first
      (g := Heap.mk (s.heap.blocks ++ [⟨1, 0, false, Storage.WithPointer, p, false, 0⟩])
        s.heap.objects) (p := p) (b := ⟨1, 0, false, Storage.WithPointer, p, false, 0⟩) ho ha hw
      (show (Heap.mk (s.heap.blocks ++ [⟨1, 0, false, Storage.WithPointer, p, false, 0⟩])
        s.heap.objects).deref (SharedPtr.mk (s.heap.blocks.length + 1) p).cb_ = _ from
        hnew s.heap.objects ⟨1, 0, false, Storage.WithPointer, p, false, 0⟩ rfl)
    apply Option.isSome_iff_exists.mp
    simp only [SharedPtr.ctor_ptr, newControlBlockWithPointer, if_true, hset]
    simp

/-- Witness for C25: from the state after `A = MakeShared`, a second
`MakeShared` returns a handle on the new block 2 with `UseCount()` 1. -/
theorem C25_witness :
    ∃ g x b, MakeShared false ⟨[⟨1, 0, false, Storage.WithObject, 1, false, 0⟩],
        [⟨⟨0, 0, false⟩, true⟩]⟩ = some (g, x) ∧
      g.deref x.cb_ = some b ∧ b.ref_count = 1 ∧ b.weak_ref_count = 0 ∧
      x.UseCount g = some 1 := by
  have h := C25_fresh_handle_owns_new_block [Op.Make_Shared false]
    ⟨⟨[⟨1, 0, false, Storage.WithObject, 1, false, 0⟩], [⟨⟨0, 0, false⟩, true⟩]⟩,
      [some ⟨1, 1⟩], []⟩ (by decide)
  obtain ⟨g, x, b, e1, -, e3, e4, e5, -, -, e8, -⟩ := h.1 false
  exact ⟨g, x, b, e1, e3, e4, e5, e8⟩

/-- **C26.** `WeakPtr::Swap` exchanges `cb_` and `observed_pole_` but not
`is_this_weak_`, and breaks the balance of the weak counters.  With
`A = MakeShared`, `B = MakeShared`, `W1 = WeakPtr(A)` (counted) and
`W2 = WeakPtr(B, true)` (tagged), the counters agree with the number of
untagged handles before `W1.Swap(W2)`; afterwards block 1 has
`weak_ref_count` 1 and no untagged handle, block 2 has `weak_ref_count` 0 and
one untagged handle; the destructor of `W1` then makes `weak_ref_count` of
block 2 negative; and after the destructors of all four handles neither block
is released. -/
theorem C26_Swap_breaks_weak_balance :
    (run [Op.Make_Shared false, Op.Make_Shared false, Op.Weak_shared 0 false,
        Op.Weak_shared 1 true] State.init
      = some ⟨⟨[⟨1, 1, false, Storage.WithObject, 1, false, 0⟩,
                 ⟨1, 0, false, Storage.WithObject, 2, false, 0⟩],
                [⟨⟨0, 0, false⟩, true⟩, ⟨⟨0, 0, false⟩, true⟩]⟩,
          [some ⟨1, 1⟩, some ⟨2, 2⟩], [some ⟨1, 1, false⟩, some ⟨2, 2, true⟩]⟩ ∧
      watchers [some ⟨1, 1, false⟩, some ⟨2, 2, true⟩] 1 = 1 ∧
      watchers [some ⟨1, 1, false⟩, some ⟨2, 2, true⟩] 2 = 0) ∧
    (run [Op.Make_Shared false, Op.Make_Shared false, Op.Weak_shared 0 false,
        Op.Weak_shared 1 true, Op.Weak_Swap 0 1] State.init
      = some ⟨⟨[⟨1, 1, false, Storage.WithObject, 1, false, 0⟩,
                 ⟨1, 0, false, Storage.WithObject, 2, false, 0⟩],
                [⟨⟨0, 0, false⟩, true⟩, ⟨⟨0, 0, false⟩, true⟩]⟩,
          [some ⟨1, 1⟩, some ⟨2, 2⟩], [some ⟨2, 2, false⟩, some ⟨1, 1, true⟩]⟩ ∧
      watchers [some ⟨2, 2, false⟩, some ⟨1, 1, true⟩] 1 = 0 ∧
      watchers [some ⟨2, 2, false⟩, some ⟨1, 1, true⟩] 2 = 1) ∧
    run [Op.Make_Shared false, Op.Make_Shared false, Op.Weak_shared 0 false,
        Op.Weak_shared 1 true, Op.Weak_Swap 0 1, Op.Weak_dtor 0] State.init
      = some ⟨⟨[⟨1, 1, false, Storage.WithObject, 1, false, 0⟩,
                 ⟨1, -1, false, Storage.WithObject, 2, false, 0⟩],
                [⟨⟨0, 0, false⟩, true⟩, ⟨⟨0, 0, false⟩, true⟩]⟩,
          [some ⟨1, 1⟩, some ⟨2, 2⟩], [none, some ⟨1, 1, true⟩]⟩ ∧
    run [Op.Make_Shared false, Op.Make_Shared false, Op.Weak_shared 0 false,
        Op.Weak_shared 1 true, Op.Weak_Swap 0 1, Op.Weak_dtor 0, Op.Weak_dtor 1,
        Op.Shared_dtor 0, Op.Shared_dtor 1] State.init
      = some ⟨⟨[⟨0, 1, true, Storage.WithObject, 1, false, 1⟩,
                 ⟨0, -1, true, Storage.WithObject, 2, false, 1⟩],
                [⟨⟨0, 0, false⟩, false⟩, ⟨⟨0, 0, false⟩, false⟩]⟩,
          [none, none], [none, none]⟩ := by
  decide

/-- **C27.** The destructor and `operator=(std::nullptr_t)` of `UniquePtr` call
the deleter without testing the pointer: on an empty `UniquePtr`
(default-constructed, released, or moved-from) each of them calls the deleter
on `nullptr`, whereas `Reset` on an empty `UniquePtr` calls nothing.  On a
non-empty `UniquePtr` all three call the deleter once on the held pointer.
The default deleter `Slug` executes no `delete` when called on `nullptr`. -/
theorem C27_deleter_called_on_null :
    Unique.Slug.deletes 0 = false ∧
    Unique.UniquePtr.dtor [] (Unique.UniquePtr.ctor_ptr 7 0) = [(7, 0)] ∧
    (Unique.UniquePtr.assign_nullptr [] (Unique.UniquePtr.ctor_ptr 7 0)).1 = [(7, 0)] ∧
    Unique.UniquePtr.dtor [] (Unique.UniquePtr.Release ⟨5, 7⟩).2 = [(7, 0)] ∧
    Unique.UniquePtr.dtor [] (Unique.UniquePtr.ctor_move 7 ⟨5, 7⟩).2 = [(7, 0)] ∧
    Unique.UniquePtr.dtor [] (Unique.UniquePtr.assign_move [] ⟨0, 7⟩ ⟨5, 7⟩ false).2.2
      = [(7, 0)] ∧
    (Unique.UniquePtr.Reset [] (Unique.UniquePtr.ctor_ptr 7 0) 0).1 = [] ∧
    (∀ (log : List (Nat × Nat)) (d : Nat),
      Unique.UniquePtr.dtor log ⟨0, d⟩ = log ++ [(d, 0)] ∧
      (Unique.UniquePtr.assign_nullptr log ⟨0, d⟩).1 = log ++ [(d, 0)] ∧
      ∀ p, (Unique.UniquePtr.Reset log ⟨0, d⟩ p).1 = log) ∧
    (∀ (log : List (Nat × Nat)) (d q : Nat), q ≠ 0 →
      Unique.UniquePtr.dtor log ⟨q, d⟩ = log ++ [(d, q)] ∧
      (Unique.UniquePtr.assign_nullptr log ⟨q, d⟩).1 = log ++ [(d, q)] ∧
      ∀ p, (Unique.UniquePtr.Reset log ⟨q, d⟩ p).1 = log ++ [(d, q)]) := by
  refine ⟨rfl, rfl, rfl, rfl, rfl, rfl, rfl, ?_, ?_⟩
  · intro log d
    exact ⟨rfl, rfl, fun p => rfl⟩
  · intro log d q hq
    refine ⟨rfl, rfl, fun p => ?_⟩
    simp [Unique.UniquePtr.Reset, hq]

/-- **C28.** `SimpleCounter::operator=` leaves the count of the destination as
it is, whatever the source: after `c = d`, `c.RefCount()` is what it was (the
operator returns `c` unchanged; `d` is `const`).  Hence the copy assignment of
a `RefCounted` object, which assigns `counter_`, leaves the number of
`IntrusivePtr`s recorded in the destination, the object's lifetime and the
number of `Destroy` calls unchanged. -/
theorem C28_SimpleCounter_assign_keeps_count (c d : Intrusive.SimpleCounter)
    (x y : Intrusive.Object) :
    (c.assign d).RefCount = c.RefCount ∧ c.assign d = c ∧
    (x.assign y).counter_.RefCount = x.counter_.RefCount ∧ x.assign y = x := by
  refine ⟨rfl, rfl, rfl, rfl⟩

end SmartPointers
